import Mathlib

/-! # Buddy allocator (`memory.c`): shallow embedding

The allocator state of `memory.c` is embedded as a record of three components:

* `heap`  : the contents of `static char heap[HEAP_SIZE]`, read and written one
  machine word (8 bytes) at a time, keyed by the absolute address of the word;
* `free_area_struct_array` : the head pointer of the free list of every order;
* `map`   : the buddy bitmap.

Pointers are natural numbers, `NULL` is `0`, and the array `heap` starts at the
address `heap_base`.  Every function that dereferences a pointer returns an
`Option`; `none` stands for undefined behaviour of the C program (an access
outside `heap`, an unaligned access, an out-of-range array or bitmap index, a
shift by an out-of-range amount).  `size_t` values are naturals reduced modulo
`2^64`, `int` values are integers.
-/

namespace BuddyAlloc

/-- Order of the largest possible memory block. -/
def ORDER_MAX : Nat := 10

/-- Size of the smallest possible memory block. -/
def PAGE_SIZE : Nat := 64

/-- Size of available memory. -/
def HEAP_SIZE : Nat := PAGE_SIZE <<< ORDER_MAX

/-- The null pointer. -/
def NULL : Nat := 0

/-- Width of a `size_t` and of a pointer, in bytes (`sizeof(size_t)`). -/
def SIZE_T : Nat := 8

/-- Address of `heap[0]`.  The C source leaves it to the linker; the model fixes
one page-aligned value. -/
def heap_base : Nat := 4096

/-- Number of bits of the buddy bitmap, `(1 << ORDER_MAX) - 1`. -/
def MAP_BITS : Nat := (1 <<< ORDER_MAX) - 1

/-- Conversion of an `int` to `size_t` (reduction modulo `2^64`), as performed by
the usual arithmetic conversions when an `int` meets a `size_t`. -/
def toSizeT (i : Int) : Nat := (i % (2 : Int) ^ 64).toNat

/-- Allocator state: heap words, free-list heads, bitmap. -/
structure State where
  heap : Nat → Nat
  free_area_struct_array : Nat → Nat
  map : Nat → Bool

/-- An address may be dereferenced as a word when the word lies inside `heap`
and is word-aligned relative to the start of `heap`. -/
def valid (a : Nat) : Bool :=
  decide (heap_base ≤ a) && decide (a + SIZE_T ≤ heap_base + HEAP_SIZE) &&
    decide ((a - heap_base) % SIZE_T = 0)

/-- Read of one word of `heap`. -/
def load (s : State) (a : Nat) : Option Nat :=
  if valid a then some (s.heap a) else none

/-- The state with the heap word at address `a` replaced by `v`. -/
def write (s : State) (a v : Nat) : State :=
  { s with heap := fun x => if x = a then v else s.heap x }

/-- The state with the head of the free list of order `i` replaced by `v`. -/
def with_head (s : State) (i v : Nat) : State :=
  { s with free_area_struct_array := fun j => if j = i then v else s.free_area_struct_array j }

/-- Write of one word of `heap`. -/
def store (s : State) (a v : Nat) : Option State :=
  if valid a then some (write s a v) else none

/-- Field `order` of a `block_t`. -/
def order_of (s : State) (block : Nat) : Option Nat := load s block

/-- Field `prev` of a `block_t`. -/
def prev_of (s : State) (block : Nat) : Option Nat := load s (block + 8)

/-- Field `next` of a `block_t`. -/
def next_of (s : State) (block : Nat) : Option Nat := load s (block + 16)

/-- Assignment to `block->order`. -/
def set_order (s : State) (block v : Nat) : Option State := store s block v

/-- Assignment to `block->prev`. -/
def set_prev (s : State) (block v : Nat) : Option State := store s (block + 8) v

/-- Assignment to `block->next`. -/
def set_next (s : State) (block v : Nat) : Option State := store s (block + 16) v

/-- Read of `free_area_struct_array[i].free_list`; the array has `ORDER_MAX + 1`
entries. -/
def get_head (s : State) (i : Nat) : Option Nat :=
  if i ≤ ORDER_MAX then some (s.free_area_struct_array i) else none

/-- Assignment to `free_area_struct_array[i].free_list`. -/
def set_head (s : State) (i v : Nat) : Option State :=
  if i ≤ ORDER_MAX then some (with_head s i v) else none

/-- Modelled from the spec: `bitset.h` is not part of the sources; `init(bit_count,
initial_value)` of the BitTree collaborator gives every bit the initial value. -/
def bitsetInit (_bit_count : Nat) (value : Bool) : Nat → Bool := fun _ => value

/-- Modelled from the spec: `get(index) -> bool` of the BitTree collaborator, defined
for an index below the bit count. -/
def bitsetGet (m : Nat → Bool) (idx : Nat) : Option Bool :=
  if idx < MAP_BITS then some (m idx) else none

/-- Modelled from the spec: `flip(index)` of the BitTree collaborator, defined for an
index below the bit count. -/
def bitsetFlip (m : Nat → Bool) (idx : Nat) : Option (Nat → Bool) :=
  if idx < MAP_BITS then some (fun i => if i = idx then !(m i) else m i) else none

/-- Lookup table of `logbin`. -/
def MultiplyBitPosition : List Nat :=
  [0, 9, 1, 10, 13, 21, 2, 29, 11, 14, 16, 18, 22, 25, 3, 30,
   8, 12, 20, 28, 15, 17, 24, 7, 19, 27, 23, 6, 26, 5, 4, 31]

/-- The function `logbin`: `size` is a `size_t`; the product is truncated to 32 bits
before the shift. -/
def logbin (size : Nat) : Int :=
  let size := (size + 2 ^ 64 - 1) % 2 ^ 64
  let size := size ||| (size >>> 1)
  let size := size ||| (size >>> 2)
  let size := size ||| (size >>> 4)
  let size := size ||| (size >>> 8)
  let size := size ||| (size >>> 16)
  (MultiplyBitPosition.getD ((((size * 0x07C4ACDD) % 2 ^ 64) % 2 ^ 32) >>> 27) 0 : Nat)

/-- Given the size of a memory block, return its order. -/
def get_order (size : Nat) : Int := logbin size - logbin PAGE_SIZE

/-- Given a block, return its size: `(1 << block->order) * PAGE_SIZE` as an `int`. -/
def get_block_size (s : State) (block : Nat) : Option Nat := do
  let order ← order_of s block
  if order < 25 then some ((1 <<< order) * PAGE_SIZE) else none

/-- Given a block, return its block number within the order. -/
def get_page_number (s : State) (block : Nat) : Option Nat := do
  let offset := block - heap_base
  let size ← get_block_size s block
  some (offset / size)

/-- Given a block, return the corresponding index in the bitmap. -/
def get_gitmap_idx (s : State) (block : Nat) : Option Nat := do
  let page_number ← get_page_number s block
  let order ← order_of s block
  if order ≤ ORDER_MAX then some (page_number + (1 <<< (ORDER_MAX - order)) - 1) else none

/-- Given a block, return the index of its parent in the bitmap. -/
def get_gitmap_idx_parent (s : State) (block : Nat) : Option Nat := do
  let sz ← get_block_size s block
  let pn ← get_page_number s block
  let uneven := pn % 2
  let parent := if uneven ≠ 0 then block - sz else block
  let offset := parent - heap_base
  let order ← order_of s block
  if order + 1 ≤ ORDER_MAX then
    let page_number := offset / ((1 <<< (order + 1)) * PAGE_SIZE)
    some (page_number + (1 <<< (ORDER_MAX - (order + 1))) - 1)
  else none

/-- Flip the bitmap bit of a block. -/
def toggle (s : State) (block : Nat) : Option State := do
  let bit_map_idx ← get_gitmap_idx s block
  let m ← bitsetFlip s.map bit_map_idx
  some { s with map := m }

/-- Flip the bitmap bit of the parent of a block. -/
def toggle_parent (s : State) (block : Nat) : Option State := do
  let bit_map_idx ← get_gitmap_idx_parent s block
  let m ← bitsetFlip s.map bit_map_idx
  some { s with map := m }

/-- Insert a block at the head of the free list of its order. -/
def insert (s : State) (block : Nat) : Option State := do
  let order ← order_of s block
  let former_head ← get_head s order
  let s ← (if former_head ≠ NULL then do
      let s ← set_prev s former_head block
      let s ← set_next s block former_head
      set_prev s block NULL
    else do
      let s ← set_next s block NULL
      set_prev s block NULL)
  let order ← order_of s block
  set_head s order block

/-- Delete a block from the free list of its order. -/
def delete (s : State) (block : Nat) : Option State := do
  let bprev ← prev_of s block
  if bprev ≠ NULL then
    let prev := bprev
    let bnext ← next_of s block
    if bnext ≠ NULL then
      let next := bnext
      let s ← set_next s prev next
      set_prev s next prev
    else
      set_next s prev NULL
  else
    let bnext ← next_of s block
    if bnext ≠ NULL then
      let next := bnext
      let s ← set_prev s next NULL
      let order ← order_of s block
      set_head s order next
    else
      let order ← order_of s block
      set_head s order NULL

/-- The state before `mem_init` has run: static storage is zero-initialised. -/
def zero_state : State :=
  { heap := fun _ => 0, free_area_struct_array := fun _ => NULL, map := fun _ => false }

/-- One iteration of the loop of `mem_init`. -/
def mem_init_step (s : Option State) (i : Nat) : Option State := do
  let s ← s
  if i ≠ ORDER_MAX then
    set_head s i NULL
  else
    let node := heap_base
    let s ← set_prev s node NULL
    let s ← set_next s node NULL
    let s ← set_order s node ORDER_MAX
    set_head s i node

/-- Initialise the data structures of the allocator. -/
def mem_init (s : State) : Option State :=
  (List.range (ORDER_MAX + 1)).foldl mem_init_step
    (some { s with map := bitsetInit ((1 <<< ORDER_MAX) - 1) false })

/-- Recursion of `split_block`, bounded by a number of calls. -/
def split_block_fuel : Nat → State → Nat → Int → Option (State × Nat)
  | 0, _, _, _ => none
  | fuel + 1, s, block, order_req => do
    let order ← order_of s block
    if order = toSizeT order_req then
      some (s, block)
    else
      let block_size ← get_block_size s block
      let s ← toggle s block
      let left := block
      let right := left + block_size / 2
      let order ← order_of s block
      let s ← set_order s left ((order + 2 ^ 64 - 1) % 2 ^ 64)
      let lorder ← order_of s left
      let s ← set_order s right lorder
      let s ← insert s left
      split_block_fuel fuel s right order_req

/-- Splits a block recursively until a block of the proper order is found.  A call
that goes on splitting has an order between `1` and `ORDER_MAX`, so the recursion
is at most `ORDER_MAX + 2` calls deep. -/
def split_block (s : State) (block : Nat) (order_req : Int) : Option (State × Nat) :=
  split_block_fuel (ORDER_MAX + 2) s block order_req

/-- The adjusted request size of `mem_alloc`: header added, at least a page, rounded
up to a multiple of 8 (all in `size_t` arithmetic). -/
def adjust_size (size : Nat) : Nat :=
  let size := (size + SIZE_T) % 2 ^ 64
  let size := if size < PAGE_SIZE then PAGE_SIZE else size
  (((size + 7) % 2 ^ 64) / 8) * 8

/-- The search loop of `mem_alloc`: `some none` is the jump to `fail`, `some (some
(order, block))` the `break` with a non-empty list found. -/
def find_block (s : State) : Nat → Int → Option (Option (Int × Nat))
  | 0, _ => none
  | fuel + 1, order =>
    if order > ORDER_MAX then some none
    else if order < 0 then none
    else do
      let block ← get_head s order.toNat
      if block ≠ NULL then some (some (order, block))
      else find_block s fuel (order + 1)

/-- The function `mem_alloc`; the result is the returned pointer (`NULL` on failure)
and the new state. -/
def mem_alloc (s : State) (size : Nat) : Option (Nat × State) := do
  let size := adjust_size size
  let order_requested := get_order size
  match ← find_block s (ORDER_MAX + 2) order_requested with
  | none => some (NULL, s)
  | some (order, block) =>
    let bnext ← next_of s block
    let s ← set_head s order.toNat bnext
    let n_block := block
    if order > order_requested then
      let s ← (if order < ORDER_MAX then toggle_parent s n_block else some s)
      let (s, n_block) ← split_block s block order_requested
      some (n_block + SIZE_T, s)
    else
      let s ← toggle_parent s n_block
      some (n_block + SIZE_T, s)

/-- Recursion of `merge`, bounded by a number of calls. -/
def merge_fuel : Nat → State → Nat → Int → Option (State × Nat)
  | 0, _, _, _ => none
  | fuel + 1, s, block, order_req => do
    let order ← order_of s block
    if order ≥ toSizeT order_req then
      some (s, block)
    else
      let sz ← get_block_size s block
      let bit_map_idx_parent ← get_gitmap_idx_parent s block
      let pn ← get_page_number s block
      let uneven := pn % 2
      if ← bitsetGet s.map bit_map_idx_parent then
        let s ← toggle_parent s block
        let buddy := if uneven ≠ 0 then block - sz else block + sz
        let s ← delete s buddy
        let new := if uneven ≠ 0 then block - sz else block
        let order ← order_of s block
        let s ← set_order s new ((order + 1) % 2 ^ 64)
        merge_fuel fuel s new order_req
      else
        let s ← toggle_parent s block
        some (s, block)

/-- Merges a block recursively until the buddy is not available any more.  Every
call that recurses clears one set bit of the bitmap, so the recursion is at most
`MAP_BITS + 1` calls deep. -/
def merge (s : State) (block : Nat) (order_req : Int) : Option (State × Nat) :=
  merge_fuel (MAP_BITS + 1) s block order_req

/-- Marks a block as unused. -/
def mem_free (s : State) (ptr : Nat) : Option State := do
  let block := ptr - SIZE_T
  let (s, n_block) ← merge s block ORDER_MAX
  insert s n_block

/-- The library function `memcpy` on word-aligned regions of `heap`: `n` bytes are
copied from `src` to `dest`.  The regions must lie inside `heap` and either
coincide or be disjoint. -/
def memcpy (s : State) (dest src n : Nat) : Option State :=
  if n % SIZE_T = 0 ∧ valid dest ∧ valid src ∧ dest + n ≤ heap_base + HEAP_SIZE ∧
      src + n ≤ heap_base + HEAP_SIZE ∧ (dest = src ∨ dest + n ≤ src ∨ src + n ≤ dest) then
    some { s with heap := fun a => if dest ≤ a ∧ a < dest + n then s.heap (a - dest + src) else s.heap a }
  else none

/-- Increases the size of an existing block through merging, or allocates a new one
with identical contents. -/
def mem_realloc (s : State) (oldptr new_size : Nat) : Option (Nat × State) := do
  let block := oldptr - SIZE_T
  let bs ← get_block_size s block
  let old_size := bs - SIZE_T
  let order_requested := get_order new_size
  let order ← order_of s block
  if toSizeT order_requested = order then
    some (oldptr, s)
  else if order_requested > ORDER_MAX then
    some (NULL, s)
  else
    let (s, n_block) ← merge s block order_requested
    let norder ← order_of s n_block
    let (newBlock, s) ← (if norder < toSizeT order_requested then do
        let (newBlock, s) ← mem_alloc s new_size
        let s ← insert s n_block
        some (newBlock, s)
      else some (n_block + SIZE_T, s))
    if newBlock = NULL then
      some (NULL, s)
    else
      let s ← memcpy s newBlock oldptr old_size
      some (newBlock, s)

/-! ## Traces of calls -/

/-- A call of the allocator interface made by a client: `alloc size` is
`mem_alloc(size)`, `free i` is `mem_free` of the pointer returned by the `i`-th
`alloc` of the trace (counted from 0). -/
inductive Op where
  | alloc (size : Nat)
  | free (i : Nat)

/-- State of a running trace: the allocator state, the pointers returned so far (in
call order, `NULL` for a failed call), and the live pointers. -/
structure Run where
  st : State
  returned : List Nat
  live : List Nat

/-- One call of a trace.  A `free` of a pointer that is not live is not a call the
client may make and ends the run. -/
def step (r : Run) : Op → Option Run
  | Op.alloc size => do
    let (p, s) ← mem_alloc r.st size
    some { st := s, returned := r.returned ++ [p], live := if p = NULL then r.live else p :: r.live }
  | Op.free i => do
    let p ← r.returned.get? i
    if p ∈ r.live then
      let s ← mem_free r.st p
      some { st := s, returned := r.returned, live := r.live.erase p }
    else none

/-- Runs a trace of calls from a given run state. -/
def run_from : Run → List Op → Option Run
  | r, [] => some r
  | r, op :: ops => do
    let r ← step r op
    run_from r ops

/-- Runs `mem_init` on the zero-initialised program state and then a trace of calls. -/
def run (ops : List Op) : Option Run := do
  let s ← mem_init zero_state
  run_from { st := s, returned := [], live := [] } ops

/-- States reachable from `mem_init` by `mem_alloc` calls (successful or failed) and
`mem_free` calls on live pointers, together with the list of live pointers.  These are
the states of a client that calls the two functions and nothing else: no step stores
into the payload of an allocation (`client_store`) and none calls `mem_realloc`, so a
state in which the client has written to its allocations is in general not of this
kind. -/
inductive Reach : State → List Nat → Prop where
  | init (s : State) : mem_init zero_state = some s → Reach s []
  | alloc (s s' : State) (L : List Nat) (size p : Nat) :
      Reach s L → mem_alloc s size = some (p, s') → p ≠ NULL → Reach s' (p :: L)
  | alloc_fail (s s' : State) (L : List Nat) (size : Nat) :
      Reach s L → mem_alloc s size = some (NULL, s') → Reach s' L
  | free (s s' : State) (L : List Nat) (p : Nat) :
      Reach s L → p ∈ L → mem_free s p = some s' → Reach s' (L.erase p)

/-- Start address of the block whose payload pointer is `ptr`. -/
def block_of (ptr : Nat) : Nat := ptr - SIZE_T

/-- Size in bytes of a block of the given order, `PAGE_SIZE * 2^order`. -/
def size_of_order (order : Nat) : Nat := PAGE_SIZE * 2 ^ order

/-- Two blocks, given by start address and order, share at least one byte. -/
def overlap (b1 o1 b2 o2 : Nat) : Prop :=
  b1 < b2 + size_of_order o2 ∧ b2 < b1 + size_of_order o1

instance (b1 o1 b2 o2 : Nat) : Decidable (overlap b1 o1 b2 o2) := by
  unfold overlap; infer_instance

/-! ## Concrete call sequences -/

/-- Four one-page allocations `a b c d`, then `free a`, `free c`, one more one-page
allocation `e`, then `free b`. -/
def stale_link_trace : List Op :=
  [Op.alloc 40, Op.alloc 40, Op.alloc 40, Op.alloc 40, Op.free 0, Op.free 2, Op.alloc 40, Op.free 1]

/-- The calls of `stale_link_trace` before the last one. -/
def stale_link_before : List Op :=
  [Op.alloc 40, Op.alloc 40, Op.alloc 40, Op.alloc 40, Op.free 0, Op.free 2, Op.alloc 40]

/-- The calls of `stale_link_trace` followed by a one-page and a two-page allocation. -/
def stale_link_after : List Op :=
  stale_link_trace ++ [Op.alloc 40, Op.alloc 100]

/-- The four allocations of the driver (`main.c`, lines 65 to 76): `A`, `B`, `C`, `D`
of 10, 20, 10 and 20 `int`s. -/
def driver_allocs : List Op :=
  [Op.alloc 40, Op.alloc 80, Op.alloc 40, Op.alloc 80]

/-- One allocation of 40 bytes. -/
def single_alloc : List Op := [Op.alloc 40]

/-- Two allocations of 40 bytes. -/
def two_allocs : List Op := [Op.alloc 40, Op.alloc 40]

/-! ## Pointer discipline -/

/-- A block pointer: a page-aligned address inside `heap`. -/
def BlockPtr (a : Nat) : Prop :=
  heap_base ≤ a ∧ a < heap_base + HEAP_SIZE ∧ (a - heap_base) % PAGE_SIZE = 0

/-- A pointer value that is `NULL` or a block pointer. -/
def PtrOrNull (a : Nat) : Prop := a = NULL ∨ BlockPtr a

/-- The order `o` is at most `ORDER_MAX` and the block at address `a` starts at an
arena offset that is a multiple of `PAGE_SIZE * 2^o`. -/
def Aligned (a o : Nat) : Prop :=
  o ≤ ORDER_MAX ∧ (a - heap_base) % (PAGE_SIZE * 2 ^ o) = 0

/-- Pointer discipline of a state: at every page-aligned address of `heap` the header
word is an order to which the address is aligned and the two link words are `NULL` or
block pointers; every free-list head is `NULL` or a block pointer. -/
structure PtrInv (s : State) : Prop where
  hdr : ∀ a, BlockPtr a → Aligned a (s.heap a)
  lprev : ∀ a, BlockPtr a → PtrOrNull (s.heap (a + 8))
  lnext : ∀ a, BlockPtr a → PtrOrNull (s.heap (a + 16))
  head : ∀ k, k ≤ ORDER_MAX → PtrOrNull (s.free_area_struct_array k)

/-- The blocks on the free list of order `k`: the head and every block reached from it
through `next` links before the first `NULL`. -/
inductive OnList (s : State) (k : Nat) : Nat → Prop where
  | head : k ≤ ORDER_MAX → s.free_area_struct_array k ≠ NULL →
      OnList s k (s.free_area_struct_array k)
  | next (b : Nat) : OnList s k b → s.heap (b + 16) ≠ NULL → OnList s k (s.heap (b + 16))

/-- The live pointers are payload pointers of blocks. -/
def LivePtrs (L : List Nat) : Prop := ∀ p ∈ L, SIZE_T ≤ p ∧ BlockPtr (block_of p)

/-- The allocator state after `mem_init` and the two allocations of `two_allocs`. -/
def two_allocs_state : State := ((run two_allocs).map Run.st).getD zero_state

/-- The live pointers after `mem_init` and the two allocations of `two_allocs`. -/
def two_allocs_live : List Nat := [heap_base + 65408 + 8, heap_base + 65472 + 8]

/-- Eleven allocations that use up the arena: two one-page blocks and one block of
every order from 1 to 9. -/
def exhaust_trace : List Op :=
  [Op.alloc 40, Op.alloc 40, Op.alloc 100, Op.alloc 200, Op.alloc 400, Op.alloc 800,
   Op.alloc 1600, Op.alloc 3200, Op.alloc 6400, Op.alloc 12800, Op.alloc 25600]

/-- The allocator state after `mem_init` and the allocations of `exhaust_trace`. -/
def exhaust_state : State := ((run exhaust_trace).map Run.st).getD zero_state

/-- The live pointers after `mem_init` and the allocations of `exhaust_trace`. -/
def exhaust_live : List Nat := ((run exhaust_trace).map Run.live).getD []

/-- The first pointer returned in `exhaust_trace`: the last page of the arena. -/
def exhaust_ptr : Nat := heap_base + 65472 + 8

/-- The state after `merge` of the block of `exhaust_ptr` up to order 1 in
`exhaust_state`. -/
def exhaust_merged : State :=
  ((merge exhaust_state (block_of exhaust_ptr) (get_order 100)).map Prod.fst).getD zero_state

/-! ## The allocator invariant -/

/-- The free list starting at pointer `cur`, whose first block has `prev` link `prev`,
is a well-formed doubly-linked list holding exactly the blocks `L`, in this order: the
`next` links lead from each block to the following one and to `NULL` after the last,
and the `prev` link of each block is its predecessor. -/
def Chain (s : State) : Nat → Nat → List Nat → Prop
  | _, cur, [] => cur = NULL
  | prev, cur, b :: bs =>
    cur = b ∧ s.heap (b + 8) = prev ∧ Chain s b (s.heap (b + 16)) bs

/-- Bitmap index of the tree node of order `k` whose block starts at address `b`. -/
def bidx (k b : Nat) : Nat := (b - heap_base) / size_of_order k + 2 ^ (ORDER_MAX - k) - 1

/-- The address `b` is the start of a known block: live (or being split or merged), or
on the free list of some order. -/
def IsBlk (F : Nat → List Nat) (A : List Nat) (b : Nat) : Prop := b ∈ A ∨ ∃ k, b ∈ F k

/-- The allocator invariant.  `F k` lists the blocks of the free list of order `k`, `A`
the blocks that are allocated.
* `chain`: every free list is a well-formed doubly-linked list holding `F k`;
* `fhdr`: a block on the list of order `k` is a block pointer with header order `k`;
* `disj`, `cover`: the free and the allocated blocks partition the arena;
* `bits`: the bitmap bit of a node is set exactly when one of its two children is free;
* `nobud`: no two buddies are both free. -/
structure Inv (s : State) (F : Nat → List Nat) (A : List Nat) : Prop where
  ptr : PtrInv s
  chain : ∀ k, k ≤ ORDER_MAX → Chain s NULL (s.free_area_struct_array k) (F k)
  fhdr : ∀ k b, b ∈ F k → k ≤ ORDER_MAX ∧ BlockPtr b ∧ s.heap b = k
  fnodup : ∀ k, (F k).Nodup
  ablk : ∀ b, b ∈ A → BlockPtr b
  anodup : A.Nodup
  afree : ∀ b, b ∈ A → ∀ k, b ∉ F k
  disj : ∀ b1 b2, IsBlk F A b1 → IsBlk F A b2 → b1 ≠ b2 →
    b1 + size_of_order (s.heap b1) ≤ b2 ∨ b2 + size_of_order (s.heap b2) ≤ b1
  cover : ∀ a, BlockPtr a → ∃ b, IsBlk F A b ∧ b ≤ a ∧ a < b + size_of_order (s.heap b)
  bits : ∀ k b, k < ORDER_MAX → BlockPtr b → Aligned b (k + 1) →
    (s.map (bidx (k + 1) b) = true ↔ (b ∈ F k ∨ b + size_of_order k ∈ F k))
  nobud : ∀ k b, k < ORDER_MAX → BlockPtr b → Aligned b (k + 1) →
    ¬ (b ∈ F k ∧ b + size_of_order k ∈ F k)

/-- The allocator invariant on the blocks alone: the conditions of `Inv` without the
pointer discipline.  Nothing is asked of the payload words of an allocated block or of
the words of a free block past its header and its two links.
* `bhdr`: the header order of every block, free or allocated, is at most `ORDER_MAX`
  and the block starts at a multiple of its size;
* `chain`, `fhdr`, `fnodup`: every free list is a well-formed doubly-linked list
  holding exactly the free blocks `F k` of its order;
* `disj`, `cover`: the free and the allocated blocks partition the arena;
* `bits`: the bitmap bit of a node is set exactly when one of its two children is free;
* `nobud`: no two buddies are both free. -/
structure AllocInv (s : State) (F : Nat → List Nat) (A : List Nat) : Prop where
  bhdr : ∀ b, IsBlk F A b → Aligned b (s.heap b)
  chain : ∀ k, k ≤ ORDER_MAX → Chain s NULL (s.free_area_struct_array k) (F k)
  fhdr : ∀ k b, b ∈ F k → k ≤ ORDER_MAX ∧ BlockPtr b ∧ s.heap b = k
  fnodup : ∀ k, (F k).Nodup
  ablk : ∀ b, b ∈ A → BlockPtr b
  anodup : A.Nodup
  afree : ∀ b, b ∈ A → ∀ k, b ∉ F k
  disj : ∀ b1 b2, IsBlk F A b1 → IsBlk F A b2 → b1 ≠ b2 →
    b1 + size_of_order (s.heap b1) ≤ b2 ∨ b2 + size_of_order (s.heap b2) ≤ b1
  cover : ∀ a, BlockPtr a → ∃ b, IsBlk F A b ∧ b ≤ a ∧ a < b + size_of_order (s.heap b)
  bits : ∀ k b, k < ORDER_MAX → BlockPtr b → Aligned b (k + 1) →
    (s.map (bidx (k + 1) b) = true ↔ (b ∈ F k ∨ b + size_of_order k ∈ F k))
  nobud : ∀ k b, k < ORDER_MAX → BlockPtr b → Aligned b (k + 1) →
    ¬ (b ∈ F k ∧ b + size_of_order k ∈ F k)

/-- Frees the given pointers one after the other. -/
def free_all : State → List Nat → Option State
  | s, [] => some s
  | s, p :: ps => do
    let s ← mem_free s p
    free_all s ps

/-- The state after the link writes of `delete(b)`: the `next` link of the predecessor
and the `prev` link of the successor of `b` are redirected around `b`. -/
def unlinked (s : State) (b : Nat) : State :=
  { s with heap := fun x =>
      if s.heap (b + 8) ≠ NULL ∧ x = s.heap (b + 8) + 16 then s.heap (b + 16)
      else if s.heap (b + 16) ≠ NULL ∧ x = s.heap (b + 16) + 8 then s.heap (b + 8)
      else s.heap x }

/-- The state with bit `i` of the bitmap flipped. -/
def with_flip (s : State) (i : Nat) : State :=
  { s with map := fun j => if j = i then !(s.map j) else s.map j }

/-- Every free list holds at most one block. -/
def Short (F : Nat → List Nat) : Prop := ∀ k, (F k).length ≤ 1

/-- The state after the link writes of `insert(b)` on a list whose head is `c`: `b`
gets `prev = NULL` and `next = c`, and `c`, when not `NULL`, gets `prev = b`. -/
def relinked (s : State) (b c : Nat) : State :=
  { s with heap := fun x =>
      if x = b + 8 then NULL
      else if x = b + 16 then c
      else if c ≠ NULL ∧ x = c + 8 then b
      else s.heap x }

/-- The request sizes of the driver's allocations `A`, `B`, `C`, `D`. -/
def driver_sizes : List Nat := [40, 80, 40, 80]

/-- The run state after `mem_init` and the driver's four allocations. -/
def driver_run : Run :=
  (run (driver_sizes.map Op.alloc)).getD { st := zero_state, returned := [], live := [] }

/-- The pointers `B`, `D`, `A`, `C` of the driver, in the order in which they are
freed. -/
def driver_frees : List Nat :=
  [heap_base + 65280 + 8, heap_base + 65152 + 8, heap_base + 65472 + 8, heap_base + 65408 + 8]

/-- The allocator state after `mem_init` and the allocation of `single_alloc`. -/
def single_state : State := ((run single_alloc).map Run.st).getD zero_state

/-- The block handed out by the allocation of `single_alloc`: the last page of the
arena. -/
def single_block : Nat := heap_base + 65472

/-- The allocator state after `mem_init` on the zero-initialised program state. -/
def init_state : State := (mem_init zero_state).getD zero_state

/-- Four one-page allocations `a b c d`, then `free a` and `free c`: the free list of
order 0 holds the blocks of `c` and `a`, in this order. -/
def two_free_trace : List Op :=
  [Op.alloc 40, Op.alloc 40, Op.alloc 40, Op.alloc 40, Op.free 0, Op.free 2]

/-- The allocator state after `mem_init` and the calls of `two_free_trace`. -/
def two_free_state : State := ((run two_free_trace).map Run.st).getD zero_state

/-- A store by the client into one of its allocations, as `array[i] = i` in `main.c`
(lines 15 and 16): the word at byte offset `off` of the payload pointer `p` is given
the value `v`.  The elements of the model are words. -/
def client_store (s : State) (p off v : Nat) : Option State := store s (p + off) v

/-- The calls of `stale_link_trace` followed by an allocation `h` of 100 bytes, which
is served by the two-page block at offset 65408. -/
def overlap_trace : List Op := stale_link_trace ++ [Op.alloc 100]

/-! ## Theorems -/

/-! ### Traces and reachability -/

theorem run_from_reach : ∀ (ops : List Op) (r r' : Run), Reach r.st r.live →
    run_from r ops = some r' → Reach r'.st r'.live := by
  intro ops
  induction ops with
  | nil => intro r r' h hr; simp [run_from] at hr; subst hr; exact h
  | cons op ops ih =>
    intro r r' h hr
    simp only [run_from, bind, Option.bind_eq_some] at hr
    obtain ⟨r1, h1, h2⟩ := hr
    refine ih r1 r' ?_ h2
    cases op with
    | alloc size =>
      simp only [step, bind, Option.bind_eq_some] at h1
      obtain ⟨⟨p, s⟩, hp, hx⟩ := h1
      simp at hx
      subst hx
      by_cases hn : p = NULL
      · subst hn; simpa using Reach.alloc_fail _ _ _ _ h hp
      · simpa [hn] using Reach.alloc _ _ _ _ _ h hp hn
    | free i =>
      simp only [step, bind, Option.bind_eq_some] at h1
      obtain ⟨p, _, hx⟩ := h1
      split at hx
      · rename_i hl
        simp only [Option.bind_eq_some] at hx
        obtain ⟨s, hs, hx⟩ := hx
        simp at hx; subst hx
        exact Reach.free _ _ _ _ h hl hs
      · simp at hx

theorem run_reach (ops : List Op) (r : Run) (h : run ops = some r) : Reach r.st r.live := by
  simp only [run, bind, Option.bind_eq_some] at h
  obtain ⟨s, hs, h⟩ := h
  exact run_from_reach ops _ r (Reach.init s hs) h

/-! ### Evaluation of the code on concrete call sequences -/

set_option maxRecDepth 100000 in
/-- C1 (conservation), evaluated on the code: after four one-page allocations
`a b c d`, `free a`, `free c`, an allocation `e` and `free b`, the free list of order 0
is headed by the page at offset 65472 and the free list of order 1 by the two-page
block at offset 65408 that contains it, so two free blocks overlap; after two more
successful allocations the two blocks are both live, so two live pointers overlap. -/
theorem C1_free_blocks_overlap :
    (∃ s L, Reach s L ∧ ∃ b0 b1, s.free_area_struct_array 0 = b0 ∧
      s.free_area_struct_array 1 = b1 ∧ b0 ≠ NULL ∧ b1 ≠ NULL ∧
      order_of s b0 = some 0 ∧ order_of s b1 = some 1 ∧ overlap b0 0 b1 1) ∧
    (∃ s L p q, Reach s L ∧ p ∈ L ∧ q ∈ L ∧ p ≠ q ∧
      order_of s (block_of p) = some 0 ∧ order_of s (block_of q) = some 1 ∧
      overlap (block_of p) 0 (block_of q) 1) := by
  constructor
  · have h : (run stale_link_trace).map (fun r =>
        (r.st.free_area_struct_array 0, r.st.free_area_struct_array 1,
          order_of r.st (r.st.free_area_struct_array 0),
          order_of r.st (r.st.free_area_struct_array 1)))
        = some (heap_base + 65472, heap_base + 65408, some 0, some 1) := by decide
    cases hr : run stale_link_trace with
    | none => simp [hr] at h
    | some r =>
      simp only [hr, Option.map_some', Option.some.injEq, Prod.mk.injEq] at h
      obtain ⟨h0, h1, h2, h3⟩ := h
      refine ⟨r.st, r.live, run_reach _ _ hr, _, _, rfl, rfl, ?_, ?_, h2, h3, ?_⟩
      · rw [h0]; decide
      · rw [h1]; decide
      · rw [h0, h1]; decide
  · have h : (run stale_link_after).map (fun r =>
        (r.live, order_of r.st (heap_base + 65472), order_of r.st (heap_base + 65408)))
        = some ([heap_base + 65408 + 8, heap_base + 65472 + 8, heap_base + 65344 + 8,
            heap_base + 65280 + 8], some 0, some 1) := by decide
    cases hr : run stale_link_after with
    | none => simp [hr] at h
    | some r =>
      simp only [hr, Option.map_some', Option.some.injEq, Prod.mk.injEq] at h
      obtain ⟨h0, h1, h2⟩ := h
      refine ⟨r.st, r.live, heap_base + 65472 + 8, heap_base + 65408 + 8, run_reach _ _ hr,
        ?_, ?_, by decide, h1, h2, by decide⟩
      · rw [h0]; decide
      · rw [h0]; decide

set_option maxRecDepth 100000 in
/-- C2 (payload integrity), evaluated on the code: after four one-page allocations
`a b c d`, `free a`, `free c` and an allocation `e`, the pointers `e` and `b` are live
and distinct, `e` has a one-page block (payload of 56 bytes), and `mem_free(b)` changes
the word at payload offset 8 of `e` from the address of a block to `NULL`. -/
theorem C2_free_writes_live_payload :
    ∃ s L e b s', Reach s L ∧ e ∈ L ∧ b ∈ L ∧ b ≠ e ∧
      order_of s (block_of e) = some 0 ∧ e + 8 + SIZE_T ≤ e + (size_of_order 0 - SIZE_T) ∧
      mem_free s b = some s' ∧ s.heap (e + 8) = heap_base + 65472 ∧ s'.heap (e + 8) = NULL := by
  have h : (run stale_link_before).bind (fun r =>
      (mem_free r.st (heap_base + 65408 + 8)).map (fun s' =>
        (r.live, order_of r.st (heap_base + 65344), r.st.heap (heap_base + 65344 + 8 + 8),
          s'.heap (heap_base + 65344 + 8 + 8))))
      = some ([heap_base + 65344 + 8, heap_base + 65280 + 8, heap_base + 65408 + 8],
          some 0, heap_base + 65472, NULL) := by decide
  cases hr : run stale_link_before with
  | none => simp [hr] at h
  | some r =>
    rw [hr, Option.some_bind] at h
    cases hf : mem_free r.st (heap_base + 65408 + 8) with
    | none => simp [hf] at h
    | some s' =>
      simp only [hf, Option.map_some', Option.some.injEq, Prod.mk.injEq] at h
      obtain ⟨h0, h1, h2, h3⟩ := h
      refine ⟨r.st, r.live, heap_base + 65344 + 8, heap_base + 65408 + 8, s', run_reach _ _ hr,
        ?_, ?_, by decide, h1, by decide, hf, h2, h3⟩
      · rw [h0]; decide
      · rw [h0]; decide

set_option maxRecDepth 100000 in
/-- C3 (resize preserves prefix), evaluated on the code: after the driver's four
allocations `A B C D`, with the client's word 7 stored at the start of `B` (a block of
order 1), `mem_realloc(B, 8000)` asks for order 7, finds the buddy of `B` in use,
allocates a fresh block `Q` and returns it, but the first word at `Q` is `NULL`: the
merged block is put back on its free list, which overwrites its link fields, before
the payload is copied. -/
theorem C3_realloc_copies_links :
    ∃ s L B, Reach s L ∧ B ∈ L ∧ order_of s (block_of B) = some 1 ∧ get_order 8000 = 7 ∧
      ∃ s1 Q s', store s B 7 = some s1 ∧ mem_realloc s1 B 8000 = some (Q, s') ∧ Q ≠ NULL ∧
        s1.heap B = 7 ∧ s'.heap Q = 0 := by
  have h : (run driver_allocs).bind (fun r =>
      (store r.st (heap_base + 65280 + 8) 7).bind (fun s1 =>
        (mem_realloc s1 (heap_base + 65280 + 8) 8000).map (fun x =>
          (r.live, order_of r.st (heap_base + 65280), s1.heap (heap_base + 65280 + 8),
            x.1, x.2.heap x.1))))
      = some ([heap_base + 65152 + 8, heap_base + 65408 + 8, heap_base + 65280 + 8,
          heap_base + 65472 + 8], some 1, 7, heap_base + 49152 + 8, 0) := by decide
  cases hr : run driver_allocs with
  | none => simp [hr] at h
  | some r =>
    rw [hr, Option.some_bind] at h
    cases hs : store r.st (heap_base + 65280 + 8) 7 with
    | none => simp [hs] at h
    | some s1 =>
      rw [hs, Option.some_bind] at h
      cases hm : mem_realloc s1 (heap_base + 65280 + 8) 8000 with
      | none => simp [hm] at h
      | some x =>
        obtain ⟨Q, s'⟩ := x
        simp only [hm, Option.map_some', Option.some.injEq, Prod.mk.injEq] at h
        obtain ⟨h0, h1, h2, h3, h4⟩ := h
        refine ⟨r.st, r.live, heap_base + 65280 + 8, run_reach _ _ hr, ?_, h1, by decide,
          s1, Q, s', hs, hm, ?_, h2, h4⟩
        · rw [h0]; decide
        · rw [h3]; decide

set_option maxRecDepth 100000 in
/-- C6 (resize gives enough room), evaluated on the code: for the live one-page block
`P` returned by `mem_alloc(40)`, `mem_realloc(P, 64)` computes the requested order from
the unadjusted size 64 (order 0), returns `P` itself, and the block at `P` has room for
`PAGE_SIZE - 8 = 56` payload bytes only, fewer than the 64 asked for. -/
theorem C6_realloc_block_too_small :
    ∃ s L P, Reach s L ∧ P ∈ L ∧ ∃ Q s', mem_realloc s P 64 = some (Q, s') ∧ Q ≠ NULL ∧
      order_of s' (block_of Q) = some 0 ∧ size_of_order 0 - SIZE_T < 64 ∧
      get_order 64 = 0 ∧ get_order (adjust_size 64) = 1 := by
  have h : (run single_alloc).bind (fun r =>
      (mem_realloc r.st (heap_base + 65472 + 8) 64).map (fun x =>
        (r.live, x.1, order_of x.2 (block_of x.1))))
      = some ([heap_base + 65472 + 8], heap_base + 65472 + 8, some 0) := by decide
  cases hr : run single_alloc with
  | none => simp [hr] at h
  | some r =>
    rw [hr, Option.some_bind] at h
    cases hm : mem_realloc r.st (heap_base + 65472 + 8) 64 with
    | none => simp [hm] at h
    | some x =>
      obtain ⟨Q, s'⟩ := x
      simp only [hm, Option.map_some', Option.some.injEq, Prod.mk.injEq] at h
      obtain ⟨h0, h1, h2⟩ := h
      refine ⟨r.st, r.live, heap_base + 65472 + 8, run_reach _ _ hr, ?_, Q, s', hm, ?_, h2,
        by decide, by decide, by decide⟩
      · rw [h0]; decide
      · rw [h1]; decide

set_option maxRecDepth 100000 in
/-- C8 (same-order resize is a no-op), evaluated on the code: `P` is the live one-page
block returned by `mem_alloc(40)`.  The adjusted sizes of 0 and of 8 have order 0, the
order of `P`.  `mem_realloc(P, 0)` returns `NULL`, not `P`; and after a second one-page
allocation `mem_realloc(P, 8)` returns another pointer and changes the head of the
free list of order 0 and a bitmap bit. -/
theorem C8_same_order_realloc_not_noop :
    (∃ s L P, Reach s L ∧ P ∈ L ∧ order_of s (block_of P) = some 0 ∧
      get_order (adjust_size 0) = 0 ∧ ∃ s', mem_realloc s P 0 = some (NULL, s')) ∧
    (∃ s L P, Reach s L ∧ P ∈ L ∧ order_of s (block_of P) = some 0 ∧
      get_order (adjust_size 8) = 0 ∧ ∃ Q s', mem_realloc s P 8 = some (Q, s') ∧ Q ≠ P ∧
        s'.free_area_struct_array 0 ≠ s.free_area_struct_array 0 ∧ s'.map 1022 ≠ s.map 1022) := by
  constructor
  · have h : (run single_alloc).bind (fun r =>
        (mem_realloc r.st (heap_base + 65472 + 8) 0).map (fun x =>
          (r.live, order_of r.st (heap_base + 65472), x.1)))
        = some ([heap_base + 65472 + 8], some 0, NULL) := by decide
    cases hr : run single_alloc with
    | none => simp [hr] at h
    | some r =>
      rw [hr, Option.some_bind] at h
      cases hm : mem_realloc r.st (heap_base + 65472 + 8) 0 with
      | none => simp [hm] at h
      | some x =>
        obtain ⟨Q, s'⟩ := x
        simp only [hm, Option.map_some', Option.some.injEq, Prod.mk.injEq] at h
        obtain ⟨h0, h1, h2⟩ := h
        subst h2
        refine ⟨r.st, r.live, heap_base + 65472 + 8, run_reach _ _ hr, ?_, h1, by decide, s', hm⟩
        rw [h0]; decide
  · have h : (run two_allocs).bind (fun r =>
        (mem_realloc r.st (heap_base + 65472 + 8) 8).map (fun x =>
          (r.live, order_of r.st (heap_base + 65472), x.1,
            decide (x.2.free_area_struct_array 0 ≠ r.st.free_area_struct_array 0),
            decide (x.2.map 1022 ≠ r.st.map 1022))))
        = some ([heap_base + 65408 + 8, heap_base + 65472 + 8], some 0, heap_base + 65344 + 8,
            true, true) := by decide
    cases hr : run two_allocs with
    | none => simp [hr] at h
    | some r =>
      rw [hr, Option.some_bind] at h
      cases hm : mem_realloc r.st (heap_base + 65472 + 8) 8 with
      | none => simp [hm] at h
      | some x =>
        obtain ⟨Q, s'⟩ := x
        simp only [hm, Option.map_some', Option.some.injEq, Prod.mk.injEq] at h
        obtain ⟨h0, h1, h2, h3, h4⟩ := h
        refine ⟨r.st, r.live, heap_base + 65472 + 8, run_reach _ _ hr, ?_, h1, by decide,
          Q, s', hm, ?_, of_decide_eq_true h3, of_decide_eq_true h4⟩
        · rw [h0]; decide
        · rw [h2]; decide

/-! ### The binary logarithm of `logbin` -/

/-- The five shift-or steps of `logbin` set every bit below the highest set bit. -/
theorem smear_eq (x h : Nat) (hbit : x.testBit h = true)
    (htop : ∀ j, h < j → x.testBit j = false) (hh : h < 32) :
    (let y := x ||| (x >>> 1)
     let y := y ||| (y >>> 2)
     let y := y ||| (y >>> 4)
     let y := y ||| (y >>> 8)
     y ||| (y >>> 16)) = 2 ^ (h + 1) - 1 := by
  apply Nat.eq_of_testBit_eq
  intro j
  simp only [Nat.testBit_or, Nat.testBit_shiftRight, Nat.testBit_two_pow_sub_one]
  by_cases hj : j < h + 1
  · have hk : ∃ k, k < 32 ∧ j + k = h := ⟨h - j, by omega, by omega⟩
    obtain ⟨k, hk, rfl⟩ := hk
    simp only [hj, decide_True]
    interval_cases k <;> simp_all [Nat.add_comm, Nat.add_left_comm, Nat.add_assoc]
  · have : ∀ k, x.testBit (j + k) = false := fun k => htop _ (by omega)
    have h0 := this 0
    simp only [Nat.add_zero] at h0
    simp [hj, this, h0, Nat.add_comm, Nat.add_left_comm, Nat.add_assoc]

/-- The multiply-and-lookup step of `logbin` on the 32 possible smeared values. -/
theorem lookup_eq (h : Nat) (hh : h < 32) :
    MultiplyBitPosition.getD (((((2 ^ (h + 1) - 1) * 0x07C4ACDD) % 2 ^ 64) % 2 ^ 32) >>> 27) 0 = h := by
  interval_cases h <;> decide

/-- For a size `n` with `2^h < n ≤ 2^(h+1)` and `h < 32`, `logbin n = h`. -/
theorem logbin_eq (n h : Nat) (hlo : 2 ^ h < n) (hhi : n ≤ 2 ^ (h + 1)) (hh : h < 32) :
    logbin n = (h : Int) := by
  have h32 : 2 ^ (h + 1) ≤ 2 ^ 32 := Nat.pow_le_pow_right (by norm_num) (by omega)
  have hx : (n + 2 ^ 64 - 1) % 2 ^ 64 = n - 1 := by
    have : 0 < 2 ^ h := Nat.two_pow_pos h
    have e : n + 2 ^ 64 - 1 = (n - 1) + 2 ^ 64 := by omega
    rw [e, Nat.add_mod_right, Nat.mod_eq_of_lt]
    have : (2:Nat) ^ 32 < 2 ^ 64 := by norm_num
    omega
  have hne : n - 1 ≠ 0 := by
    have : 0 < 2 ^ h := Nat.two_pow_pos h
    omega
  obtain ⟨i, hi, hiu⟩ := Nat.exists_most_significant_bit hne
  have hge := Nat.testBit_implies_ge hi
  have hlt : n - 1 < 2 ^ (i + 1) := Nat.lt_pow_two_of_testBit _ (fun j hj => hiu j (by omega))
  have hih : i = h := by
    have h1 : 2 ^ i < 2 ^ (h + 1) := by omega
    have h2 : 2 ^ h < 2 ^ (i + 1) := by omega
    have h1 := (Nat.pow_lt_pow_iff_right (by norm_num : 1 < 2)).mp h1
    have h2 := (Nat.pow_lt_pow_iff_right (by norm_num : 1 < 2)).mp h2
    omega
  subst hih
  have hs := smear_eq (n - 1) i hi hiu hh
  simp only at hs
  simp only [logbin, hx]
  rw [hs, lookup_eq i hh]

/-- Value of `logbin(PAGE_SIZE)`. -/
theorem logbin_page : logbin PAGE_SIZE = 5 := by decide

/-- For a size `n` with `PAGE_SIZE * 2^k < 2 * n ≤ PAGE_SIZE * 2^(k+1)` the order is `k`. -/
theorem get_order_eq (n k : Nat) (hlo : PAGE_SIZE * 2 ^ k < 2 * n) (hhi : n ≤ PAGE_SIZE * 2 ^ k)
    (hk : k < 27) : get_order n = (k : Int) := by
  have e : PAGE_SIZE * 2 ^ k = 2 ^ (k + 5 + 1) := by
    simp only [PAGE_SIZE]; rw [pow_succ, pow_add]; norm_num; ring
  have e2 : 2 ^ (k + 5 + 1) = 2 * 2 ^ (k + 5) := by rw [pow_succ]; ring
  have := logbin_eq n (k + 5) (by omega) (by omega) (by omega)
  simp only [get_order, this, logbin_page]
  push_cast
  ring

/-! ### The request size and the search loop of `mem_alloc` -/

/-- Bounds on the adjusted size of a request that fits in 32 bits. -/
theorem adjust_size_bounds (size : Nat) (h : size + 8 ≤ 2 ^ 32) :
    PAGE_SIZE ≤ adjust_size size ∧ size + 8 ≤ adjust_size size ∧ adjust_size size ≤ 2 ^ 32 := by
  simp only [adjust_size, SIZE_T, PAGE_SIZE]
  have h1 : (size + 8) % 2 ^ 64 = size + 8 := Nat.mod_eq_of_lt (by norm_num at h ⊢; omega)
  rw [h1]
  norm_num at h ⊢
  split <;> omega

/-- A size between one page and `2^32` has an order between 0 and 26, the smallest
`k` with `PAGE_SIZE * 2^k ≥ size`. -/
theorem get_order_nonneg (n : Nat) (hlo : PAGE_SIZE ≤ n) (hhi : n ≤ 2 ^ 32) :
    ∃ k : Nat, get_order n = (k : Int) ∧ n ≤ PAGE_SIZE * 2 ^ k ∧ PAGE_SIZE * 2 ^ k < 2 * n := by
  have hex : ∃ k, n ≤ PAGE_SIZE * 2 ^ k := ⟨26, by simp only [PAGE_SIZE]; norm_num at hhi ⊢; omega⟩
  classical
  refine ⟨Nat.find hex, ?_, Nat.find_spec hex, ?_⟩
  · have h26 : Nat.find hex ≤ 26 :=
      Nat.find_min' hex (by simp only [PAGE_SIZE]; norm_num at hhi ⊢; omega)
    refine get_order_eq n _ ?_ (Nat.find_spec hex) (by omega)
    rcases Nat.eq_zero_or_pos (Nat.find hex) with h0 | hpos
    · rw [h0]; simp only [PAGE_SIZE] at hlo ⊢; omega
    · have hm := Nat.find_min hex (Nat.sub_lt hpos Nat.one_pos)
      have e : 2 ^ Nat.find hex = 2 * 2 ^ (Nat.find hex - 1) := by
        rw [← pow_succ']; congr 1; omega
      rw [e]
      simp only [PAGE_SIZE] at hm ⊢
      omega
  · rcases Nat.eq_zero_or_pos (Nat.find hex) with h0 | hpos
    · rw [h0]; simp only [PAGE_SIZE] at hlo ⊢; omega
    · have hm := Nat.find_min hex (Nat.sub_lt hpos Nat.one_pos)
      have e : 2 ^ Nat.find hex = 2 * 2 ^ (Nat.find hex - 1) := by
        rw [← pow_succ']; congr 1; omega
      rw [e]
      simp only [PAGE_SIZE] at hm ⊢
      omega

/-- The search loop with enough fuel: it jumps to `fail` exactly when every list from
the start order up to `ORDER_MAX` is empty, it never runs out of fuel, and a block it
finds is not `NULL`. -/
theorem find_block_spec (s : State) : ∀ (fuel k0 : Nat), ORDER_MAX + 1 < fuel + k0 → 0 < fuel →
    (find_block s fuel (k0 : Int) = some none ↔
      ∀ k : Nat, k0 ≤ k → k ≤ ORDER_MAX → s.free_area_struct_array k = NULL) ∧
    (∀ o b, find_block s fuel (k0 : Int) = some (some (o, b)) →
      b ≠ NULL ∧ (k0 : Int) ≤ o ∧ o ≤ ORDER_MAX ∧ s.free_area_struct_array o.toNat = b) ∧
    find_block s fuel (k0 : Int) ≠ none := by
  intro fuel
  induction fuel with
  | zero =>
    intro k0 _ h0
    omega
  | succ fuel ih =>
    intro k0 h _
    by_cases hgt : (k0 : Int) > (ORDER_MAX : Nat)
    · have hk0 : ORDER_MAX < k0 := by exact_mod_cast hgt
      simp only [find_block, hgt, if_true]
      refine ⟨⟨fun _ k hk hk' => by omega, fun _ => trivial⟩, fun o b hob => by simp at hob, by simp⟩
    · have hk0 : k0 ≤ ORDER_MAX := by
        have : (k0 : Int) ≤ (ORDER_MAX : Nat) := by omega
        exact_mod_cast this
      have hneg : ¬ ((k0 : Int) < 0) := by omega
      have e1 : ((k0 : Int) + 1) = ((k0 + 1 : Nat) : Int) := by push_cast; ring
      simp only [find_block, hgt, hneg, if_false, get_head, Int.toNat_ofNat, hk0, if_true,
        bind, Option.some_bind, e1]
      obtain ⟨ih1, ih2, ih3⟩ := ih (k0 + 1) (by omega) (by omega)
      by_cases hb : s.free_area_struct_array k0 ≠ NULL
      · simp only [hb, ne_eq, not_false_eq_true, if_true]
        refine ⟨⟨fun hc => by simp at hc, fun hall => absurd (hall k0 (le_refl _) hk0) hb⟩, ?_, by simp⟩
        intro o b hob
        simp only [Option.some.injEq, Prod.mk.injEq] at hob
        obtain ⟨rfl, rfl⟩ := hob
        refine ⟨hb, le_refl _, by exact_mod_cast hk0, by simp⟩
      · have hb0 : s.free_area_struct_array k0 = NULL := by simpa using hb
        simp only [hb0, ne_eq, not_true_eq_false, if_false]
        refine ⟨⟨fun hc k hk hk' => ?_, fun hall => ih1.mpr (fun k hk hk' => hall k (by omega) hk')⟩,
          ?_, ih3⟩
        · rcases Nat.eq_or_lt_of_le hk with rfl | hlt
          · exact hb0
          · exact ih1.mp hc k hlt hk'
        · intro o b hob
          obtain ⟨h1, h2, h3, h4⟩ := ih2 o b hob
          exact ⟨h1, by push_cast at h2; omega, h3, h4⟩

/-! ### Failure of `mem_alloc` -/

/-- A successful path of `mem_alloc` returns a block address plus one word, never
`NULL`; so `mem_alloc` returns `NULL` exactly when its search jumps to `fail`, and
then the state is the one it was called in. -/
theorem mem_alloc_null (s s' : State) (size : Nat) :
    mem_alloc s size = some (NULL, s') ↔
      find_block s (ORDER_MAX + 2) (get_order (adjust_size size)) = some none ∧ s' = s := by
  simp only [mem_alloc, bind]
  cases hf : find_block s (ORDER_MAX + 2) (get_order (adjust_size size)) with
  | none => simp
  | some x =>
    cases x with
    | none =>
      simp only [Option.some_bind, Option.some.injEq, Prod.mk.injEq, true_and]
      exact ⟨fun h => h.symm, fun h => h.symm⟩
    | some ob =>
      obtain ⟨o, b⟩ := ob
      simp only [Option.some_bind, Option.bind_eq_some]
      constructor
      · rintro ⟨bn, _, s1, _, hc⟩
        split at hc
        · simp only [Option.bind_eq_some] at hc
          obtain ⟨s2, _, ⟨s3, nb⟩, _, h3⟩ := hc
          simp [NULL, SIZE_T] at h3
        · simp only [Option.bind_eq_some] at hc
          obtain ⟨s2, _, h3⟩ := hc
          simp [NULL, SIZE_T] at h3
      · rintro ⟨hc, _⟩
        simp at hc

/-- C7: for every state and every size with `size + 8 ≤ 2^32`, `mem_alloc(size)`
returns `NULL` if and only if every free list of an order from the order of the
adjusted size up to `ORDER_MAX` is empty, and whenever it returns `NULL` the state
(free lists, heap words, bitmap) is unchanged. -/
theorem C7_alloc_failure_exact (s : State) (size : Nat) (h : size + 8 ≤ 2 ^ 32) :
    ((∃ s', mem_alloc s size = some (NULL, s')) ↔
      ∀ k : Nat, get_order (adjust_size size) ≤ (k : Int) → k ≤ ORDER_MAX →
        s.free_area_struct_array k = NULL) ∧
    (∀ s', mem_alloc s size = some (NULL, s') → s' = s) := by
  obtain ⟨h1, _, h3⟩ := adjust_size_bounds size h
  obtain ⟨k0, hk0, _, _⟩ := get_order_nonneg _ h1 h3
  obtain ⟨f1, _, _⟩ := find_block_spec s (ORDER_MAX + 2) k0 (by omega) (by omega)
  refine ⟨⟨fun ⟨s', hs'⟩ k hk hk' => ?_, fun hall => ⟨s, ?_⟩⟩, fun s' hs' => ?_⟩
  · rw [mem_alloc_null, hk0] at hs'
    rw [hk0] at hk
    exact f1.mp hs'.1 k (by exact_mod_cast hk) hk'
  · rw [mem_alloc_null, hk0]
    refine ⟨f1.mpr (fun k hk hk' => hall k ?_ hk'), rfl⟩
    rw [hk0]; exact_mod_cast hk
  · rw [mem_alloc_null] at hs'
    exact hs'.2

/-- C7 at a concrete input: in the zero-initialised state every list is empty and
`mem_alloc(40)` returns `NULL`. -/
theorem C7_alloc_failure_exact_witness :
    ((∃ s', mem_alloc zero_state 40 = some (NULL, s')) ↔
      ∀ k : Nat, get_order (adjust_size 40) ≤ (k : Int) → k ≤ ORDER_MAX →
        zero_state.free_area_struct_array k = NULL) ∧
    (∀ s', mem_alloc zero_state 40 = some (NULL, s') → s' = zero_state) :=
  C7_alloc_failure_exact zero_state 40 (by norm_num)

set_option maxRecDepth 100000 in
/-- C5 (exhaustion by size), evaluated on the code: a request of
`2^64 - 8 = 18446744073709551608` bytes and a request of `2^35 = 34359738368` bytes
both need more than the arena of `PAGE_SIZE * 2^ORDER_MAX` bytes, yet in the freshly
initialised allocator `mem_alloc` returns a block for each.  For the first the addition
of the header wraps around to 0, the size is raised to one page and a block of order 0
is returned; for the second the 32-bit lookup of `logbin` gives the adjusted size the
order 2 and a block of order 2 is returned. -/
theorem C5_oversize_request_served :
    (PAGE_SIZE * 2 ^ ORDER_MAX < 18446744073709551608 + 8 ∧ 18446744073709551608 < 2 ^ 64 ∧
      adjust_size 18446744073709551608 = PAGE_SIZE ∧
      ∃ s p s', mem_init zero_state = some s ∧
        mem_alloc s 18446744073709551608 = some (p, s') ∧
        p ≠ NULL ∧ order_of s' (block_of p) = some 0) ∧
    (PAGE_SIZE * 2 ^ ORDER_MAX < 34359738368 + 8 ∧ 34359738368 < 2 ^ 64 ∧
      adjust_size 34359738368 = 34359738368 + 8 ∧ get_order (34359738368 + 8) = 2 ∧
      ∃ s p s', mem_init zero_state = some s ∧ mem_alloc s 34359738368 = some (p, s') ∧
        p ≠ NULL ∧ order_of s' (block_of p) = some 2) := by
  refine ⟨⟨by decide, by decide, by decide, ?_⟩, by decide, by decide, by decide, by decide, ?_⟩
  · have h : (mem_init zero_state).bind (fun s =>
        (mem_alloc s 18446744073709551608).map (fun x =>
          (x.1, order_of x.2 (block_of x.1)))) = some (heap_base + 65472 + 8, some 0) := by
      decide
    cases hi : mem_init zero_state with
    | none => simp [hi] at h
    | some s =>
      rw [hi, Option.some_bind] at h
      cases ha : mem_alloc s 18446744073709551608 with
      | none => simp [ha] at h
      | some x =>
        obtain ⟨p, s'⟩ := x
        simp only [ha, Option.map_some', Option.some.injEq, Prod.mk.injEq] at h
        obtain ⟨h0, h1⟩ := h
        exact ⟨s, p, s', rfl, ha, by rw [h0]; decide, h1⟩
  · have h : (mem_init zero_state).bind (fun s =>
        (mem_alloc s 34359738368).map (fun x =>
          (x.1, order_of x.2 (block_of x.1)))) = some (heap_base + 65280 + 8, some 2) := by
      decide
    cases hi : mem_init zero_state with
    | none => simp [hi] at h
    | some s =>
      rw [hi, Option.some_bind] at h
      cases ha : mem_alloc s 34359738368 with
      | none => simp [ha] at h
      | some x =>
        obtain ⟨p, s'⟩ := x
        simp only [ha, Option.map_some', Option.some.injEq, Prod.mk.injEq] at h
        obtain ⟨h0, h1⟩ := h
        exact ⟨s, p, s', rfl, ha, by rw [h0]; decide, h1⟩

/-- Whenever the order computed from the adjusted size exceeds `ORDER_MAX`,
`mem_alloc` returns `NULL` and leaves the state unchanged; this holds for every state
and every size. -/
theorem mem_alloc_order_exceeds (s : State) (size : Nat)
    (h : (ORDER_MAX : Int) < get_order (adjust_size size)) :
    mem_alloc s size = some (NULL, s) := by
  rw [mem_alloc_null]
  refine ⟨?_, rfl⟩
  have e : ORDER_MAX + 2 = (ORDER_MAX + 1) + 1 := rfl
  rw [e, find_block, if_pos h]

/-- On the 32-bit range the size check of `mem_alloc` works: for every state and every
size with `PAGE_SIZE * 2^ORDER_MAX < size + 8 ≤ 2^32`, the order of the adjusted size
exceeds `ORDER_MAX` and `mem_alloc(size)` returns `NULL`, leaving the state unchanged. -/
theorem mem_alloc_oversize (s : State) (size : Nat)
    (hlo : PAGE_SIZE * 2 ^ ORDER_MAX < size + 8) (hhi : size + 8 ≤ 2 ^ 32) :
    (ORDER_MAX : Int) < get_order (adjust_size size) ∧ mem_alloc s size = some (NULL, s) := by
  obtain ⟨h1, h2, h3⟩ := adjust_size_bounds size hhi
  obtain ⟨k0, hk0, hk1, _⟩ := get_order_nonneg _ h1 h3
  have hk : ORDER_MAX < k0 := by
    by_contra hc
    have : 2 ^ k0 ≤ 2 ^ ORDER_MAX := Nat.pow_le_pow_right (by norm_num) (by omega)
    have : PAGE_SIZE * 2 ^ k0 ≤ PAGE_SIZE * 2 ^ ORDER_MAX := Nat.mul_le_mul_left _ this
    omega
  obtain ⟨f1, _, _⟩ := find_block_spec s (ORDER_MAX + 2) k0 (by omega) (by omega)
  refine ⟨by rw [hk0]; exact_mod_cast hk, ?_⟩
  rw [mem_alloc_null, hk0]
  exact ⟨f1.mpr (fun k hk' hk'' => by omega), rfl⟩

/-- The driver's request of 80000 bytes (`main.c`, line 97) is refused, shown in the
zero-initialised state. -/
theorem mem_alloc_oversize_driver :
    (ORDER_MAX : Int) < get_order (adjust_size 80000) ∧
      mem_alloc zero_state 80000 = some (NULL, zero_state) :=
  mem_alloc_oversize zero_state 80000 (by decide) (by decide)

/-! ### Memory primitives -/

@[simp] theorem write_heap (s : State) (a v x : Nat) :
    (write s a v).heap x = if x = a then v else s.heap x := rfl

@[simp] theorem write_free (s : State) (a v : Nat) :
    (write s a v).free_area_struct_array = s.free_area_struct_array := rfl

@[simp] theorem write_map (s : State) (a v : Nat) : (write s a v).map = s.map := rfl

@[simp] theorem with_head_heap (s : State) (i v : Nat) : (with_head s i v).heap = s.heap := rfl

@[simp] theorem with_head_free (s : State) (i v j : Nat) :
    (with_head s i v).free_area_struct_array j = if j = i then v else s.free_area_struct_array j :=
  rfl

@[simp] theorem with_head_map (s : State) (i v : Nat) : (with_head s i v).map = s.map := rfl

theorem load_eq_some {s : State} {a v : Nat} :
    load s a = some v ↔ valid a = true ∧ s.heap a = v := by
  unfold load; split <;> simp_all

theorem store_eq_some {s s' : State} {a v : Nat} :
    store s a v = some s' ↔ valid a = true ∧ s' = write s a v := by
  unfold store
  by_cases hv : valid a = true
  · simp only [hv, if_true, Option.some.injEq, true_and]
    exact ⟨fun h => h.symm, fun h => h.symm⟩
  · simp [hv]

theorem set_head_eq_some {s s' : State} {i v : Nat} :
    set_head s i v = some s' ↔ i ≤ ORDER_MAX ∧ s' = with_head s i v := by
  unfold set_head
  by_cases hv : i ≤ ORDER_MAX
  · simp only [hv, if_true, Option.some.injEq, true_and]
    exact ⟨fun h => h.symm, fun h => h.symm⟩
  · simp [hv]

theorem get_head_eq_some {s : State} {i v : Nat} :
    get_head s i = some v ↔ i ≤ ORDER_MAX ∧ s.free_area_struct_array i = v := by
  unfold get_head; split <;> simp_all

theorem bitsetFlip_eq_some {m m' : Nat → Bool} {i : Nat} :
    bitsetFlip m i = some m' ↔ i < MAP_BITS ∧ m' = fun j => if j = i then !(m j) else m j := by
  unfold bitsetFlip
  by_cases hv : i < MAP_BITS
  · simp only [hv, if_true, Option.some.injEq, true_and]
    exact ⟨fun h => h.symm, fun h => h.symm⟩
  · simp [hv]

theorem bitsetGet_eq_some {m : Nat → Bool} {i : Nat} {b : Bool} :
    bitsetGet m i = some b ↔ i < MAP_BITS ∧ m i = b := by
  unfold bitsetGet; split <;> simp_all

theorem valid_iff {a : Nat} : valid a = true ↔
    heap_base ≤ a ∧ a + 8 ≤ heap_base + HEAP_SIZE ∧ (a - heap_base) % 8 = 0 := by
  simp [valid, SIZE_T, and_assoc]

theorem heap_size_eq : HEAP_SIZE = 65536 := by decide

theorem BlockPtr.valid0 {a : Nat} (h : BlockPtr a) : valid a = true := by
  obtain ⟨h1, h2, h3⟩ := h
  rw [valid_iff]; simp only [heap_size_eq, PAGE_SIZE, heap_base] at *; omega

theorem BlockPtr.valid8 {a : Nat} (h : BlockPtr a) : valid (a + 8) = true := by
  obtain ⟨h1, h2, h3⟩ := h
  rw [valid_iff]; simp only [heap_size_eq, PAGE_SIZE, heap_base] at *; omega

theorem BlockPtr.valid16 {a : Nat} (h : BlockPtr a) : valid (a + 16) = true := by
  obtain ⟨h1, h2, h3⟩ := h
  rw [valid_iff]; simp only [heap_size_eq, PAGE_SIZE, heap_base] at *; omega

theorem BlockPtr.ne_null {a : Nat} (h : BlockPtr a) : a ≠ NULL := by
  obtain ⟨h1, _, _⟩ := h
  simp only [heap_base, NULL] at *; omega

/-- A valid address whose offset is a multiple of the page size is a block
pointer. -/
theorem blockPtr_of_valid {a : Nat} (h : valid a = true) (hm : (a - heap_base) % PAGE_SIZE = 0) :
    BlockPtr a := by
  rw [valid_iff] at h
  refine ⟨h.1, ?_, hm⟩
  simp only [heap_size_eq, PAGE_SIZE, heap_base] at *; omega

theorem ptrOrNull_null : PtrOrNull NULL := Or.inl rfl

/-! ### Preservation of the pointer discipline by single writes -/

theorem PtrInv.store_hdr {s s' : State} {a v : Nat} (hI : PtrInv s) (ha : BlockPtr a)
    (hv : Aligned a v) (h : store s a v = some s') : PtrInv s' := by
  obtain ⟨_, rfl⟩ := store_eq_some.mp h
  obtain ⟨a1, a2, a3⟩ := ha
  refine ⟨fun b hb => ?_, fun b hb => ?_, fun b hb => ?_, hI.head⟩
  · by_cases e : b = a
    · subst e; simpa using hv
    · simpa [e] using hI.hdr b hb
  · have e : b + 8 ≠ a := by
      obtain ⟨b1, b2, b3⟩ := hb
      simp only [PAGE_SIZE, heap_base] at *; omega
    simpa [e] using hI.lprev b hb
  · have e : b + 16 ≠ a := by
      obtain ⟨b1, b2, b3⟩ := hb
      simp only [PAGE_SIZE, heap_base] at *; omega
    simpa [e] using hI.lnext b hb

theorem PtrInv.store_prev {s s' : State} {a v : Nat} (hI : PtrInv s) (ha : BlockPtr a)
    (hv : PtrOrNull v) (h : store s (a + 8) v = some s') : PtrInv s' := by
  obtain ⟨_, rfl⟩ := store_eq_some.mp h
  obtain ⟨a1, a2, a3⟩ := ha
  refine ⟨fun b hb => ?_, fun b hb => ?_, fun b hb => ?_, hI.head⟩
  · have e : b ≠ a + 8 := by
      obtain ⟨b1, b2, b3⟩ := hb
      simp only [PAGE_SIZE, heap_base] at *; omega
    simpa [e] using hI.hdr b hb
  · by_cases e : b = a
    · subst e; simpa using hv
    · have e' : b + 8 ≠ a + 8 := by omega
      simpa [e, e'] using hI.lprev b hb
  · have e : b + 16 ≠ a + 8 := by
      obtain ⟨b1, b2, b3⟩ := hb
      simp only [PAGE_SIZE, heap_base] at *; omega
    simpa [e] using hI.lnext b hb

theorem PtrInv.store_next {s s' : State} {a v : Nat} (hI : PtrInv s) (ha : BlockPtr a)
    (hv : PtrOrNull v) (h : store s (a + 16) v = some s') : PtrInv s' := by
  obtain ⟨_, rfl⟩ := store_eq_some.mp h
  obtain ⟨a1, a2, a3⟩ := ha
  refine ⟨fun b hb => ?_, fun b hb => ?_, fun b hb => ?_, hI.head⟩
  · have e : b ≠ a + 16 := by
      obtain ⟨b1, b2, b3⟩ := hb
      simp only [PAGE_SIZE, heap_base] at *; omega
    simpa [e] using hI.hdr b hb
  · have e : b + 8 ≠ a + 16 := by
      obtain ⟨b1, b2, b3⟩ := hb
      simp only [PAGE_SIZE, heap_base] at *; omega
    simpa [e] using hI.lprev b hb
  · by_cases e : b = a
    · subst e; simpa using hv
    · have e' : b + 16 ≠ a + 16 := by omega
      simpa [e, e'] using hI.lnext b hb

theorem PtrInv.set_head {s s' : State} {i v : Nat} (hI : PtrInv s) (hv : PtrOrNull v)
    (h : set_head s i v = some s') : PtrInv s' := by
  obtain ⟨_, rfl⟩ := set_head_eq_some.mp h
  refine ⟨hI.hdr, hI.lprev, hI.lnext, fun k hk => ?_⟩
  by_cases e : k = i
  · subst e; simpa using hv
  · simpa [e] using hI.head k hk

theorem PtrInv.set_map {s : State} (m : Nat → Bool) (hI : PtrInv s) :
    PtrInv { s with map := m } :=
  ⟨hI.hdr, hI.lprev, hI.lnext, hI.head⟩

/-- A write to a link field leaves every header word at a page-aligned address as it
was. -/
theorem store_link_hdr {s s' : State} {a v b : Nat} (ha : BlockPtr a) (hb : BlockPtr b)
    (h : store s (a + 8) v = some s' ∨ store s (a + 16) v = some s') : s'.heap b = s.heap b := by
  obtain ⟨a1, a2, a3⟩ := ha
  obtain ⟨b1, b2, b3⟩ := hb
  rcases h with h | h <;> obtain ⟨_, rfl⟩ := store_eq_some.mp h
  · have e : b ≠ a + 8 := by simp only [PAGE_SIZE, heap_base] at *; omega
    simp [e]
  · have e : b ≠ a + 16 := by simp only [PAGE_SIZE, heap_base] at *; omega
    simp [e]

/-! ### `insert`, `delete` and the toggles under the pointer discipline -/

theorem load_blockptr {s : State} {a : Nat} (h : BlockPtr a) : load s a = some (s.heap a) := by
  simp [load, h.valid0]

theorem load_blockptr8 {s : State} {a : Nat} (h : BlockPtr a) :
    load s (a + 8) = some (s.heap (a + 8)) := by
  simp [load, h.valid8]

theorem load_blockptr16 {s : State} {a : Nat} (h : BlockPtr a) :
    load s (a + 16) = some (s.heap (a + 16)) := by
  simp [load, h.valid16]

theorem store_blockptr {s : State} {a : Nat} (v : Nat) (h : BlockPtr a) :
    store s a v = some (write s a v) := by
  simp [store, h.valid0]

theorem store_blockptr8 {s : State} {a : Nat} (v : Nat) (h : BlockPtr a) :
    store s (a + 8) v = some (write s (a + 8) v) := by
  simp [store, h.valid8]

theorem store_blockptr16 {s : State} {a : Nat} (v : Nat) (h : BlockPtr a) :
    store s (a + 16) v = some (write s (a + 16) v) := by
  simp [store, h.valid16]

theorem set_head_le {s : State} {i : Nat} (v : Nat) (h : i ≤ ORDER_MAX) :
    set_head s i v = some (with_head s i v) := by
  simp [set_head, h]

/-- Two block pointers never alias each other's fields. -/
theorem BlockPtr.fields_ne {a b : Nat} (ha : BlockPtr a) (hb : BlockPtr b) :
    a ≠ b + 8 ∧ a ≠ b + 16 ∧ a + 8 ≠ b + 16 ∧ a + 16 ≠ b + 8 := by
  obtain ⟨a1, a2, a3⟩ := ha
  obtain ⟨b1, b2, b3⟩ := hb
  simp only [PAGE_SIZE, heap_base] at *
  omega

/-- Under the pointer discipline `insert` of a block pointer succeeds, keeps the
discipline, the headers and the bitmap, makes the block the head of the list of its
order with `prev = NULL` and `next` the former head, and changes no other list
head. -/
theorem insert_spec {s : State} {b : Nat} (hI : PtrInv s) (hb : BlockPtr b) :
    ∃ s', insert s b = some s' ∧ PtrInv s' ∧ (∀ a, BlockPtr a → s'.heap a = s.heap a) ∧
      s'.map = s.map ∧ s'.free_area_struct_array (s.heap b) = b ∧
      (∀ k, k ≠ s.heap b → s'.free_area_struct_array k = s.free_area_struct_array k) ∧
      s'.heap (b + 8) = NULL ∧ s'.heap (b + 16) = s.free_area_struct_array (s.heap b) := by
  have ho := (hI.hdr b hb).1
  have hfh := hI.head _ ho
  obtain ⟨e1, e2, e3, e4⟩ := hb.fields_ne hb
  by_cases hn : s.free_area_struct_array (s.heap b) = NULL
  · refine ⟨with_head (write (write s (b + 16) NULL) (b + 8) NULL) (s.heap b) b, ?_, ?_, ?_, rfl,
      by simp, ?_, by simp, by simp [e4, hn]⟩
    · simp [insert, order_of, load_blockptr hb, get_head, ho, hn, set_next, set_prev,
        store_blockptr16 _ hb, store_blockptr8 _ hb, e1, e2, set_head_le _ ho]
    · exact ((hI.store_next hb ptrOrNull_null (store_blockptr16 _ hb)).store_prev hb
        ptrOrNull_null (store_blockptr8 _ hb)).set_head (Or.inr hb) (set_head_le _ ho)
    · intro a ha
      obtain ⟨f1, f2, _, _⟩ := ha.fields_ne hb
      simp [f1, f2]
    · intro k hk; simp [hk]
  · have hf : BlockPtr (s.free_area_struct_array (s.heap b)) := by
      rcases hfh with h | h
      · exact absurd h hn
      · exact h
    obtain ⟨g1, g2, g3, g4⟩ := hb.fields_ne hf
    refine ⟨with_head (write (write (write s (s.free_area_struct_array (s.heap b) + 8) b)
      (b + 16) (s.free_area_struct_array (s.heap b))) (b + 8) NULL) (s.heap b) b,
      ?_, ?_, ?_, rfl, by simp, ?_, by simp, by simp [e4]⟩
    · simp [insert, order_of, load_blockptr hb, get_head, ho, hn, set_next, set_prev,
        store_blockptr16 _ hb, store_blockptr8 _ hb, store_blockptr8 _ hf, e1, e2, g1,
        set_head_le _ ho]
    · exact (((hI.store_prev hf (Or.inr hb) (store_blockptr8 _ hf)).store_next hb (Or.inr hf)
        (store_blockptr16 _ hb)).store_prev hb ptrOrNull_null (store_blockptr8 _ hb)).set_head
        (Or.inr hb) (set_head_le _ ho)
    · intro a ha
      obtain ⟨f1, f2, _, _⟩ := ha.fields_ne hb
      obtain ⟨f3, _, _, _⟩ := ha.fields_ne hf
      simp [f1, f2, f3]
    · intro k hk; simp [hk]

/-- Under the pointer discipline `delete` of a block pointer succeeds and keeps the
discipline, the headers and the bitmap. -/
theorem delete_spec {s : State} {b : Nat} (hI : PtrInv s) (hb : BlockPtr b) :
    ∃ s', delete s b = some s' ∧ PtrInv s' ∧ (∀ a, BlockPtr a → s'.heap a = s.heap a) ∧
      s'.map = s.map := by
  have ho := (hI.hdr b hb).1
  have hp := hI.lprev b hb
  have hx := hI.lnext b hb
  by_cases hpn : s.heap (b + 8) = NULL
  · by_cases hxn : s.heap (b + 16) = NULL
    · refine ⟨with_head s (s.heap b) NULL, ?_, ?_, ?_, rfl⟩
      · simp [delete, prev_of, next_of, order_of, load_blockptr hb, load_blockptr8 hb,
          load_blockptr16 hb, hpn, hxn, set_head_le _ ho]
      · exact hI.set_head ptrOrNull_null (set_head_le _ ho)
      · intro a _; simp
    · have hxb : BlockPtr (s.heap (b + 16)) := hx.resolve_left hxn
      obtain ⟨g1, g2, g3, g4⟩ := hb.fields_ne hxb
      refine ⟨with_head (write s (s.heap (b + 16) + 8) NULL) (s.heap b) (s.heap (b + 16)),
        ?_, ?_, ?_, rfl⟩
      · simp [delete, prev_of, next_of, order_of, load_blockptr hb, load_blockptr8 hb,
          load_blockptr16 hb, hpn, hxn, set_prev, store_blockptr8 _ hxb, g1, set_head_le _ ho]
      · exact (hI.store_prev hxb ptrOrNull_null (store_blockptr8 _ hxb)).set_head (Or.inr hxb)
          (set_head_le _ ho)
      · intro a ha
        obtain ⟨f1, _, _, _⟩ := ha.fields_ne hxb
        simp [f1]
  · have hpb : BlockPtr (s.heap (b + 8)) := hp.resolve_left hpn
    by_cases hxn : s.heap (b + 16) = NULL
    · refine ⟨write s (s.heap (b + 8) + 16) NULL, ?_, ?_, ?_, rfl⟩
      · simp [delete, prev_of, next_of, load_blockptr8 hb, load_blockptr16 hb, hpn, hxn,
          set_next, store_blockptr16 _ hpb]
      · exact hI.store_next hpb ptrOrNull_null (store_blockptr16 _ hpb)
      · intro a ha
        obtain ⟨_, f2, _, _⟩ := ha.fields_ne hpb
        simp [f2]
    · have hxb : BlockPtr (s.heap (b + 16)) := hx.resolve_left hxn
      refine ⟨write (write s (s.heap (b + 8) + 16) (s.heap (b + 16))) (s.heap (b + 16) + 8)
        (s.heap (b + 8)), ?_, ?_, ?_, rfl⟩
      · simp [delete, prev_of, next_of, load_blockptr8 hb, load_blockptr16 hb, hpn, hxn,
          set_next, set_prev, store_blockptr16 _ hpb, store_blockptr8 _ hxb]
      · exact (hI.store_next hpb (Or.inr hxb) (store_blockptr16 _ hpb)).store_prev hxb
          (Or.inr hpb) (store_blockptr8 _ hxb)
      · intro a ha
        obtain ⟨_, f2, _, _⟩ := ha.fields_ne hpb
        obtain ⟨f3, _, _, _⟩ := ha.fields_ne hxb
        simp [f2, f3]

/-- A successful `toggle` changes the bitmap only. -/
theorem toggle_eq_some {s s' : State} {b : Nat} (h : toggle s b = some s') :
    ∃ i m, get_gitmap_idx s b = some i ∧ i < MAP_BITS ∧ s' = { s with map := m } := by
  simp only [toggle, bind, Option.bind_eq_some] at h
  obtain ⟨i, hi, m, hm, hs⟩ := h
  obtain ⟨hlt, _⟩ := bitsetFlip_eq_some.mp hm
  exact ⟨i, m, hi, hlt, by simpa [eq_comm] using hs⟩

/-- A successful `toggle_parent` changes the bitmap only. -/
theorem toggle_parent_eq_some {s s' : State} {b : Nat} (h : toggle_parent s b = some s') :
    ∃ i m, get_gitmap_idx_parent s b = some i ∧ i < MAP_BITS ∧ s' = { s with map := m } := by
  simp only [toggle_parent, bind, Option.bind_eq_some] at h
  obtain ⟨i, hi, m, hm, hs⟩ := h
  obtain ⟨hlt, _⟩ := bitsetFlip_eq_some.mp hm
  exact ⟨i, m, hi, hlt, by simpa [eq_comm] using hs⟩

/-! ### Block geometry -/

theorem get_block_size_eq_some {s : State} {b sz : Nat} (h : get_block_size s b = some sz) :
    valid b = true ∧ s.heap b < 25 ∧ sz = (1 <<< s.heap b) * PAGE_SIZE := by
  simp only [get_block_size, order_of, bind, Option.bind_eq_some] at h
  obtain ⟨o, ho, h⟩ := h
  obtain ⟨hv, rfl⟩ := load_eq_some.mp ho
  split at h
  · simp only [Option.some.injEq] at h; exact ⟨hv, by assumption, h.symm⟩
  · simp at h

theorem get_block_size_blockptr {s : State} {b : Nat} (hI : PtrInv s) (hb : BlockPtr b) :
    get_block_size s b = some ((1 <<< s.heap b) * PAGE_SIZE) := by
  have ho := (hI.hdr b hb).1
  have : s.heap b < 25 := by simp only [ORDER_MAX] at ho; omega
  simp [get_block_size, order_of, load_blockptr hb, this]

theorem get_page_number_blockptr {s : State} {b : Nat} (hI : PtrInv s) (hb : BlockPtr b) :
    get_page_number s b = some ((b - heap_base) / ((1 <<< s.heap b) * PAGE_SIZE)) := by
  simp [get_page_number, get_block_size_blockptr hI hb]

/-- The right half of an aligned block of order `o ≥ 1` is a block pointer aligned to
order `o - 1`, and so is the left half. -/
theorem halves_aligned {b o : Nat} (hb : BlockPtr b) (ha : Aligned b o) (ho : 1 ≤ o) :
    Aligned b (o - 1) ∧ BlockPtr (b + (1 <<< o) * PAGE_SIZE / 2) ∧
      Aligned (b + (1 <<< o) * PAGE_SIZE / 2) (o - 1) := by
  obtain ⟨b1, b2, b3⟩ := hb
  obtain ⟨a1, a2⟩ := ha
  simp only [Aligned, BlockPtr, ORDER_MAX, PAGE_SIZE, heap_base, heap_size_eq] at *
  interval_cases o <;> simp at * <;> omega

/-- The buddy of an aligned block of order `o < ORDER_MAX` is a block pointer, and the
block merged from the two is aligned to order `o + 1`. -/
theorem buddy_aligned {b o : Nat} (hb : BlockPtr b) (ha : Aligned b o) (ho : o + 1 ≤ ORDER_MAX) :
    let sz := (1 <<< o) * PAGE_SIZE
    let uneven := (b - heap_base) / sz % 2
    BlockPtr (if uneven ≠ 0 then b - sz else b + sz) ∧
      BlockPtr (if uneven ≠ 0 then b - sz else b) ∧
      Aligned (if uneven ≠ 0 then b - sz else b) (o + 1) := by
  obtain ⟨b1, b2, b3⟩ := hb
  obtain ⟨a1, a2⟩ := ha
  simp only [Aligned, BlockPtr, ORDER_MAX, PAGE_SIZE, heap_base, heap_size_eq] at *
  interval_cases o <;> simp at * <;> (split <;> omega)

/-! ### The pointer discipline is kept by every operation -/

/-- A successful `toggle` of an aligned block implies that its order is at least 1:
the bitmap has no bits for the blocks of order 0. -/
theorem toggle_order_pos {s s' : State} {b : Nat} (hI : PtrInv s) (hb : BlockPtr b)
    (h : toggle s b = some s') : 1 ≤ s.heap b := by
  obtain ⟨i, m, hi, hlt, _⟩ := toggle_eq_some h
  have ho := (hI.hdr b hb).1
  simp only [get_gitmap_idx, get_page_number_blockptr hI hb, order_of, load_blockptr hb, bind,
    Option.some_bind, ho, if_true, Option.some.injEq] at hi
  by_contra hc
  have h0 : s.heap b = 0 := by omega
  rw [h0] at hi
  simp only [MAP_BITS, ORDER_MAX, PAGE_SIZE] at hi hlt
  simp at hi hlt
  omega

theorem split_block_fuel_inv : ∀ (fuel : Nat) (s s' : State) (b nb : Nat) (r : Int),
    PtrInv s → BlockPtr b → split_block_fuel fuel s b r = some (s', nb) →
    PtrInv s' ∧ BlockPtr nb := by
  intro fuel
  induction fuel with
  | zero => intro s s' b nb r _ _ h; simp [split_block_fuel] at h
  | succ fuel ih =>
    intro s s' b nb r hI hb h
    simp only [split_block_fuel, order_of, load_blockptr hb, bind, Option.some_bind] at h
    split at h
    · simp only [Option.some.injEq, Prod.mk.injEq] at h
      obtain ⟨rfl, rfl⟩ := h
      exact ⟨hI, hb⟩
    · rw [get_block_size_blockptr hI hb] at h
      simp only [Option.some_bind, Option.bind_eq_some] at h
      obtain ⟨s1, ht, h⟩ := h
      have hpos := toggle_order_pos hI hb ht
      obtain ⟨i, m, _, _, rfl⟩ := toggle_eq_some ht
      have hal := hI.hdr b hb
      obtain ⟨hl, hrb, hra⟩ := halves_aligned hb hal hpos
      have hI1 : PtrInv { s with map := m } := hI.set_map m
      have ho : s.heap b ≤ ORDER_MAX := hal.1
      have e : (s.heap b + 2 ^ 64 - 1) % 2 ^ 64 = s.heap b - 1 := by
        simp only [ORDER_MAX] at ho
        omega
      simp only [load_blockptr hb, Option.some_bind, set_order, e, store_blockptr _ hb,
        Option.some.injEq, exists_eq_left', write_heap, if_true, Option.bind_eq_some] at h
      obtain ⟨s2, hs2, s3, hs3, h⟩ := h
      have hI2 : PtrInv (write { s with map := m } b (s.heap b - 1)) :=
        hI1.store_hdr hb hl (store_blockptr _ hb)
      have hI3 : PtrInv s2 := hI2.store_hdr hrb (by simpa using hra) hs2
      have hbl : BlockPtr b := hb
      obtain ⟨s4, hs4, hI4, _⟩ := insert_spec hI3 hbl
      rw [hs4] at hs3
      simp only [Option.some.injEq] at hs3
      subst hs3
      exact ih _ _ _ _ _ hI4 hrb h

theorem merge_fuel_inv : ∀ (fuel : Nat) (s s' : State) (b nb : Nat) (r : Int),
    PtrInv s → BlockPtr b → merge_fuel fuel s b r = some (s', nb) →
    PtrInv s' ∧ BlockPtr nb := by
  intro fuel
  induction fuel with
  | zero => intro s s' b nb r _ _ h; simp [merge_fuel] at h
  | succ fuel ih =>
    intro s s' b nb r hI hb h
    simp only [merge_fuel, order_of, load_blockptr hb, bind, Option.some_bind] at h
    split at h
    · simp only [Option.some.injEq, Prod.mk.injEq] at h
      obtain ⟨rfl, rfl⟩ := h
      exact ⟨hI, hb⟩
    · rw [get_block_size_blockptr hI hb] at h
      simp only [Option.some_bind, Option.bind_eq_some] at h
      obtain ⟨i, hi, pn, hpn, bit, _, h⟩ := h
      rw [get_page_number_blockptr hI hb, Option.some.injEq] at hpn
      subst hpn
      have ho1 : s.heap b + 1 ≤ ORDER_MAX := by
        simp only [get_gitmap_idx_parent, get_block_size_blockptr hI hb,
          get_page_number_blockptr hI hb, order_of, load_blockptr hb, bind, Option.some_bind] at hi
        by_contra hc
        simp [hc] at hi
      obtain ⟨hbud, hnew, hnewa⟩ := buddy_aligned hb (hI.hdr b hb) ho1
      cases bit with
      | false =>
        simp only [Bool.false_eq_true, if_false, Option.bind_eq_some, Option.some.injEq,
          Prod.mk.injEq] at h
        obtain ⟨s1, ht, rfl, rfl⟩ := h
        obtain ⟨_, m, _, _, rfl⟩ := toggle_parent_eq_some ht
        exact ⟨hI.set_map m, hb⟩
      | true =>
        simp only [if_true, Option.bind_eq_some] at h
        obtain ⟨s1, ht, s2, hd, s3, hs3, h⟩ := h
        obtain ⟨_, m, _, _, rfl⟩ := toggle_parent_eq_some ht
        have hI1 : PtrInv { s with map := m } := hI.set_map m
        obtain ⟨s2', hd', hI2, hh2, _⟩ := delete_spec hI1 hbud
        rw [hd'] at hd
        simp only [Option.some.injEq] at hd
        subst hd
        have e : s2'.heap b = s.heap b := hh2 b hb
        have e2 : (s.heap b + 1) % 2 ^ 64 = s.heap b + 1 := by
          simp only [ORDER_MAX] at ho1
          omega
        rw [e, e2] at hs3
        have hI3 : PtrInv s3 := hI2.store_hdr hnew hnewa hs3
        exact ih _ _ _ _ _ hI3 hnew h

/-- A block found by the search loop is the non-`NULL` head of the list of an order
between 0 and `ORDER_MAX`. -/
theorem find_block_some (s : State) : ∀ (fuel : Nat) (r o : Int) (b : Nat),
    find_block s fuel r = some (some (o, b)) →
    b ≠ NULL ∧ 0 ≤ o ∧ o ≤ ORDER_MAX ∧ r ≤ o ∧ s.free_area_struct_array o.toNat = b := by
  intro fuel
  induction fuel with
  | zero => intro r o b h; simp [find_block] at h
  | succ fuel ih =>
    intro r o b h
    simp only [find_block] at h
    split at h
    · simp at h
    · split at h
      · simp at h
      · simp only [bind, Option.bind_eq_some] at h
        obtain ⟨blk, hg, h⟩ := h
        obtain ⟨_, rfl⟩ := get_head_eq_some.mp hg
        split at h
        · simp only [Option.some.injEq, Prod.mk.injEq] at h
          obtain ⟨rfl, rfl⟩ := h
          refine ⟨by assumption, by omega, by omega, le_refl _, rfl⟩
        · obtain ⟨h1, h2, h3, h4, h5⟩ := ih _ _ _ h
          exact ⟨h1, h2, h3, by omega, h5⟩

theorem mem_alloc_inv {s s' : State} {size p : Nat} (hI : PtrInv s)
    (h : mem_alloc s size = some (p, s')) :
    PtrInv s' ∧ (p ≠ NULL → SIZE_T ≤ p ∧ BlockPtr (block_of p)) := by
  simp only [mem_alloc, bind, Option.bind_eq_some] at h
  obtain ⟨fb, hfb, h⟩ := h
  cases fb with
  | none =>
    simp only [Option.some.injEq, Prod.mk.injEq] at h
    obtain ⟨rfl, rfl⟩ := h
    exact ⟨hI, fun hc => absurd rfl hc⟩
  | some ob =>
    obtain ⟨o, b⟩ := ob
    obtain ⟨hbn, ho0, ho1, _, hfree⟩ := find_block_some s _ _ _ _ hfb
    have hot : o.toNat ≤ ORDER_MAX := by omega
    have hb : BlockPtr b := by
      have := hI.head _ hot
      rw [hfree] at this
      exact this.resolve_left hbn
    simp only [next_of, load_blockptr16 hb, Option.some_bind, set_head_le _ hot,
      Option.bind_eq_some] at h
    have hI1 : PtrInv (with_head s o.toNat (s.heap (b + 16))) :=
      hI.set_head (hI.lnext b hb) (set_head_le _ hot)
    have key : ∀ nb, BlockPtr nb → nb + SIZE_T ≠ NULL → SIZE_T ≤ nb + SIZE_T ∧
        BlockPtr (block_of (nb + SIZE_T)) := by
      intro nb hnb _
      refine ⟨by omega, ?_⟩
      simpa [block_of] using hnb
    split at h
    · simp only [Option.bind_eq_some] at h
      obtain ⟨s1, hs1, ⟨s2, nb⟩, hsp, h⟩ := h
      simp only [Option.some.injEq, Prod.mk.injEq] at h
      obtain ⟨rfl, rfl⟩ := h
      have hI2 : PtrInv s1 := by
        split at hs1
        · obtain ⟨_, m, _, _, rfl⟩ := toggle_parent_eq_some hs1
          exact hI1.set_map m
        · simp only [Option.some.injEq] at hs1
          subst hs1
          exact hI1
      obtain ⟨hI3, hnb⟩ := split_block_fuel_inv _ _ _ _ _ _ hI2 hb hsp
      exact ⟨hI3, key nb hnb⟩
    · simp only [Option.bind_eq_some] at h
      obtain ⟨s1, hs1, h⟩ := h
      simp only [Option.some.injEq, Prod.mk.injEq] at h
      obtain ⟨rfl, rfl⟩ := h
      obtain ⟨_, m, _, _, rfl⟩ := toggle_parent_eq_some hs1
      exact ⟨hI1.set_map m, key b hb⟩

theorem mem_free_inv {s s' : State} {p : Nat} (hI : PtrInv s) (hp : BlockPtr (block_of p))
    (h : mem_free s p = some s') : PtrInv s' := by
  simp only [mem_free, bind, Option.bind_eq_some] at h
  obtain ⟨⟨s1, nb⟩, hm, h⟩ := h
  obtain ⟨hI1, hnb⟩ := merge_fuel_inv _ _ _ _ _ _ hI hp hm
  obtain ⟨s2, hs2, hI2, _⟩ := insert_spec hI1 hnb
  simp only at h
  rw [hs2] at h
  simp only [Option.some.injEq] at h
  subst h
  exact hI2

theorem blockPtr_heap_base : BlockPtr heap_base := by
  simp [BlockPtr, heap_size_eq, heap_base]

theorem mem_init_step_inv {x : Option State} {i : Nat} {s' : State}
    (hx : ∀ s, x = some s → PtrInv s) (h : mem_init_step x i = some s') : PtrInv s' := by
  simp only [mem_init_step, bind, Option.bind_eq_some] at h
  obtain ⟨s, rfl, h⟩ := h
  have hI := hx s rfl
  split at h
  · exact hI.set_head ptrOrNull_null h
  · simp only [set_prev, set_next, set_order, Option.bind_eq_some] at h
    obtain ⟨s1, h1, s2, h2, s3, h3, h4⟩ := h
    have a10 : Aligned heap_base ORDER_MAX := by simp [Aligned]
    exact (((hI.store_prev blockPtr_heap_base ptrOrNull_null h1).store_next blockPtr_heap_base
      ptrOrNull_null h2).store_hdr blockPtr_heap_base a10 h3).set_head
      (Or.inr blockPtr_heap_base) h4

theorem mem_init_inv {s : State} (h : mem_init zero_state = some s) : PtrInv s := by
  have key : ∀ (l : List Nat) (x : Option State), (∀ s, x = some s → PtrInv s) →
      ∀ s', l.foldl mem_init_step x = some s' → PtrInv s' := by
    intro l
    induction l with
    | nil => intro x hx s' hs'; exact hx s' hs'
    | cons i l ih =>
      intro x hx s' hs'
      rw [List.foldl_cons] at hs'
      exact ih _ (fun s hs => mem_init_step_inv hx hs) s' hs'
  refine key _ _ ?_ s h
  intro s0 hs0
  simp only [Option.some.injEq] at hs0
  subst hs0
  refine ⟨fun a ha => ?_, fun a _ => Or.inl rfl, fun a _ => Or.inl rfl, fun k _ => Or.inl rfl⟩
  simpa [Aligned, zero_state] using ha.2.2

/-- In every reachable state the pointer discipline holds and the live pointers are
payload pointers of blocks. -/
theorem reach_inv {s : State} {L : List Nat} (h : Reach s L) : PtrInv s ∧ LivePtrs L := by
  induction h with
  | init s hs => exact ⟨mem_init_inv hs, fun p hp => by simp at hp⟩
  | alloc s s' L size p _ ha hn ih =>
    obtain ⟨hI, hp⟩ := mem_alloc_inv ih.1 ha
    refine ⟨hI, fun q hq => ?_⟩
    rcases List.mem_cons.mp hq with rfl | hq
    · exact hp hn
    · exact ih.2 q hq
  | alloc_fail s s' L size _ ha ih => exact ⟨(mem_alloc_inv ih.1 ha).1, ih.2⟩
  | free s s' L p _ hp hf ih =>
    exact ⟨mem_free_inv ih.1 (ih.2 p hp).2 hf, fun q hq => ih.2 q (List.mem_of_mem_erase hq)⟩

/-- Under the pointer discipline every block on a free list is a block pointer. -/
theorem onList_blockPtr {s : State} {k b : Nat} (hI : PtrInv s) (h : OnList s k b) :
    BlockPtr b := by
  induction h with
  | head hk hn => exact (hI.head k hk).resolve_left hn
  | next b _ hn ih => exact (hI.lnext b ih).resolve_left hn

/-- As long as the client stores nothing into its allocations, blocks are aligned: in
every state of `Reach` every block on a free list and every block of a live pointer
lies in the arena, has a header order of at most `ORDER_MAX`, and starts at an arena
offset that is a multiple of `PAGE_SIZE * 2^order` for the order in its header word. -/
theorem reach_alignment (s : State) (L : List Nat) (h : Reach s L) :
    (∀ k b, OnList s k b → ∃ o, order_of s b = some o ∧ o ≤ ORDER_MAX ∧ heap_base ≤ b ∧
      (b - heap_base) % (PAGE_SIZE * 2 ^ o) = 0) ∧
    (∀ p ∈ L, ∃ o, order_of s (block_of p) = some o ∧ o ≤ ORDER_MAX ∧ heap_base ≤ block_of p ∧
      (block_of p - heap_base) % (PAGE_SIZE * 2 ^ o) = 0) := by
  obtain ⟨hI, hL⟩ := reach_inv h
  have key : ∀ b, BlockPtr b → ∃ o, order_of s b = some o ∧ o ≤ ORDER_MAX ∧ heap_base ≤ b ∧
      (b - heap_base) % (PAGE_SIZE * 2 ^ o) = 0 := fun b hb =>
    ⟨s.heap b, load_blockptr hb, (hI.hdr b hb).1, hb.1, (hI.hdr b hb).2⟩
  exact ⟨fun k b hkb => key b (onList_blockPtr hI hkb), fun p hp => key _ (hL p hp).2⟩

set_option maxRecDepth 100000 in
theorem two_allocs_reach : Reach two_allocs_state two_allocs_live := by
  have h : (run two_allocs).map (fun r => r.live) = some two_allocs_live := by decide
  cases hr : run two_allocs with
  | none => simp [hr] at h
  | some r =>
    simp only [hr, Option.map_some', Option.some.injEq] at h
    have := run_reach _ _ hr
    rw [h] at this
    simpa [two_allocs_state, hr] using this

/-- Alignment in the state after two one-page allocations. -/
theorem reach_alignment_two_allocs :
    Reach two_allocs_state two_allocs_live ∧
    ((∀ k b, OnList two_allocs_state k b → ∃ o, order_of two_allocs_state b = some o ∧
      o ≤ ORDER_MAX ∧ heap_base ≤ b ∧ (b - heap_base) % (PAGE_SIZE * 2 ^ o) = 0) ∧
    (∀ p ∈ two_allocs_live, ∃ o, order_of two_allocs_state (block_of p) = some o ∧
      o ≤ ORDER_MAX ∧ heap_base ≤ block_of p ∧
      (block_of p - heap_base) % (PAGE_SIZE * 2 ^ o) = 0)) :=
  ⟨two_allocs_reach, reach_alignment two_allocs_state two_allocs_live two_allocs_reach⟩

set_option maxRecDepth 100000 in
/-- C10 (alignment), evaluated on the code: after the calls of `stale_link_trace` the
free page at offset 65472 lies inside the free two-page block at offset 65408, and
`h = mem_alloc(100)` is served by that two-page block.  The client then stores the word
3 at byte offset 56 of `h`, inside the 100 bytes it asked for; the word is the header
of the page at offset 65472.  Afterwards the block at the head of the free list of
order 0 has header order 3 and its offset 65472 is not a multiple of
`PAGE_SIZE * 2^3 = 512`; the next `mem_alloc(40)` hands out this block, whose header
still says order 3. -/
theorem C10_free_block_misaligned :
    ∃ r h s1, run overlap_trace = some r ∧ Reach r.st r.live ∧
      r.returned.get? 5 = some h ∧ h ∈ r.live ∧ 56 + SIZE_T ≤ 100 ∧
      client_store r.st h 56 3 = some s1 ∧
      OnList s1 0 (heap_base + 65472) ∧ order_of s1 (heap_base + 65472) = some 3 ∧
      (heap_base + 65472 - heap_base) % (PAGE_SIZE * 2 ^ 3) ≠ 0 ∧
      ∃ g s2, mem_alloc s1 40 = some (g, s2) ∧ g ≠ NULL ∧
        block_of g = heap_base + 65472 ∧ order_of s2 (block_of g) = some 3 := by
  have h : (run overlap_trace).bind (fun r =>
      (client_store r.st (heap_base + 65408 + 8) 56 3).bind (fun s1 =>
        (mem_alloc s1 40).map (fun x =>
          ((r.returned.get? 5, r.live), (s1.free_area_struct_array 0,
            order_of s1 (heap_base + 65472)), x.1, order_of x.2 (block_of x.1)))))
      = some ((some (heap_base + 65408 + 8),
          [heap_base + 65408 + 8, heap_base + 65344 + 8, heap_base + 65280 + 8]),
          (heap_base + 65472, some 3), heap_base + 65472 + 8, some 3) := by decide
  cases hr : run overlap_trace with
  | none => simp [hr] at h
  | some r =>
    rw [hr, Option.some_bind] at h
    cases hs : client_store r.st (heap_base + 65408 + 8) 56 3 with
    | none => simp [hs] at h
    | some s1 =>
      rw [hs, Option.some_bind] at h
      cases ha : mem_alloc s1 40 with
      | none => simp [ha] at h
      | some x =>
        obtain ⟨g, s2⟩ := x
        simp only [ha, Option.map_some', Option.some.injEq, Prod.mk.injEq] at h
        obtain ⟨⟨h0, h1⟩, ⟨h2, h3⟩, h4, h5⟩ := h
        refine ⟨r, heap_base + 65408 + 8, s1, rfl, run_reach _ _ hr, h0, ?_, by decide, hs, ?_,
          h3, by decide, g, s2, ha, ?_, ?_, h5⟩
        · rw [h1]; decide
        · have := @OnList.head s1 0 (by decide) (by rw [h2]; decide)
          rwa [h2] at this
        · rw [h4]; decide
        · rw [h4]; decide

/-! ### The fallback path of `mem_realloc` -/

/-- The block returned by `merge` contains the block it was called on and has at
least its order. -/
theorem merge_fuel_contains : ∀ (fuel : Nat) (s s' : State) (b nb : Nat) (r : Int),
    PtrInv s → BlockPtr b → merge_fuel fuel s b r = some (s', nb) →
    s.heap b ≤ s'.heap nb ∧ nb ≤ b ∧
      b + size_of_order (s.heap b) ≤ nb + size_of_order (s'.heap nb) := by
  intro fuel
  induction fuel with
  | zero => intro s s' b nb r _ _ h; simp [merge_fuel] at h
  | succ fuel ih =>
    intro s s' b nb r hI hb h
    simp only [merge_fuel, order_of, load_blockptr hb, bind, Option.some_bind] at h
    split at h
    · simp only [Option.some.injEq, Prod.mk.injEq] at h
      obtain ⟨rfl, rfl⟩ := h
      exact ⟨le_refl _, le_refl _, le_refl _⟩
    · rw [get_block_size_blockptr hI hb] at h
      simp only [Option.some_bind, Option.bind_eq_some] at h
      obtain ⟨i, hi, pn, hpn, bit, _, h⟩ := h
      rw [get_page_number_blockptr hI hb, Option.some.injEq] at hpn
      subst hpn
      have ho1 : s.heap b + 1 ≤ ORDER_MAX := by
        simp only [get_gitmap_idx_parent, get_block_size_blockptr hI hb,
          get_page_number_blockptr hI hb, order_of, load_blockptr hb, bind, Option.some_bind] at hi
        by_contra hc
        simp [hc] at hi
      obtain ⟨hbud, hnew, hnewa⟩ := buddy_aligned hb (hI.hdr b hb) ho1
      cases bit with
      | false =>
        simp only [Bool.false_eq_true, if_false, Option.bind_eq_some, Option.some.injEq,
          Prod.mk.injEq] at h
        obtain ⟨s1, ht, rfl, rfl⟩ := h
        obtain ⟨_, m, _, _, rfl⟩ := toggle_parent_eq_some ht
        exact ⟨le_refl _, le_refl _, le_refl _⟩
      | true =>
        simp only [if_true, Option.bind_eq_some] at h
        obtain ⟨s1, ht, s2, hd, s3, hs3, h⟩ := h
        obtain ⟨_, m, _, _, rfl⟩ := toggle_parent_eq_some ht
        have hI1 : PtrInv { s with map := m } := hI.set_map m
        obtain ⟨s2', hd', hI2, hh2, _⟩ := delete_spec hI1 hbud
        rw [hd'] at hd
        simp only [Option.some.injEq] at hd
        subst hd
        have e : s2'.heap b = s.heap b := hh2 b hb
        have e2 : (s.heap b + 1) % 2 ^ 64 = s.heap b + 1 := by
          simp only [ORDER_MAX] at ho1
          omega
        rw [e, e2] at hs3
        have hI3 : PtrInv s3 := hI2.store_hdr hnew hnewa hs3
        obtain ⟨i1, i2, i3⟩ := ih _ _ _ _ _ hI3 hnew h
        have e3 : s3.heap (if (b - heap_base) / (1 <<< s.heap b * PAGE_SIZE) % 2 ≠ 0
            then b - 1 <<< s.heap b * PAGE_SIZE else b) = s.heap b + 1 := by
          obtain ⟨_, rfl⟩ := store_eq_some.mp hs3
          simp
        rw [e3] at i1 i3
        have e4 : size_of_order (s.heap b + 1) = 2 * size_of_order (s.heap b) := by
          simp only [size_of_order, pow_succ]; ring
        have e5 : 1 <<< s.heap b * PAGE_SIZE = size_of_order (s.heap b) := by
          simp only [size_of_order, Nat.one_shiftLeft]; ring
        rw [e4] at i3
        rw [e5] at i2 i3
        have hal := (hI.hdr b hb).2
        have hb1 := hb.1
        refine ⟨by omega, ?_, ?_⟩
        · split at i2 <;> omega
        · split at i3
          · rename_i hodd
            change (b - heap_base) % size_of_order (s.heap b) = 0 at hal
            have hge : size_of_order (s.heap b) ≤ b - heap_base := by
              by_contra hc
              rw [Nat.div_eq_of_lt (by omega)] at hodd
              simp at hodd
            omega
          · omega

/-- As long as the client stores nothing into its allocations, the fallback path of
`mem_realloc` releases the block: for every live pointer `P` of a state of `Reach` and
every `new_size` whose requested order is at most `ORDER_MAX`, when merging the block
of `P` upward stops at
a block `nb` of an order below the requested one and the fresh `mem_alloc(new_size)`
returns `NULL`, then `mem_realloc(P, new_size)` returns `NULL`, and in the resulting
state `nb`, which contains the block of `P`, is the head of the free list of its
order, with `prev = NULL` and `next` the former head of that list. -/
theorem realloc_fallback_releases (s : State) (L : List Nat) (P new_size : Nat)
    (s1 : State) (nb : Nat) (hR : Reach s L) (hP : P ∈ L)
    (hle : get_order new_size ≤ ORDER_MAX)
    (hm : merge s (block_of P) (get_order new_size) = some (s1, nb))
    (hlt : s1.heap nb < toSizeT (get_order new_size))
    (ha : ∃ s2, mem_alloc s1 new_size = some (NULL, s2)) :
    ∃ s', mem_realloc s P new_size = some (NULL, s') ∧
      s'.free_area_struct_array (s1.heap nb) = nb ∧ order_of s' nb = some (s1.heap nb) ∧
      prev_of s' nb = some NULL ∧
      next_of s' nb = some (s1.free_area_struct_array (s1.heap nb)) ∧
      nb ≤ block_of P ∧
      block_of P + size_of_order (s.heap (block_of P)) ≤ nb + size_of_order (s1.heap nb) := by
  obtain ⟨hI, hL⟩ := reach_inv hR
  have hb : BlockPtr (block_of P) := (hL P hP).2
  obtain ⟨hI1, hnb⟩ := merge_fuel_inv _ _ _ _ _ _ hI hb hm
  obtain ⟨c1, c2, c3⟩ := merge_fuel_contains _ _ _ _ _ _ hI hb hm
  obtain ⟨s2, hs2⟩ := ha
  obtain ⟨_, heq⟩ := (mem_alloc_null _ _ _).mp hs2
  rw [heq] at hs2
  obtain ⟨s', hins, hI', hhdr, _, hhead, _, hprev, hnext⟩ := insert_spec hI1 hnb
  have hne : ¬ toSizeT (get_order new_size) = s.heap (block_of P) := by omega
  have hgt : ¬ get_order new_size > ORDER_MAX := by omega
  refine ⟨s', ?_, hhead, ?_, ?_, ?_, c2, c3⟩
  · have hm' := hm
    have hb' := hb
    simp only [block_of] at hm' hb'
    simp only [block_of] at hne
    simp only [mem_realloc, bind, Option.bind_eq_some]
    refine ⟨_, get_block_size_blockptr hI hb', _, load_blockptr hb', ?_⟩
    rw [if_neg hne, if_neg hgt]
    simp only [Option.bind_eq_some]
    refine ⟨(s1, nb), hm', _, load_blockptr hnb, (NULL, s'), ?_, ?_⟩
    · rw [if_pos hlt]
      simp only [Option.bind_eq_some]
      exact ⟨(NULL, s1), hs2, s', hins, rfl⟩
    · simp
  · rw [order_of, load_blockptr hnb, hhdr nb hnb]
  · rw [prev_of, load_blockptr8 hnb, hprev]
  · rw [next_of, load_blockptr16 hnb, hnext]

set_option maxRecDepth 100000 in
theorem exhaust_reach : Reach exhaust_state exhaust_live := by
  have h : (run exhaust_trace).isSome = true := by decide
  cases hr : run exhaust_trace with
  | none => simp [hr] at h
  | some r =>
    have := run_reach _ _ hr
    simpa [exhaust_state, exhaust_live, hr] using this

set_option maxRecDepth 100000 in
theorem exhaust_merge :
    merge exhaust_state (block_of exhaust_ptr) (get_order 100) =
      some (exhaust_merged, block_of exhaust_ptr) := by
  have h : (merge exhaust_state (block_of exhaust_ptr) (get_order 100)).map Prod.snd =
      some (block_of exhaust_ptr) := by decide
  cases hm : merge exhaust_state (block_of exhaust_ptr) (get_order 100) with
  | none => simp [hm] at h
  | some x =>
    obtain ⟨s1, nb⟩ := x
    simp only [hm, Option.map_some', Option.some.injEq] at h
    subst h
    simp [exhaust_merged, hm]

set_option maxRecDepth 100000 in
/-- After the eleven allocations of `exhaust_trace` no block is free; `mem_realloc` of the first pointer to 100 bytes (order 1) cannot merge, cannot
allocate, returns `NULL` and leaves the one-page block of the pointer at the head of
the free list of order 0. -/
theorem realloc_fallback_releases_exhaust :
    Reach exhaust_state exhaust_live ∧ exhaust_ptr ∈ exhaust_live ∧
    get_order 100 ≤ ORDER_MAX ∧
    merge exhaust_state (block_of exhaust_ptr) (get_order 100) =
      some (exhaust_merged, block_of exhaust_ptr) ∧
    exhaust_merged.heap (block_of exhaust_ptr) < toSizeT (get_order 100) ∧
    (∃ s2, mem_alloc exhaust_merged 100 = some (NULL, s2)) ∧
    ∃ s', mem_realloc exhaust_state exhaust_ptr 100 = some (NULL, s') ∧
      s'.free_area_struct_array (exhaust_merged.heap (block_of exhaust_ptr)) =
        block_of exhaust_ptr ∧
      order_of s' (block_of exhaust_ptr) = some (exhaust_merged.heap (block_of exhaust_ptr)) ∧
      prev_of s' (block_of exhaust_ptr) = some NULL ∧
      next_of s' (block_of exhaust_ptr) = some (exhaust_merged.free_area_struct_array
        (exhaust_merged.heap (block_of exhaust_ptr))) ∧
      block_of exhaust_ptr ≤ block_of exhaust_ptr ∧
      block_of exhaust_ptr + size_of_order (exhaust_state.heap (block_of exhaust_ptr)) ≤
        block_of exhaust_ptr + size_of_order (exhaust_merged.heap (block_of exhaust_ptr)) := by
  have h2 : exhaust_ptr ∈ exhaust_live := by decide
  have h3 : get_order 100 ≤ ORDER_MAX := by decide
  have h5 : exhaust_merged.heap (block_of exhaust_ptr) < toSizeT (get_order 100) := by decide
  have h6 : ∃ s2, mem_alloc exhaust_merged 100 = some (NULL, s2) :=
    ⟨exhaust_merged, (mem_alloc_null _ _ _).mpr ⟨by decide, rfl⟩⟩
  exact ⟨exhaust_reach, h2, h3, exhaust_merge, h5, h6,
    realloc_fallback_releases exhaust_state exhaust_live exhaust_ptr 100 exhaust_merged
      (block_of exhaust_ptr) exhaust_reach h2 h3 exhaust_merge h5 h6⟩

set_option maxRecDepth 100000 in
/-- C9 (resize fallback failure releases the block), evaluated on the code: after the
calls of `stale_link_trace` the free page at offset 65472 lies inside the free two-page
block that serves `h = mem_alloc(100)`.  The client stores the word 1 at byte offset 72
of `h`, inside the 100 bytes it asked for; the word is the `next` link of the free
page.  `g = mem_alloc(40)` then serves that page and makes its `next` link, 1, the head
of the free list of order 0.  For the live pointer `e` (a one-page block) and
`new_size = 40000` (order 10) every condition of the claim holds: merging the block of
`e` stops at once, at order 0, and the fresh `mem_alloc(40000)` returns `NULL`.  But
`insert` of the block of `e` stores through the list head 1, which is no address of
`heap`: `mem_realloc(e, 40000)` has undefined behaviour and neither returns `NULL` nor
puts the block on its free list. -/
theorem C9_realloc_fallback_undefined :
    ∃ r h e s1 g s2, run overlap_trace = some r ∧ Reach r.st r.live ∧
      r.returned.get? 5 = some h ∧ r.returned.get? 4 = some e ∧ h ∈ r.live ∧ e ∈ r.live ∧
      e ≠ h ∧ 72 + SIZE_T ≤ 100 ∧
      client_store r.st h 72 1 = some s1 ∧
      mem_alloc s1 40 = some (g, s2) ∧ g ≠ NULL ∧ g ≠ e ∧ s2.free_area_struct_array 0 = 1 ∧
      get_order 40000 ≤ ORDER_MAX ∧ get_order (adjust_size 40000) ≤ ORDER_MAX ∧
      ∃ s3 nb, merge s2 (block_of e) (get_order 40000) = some (s3, nb) ∧
        nb = block_of e ∧ order_of s3 nb = some 0 ∧ 0 < toSizeT (get_order 40000) ∧
        mem_alloc s3 40000 = some (NULL, s3) ∧
        insert s3 nb = none ∧ mem_realloc s2 e 40000 = none := by
  have h : (run overlap_trace).bind (fun r =>
      (client_store r.st (heap_base + 65408 + 8) 72 1).bind (fun s1 =>
        (mem_alloc s1 40).bind (fun x =>
          (merge x.2 (heap_base + 65344) (get_order 40000)).map (fun y =>
            ((r.returned, r.live), (x.1, x.2.free_area_struct_array 0),
              (y.2, order_of y.1 y.2))))))
      = some (([heap_base + 65472 + 8, heap_base + 65408 + 8, heap_base + 65344 + 8,
            heap_base + 65280 + 8, heap_base + 65344 + 8, heap_base + 65408 + 8],
          [heap_base + 65408 + 8, heap_base + 65344 + 8, heap_base + 65280 + 8]),
          (heap_base + 65472 + 8, 1), (heap_base + 65344, some 0)) := by
    decide
  have h' : (run overlap_trace).bind (fun r =>
      (client_store r.st (heap_base + 65408 + 8) 72 1).bind (fun s1 =>
        (mem_alloc s1 40).bind (fun x =>
          (merge x.2 (heap_base + 65344) (get_order 40000)).map (fun y =>
            (decide (find_block y.1 (ORDER_MAX + 2) (get_order (adjust_size 40000)) = some none),
              (insert y.1 y.2).isSome,
              (mem_realloc x.2 (heap_base + 65344 + 8) 40000).isSome)))))
      = some (true, false, false) := by
    decide
  cases hr : run overlap_trace with
  | none => simp [hr] at h
  | some r =>
    rw [hr, Option.some_bind] at h h'
    cases hs : client_store r.st (heap_base + 65408 + 8) 72 1 with
    | none => simp [hs] at h
    | some s1 =>
      rw [hs, Option.some_bind] at h h'
      cases ha : mem_alloc s1 40 with
      | none => simp [ha] at h
      | some x =>
        obtain ⟨g, s2⟩ := x
        rw [ha, Option.some_bind] at h h'
        cases hm : merge s2 (heap_base + 65344) (get_order 40000) with
        | none => simp [hm] at h
        | some y =>
          obtain ⟨s3, nb⟩ := y
          simp only [hm, Option.map_some', Option.some.injEq, Prod.mk.injEq] at h h'
          obtain ⟨⟨h0, h1⟩, ⟨h2, h3⟩, ⟨h4, h5⟩⟩ := h
          obtain ⟨h6, h7, h8⟩ := h'
          refine ⟨r, heap_base + 65408 + 8, heap_base + 65344 + 8, s1, g, s2, rfl,
            run_reach _ _ hr, ?_, ?_, ?_, ?_, by decide, by decide, hs, ha, ?_, ?_, h3,
            by decide, by decide, s3, nb, hm, ?_, h5, by decide, ?_, ?_, ?_⟩
          · rw [h0]; rfl
          · rw [h0]; rfl
          · rw [h1]; decide
          · rw [h1]; decide
          · rw [h2]; decide
          · rw [h2]; decide
          · rw [h4]; decide
          · exact (mem_alloc_null _ _ _).mpr ⟨of_decide_eq_true h6, rfl⟩
          · simpa using h7
          · simpa using h8

/-! ### Doubly-linked free lists -/

/-- A chain depends only on the link words of its blocks. -/
theorem Chain.frame {s s' : State} : ∀ (L : List Nat) (p c : Nat), Chain s p c L →
    (∀ b ∈ L, s'.heap (b + 8) = s.heap (b + 8) ∧ s'.heap (b + 16) = s.heap (b + 16)) →
    Chain s' p c L := by
  intro L
  induction L with
  | nil => intro p c h _; exact h
  | cons b bs ih =>
    intro p c h hf
    obtain ⟨h1, h2, h3⟩ := h
    obtain ⟨f1, f2⟩ := hf b (List.mem_cons_self _ _)
    refine ⟨h1, by rw [f1, h2], ?_⟩
    rw [f2]
    exact ih _ _ h3 (fun x hx => hf x (List.mem_cons_of_mem _ hx))

/-- The head pointer of a chain is `NULL` exactly when the list is empty (for a list
of block pointers). -/
theorem Chain.head_null {s : State} {p c : Nat} {L : List Nat} (h : Chain s p c L)
    (hb : ∀ b ∈ L, BlockPtr b) : c = NULL ↔ L = [] := by
  cases L with
  | nil => exact ⟨fun _ => rfl, fun _ => h⟩
  | cons b bs =>
    obtain ⟨h1, _, _⟩ := h
    constructor
    · intro hc
      exact absurd (h1 ▸ hc) (hb b (List.mem_cons_self _ _)).ne_null
    · intro hc; simp at hc

/-- Links of the block `b` inside a chain `L1 ++ b :: L2`: its `prev` is the last
block of `L1` (the incoming `prev` when `L1` is empty), its `next` the first block of
`L2` (`NULL` when `L2` is empty). -/
theorem Chain.links {s : State} : ∀ (L1 L2 : List Nat) (b p c : Nat),
    Chain s p c (L1 ++ b :: L2) →
    s.heap (b + 8) = L1.getLast?.getD p ∧ s.heap (b + 16) = L2.head?.getD NULL := by
  intro L1
  induction L1 with
  | nil =>
    intro L2 b p c h
    obtain ⟨_, h2, h3⟩ := h
    refine ⟨by simpa using h2, ?_⟩
    cases L2 with
    | nil => simpa using h3
    | cons n L2 => simpa using h3.1
  | cons a L1 ih =>
    intro L2 b p c h
    obtain ⟨_, _, h3⟩ := h
    obtain ⟨i1, i2⟩ := ih L2 b a _ h3
    refine ⟨?_, i2⟩
    rw [i1]
    cases L1 with
    | nil => simp
    | cons a' L1' =>
      have e : ∀ d, ((a' :: L1').getLast?).getD d = (a' :: L1').getLast (by simp) := by
        intro d; rw [List.getLast?_eq_getLast _ (by simp)]; rfl
      rw [e, List.getLast?_cons_cons, e]

/-- Complete description of `insert` under the pointer discipline. -/
theorem insert_full {s : State} {b : Nat} (hI : PtrInv s) (hb : BlockPtr b) :
    ∃ s', insert s b = some s' ∧ PtrInv s' ∧ s'.map = s.map ∧
      (∀ j, s'.free_area_struct_array j = if j = s.heap b then b else s.free_area_struct_array j) ∧
      (∀ x, s'.heap x = if x = b + 8 then NULL else
        if x = b + 16 then s.free_area_struct_array (s.heap b) else
        if s.free_area_struct_array (s.heap b) ≠ NULL ∧ x = s.free_area_struct_array (s.heap b) + 8
          then b else s.heap x) := by
  have ho := (hI.hdr b hb).1
  have hfh := hI.head _ ho
  obtain ⟨e1, e2, e3, e4⟩ := hb.fields_ne hb
  by_cases hn : s.free_area_struct_array (s.heap b) = NULL
  · refine ⟨with_head (write (write s (b + 16) NULL) (b + 8) NULL) (s.heap b) b, ?_, ?_, rfl,
      fun j => by simp, fun x => ?_⟩
    · simp [insert, order_of, load_blockptr hb, get_head, ho, hn, set_next, set_prev,
        store_blockptr16 _ hb, store_blockptr8 _ hb, e1, e2, set_head_le _ ho]
    · exact ((hI.store_next hb ptrOrNull_null (store_blockptr16 _ hb)).store_prev hb
        ptrOrNull_null (store_blockptr8 _ hb)).set_head (Or.inr hb) (set_head_le _ ho)
    · simp only [with_head_heap, write_heap, hn, ne_eq, not_true_eq_false, false_and, if_false]
  · have hf : BlockPtr (s.free_area_struct_array (s.heap b)) := hfh.resolve_left hn
    obtain ⟨g1, g2, g3, g4⟩ := hb.fields_ne hf
    refine ⟨with_head (write (write (write s (s.free_area_struct_array (s.heap b) + 8) b)
      (b + 16) (s.free_area_struct_array (s.heap b))) (b + 8) NULL) (s.heap b) b,
      ?_, ?_, rfl, fun j => by simp, fun x => ?_⟩
    · simp [insert, order_of, load_blockptr hb, get_head, ho, hn, set_next, set_prev,
        store_blockptr16 _ hb, store_blockptr8 _ hb, store_blockptr8 _ hf, e1, e2, g1,
        set_head_le _ ho]
    · exact (((hI.store_prev hf (Or.inr hb) (store_blockptr8 _ hf)).store_next hb (Or.inr hf)
        (store_blockptr16 _ hb)).store_prev hb ptrOrNull_null (store_blockptr8 _ hb)).set_head
        (Or.inr hb) (set_head_le _ ho)
    · simp only [with_head_heap, write_heap, ne_eq, hn, not_false_eq_true, true_and]

/-- Complete description of `delete` under the pointer discipline. -/
theorem delete_full {s : State} {b : Nat} (hI : PtrInv s) (hb : BlockPtr b) :
    ∃ s', delete s b = some s' ∧ PtrInv s' ∧ s'.map = s.map ∧
      (∀ j, s'.free_area_struct_array j =
        if s.heap (b + 8) = NULL ∧ j = s.heap b then s.heap (b + 16)
        else s.free_area_struct_array j) ∧
      (∀ x, s'.heap x =
        if s.heap (b + 8) ≠ NULL ∧ x = s.heap (b + 8) + 16 then s.heap (b + 16) else
        if s.heap (b + 16) ≠ NULL ∧ x = s.heap (b + 16) + 8 then s.heap (b + 8) else s.heap x) := by
  have ho := (hI.hdr b hb).1
  have hp := hI.lprev b hb
  have hx := hI.lnext b hb
  by_cases hpn : s.heap (b + 8) = NULL
  · by_cases hxn : s.heap (b + 16) = NULL
    · refine ⟨with_head s (s.heap b) NULL, ?_, ?_, rfl, fun j => ?_, fun x => ?_⟩
      · simp [delete, prev_of, next_of, order_of, load_blockptr hb, load_blockptr8 hb,
          load_blockptr16 hb, hpn, hxn, set_head_le _ ho]
      · exact hI.set_head ptrOrNull_null (set_head_le _ ho)
      · simp [hpn, hxn]
      · simp [hpn, hxn]
    · have hxb : BlockPtr (s.heap (b + 16)) := hx.resolve_left hxn
      obtain ⟨g1, g2, g3, g4⟩ := hb.fields_ne hxb
      refine ⟨with_head (write s (s.heap (b + 16) + 8) NULL) (s.heap b) (s.heap (b + 16)),
        ?_, ?_, rfl, fun j => ?_, fun x => ?_⟩
      · simp [delete, prev_of, next_of, order_of, load_blockptr hb, load_blockptr8 hb,
          load_blockptr16 hb, hpn, hxn, set_prev, store_blockptr8 _ hxb, g1, set_head_le _ ho]
      · exact (hI.store_prev hxb ptrOrNull_null (store_blockptr8 _ hxb)).set_head (Or.inr hxb)
          (set_head_le _ ho)
      · simp [hpn]
      · simp [hpn, hxn]
  · have hpb : BlockPtr (s.heap (b + 8)) := hp.resolve_left hpn
    by_cases hxn : s.heap (b + 16) = NULL
    · refine ⟨write s (s.heap (b + 8) + 16) NULL, ?_, ?_, rfl, fun j => ?_, fun x => ?_⟩
      · simp [delete, prev_of, next_of, load_blockptr8 hb, load_blockptr16 hb, hpn, hxn,
          set_next, store_blockptr16 _ hpb]
      · exact hI.store_next hpb ptrOrNull_null (store_blockptr16 _ hpb)
      · simp [hpn]
      · simp [hpn, hxn]
    · have hxb : BlockPtr (s.heap (b + 16)) := hx.resolve_left hxn
      obtain ⟨g1, g2, g3, g4⟩ := hpb.fields_ne hxb
      refine ⟨write (write s (s.heap (b + 8) + 16) (s.heap (b + 16))) (s.heap (b + 16) + 8)
        (s.heap (b + 8)), ?_, ?_, rfl, fun j => ?_, fun x => ?_⟩
      · simp [delete, prev_of, next_of, load_blockptr8 hb, load_blockptr16 hb, hpn, hxn,
          set_next, set_prev, store_blockptr16 _ hpb, store_blockptr8 _ hxb]
      · exact (hI.store_next hpb (Or.inr hxb) (store_blockptr16 _ hpb)).store_prev hxb
          (Or.inr hpb) (store_blockptr8 _ hxb)
      · simp [hpn]
      · simp only [write_heap, ne_eq, hpn, not_false_eq_true, true_and, hxn]
        by_cases c1 : x = s.heap (b + 8) + 16
        · have : x ≠ s.heap (b + 16) + 8 := by rw [c1]; exact g4
          simp [c1, this, g4]
        · simp [c1]

/-- Effect of the heap writes of `insert` on the list the block is put on: the block
becomes the first block of the chain. -/
theorem Chain.insert {s s' : State} {b c : Nat} {L : List Nat} (h : Chain s NULL c L)
    (hL : ∀ x ∈ L, BlockPtr x) (hn : L.Nodup) (hb : BlockPtr b) (hbL : b ∉ L)
    (hh : ∀ x, s'.heap x = if x = b + 8 then NULL else if x = b + 16 then c else
      if c ≠ NULL ∧ x = c + 8 then b else s.heap x) :
    Chain s' NULL b (b :: L) := by
  obtain ⟨e1, e2, e3, e4⟩ := hb.fields_ne hb
  refine ⟨rfl, by rw [hh]; simp, ?_⟩
  have e : s'.heap (b + 16) = c := by rw [hh]; simp [e4]
  rw [e]
  cases L with
  | nil => exact h
  | cons f L' =>
    obtain ⟨h1, h2, h3⟩ := h
    subst h1
    have hf := hL c (List.mem_cons_self _ _)
    have hcb : c ≠ b := fun hc => hbL (hc ▸ List.mem_cons_self _ _)
    obtain ⟨g1, g2, g3, g4⟩ := hf.fields_ne hb
    obtain ⟨k1, k2, k3, k4⟩ := hf.fields_ne hf
    refine ⟨rfl, ?_, ?_⟩
    · rw [hh]
      have : c + 8 ≠ b + 8 := by omega
      simp [this, g3, hf.ne_null]
    · have e16 : s'.heap (c + 16) = s.heap (c + 16) := by
        rw [hh]
        have : c + 16 ≠ b + 16 := by omega
        simp [g4, this, k4]
      rw [e16]
      refine Chain.frame _ _ _ h3 (fun x hx => ?_)
      have hxb : BlockPtr x := hL x (List.mem_cons_of_mem _ hx)
      have hxne : x ≠ b := fun hc => hbL (hc ▸ List.mem_cons_of_mem _ hx)
      have hxc : x ≠ c := fun hc => (List.nodup_cons.mp hn).1 (hc ▸ hx)
      obtain ⟨m1, m2, m3, m4⟩ := hxb.fields_ne hb
      obtain ⟨n1, n2, n3, n4⟩ := hxb.fields_ne hf
      constructor
      · rw [hh]
        have a1 : x + 8 ≠ b + 8 := by omega
        have a2 : x + 8 ≠ c + 8 := by omega
        simp [a1, m3, a2]
      · rw [hh]
        have a1 : x + 16 ≠ b + 16 := by omega
        simp [a1, m4, n4]

/-- Effect of the heap writes of `delete` on the chain that holds the block: the block
is unlinked and the other blocks keep their order. -/
theorem Chain.delete {s s' : State} {b : Nat} : ∀ (L1 L2 : List Nat) (q c : Nat),
    Chain s q c (L1 ++ b :: L2) → (∀ x ∈ L1 ++ b :: L2, BlockPtr x) →
    (L1 ++ b :: L2).Nodup → (q = NULL ∨ (BlockPtr q ∧ q ∉ L1 ++ b :: L2)) →
    (∀ x, s'.heap x =
      if s.heap (b + 8) ≠ NULL ∧ x = s.heap (b + 8) + 16 then s.heap (b + 16) else
      if s.heap (b + 16) ≠ NULL ∧ x = s.heap (b + 16) + 8 then s.heap (b + 8) else s.heap x) →
    Chain s' q (if L1 = [] then s.heap (b + 16) else c) (L1 ++ L2) := by
  intro L1
  induction L1 with
  | nil =>
    intro L2 q c h hL hn hq hh
    simp only [List.nil_append, if_true] at *
    obtain ⟨h1, h2, h3⟩ := h
    cases L2 with
    | nil => exact h3
    | cons n L2' =>
      obtain ⟨k1, k2, k3⟩ := h3
      have hbb := hL b (List.mem_cons_self _ _)
      have hnb := hL n (List.mem_cons_of_mem _ (List.mem_cons_self _ _))
      have hnn : n ≠ NULL := hnb.ne_null
      have hqn : s.heap (b + 8) ≠ NULL → BlockPtr q ∧ q ≠ n ∧ ∀ x ∈ L2', x ≠ q := by
        intro hc
        rw [h2] at hc
        rcases hq with hq | ⟨hq1, hq2⟩
        · exact absurd hq hc
        · refine ⟨hq1, fun e => hq2 (e ▸ List.mem_cons_of_mem _ (List.mem_cons_self _ _)), ?_⟩
          intro x hx e
          exact hq2 (e ▸ List.mem_cons_of_mem _ (List.mem_cons_of_mem _ hx))
      rw [k1] at hh ⊢
      refine ⟨rfl, ?_, ?_⟩
      · rw [hh, h2]
        by_cases hc : q = NULL
        · simp [hc, hnn]
        · have := (hqn (by rw [h2]; exact hc)).1
          obtain ⟨_, _, _, g4⟩ := this.fields_ne hnb
          have : n + 8 ≠ q + 16 := fun e => g4 e.symm
          simp [hc, this, hnn]
      · have e16 : s'.heap (n + 16) = s.heap (n + 16) := by
          rw [hh, h2]
          obtain ⟨_, _, _, g4⟩ := hnb.fields_ne hnb
          by_cases hc : q = NULL
          · simp [hc, g4]
          · obtain ⟨_, hqn', _⟩ := hqn (by rw [h2]; exact hc)
            have : n + 16 ≠ q + 16 := by omega
            simp [this, g4]
        rw [e16]
        refine Chain.frame _ _ _ k3 (fun x hx => ?_)
        have hxb : BlockPtr x :=
          hL x (List.mem_cons_of_mem _ (List.mem_cons_of_mem _ hx))
        have hxn : x ≠ n := by
          intro e
          have := (List.nodup_cons.mp (List.nodup_cons.mp hn).2).1
          exact this (e ▸ hx)
        obtain ⟨_, _, m3, m4⟩ := hxb.fields_ne hnb
        constructor
        · rw [hh, h2]
          have a2 : x + 8 ≠ n + 8 := by omega
          by_cases hc : q = NULL
          · simp [hc, a2]
          · obtain ⟨hqb, _, _⟩ := hqn (by rw [h2]; exact hc)
            obtain ⟨_, _, z3, _⟩ := hxb.fields_ne hqb
            simp [z3, a2]
        · rw [hh, h2]
          by_cases hc : q = NULL
          · simp [hc, m4]
          · obtain ⟨hqb, _, hqx⟩ := hqn (by rw [h2]; exact hc)
            have : x + 16 ≠ q + 16 := by
              have := hqx x hx
              omega
            simp [this, m4]
  | cons a L1 ih =>
    intro L2 q c h hL hn hq hh
    obtain ⟨h1, h2, h3⟩ := h
    have hab := hL a (List.mem_cons_self _ _)
    have hn' := List.nodup_cons.mp hn
    have hbb : BlockPtr b := hL b (List.mem_cons_of_mem _ (by simp))
    have IH := ih L2 a (s.heap (a + 16)) h3 (fun x hx => hL x (List.mem_cons_of_mem _ hx))
      hn'.2 (Or.inr ⟨hab, hn'.1⟩) hh
    obtain ⟨l1, l2⟩ := Chain.links L1 L2 b a _ h3
    have hnext : s.heap (b + 16) ≠ NULL → s.heap (b + 16) ≠ a ∧ BlockPtr (s.heap (b + 16)) := by
      intro hc
      cases L2 with
      | nil => simp at l2; exact absurd l2 hc
      | cons n L2' =>
        simp at l2
        rw [l2]
        refine ⟨fun e => hn'.1 (by rw [← e]; simp), hL n (by simp)⟩
    have hprev : s.heap (b + 8) ≠ NULL ∧ BlockPtr (s.heap (b + 8)) ∧
        (s.heap (b + 8) = a ↔ L1 = []) := by
      rw [l1]
      cases L1 with
      | nil => simp; exact ⟨hab.ne_null, hab⟩
      | cons a' L1' =>
        have e : ((a' :: L1').getLast?).getD a = (a' :: L1').getLast (by simp) := by
          rw [List.getLast?_eq_getLast _ (by simp)]; rfl
        rw [e]
        have hm : (a' :: L1').getLast (by simp) ∈ a' :: L1' := List.getLast_mem _
        have hbp := hL _ (List.mem_cons_of_mem a (List.mem_append_left _ hm))
        refine ⟨hbp.ne_null, hbp, ?_⟩
        simp only [reduceCtorEq, iff_false]
        intro e2
        exact hn'.1 (List.mem_append_left _ (e2 ▸ hm))
    simp only [List.cons_append, reduceCtorEq, if_false]
    refine ⟨h1, ?_, ?_⟩
    · rw [hh, h2]
      obtain ⟨hp1, hp2, _⟩ := hprev
      obtain ⟨_, _, g3, _⟩ := hab.fields_ne hp2
      by_cases hc : s.heap (b + 16) = NULL
      · simp [g3, hc]
      · obtain ⟨hne, _⟩ := hnext hc
        have : a + 8 ≠ s.heap (b + 16) + 8 := by omega
        simp [g3, this]
    · have e16 : s'.heap (a + 16) = if L1 = [] then s.heap (b + 16) else s.heap (a + 16) := by
        rw [hh]
        obtain ⟨hp1, hp2, hp3⟩ := hprev
        by_cases hl : L1 = []
        · have hpa := hp3.mpr hl
          rw [if_pos ⟨hp1, by rw [hpa]⟩, if_pos hl]
        · have hne : s.heap (b + 8) ≠ a := fun e => hl (hp3.mp e)
          have a1 : a + 16 ≠ s.heap (b + 8) + 16 := by omega
          by_cases hc : s.heap (b + 16) = NULL
          · simp [hl, a1, hc]
          · obtain ⟨_, hnb⟩ := hnext hc
            obtain ⟨_, _, _, g4⟩ := hab.fields_ne hnb
            simp [hl, a1, g4]
      rw [e16]
      exact IH

/-! ### Bitmap indices -/

theorem size_of_order_pos (k : Nat) : 0 < size_of_order k := by
  simp only [size_of_order, PAGE_SIZE]
  have : 0 < 2 ^ k := Nat.two_pow_pos k
  omega

theorem size_of_order_succ (k : Nat) : size_of_order (k + 1) = 2 * size_of_order k := by
  simp only [size_of_order, pow_succ]; ring

theorem shift_size (k : Nat) : (1 <<< k) * PAGE_SIZE = size_of_order k := by
  simp only [size_of_order, Nat.one_shiftLeft]; ring

theorem two_pow_mul_page (k : Nat) : 2 ^ k * PAGE_SIZE = size_of_order k := by
  simp only [size_of_order]; ring

theorem aligned_iff {b k : Nat} :
    Aligned b k ↔ k ≤ ORDER_MAX ∧ (b - heap_base) % size_of_order k = 0 := Iff.rfl

/-- Number of blocks of order `k` in the arena times the block size. -/
theorem size_mul_count (k : Nat) (hk : k ≤ ORDER_MAX) :
    size_of_order k * 2 ^ (ORDER_MAX - k) = HEAP_SIZE := by
  simp only [size_of_order, heap_size_eq, PAGE_SIZE, ORDER_MAX] at *
  rw [Nat.mul_assoc, ← pow_add]
  have : k + (10 - k) = 10 := by omega
  rw [this]
  norm_num

/-- Range of the bitmap indices of the nodes of order `k`. -/
theorem bidx_range {k b : Nat} (hb : BlockPtr b) (ha : Aligned b k) :
    2 ^ (ORDER_MAX - k) ≤ bidx k b + 1 ∧ bidx k b + 2 ≤ 2 ^ (ORDER_MAX - k + 1) := by
  obtain ⟨b1, b2, _⟩ := hb
  have hpos := size_of_order_pos k
  have hc := size_mul_count k ha.1
  have hlt : (b - heap_base) / size_of_order k < 2 ^ (ORDER_MAX - k) := by
    rw [Nat.div_lt_iff_lt_mul hpos, Nat.mul_comm, hc]
    omega
  have h2 : 0 < 2 ^ (ORDER_MAX - k) := Nat.two_pow_pos _
  simp only [bidx, pow_succ]
  generalize (b - heap_base) / size_of_order k = f at *
  generalize 2 ^ (ORDER_MAX - k) = p at *
  omega

/-- The bitmap index of a node of order at least 1 is inside the bitmap. -/
theorem bidx_lt {k b : Nat} (hb : BlockPtr b) (ha : Aligned b k) (hk : 1 ≤ k) :
    bidx k b < MAP_BITS := by
  obtain ⟨_, h2⟩ := bidx_range hb ha
  have : 2 ^ (ORDER_MAX - k + 1) ≤ 2 ^ ORDER_MAX :=
    Nat.pow_le_pow_right (by norm_num) (by have := ha.1; omega)
  have e : MAP_BITS = 2 ^ ORDER_MAX - 1 := by simp [MAP_BITS, Nat.one_shiftLeft]
  rw [e]
  omega

/-- Distinct nodes have distinct bitmap indices. -/
theorem bidx_inj {k k' b b' : Nat} (hb : BlockPtr b) (ha : Aligned b k) (hb' : BlockPtr b')
    (ha' : Aligned b' k') (h : bidx k b = bidx k' b') : k = k' ∧ b = b' := by
  obtain ⟨r1, r2⟩ := bidx_range hb ha
  obtain ⟨r1', r2'⟩ := bidx_range hb' ha'
  have hk : k = k' := by
    by_contra hne
    rcases Nat.lt_or_gt_of_ne hne with hlt | hlt
    · have : 2 ^ (ORDER_MAX - k' + 1) ≤ 2 ^ (ORDER_MAX - k) :=
        Nat.pow_le_pow_right (by norm_num) (by have := ha'.1; omega)
      omega
    · have : 2 ^ (ORDER_MAX - k + 1) ≤ 2 ^ (ORDER_MAX - k') :=
        Nat.pow_le_pow_right (by norm_num) (by have := ha.1; omega)
      omega
  subst hk
  refine ⟨rfl, ?_⟩
  have h2 : 0 < 2 ^ (ORDER_MAX - k) := Nat.two_pow_pos _
  have hd : (b - heap_base) / size_of_order k = (b' - heap_base) / size_of_order k := by
    simp only [bidx] at h
    generalize (b - heap_base) / size_of_order k = f at *
    generalize (b' - heap_base) / size_of_order k = f' at *
    generalize 2 ^ (ORDER_MAX - k) = p at *
    omega
  have e1 := Nat.div_add_mod (b - heap_base) (size_of_order k)
  have e2 := Nat.div_add_mod (b' - heap_base) (size_of_order k)
  have a2 : (b - heap_base) % size_of_order k = 0 := ha.2
  have a2' : (b' - heap_base) % size_of_order k = 0 := ha'.2
  rw [a2] at e1
  rw [a2', ← hd] at e2
  have := hb.1
  have := hb'.1
  omega

/-- The bitmap index computed by `get_gitmap_idx`. -/
theorem get_gitmap_idx_eq {s : State} {b : Nat} (hI : PtrInv s) (hb : BlockPtr b) :
    get_gitmap_idx s b = some (bidx (s.heap b) b) := by
  have ho := (hI.hdr b hb).1
  simp only [get_gitmap_idx, get_page_number_blockptr hI hb, order_of, load_blockptr hb, bind,
    Option.some_bind, ho, if_true, bidx, Nat.one_shiftLeft, two_pow_mul_page]

/-- The parent of the block at `b` of order `k`: the block of order `k + 1` that
contains it. -/
theorem parent_cases {b k : Nat} (hb : BlockPtr b) (ha : Aligned b k) (hk : k < ORDER_MAX) :
    ((b - heap_base) / size_of_order k % 2 = 0 ∧ BlockPtr (b + size_of_order k) ∧
      Aligned b (k + 1)) ∨
    ((b - heap_base) / size_of_order k % 2 = 1 ∧ size_of_order k ≤ b - heap_base ∧
      BlockPtr (b - size_of_order k) ∧ Aligned (b - size_of_order k) (k + 1)) := by
  have h := buddy_aligned hb ha (by omega : k + 1 ≤ ORDER_MAX)
  simp only [shift_size] at h
  obtain ⟨h1, h2, h3⟩ := h
  rcases Nat.mod_two_eq_zero_or_one ((b - heap_base) / size_of_order k) with he | ho
  · left
    simp only [he, ne_eq, not_true_eq_false, if_false] at h1 h3
    exact ⟨he, h1, h3⟩
  · right
    simp only [ho, ne_eq, one_ne_zero, not_false_eq_true, if_true] at h1 h3
    refine ⟨ho, ?_, h1, h3⟩
    by_contra hc
    rw [Nat.div_eq_of_lt (by omega)] at ho
    simp at ho

/-- The bitmap index computed by `get_gitmap_idx_parent` is the index of the parent
node. -/
theorem get_gitmap_idx_parent_eq {s : State} {b : Nat} (hI : PtrInv s) (hb : BlockPtr b)
    (hk : s.heap b < ORDER_MAX) :
    get_gitmap_idx_parent s b = some (bidx (s.heap b + 1)
      (if (b - heap_base) / size_of_order (s.heap b) % 2 ≠ 0 then b - size_of_order (s.heap b)
        else b)) := by
  have hk' : s.heap b + 1 ≤ ORDER_MAX := hk
  simp only [get_gitmap_idx_parent, get_block_size_blockptr hI hb, get_page_number_blockptr hI hb,
    order_of, load_blockptr hb, bind, Option.some_bind, hk', if_true, bidx,
    Nat.one_shiftLeft, two_pow_mul_page]

/-! ### Buddies -/

/-- Parent and buddy of the block at `b` of order `k < ORDER_MAX`, as `merge` computes
them: the parent `P` is a node of order `k + 1`, and the block and its buddy are the
two halves of `P`. -/
theorem parent_buddy {b k : Nat} (hb : BlockPtr b) (ha : Aligned b k) (hk : k < ORDER_MAX) :
    ∃ P buddy, BlockPtr P ∧ Aligned P (k + 1) ∧ BlockPtr buddy ∧
      P = (if (b - heap_base) / size_of_order k % 2 ≠ 0 then b - size_of_order k else b) ∧
      buddy = (if (b - heap_base) / size_of_order k % 2 ≠ 0 then b - size_of_order k
        else b + size_of_order k) ∧
      ((b = P ∧ buddy = P + size_of_order k) ∨ (b = P + size_of_order k ∧ buddy = P)) := by
  rcases parent_cases hb ha hk with ⟨he, h1, h2⟩ | ⟨ho, hge, h1, h2⟩
  · refine ⟨b, b + size_of_order k, hb, h2, h1, by simp [he], by simp [he], Or.inl ⟨rfl, rfl⟩⟩
  · refine ⟨b - size_of_order k, b - size_of_order k, h1, h2, h1, by simp [ho], by simp [ho],
      Or.inr ⟨?_, rfl⟩⟩
    have := hb.1
    omega

/-- A node of order `k + 1` one of whose halves is a half of the node `P` of order
`k + 1` is `P`. -/
theorem node_of_half {c P x k : Nat} (hc : Aligned c (k + 1)) (hP : Aligned P (k + 1))
    (hcb : heap_base ≤ c) (hPb : heap_base ≤ P)
    (hx : x = P ∨ x = P + size_of_order k) (h : c = x ∨ c + size_of_order k = x) : c = P := by
  obtain ⟨c1, c2⟩ := hc
  obtain ⟨p1, p2⟩ := hP
  have hpos := size_of_order_pos k
  change (c - heap_base) % size_of_order (k + 1) = 0 at c2
  change (P - heap_base) % size_of_order (k + 1) = 0 at p2
  rw [size_of_order_succ] at c2 p2
  have e1 := Nat.div_add_mod (c - heap_base) (2 * size_of_order k)
  have e2 := Nat.div_add_mod (P - heap_base) (2 * size_of_order k)
  rw [c2] at e1
  rw [p2] at e2
  generalize (c - heap_base) / (2 * size_of_order k) = qc at e1
  generalize (P - heap_base) / (2 * size_of_order k) = qp at e2
  generalize size_of_order k = S at *
  have key : qc = qp := by
    rcases Nat.lt_trichotomy qc qp with hlt | heq | hgt
    · have : 2 * S * (qc + 1) ≤ 2 * S * qp := Nat.mul_le_mul_left _ hlt
      rw [Nat.mul_add] at this
      rcases hx with rfl | rfl <;> rcases h with h | h <;> omega
    · exact heq
    · have : 2 * S * (qp + 1) ≤ 2 * S * qc := Nat.mul_le_mul_left _ hgt
      rw [Nat.mul_add] at this
      rcases hx with rfl | rfl <;> rcases h with h | h <;> omega
  subst key
  omega

/-! ### The invariant under the steps of `mem_free` -/

theorem Chain.head_mem {s : State} {p c : Nat} {L : List Nat} (h : Chain s p c L)
    (hc : c ≠ NULL) : c ∈ L := by
  cases L with
  | nil => exact absurd h hc
  | cons b bs => rw [h.1]; exact List.mem_cons_self _ _

/-- Headers of block pointers after the heap writes of `insert`. -/
theorem insert_heap_hdr {s s' : State} {b c x : Nat} (hb : BlockPtr b) (hc : PtrOrNull c)
    (hx : BlockPtr x)
    (hh : ∀ x, s'.heap x = if x = b + 8 then NULL else if x = b + 16 then c else
      if c ≠ NULL ∧ x = c + 8 then b else s.heap x) : s'.heap x = s.heap x := by
  rw [hh]
  obtain ⟨e1, e2, _, _⟩ := hx.fields_ne hb
  rcases hc with hc | hc
  · simp [e1, e2, hc]
  · obtain ⟨g1, _, _, _⟩ := hx.fields_ne hc
    simp [e1, e2, g1]

/-- Links of a block pointer other than the inserted block and the former head after
the heap writes of `insert`. -/
theorem insert_heap_links {s s' : State} {b c x : Nat} (hb : BlockPtr b) (hc : PtrOrNull c)
    (hx : BlockPtr x) (hxb : x ≠ b) (hxc : x ≠ c)
    (hh : ∀ x, s'.heap x = if x = b + 8 then NULL else if x = b + 16 then c else
      if c ≠ NULL ∧ x = c + 8 then b else s.heap x) :
    s'.heap (x + 8) = s.heap (x + 8) ∧ s'.heap (x + 16) = s.heap (x + 16) := by
  obtain ⟨_, _, e3, e4⟩ := hx.fields_ne hb
  have a1 : x + 8 ≠ b + 8 := by omega
  have a2 : x + 16 ≠ b + 16 := by omega
  have a3 : x + 8 ≠ c + 8 := by omega
  constructor
  · rw [hh]; simp [a1, e3, a3]
  · rw [hh]
    rcases hc with hc | hc
    · simp [a2, e4, hc]
    · obtain ⟨_, _, _, g4⟩ := hx.fields_ne hc
      simp [a2, e4, g4]

/-- The invariant with the pointer discipline gives the invariant on the blocks. -/
theorem Inv.toAllocInv {s : State} {F : Nat → List Nat} {A : List Nat} (hI : Inv s F A) :
    AllocInv s F A := by
  refine ⟨?_, hI.chain, hI.fhdr, hI.fnodup, hI.ablk, hI.anodup, hI.afree, hI.disj, hI.cover,
    hI.bits, hI.nobud⟩
  rintro x (h | ⟨j, h⟩)
  · exact hI.ptr.hdr x (hI.ablk x h)
  · exact hI.ptr.hdr x (hI.fhdr j x h).2.1

/-- The invariant on the blocks together with the pointer discipline is `Inv`. -/
theorem AllocInv.toInv {s : State} {F : Nat → List Nat} {A : List Nat} (hI : AllocInv s F A)
    (hptr : PtrInv s) : Inv s F A :=
  ⟨hptr, hI.chain, hI.fhdr, hI.fnodup, hI.ablk, hI.anodup, hI.afree, hI.disj, hI.cover,
    hI.bits, hI.nobud⟩

/-- Under the invariant every free-list head is `NULL` or a block pointer. -/
theorem AllocInv.head_ptr {s : State} {F : Nat → List Nat} {A : List Nat}
    (hI : AllocInv s F A) {k : Nat} (hk : k ≤ ORDER_MAX) :
    PtrOrNull (s.free_area_struct_array k) := by
  by_cases hn : s.free_area_struct_array k = NULL
  · exact Or.inl hn
  · exact Or.inr (hI.fhdr k _ (Chain.head_mem (hI.chain k hk) hn)).2.1

/-- The last step of `mem_free`: the block `b` being freed, of order `k`, is put on
the free list of order `k`.  Either `k = ORDER_MAX`, or the buddy of `b` is not free
and the bit of the parent `P` has been flipped. -/
theorem AllocInv.release_block {s s' : State} {F : Nat → List Nat} {A : List Nat} {b P buddy : Nat}
    (hI : AllocInv s F A) (hb : b ∈ A)
    (hk : s.heap b = ORDER_MAX ∨ (s.heap b < ORDER_MAX ∧ BlockPtr P ∧
      Aligned P (s.heap b + 1) ∧ buddy ∉ F (s.heap b) ∧
      ((b = P ∧ buddy = P + size_of_order (s.heap b)) ∨
        (b = P + size_of_order (s.heap b) ∧ buddy = P))))
    (hmap : ∀ j, s'.map j =
      if s.heap b < ORDER_MAX ∧ j = bidx (s.heap b + 1) P then !(s.map j) else s.map j)
    (hfree : ∀ j, s'.free_area_struct_array j =
      if j = s.heap b then b else s.free_area_struct_array j)
    (hheap : ∀ x, s'.heap x = if x = b + 8 then NULL else
      if x = b + 16 then s.free_area_struct_array (s.heap b) else
      if s.free_area_struct_array (s.heap b) ≠ NULL ∧ x = s.free_area_struct_array (s.heap b) + 8
        then b else s.heap x) :
    AllocInv s' (Function.update F (s.heap b) (b :: F (s.heap b))) (A.erase b) := by
  have hbb : BlockPtr b := hI.ablk b hb
  have hko : s.heap b ≤ ORDER_MAX := (hI.bhdr b (Or.inl hb)).1
  have hbF : ∀ j, b ∉ F j := hI.afree b hb
  have hc : PtrOrNull (s.free_area_struct_array (s.heap b)) := hI.head_ptr hko
  have hhdr : ∀ x, BlockPtr x → s'.heap x = s.heap x :=
    fun x hx => insert_heap_hdr hbb hc hx hheap
  have hmem : ∀ j x, x ∈ Function.update F (s.heap b) (b :: F (s.heap b)) j ↔
      (j = s.heap b ∧ x = b) ∨ x ∈ F j := by
    intro j x
    by_cases hj : j = s.heap b
    · subst hj; simp
    · simp [Function.update_noteq hj, hj]
  have hblk : ∀ x, IsBlk (Function.update F (s.heap b) (b :: F (s.heap b))) (A.erase b) x ↔
      IsBlk F A x := by
    intro x
    constructor
    · rintro (h | ⟨j, h⟩)
      · exact Or.inl (List.mem_of_mem_erase h)
      · rcases (hmem j x).mp h with ⟨_, rfl⟩ | h
        · exact Or.inl hb
        · exact Or.inr ⟨j, h⟩
    · rintro (h | ⟨j, h⟩)
      · by_cases hx : x = b
        · exact Or.inr ⟨s.heap b, (hmem _ _).mpr (Or.inl ⟨rfl, hx⟩)⟩
        · exact Or.inl ((List.mem_erase_of_ne hx).mpr h)
      · exact Or.inr ⟨j, (hmem _ _).mpr (Or.inr h)⟩
  have hblkptr : ∀ x, IsBlk F A x → BlockPtr x := by
    rintro x (h | ⟨j, h⟩)
    · exact hI.ablk x h
    · exact (hI.fhdr j x h).2.1
  refine ⟨?_, ?_, ?_, ?_, ?_, ?_, ?_, ?_, ?_, ?_, ?_⟩
  · -- bhdr
    intro x hx
    have hx' := (hblk x).mp hx
    rw [hhdr x (hblkptr x hx')]
    exact hI.bhdr x hx'
  · -- chain
    intro j hj
    by_cases hjk : j = s.heap b
    · subst hjk
      rw [hfree, if_pos rfl, Function.update_same]
      exact Chain.insert (hI.chain _ hj) (fun x hx => (hI.fhdr _ x hx).2.1) (hI.fnodup _) hbb
        (hbF _) hheap
    · rw [hfree, if_neg hjk, Function.update_noteq hjk]
      refine Chain.frame _ _ _ (hI.chain j hj) (fun x hx => ?_)
      obtain ⟨_, hxb, hxh⟩ := hI.fhdr j x hx
      refine insert_heap_links hbb hc hxb (fun e => hbF j (e ▸ hx)) ?_ hheap
      intro e
      have hne : s.free_area_struct_array (s.heap b) ≠ NULL := e ▸ hxb.ne_null
      have := Chain.head_mem (hI.chain _ hko) hne
      have h2 := (hI.fhdr _ _ this).2.2
      rw [← e, hxh] at h2
      exact hjk h2
  · -- fhdr
    intro j x hx
    rcases (hmem j x).mp hx with ⟨rfl, rfl⟩ | h
    · exact ⟨hko, hbb, hhdr _ hbb⟩
    · obtain ⟨h1, h2, h3⟩ := hI.fhdr j x h
      exact ⟨h1, h2, by rw [hhdr x h2, h3]⟩
  · -- fnodup
    intro j
    by_cases hjk : j = s.heap b
    · subst hjk
      rw [Function.update_same]
      exact List.nodup_cons.mpr ⟨hbF _, hI.fnodup _⟩
    · rw [Function.update_noteq hjk]; exact hI.fnodup j
  · intro x hx; exact hI.ablk x (List.mem_of_mem_erase hx)
  · exact hI.anodup.erase b
  · -- afree
    intro x hx j hxj
    have hxA := List.mem_of_mem_erase hx
    rcases (hmem j x).mp hxj with ⟨_, rfl⟩ | h
    · exact (List.Nodup.not_mem_erase hI.anodup) hx
    · exact hI.afree x hxA j h
  · -- disj
    intro x y hx hy hxy
    have hx' := (hblk x).mp hx
    have hy' := (hblk y).mp hy
    rw [hhdr x (hblkptr x hx'), hhdr y (hblkptr y hy')]
    exact hI.disj x y hx' hy' hxy
  · -- cover
    intro a ha
    obtain ⟨x, hx, h1, h2⟩ := hI.cover a ha
    exact ⟨x, (hblk x).mpr hx, h1, by rw [hhdr x (hblkptr x hx)]; exact h2⟩
  · -- bits
    intro j c hj hcb hca
    rw [hmap, hmem, hmem]
    rcases hk with hk | ⟨hk, hPb, hPa, hbud, hpair⟩
    · have hjk : j ≠ s.heap b := by omega
      have hlt : ¬ (s.heap b < ORDER_MAX ∧ bidx (j + 1) c = bidx (s.heap b + 1) P) := by
        intro h; omega
      simp only [if_neg hlt, hjk, false_and, false_or]
      exact hI.bits j c hj hcb hca
    · by_cases hnode : j = s.heap b ∧ c = P
      · obtain ⟨rfl, rfl⟩ := hnode
        have hold := hI.bits _ c hj hcb hca
        have hfalse : ¬ (c ∈ F (s.heap b) ∨ c + size_of_order (s.heap b) ∈ F (s.heap b)) := by
          rcases hpair with ⟨e1, e2⟩ | ⟨e1, e2⟩
          · rintro (h | h)
            · rw [← e1] at h; exact hbF _ h
            · rw [← e2] at h; exact hbud h
          · rintro (h | h)
            · rw [← e2] at h; exact hbud h
            · rw [← e1] at h; exact hbF _ h
        have hm : s.map (bidx (s.heap b + 1) c) = false := by
          cases hv : s.map (bidx (s.heap b + 1) c) with
          | false => rfl
          | true => exact absurd (hold.mp hv) hfalse
        rw [if_pos ⟨hk, rfl⟩, hm]
        refine ⟨fun _ => ?_, fun _ => rfl⟩
        rcases hpair with ⟨e1, _⟩ | ⟨e1, _⟩
        · exact Or.inl (Or.inl ⟨rfl, e1.symm⟩)
        · exact Or.inr (Or.inl ⟨rfl, e1.symm⟩)
      · have hidx : ¬ (s.heap b < ORDER_MAX ∧ bidx (j + 1) c = bidx (s.heap b + 1) P) := by
          rintro ⟨_, e⟩
          obtain ⟨e1, e2⟩ := bidx_inj hcb hca hPb hPa e
          exact hnode ⟨by omega, e2⟩
        rw [if_neg hidx]
        have h1 : ¬ (j = s.heap b ∧ c = b) := by
          rintro ⟨rfl, rfl⟩
          exact hnode ⟨rfl, node_of_half hca hPa hcb.1 hPb.1
            (by rcases hpair with ⟨e1, _⟩ | ⟨e1, _⟩
                · exact Or.inl e1
                · exact Or.inr e1) (Or.inl rfl)⟩
        have h2 : ¬ (j = s.heap b ∧ c + size_of_order j = b) := by
          rintro ⟨rfl, e⟩
          exact hnode ⟨rfl, node_of_half hca hPa hcb.1 hPb.1
            (by rcases hpair with ⟨e1, _⟩ | ⟨e1, _⟩
                · exact Or.inl e1
                · exact Or.inr e1) (Or.inr e)⟩
        simp only [h1, h2, false_or]
        exact hI.bits j c hj hcb hca
  · -- nobud
    intro j c hj hcb hca
    rw [hmem, hmem]
    rcases hk with hk | ⟨hk, hPb, hPa, hbud, hpair⟩
    · have hjk : j ≠ s.heap b := by omega
      simp only [hjk, false_and, false_or]
      exact hI.nobud j c hj hcb hca
    · by_cases hnode : j = s.heap b ∧ c = P
      · obtain ⟨rfl, rfl⟩ := hnode
        have hpos := size_of_order_pos (s.heap b)
        rcases hpair with ⟨e1, e2⟩ | ⟨e1, e2⟩
        · rintro ⟨_, h | h⟩
          · have := h.2
            omega
          · rw [← e2] at h; exact hbud h
        · rintro ⟨h | h, _⟩
          · have := h.2
            omega
          · rw [← e2] at h; exact hbud h
      · have h1 : ¬ (j = s.heap b ∧ c = b) := by
          rintro ⟨rfl, rfl⟩
          exact hnode ⟨rfl, node_of_half hca hPa hcb.1 hPb.1
            (by rcases hpair with ⟨e1, _⟩ | ⟨e1, _⟩
                · exact Or.inl e1
                · exact Or.inr e1) (Or.inl rfl)⟩
        have h2 : ¬ (j = s.heap b ∧ c + size_of_order j = b) := by
          rintro ⟨rfl, e⟩
          exact hnode ⟨rfl, node_of_half hca hPa hcb.1 hPb.1
            (by rcases hpair with ⟨e1, _⟩ | ⟨e1, _⟩
                · exact Or.inl e1
                · exact Or.inr e1) (Or.inr e)⟩
        simp only [h1, h2, false_or]
        exact hI.nobud j c hj hcb hca

/-- The last step of `mem_free` under the pointer discipline: `AllocInv.release_block` for
`Inv`. -/
theorem Inv.release {s s' : State} {F : Nat → List Nat} {A : List Nat} {b P buddy : Nat}
    (hI : Inv s F A) (hb : b ∈ A)
    (hk : s.heap b = ORDER_MAX ∨ (s.heap b < ORDER_MAX ∧ BlockPtr P ∧
      Aligned P (s.heap b + 1) ∧ buddy ∉ F (s.heap b) ∧
      ((b = P ∧ buddy = P + size_of_order (s.heap b)) ∨
        (b = P + size_of_order (s.heap b) ∧ buddy = P))))
    (hptr : PtrInv s')
    (hmap : ∀ j, s'.map j =
      if s.heap b < ORDER_MAX ∧ j = bidx (s.heap b + 1) P then !(s.map j) else s.map j)
    (hfree : ∀ j, s'.free_area_struct_array j =
      if j = s.heap b then b else s.free_area_struct_array j)
    (hheap : ∀ x, s'.heap x = if x = b + 8 then NULL else
      if x = b + 16 then s.free_area_struct_array (s.heap b) else
      if s.free_area_struct_array (s.heap b) ≠ NULL ∧ x = s.free_area_struct_array (s.heap b) + 8
        then b else s.heap x) :
    Inv s' (Function.update F (s.heap b) (b :: F (s.heap b))) (A.erase b) :=
  (hI.toAllocInv.release_block hb hk hmap hfree hheap).toInv hptr

/-- Links of the neighbours of a block on a chain from `NULL`: a non-`NULL` `prev` or
`next` is a block of the list, and `prev` is `NULL` exactly for the first block. -/
theorem Chain.neighbours {s : State} {c b : Nat} {L1 L2 : List Nat}
    (h : Chain s NULL c (L1 ++ b :: L2)) (hL : ∀ x ∈ L1 ++ b :: L2, BlockPtr x) :
    (s.heap (b + 8) = NULL ↔ L1 = []) ∧ (s.heap (b + 8) ≠ NULL → s.heap (b + 8) ∈ L1) ∧
      (s.heap (b + 16) ≠ NULL → s.heap (b + 16) ∈ L2) := by
  obtain ⟨l1, l2⟩ := Chain.links L1 L2 b NULL c h
  have hp : L1 ≠ [] → s.heap (b + 8) ∈ L1 := by
    intro hne
    rw [l1, List.getLast?_eq_getLast _ hne]
    exact List.getLast_mem _
  refine ⟨⟨fun h0 => ?_, fun h0 => by rw [l1, h0]; rfl⟩, fun hne => ?_, fun hne => ?_⟩
  · by_contra hne
    have hm := hp hne
    exact (hL _ (List.mem_append_left _ hm)).ne_null h0
  · apply hp
    intro h0
    rw [l1, h0] at hne
    exact hne rfl
  · cases L2 with
    | nil => rw [l2] at hne; exact absurd rfl hne
    | cons n L2' => rw [l2]; simp

/-- One merge step of `mem_free`: the buddy of the block `b` being freed is free; the
bit of the parent `P` is flipped, the buddy is deleted from its free list and the
header of `P` is set to the next order. -/
theorem AllocInv.merge_blocks {s s' : State} {F : Nat → List Nat} {A : List Nat} {b P buddy : Nat}
    (hI : AllocInv s F A) (hb : b ∈ A) (hPb : BlockPtr P)
    (hPa : Aligned P (s.heap b + 1))
    (hpair : (b = P ∧ buddy = P + size_of_order (s.heap b)) ∨
      (b = P + size_of_order (s.heap b) ∧ buddy = P))
    (hbud : buddy ∈ F (s.heap b))
    (hmap : ∀ j, s'.map j = if j = bidx (s.heap b + 1) P then !(s.map j) else s.map j)
    (hfree : ∀ j, s'.free_area_struct_array j =
      if s.heap (buddy + 8) = NULL ∧ j = s.heap buddy then s.heap (buddy + 16)
      else s.free_area_struct_array j)
    (hheap : ∀ x, s'.heap x = if x = P then s.heap b + 1 else
      if s.heap (buddy + 8) ≠ NULL ∧ x = s.heap (buddy + 8) + 16 then s.heap (buddy + 16) else
      if s.heap (buddy + 16) ≠ NULL ∧ x = s.heap (buddy + 16) + 8 then s.heap (buddy + 8)
      else s.heap x) :
    AllocInv s' (Function.update F (s.heap b) ((F (s.heap b)).erase buddy))
      (P :: A.erase b) := by
  have hbb : BlockPtr b := hI.ablk b hb
  have hbF : ∀ j, b ∉ F j := hI.afree b hb
  obtain ⟨hko, hbudb, hbudh⟩ := hI.fhdr _ _ hbud
  have hpos := size_of_order_pos (s.heap b)
  have hbne : buddy ≠ b := fun e => hbF _ (e ▸ hbud)
  have hbudA : buddy ∉ A := fun h => hI.afree _ h _ hbud
  have hPcases : P = b ∨ P = buddy := by
    rcases hpair with ⟨e1, _⟩ | ⟨_, e2⟩
    · exact Or.inl e1.symm
    · exact Or.inr e2.symm
  have hFk : ∀ j x, x ∈ F j → x = buddy → j = s.heap b := by
    intro j x hx e
    have := (hI.fhdr j x hx).2.2
    rw [e, hbudh] at this
    exact this.symm
  obtain ⟨L1, L2, hsplit⟩ := List.append_of_mem hbud
  have hLb : ∀ x ∈ L1 ++ buddy :: L2, BlockPtr x := by
    intro x hx; rw [← hsplit] at hx; exact (hI.fhdr _ x hx).2.1
  have hch := hI.chain _ hko
  rw [hsplit] at hch
  obtain ⟨n1, n2, n3⟩ := Chain.neighbours hch hLb
  have hpmem : s.heap (buddy + 8) ≠ NULL → s.heap (buddy + 8) ∈ F (s.heap b) := by
    intro h; rw [hsplit]; exact List.mem_append_left _ (n2 h)
  have hnmem : s.heap (buddy + 16) ≠ NULL → s.heap (buddy + 16) ∈ F (s.heap b) := by
    intro h; rw [hsplit]
    exact List.mem_append_right _ (List.mem_cons_of_mem _ (n3 h))
  have hhdr : ∀ x, BlockPtr x → s'.heap x = if x = P then s.heap b + 1 else s.heap x := by
    intro x hx
    rw [hheap]
    by_cases hxP : x = P
    · simp [hxP]
    · rw [if_neg hxP, if_neg hxP]
      have c1 : ¬ (s.heap (buddy + 8) ≠ NULL ∧ x = s.heap (buddy + 8) + 16) := by
        rintro ⟨h1, h2⟩
        exact (hx.fields_ne ((hI.fhdr _ _ (hpmem h1)).2.1)).2.1 h2
      have c2 : ¬ (s.heap (buddy + 16) ≠ NULL ∧ x = s.heap (buddy + 16) + 8) := by
        rintro ⟨h1, h2⟩
        exact (hx.fields_ne ((hI.fhdr _ _ (hnmem h1)).2.1)).1 h2
      rw [if_neg c1, if_neg c2]
  have hlinks : ∀ j x, x ∈ F j → j ≠ s.heap b →
      s'.heap (x + 8) = s.heap (x + 8) ∧ s'.heap (x + 16) = s.heap (x + 16) := by
    intro j x hx hj
    obtain ⟨_, hxb, hxh⟩ := hI.fhdr j x hx
    have hne : ∀ y, y ∈ F (s.heap b) → x ≠ y := by
      intro y hy e
      have := (hI.fhdr _ y hy).2.2
      rw [← e, hxh] at this
      exact hj this
    obtain ⟨p1, p2, _, _⟩ := hPb.fields_ne hxb
    constructor
    · rw [hheap, if_neg (fun e => p1 e.symm)]
      have c1 : ¬ (s.heap (buddy + 8) ≠ NULL ∧ x + 8 = s.heap (buddy + 8) + 16) := by
        rintro ⟨h1, h2⟩
        exact (hxb.fields_ne ((hI.fhdr _ _ (hpmem h1)).2.1)).2.2.1 h2
      have c2 : ¬ (s.heap (buddy + 16) ≠ NULL ∧ x + 8 = s.heap (buddy + 16) + 8) := by
        rintro ⟨h1, h2⟩
        exact hne _ (hnmem h1) (by omega)
      rw [if_neg c1, if_neg c2]
    · rw [hheap, if_neg (fun e => p2 e.symm)]
      have c1 : ¬ (s.heap (buddy + 8) ≠ NULL ∧ x + 16 = s.heap (buddy + 8) + 16) := by
        rintro ⟨h1, h2⟩
        exact hne _ (hpmem h1) (by omega)
      have c2 : ¬ (s.heap (buddy + 16) ≠ NULL ∧ x + 16 = s.heap (buddy + 16) + 8) := by
        rintro ⟨h1, h2⟩
        exact (hxb.fields_ne ((hI.fhdr _ _ (hnmem h1)).2.1)).2.2.2 h2
      rw [if_neg c1, if_neg c2]
  have hmem : ∀ j x, x ∈ Function.update F (s.heap b) ((F (s.heap b)).erase buddy) j ↔
      x ∈ F j ∧ x ≠ buddy := by
    intro j x
    by_cases hj : j = s.heap b
    · subst hj
      rw [Function.update_same, (hI.fnodup _).mem_erase_iff]
      exact ⟨fun h => ⟨h.2, h.1⟩, fun h => ⟨h.2, h.1⟩⟩
    · rw [Function.update_noteq hj]
      exact ⟨fun h => ⟨h, fun e => hj (hFk j x h e)⟩, fun h => h.1⟩
  have hblkptr : ∀ x, IsBlk F A x → BlockPtr x := by
    rintro x (h | ⟨j, h⟩)
    · exact hI.ablk x h
    · exact (hI.fhdr j x h).2.1
  have hblk : ∀ x, IsBlk (Function.update F (s.heap b) ((F (s.heap b)).erase buddy))
      (P :: A.erase b) x ↔ x = P ∨ (IsBlk F A x ∧ x ≠ b ∧ x ≠ buddy) := by
    intro x
    constructor
    · rintro (h | ⟨j, h⟩)
      · rcases List.mem_cons.mp h with h | h
        · exact Or.inl h
        · have hxA := List.mem_of_mem_erase h
          refine Or.inr ⟨Or.inl hxA, fun e => ?_, fun e => hbudA (e ▸ hxA)⟩
          exact (List.Nodup.not_mem_erase hI.anodup) (e ▸ h)
      · obtain ⟨h1, h2⟩ := (hmem j x).mp h
        exact Or.inr ⟨Or.inr ⟨j, h1⟩, fun e => hbF j (e ▸ h1), h2⟩
    · rintro (h | ⟨h | ⟨j, h⟩, h2, h3⟩)
      · exact Or.inl (h ▸ List.mem_cons_self _ _)
      · exact Or.inl (List.mem_cons_of_mem _ ((List.mem_erase_of_ne h2).mpr h))
      · exact Or.inr ⟨j, (hmem j x).mpr ⟨h, h3⟩⟩
  have hbB : IsBlk F A b := Or.inl hb
  have hbudB : IsBlk F A buddy := Or.inr ⟨_, hbud⟩
  have hPh : s'.heap P = s.heap b + 1 := by rw [hhdr P hPb, if_pos rfl]
  have hsz := size_of_order_succ (s.heap b)
  refine ⟨?_, ?_, ?_, ?_, ?_, ?_, ?_, ?_, ?_, ?_, ?_⟩
  · -- bhdr
    intro x hx
    rcases (hblk x).mp hx with rfl | ⟨hx', hxb, hxbud⟩
    · rw [hPh]; exact hPa
    · have hxP : x ≠ P := by
        rcases hPcases with e | e
        · rw [e]; exact hxb
        · rw [e]; exact hxbud
      rw [hhdr x (hblkptr x hx'), if_neg hxP]
      exact hI.bhdr x hx'
  · -- chain
    intro j hj
    by_cases hjk : j = s.heap b
    · subst hjk
      rw [Function.update_same, hfree, hbudh]
      have he : (F (s.heap b)).erase buddy = L1 ++ L2 := by
        have hnd := hI.fnodup (s.heap b)
        rw [hsplit] at hnd ⊢
        have : buddy ∉ L1 := by
          intro hm
          have := List.nodup_append.mp hnd
          exact this.2.2 hm (List.mem_cons_self _ _)
        rw [List.erase_append_right _ this, List.erase_cons_head]
      rw [he]
      have hnd := hI.fnodup (s.heap b)
      rw [hsplit] at hnd
      have hd := @Chain.delete s (unlinked s buddy) _ L1 L2 NULL _ hch hLb hnd
        (Or.inl rfl) (fun x => rfl)
      have hhead : (if s.heap (buddy + 8) = NULL ∧ s.heap b = s.heap b then s.heap (buddy + 16)
          else s.free_area_struct_array (s.heap b)) =
          (if L1 = [] then s.heap (buddy + 16) else s.free_area_struct_array (s.heap b)) := by
        by_cases h0 : L1 = []
        · rw [if_pos h0, if_pos ⟨n1.mpr h0, rfl⟩]
        · rw [if_neg h0, if_neg (fun h => h0 (n1.mp h.1))]
      rw [hhead]
      refine Chain.frame _ _ _ hd (fun x hx => ?_)
      have hxb : BlockPtr x := by
        rcases List.mem_append.mp hx with h | h
        · exact hLb x (List.mem_append_left _ h)
        · exact hLb x (List.mem_append_right _ (List.mem_cons_of_mem _ h))
      obtain ⟨p1, p2, _, _⟩ := hPb.fields_ne hxb
      constructor
      · rw [hheap, if_neg (fun e => p1 e.symm)]; rfl
      · rw [hheap, if_neg (fun e => p2 e.symm)]; rfl
    · rw [Function.update_noteq hjk, hfree, if_neg (fun h => hjk (by rw [h.2, hbudh]))]
      exact Chain.frame _ _ _ (hI.chain j hj) (fun x hx => hlinks j x hx hjk)
  · -- fhdr
    intro j x hx
    obtain ⟨h1, h2⟩ := (hmem j x).mp hx
    obtain ⟨g1, g2, g3⟩ := hI.fhdr j x h1
    refine ⟨g1, g2, ?_⟩
    have hxP : x ≠ P := by
      rcases hPcases with e | e
      · rw [e]; exact fun e' => hbF j (e' ▸ h1)
      · rw [e]; exact h2
    rw [hhdr x g2, if_neg hxP, g3]
  · -- fnodup
    intro j
    by_cases hjk : j = s.heap b
    · subst hjk
      rw [Function.update_same]
      exact (hI.fnodup _).erase _
    · rw [Function.update_noteq hjk]; exact hI.fnodup j
  · -- ablk
    intro x hx
    rcases List.mem_cons.mp hx with h | h
    · rw [h]; exact hPb
    · exact hI.ablk x (List.mem_of_mem_erase h)
  · -- anodup
    refine List.nodup_cons.mpr ⟨?_, hI.anodup.erase b⟩
    rcases hPcases with e | e
    · rw [e]; exact List.Nodup.not_mem_erase hI.anodup
    · rw [e]; exact fun h => hbudA (List.mem_of_mem_erase h)
  · -- afree
    intro x hx j hxj
    obtain ⟨h1, h2⟩ := (hmem j x).mp hxj
    rcases List.mem_cons.mp hx with h | h
    · rcases hPcases with e | e
      · exact hbF j (by rw [← e, ← h]; exact h1)
      · exact h2 (by rw [h, e])
    · exact hI.afree x (List.mem_of_mem_erase h) j h1
  · -- disj
    intro x y hx hy hxy
    have d1 := hI.disj b
    have d2 := hI.disj buddy
    rw [hbudh] at d2
    rcases (hblk x).mp hx with rfl | ⟨hx1, hx2, hx3⟩
    · rcases (hblk y).mp hy with rfl | ⟨hy1, hy2, hy3⟩
      · exact absurd rfl hxy
      · rw [hPh, hhdr y (hblkptr y hy1), if_neg (fun e => hxy e.symm), hsz]
        have e1 := d1 y hbB hy1 (fun e => hy2 e.symm)
        have e2 := d2 y hbudB hy1 (fun e => hy3 e.symm)
        rcases hpair with ⟨a1, a2⟩ | ⟨a1, a2⟩ <;> omega
    · rcases (hblk y).mp hy with rfl | ⟨hy1, hy2, hy3⟩
      · rw [hPh, hhdr x (hblkptr x hx1), if_neg hxy, hsz]
        have e1 := d1 x hbB hx1 (fun e => hx2 e.symm)
        have e2 := d2 x hbudB hx1 (fun e => hx3 e.symm)
        rcases hpair with ⟨a1, a2⟩ | ⟨a1, a2⟩ <;> omega
      · have hxP : x ≠ P := by rcases hPcases with e | e <;> rw [e] <;> assumption
        have hyP : y ≠ P := by rcases hPcases with e | e <;> rw [e] <;> assumption
        rw [hhdr x (hblkptr x hx1), if_neg hxP, hhdr y (hblkptr y hy1), if_neg hyP]
        exact hI.disj x y hx1 hy1 hxy
  · -- cover
    intro a ha
    obtain ⟨x, hx, h1, h2⟩ := hI.cover a ha
    by_cases hxb : x = b
    · refine ⟨P, (hblk P).mpr (Or.inl rfl), ?_, ?_⟩
      · rcases hpair with ⟨a1, a2⟩ | ⟨a1, a2⟩ <;> omega
      · rw [hPh, hsz]; rw [hxb] at h2
        rcases hpair with ⟨a1, a2⟩ | ⟨a1, a2⟩ <;> omega
    · by_cases hxd : x = buddy
      · refine ⟨P, (hblk P).mpr (Or.inl rfl), ?_, ?_⟩
        · rcases hpair with ⟨a1, a2⟩ | ⟨a1, a2⟩ <;> omega
        · rw [hPh, hsz]; rw [hxd, hbudh] at h2
          rcases hpair with ⟨a1, a2⟩ | ⟨a1, a2⟩ <;> omega
      · have hxP : x ≠ P := by rcases hPcases with e | e <;> rw [e] <;> assumption
        refine ⟨x, (hblk x).mpr (Or.inr ⟨hx, hxb, hxd⟩), h1, ?_⟩
        rw [hhdr x (hblkptr x hx), if_neg hxP]; exact h2
  · -- bits
    intro j c hj hcb hca
    rw [hmap, hmem, hmem]
    have hxh : ∀ x, x = P ∨ x = P + size_of_order (s.heap b) → x = b ∨ x = buddy := by
      intro x hx
      rcases hpair with ⟨a1, a2⟩ | ⟨a1, a2⟩ <;> rcases hx with h | h <;> omega
    by_cases hnode : j = s.heap b ∧ c = P
    · obtain ⟨rfl, rfl⟩ := hnode
      have hold := hI.bits _ c hj hcb hca
      have ht : s.map (bidx (s.heap b + 1) c) = true := by
        apply hold.mpr
        rcases hpair with ⟨a1, a2⟩ | ⟨a1, a2⟩
        · right; rw [← a2]; exact hbud
        · left; rw [← a2]; exact hbud
      rw [if_pos rfl, ht]
      refine ⟨fun h => by simp at h, fun h => ?_⟩
      exfalso
      rcases h with ⟨h1, h2⟩ | ⟨h1, h2⟩
      · rcases hxh c (Or.inl rfl) with e | e
        · exact hbF _ (e ▸ h1)
        · exact h2 e
      · rcases hxh _ (Or.inr rfl) with e | e
        · exact hbF _ (e ▸ h1)
        · exact h2 e
    · have hidx : bidx (j + 1) c ≠ bidx (s.heap b + 1) P := by
        intro e
        obtain ⟨e1, e2⟩ := bidx_inj hcb hca hPb hPa e
        exact hnode ⟨by omega, e2⟩
      rw [if_neg hidx]
      have hbudP : buddy = P ∨ buddy = P + size_of_order (s.heap b) := by
        rcases hpair with ⟨a1, a2⟩ | ⟨a1, a2⟩
        · exact Or.inr a2
        · exact Or.inl a2
      have h1 : c ∈ F j → c ≠ buddy := by
        intro hc e
        have hjk := hFk j c hc e
        subst hjk
        exact hnode ⟨rfl, node_of_half hca hPa hcb.1 hPb.1 hbudP (Or.inl e)⟩
      have h2 : c + size_of_order j ∈ F j → c + size_of_order j ≠ buddy := by
        intro hc e
        have hjk := hFk j _ hc e
        subst hjk
        exact hnode ⟨rfl, node_of_half hca hPa hcb.1 hPb.1 hbudP (Or.inr e)⟩
      rw [hI.bits j c hj hcb hca]
      constructor
      · rintro (h | h)
        · exact Or.inl ⟨h, h1 h⟩
        · exact Or.inr ⟨h, h2 h⟩
      · rintro (h | h)
        · exact Or.inl h.1
        · exact Or.inr h.1
  · -- nobud
    intro j c hj hcb hca
    rw [hmem, hmem]
    intro h
    exact hI.nobud j c hj hcb hca ⟨h.1.1, h.2.1⟩

/-- One merge step of `mem_free` under the pointer discipline: `AllocInv.merge_blocks` for
`Inv`. -/
theorem Inv.merge_step {s s' : State} {F : Nat → List Nat} {A : List Nat} {b P buddy : Nat}
    (hI : Inv s F A) (hb : b ∈ A) (hPb : BlockPtr P)
    (hPa : Aligned P (s.heap b + 1))
    (hpair : (b = P ∧ buddy = P + size_of_order (s.heap b)) ∨
      (b = P + size_of_order (s.heap b) ∧ buddy = P))
    (hbud : buddy ∈ F (s.heap b)) (hptr : PtrInv s')
    (hmap : ∀ j, s'.map j = if j = bidx (s.heap b + 1) P then !(s.map j) else s.map j)
    (hfree : ∀ j, s'.free_area_struct_array j =
      if s.heap (buddy + 8) = NULL ∧ j = s.heap buddy then s.heap (buddy + 16)
      else s.free_area_struct_array j)
    (hheap : ∀ x, s'.heap x = if x = P then s.heap b + 1 else
      if s.heap (buddy + 8) ≠ NULL ∧ x = s.heap (buddy + 8) + 16 then s.heap (buddy + 16) else
      if s.heap (buddy + 16) ≠ NULL ∧ x = s.heap (buddy + 16) + 8 then s.heap (buddy + 8)
      else s.heap x) :
    Inv s' (Function.update F (s.heap b) ((F (s.heap b)).erase buddy)) (P :: A.erase b) :=
  (hI.toAllocInv.merge_blocks hb hPb hPa hpair hbud hmap hfree hheap).toInv hptr

/-! ### `mem_free` keeps the invariant -/

theorem toSizeT_natCast (n : Nat) (h : n < 2 ^ 64) : toSizeT (n : Int) = n := by
  simp only [toSizeT]
  have e : ((n : Int) % (2 : Int) ^ 64) = ((n % 2 ^ 64 : Nat) : Int) := by push_cast; rfl
  rw [e, Int.toNat_ofNat, Nat.mod_eq_of_lt h]

theorem toSizeT_order_max : toSizeT (ORDER_MAX : Int) = ORDER_MAX :=
  toSizeT_natCast ORDER_MAX (by decide)

/-- The state after `toggle_parent` under the pointer discipline: the bit of the parent
node is flipped. -/
theorem toggle_parent_full {s : State} {b : Nat} (hI : PtrInv s) (hb : BlockPtr b)
    (hk : s.heap b < ORDER_MAX) :
    ∃ P buddy, BlockPtr P ∧ Aligned P (s.heap b + 1) ∧ BlockPtr buddy ∧
      P = (if (b - heap_base) / size_of_order (s.heap b) % 2 ≠ 0
        then b - size_of_order (s.heap b) else b) ∧
      buddy = (if (b - heap_base) / size_of_order (s.heap b) % 2 ≠ 0
        then b - size_of_order (s.heap b) else b + size_of_order (s.heap b)) ∧
      ((b = P ∧ buddy = P + size_of_order (s.heap b)) ∨
        (b = P + size_of_order (s.heap b) ∧ buddy = P)) ∧
      bidx (s.heap b + 1) P < MAP_BITS ∧
      get_gitmap_idx_parent s b = some (bidx (s.heap b + 1) P) ∧
      toggle_parent s b = some (with_flip s (bidx (s.heap b + 1) P)) := by
  obtain ⟨P, buddy, h1, h2, h3, h4, h5, h6⟩ := parent_buddy hb (hI.hdr b hb) hk
  have hlt := bidx_lt h1 h2 (by omega)
  have hidx : get_gitmap_idx_parent s b = some (bidx (s.heap b + 1) P) := by
    rw [get_gitmap_idx_parent_eq hI hb hk, h4]
  refine ⟨P, buddy, h1, h2, h3, h4, h5, h6, hlt, hidx, ?_⟩
  simp only [toggle_parent, hidx, bind, Option.some_bind, bitsetFlip, hlt, if_true, with_flip]

/-- `merge` up to `ORDER_MAX` followed by `insert` succeeds on an allocated block and
keeps the invariant, with the block removed from the allocated blocks. -/
theorem merge_insert_inv : ∀ (fuel : Nat) (s : State) (F : Nat → List Nat) (A : List Nat)
    (b : Nat), Inv s F A → b ∈ A → ORDER_MAX < fuel + s.heap b →
    ∃ s1 nb s' F', merge_fuel fuel s b (ORDER_MAX : Int) = some (s1, nb) ∧
      insert s1 nb = some s' ∧ Inv s' F' (A.erase b) := by
  intro fuel
  induction fuel with
  | zero =>
    intro s F A b hI hb hf
    have := (hI.ptr.hdr b (hI.ablk b hb)).1
    omega
  | succ fuel ih =>
    intro s F A b hI hb hf
    have hbb : BlockPtr b := hI.ablk b hb
    have hko : s.heap b ≤ ORDER_MAX := (hI.ptr.hdr b hbb).1
    by_cases hk : s.heap b = ORDER_MAX
    · -- top order: no merge
      obtain ⟨s', hins, hptr, hmap, hfree, hheap⟩ := insert_full hI.ptr hbb
      refine ⟨s, b, s', _, ?_, hins, @Inv.release _ _ _ _ _ 0 0 hI hb (Or.inl hk) hptr
        ?_ hfree hheap⟩
      · simp only [merge_fuel, bind, Option.bind_eq_some]
        refine ⟨_, load_blockptr hbb, ?_⟩
        rw [toSizeT_order_max, if_pos (by omega)]
      · intro j
        rw [hmap, if_neg (by omega)]
    · have hk' : s.heap b < ORDER_MAX := by omega
      obtain ⟨P, buddy, hPb, hPa, hbudb, hPe, hbude, hpair, hlt, hidx, htog⟩ :=
        toggle_parent_full hI.ptr hbb hk'
      have hnge : ¬ (s.heap b ≥ toSizeT (ORDER_MAX : Int)) := by
        rw [toSizeT_order_max]; omega
      have hbits := hI.bits (s.heap b) P hk' hPb hPa
      cases hbit : s.map (bidx (s.heap b + 1) P) with
      | false =>
        have hbud : buddy ∉ F (s.heap b) := by
          intro hm
          have : s.map (bidx (s.heap b + 1) P) = true := by
            apply hbits.mpr
            rcases hpair with ⟨_, a2⟩ | ⟨_, a2⟩
            · right; rw [← a2]; exact hm
            · left; rw [← a2]; exact hm
          rw [hbit] at this
          exact Bool.false_ne_true this
        have hptr1 : PtrInv (with_flip s (bidx (s.heap b + 1) P)) := hI.ptr.set_map _
        obtain ⟨s', hins, hptr, hmap, hfree, hheap⟩ := insert_full hptr1 hbb
        refine ⟨_, b, s', _, ?_, hins, Inv.release hI hb
          (Or.inr ⟨hk', hPb, hPa, hbud, hpair⟩) hptr ?_ hfree hheap⟩
        · simp only [merge_fuel, bind, Option.bind_eq_some]
          refine ⟨_, load_blockptr hbb, ?_⟩
          rw [if_neg hnge]
          simp only [Option.bind_eq_some]
          refine ⟨_, get_block_size_blockptr hI.ptr hbb, _, hidx, _,
            get_page_number_blockptr hI.ptr hbb, false, ?_, ?_⟩
          · simp only [bitsetGet, hlt, if_true, hbit]
          · simp only [Bool.false_eq_true, if_false, Option.bind_eq_some]
            exact ⟨_, htog, rfl⟩
        · intro j
          rw [hmap]
          by_cases hj : j = bidx (s.heap b + 1) P
          · simp [hj, hk', with_flip]
          · simp [hj, with_flip]
      | true =>
        have hbud : buddy ∈ F (s.heap b) := by
          rcases hbits.mp hbit with h | h
          · rcases hpair with ⟨a1, _⟩ | ⟨_, a2⟩
            · rw [← a1] at h; exact absurd h (hI.afree b hb _)
            · rw [a2]; exact h
          · rcases hpair with ⟨_, a2⟩ | ⟨a1, _⟩
            · rw [a2]; exact h
            · rw [← a1] at h; exact absurd h (hI.afree b hb _)
        have hptr1 : PtrInv (with_flip s (bidx (s.heap b + 1) P)) := hI.ptr.set_map _
        obtain ⟨sd, hdel, hptrd, hmapd, hfreed, hheapd⟩ := delete_full hptr1 hbudb
        obtain ⟨sd', hdel', _, hhdrd, _⟩ := delete_spec hptr1 hbudb
        rw [hdel] at hdel'
        simp only [Option.some.injEq] at hdel'
        subst hdel'
        have hsdb : sd.heap b = s.heap b := hhdrd b hbb
        have hmod : (s.heap b + 1) % 2 ^ 64 = s.heap b + 1 := by
          simp only [ORDER_MAX] at hk'
          omega
        have hptr3 : PtrInv (write sd P (s.heap b + 1)) :=
          hptrd.store_hdr hPb hPa (store_blockptr _ hPb)
        have hI3 : Inv (write sd P (s.heap b + 1))
            (Function.update F (s.heap b) ((F (s.heap b)).erase buddy)) (P :: A.erase b) := by
          refine Inv.merge_step hI hb hPb hPa hpair hbud hptr3 ?_ ?_ ?_
          · intro j; rw [write_map, hmapd]; rfl
          · intro j; rw [write_free, hfreed]; rfl
          · intro x; rw [write_heap, hheapd]; rfl
        have hP3 : (write sd P (s.heap b + 1)).heap P = s.heap b + 1 := by simp
        obtain ⟨s1, nb, s', F', hm, hins, hI'⟩ := ih _ _ _ P hI3 (List.mem_cons_self _ _)
          (by rw [hP3]; omega)
        rw [List.erase_cons_head] at hI'
        refine ⟨s1, nb, s', F', ?_, hins, hI'⟩
        simp only [merge_fuel, bind, Option.bind_eq_some]
        refine ⟨_, load_blockptr hbb, ?_⟩
        rw [if_neg hnge]
        simp only [Option.bind_eq_some]
        refine ⟨_, get_block_size_blockptr hI.ptr hbb, _, hidx, _,
          get_page_number_blockptr hI.ptr hbb, true, ?_, ?_⟩
        · simp only [bitsetGet, hlt, if_true, hbit]
        · simp only [if_true, Option.bind_eq_some]
          refine ⟨_, htog, sd, ?_, _, load_blockptr hbb, write sd P (s.heap b + 1), ?_, ?_⟩
          · rw [shift_size, ← hbude]; exact hdel
          · rw [hsdb, hmod, shift_size, ← hPe, set_order]
            exact store_blockptr _ hPb
          · rw [shift_size, ← hPe]; exact hm

/-- `mem_free` of the payload pointer of an allocated block succeeds and keeps the
invariant, with the block removed from the allocated blocks. -/
theorem mem_free_full {s : State} {F : Nat → List Nat} {A : List Nat} {b : Nat}
    (hI : Inv s F A) (hb : b ∈ A) :
    ∃ s' F', mem_free s (b + SIZE_T) = some s' ∧ Inv s' F' (A.erase b) := by
  have hko := (hI.ptr.hdr b (hI.ablk b hb)).1
  obtain ⟨s1, nb, s', F', hm, hins, hI'⟩ := merge_insert_inv (MAP_BITS + 1) s F A b hI hb
    (by simp only [MAP_BITS, ORDER_MAX]; simp; omega)
  refine ⟨s', F', ?_, hI'⟩
  simp only [mem_free, merge, bind, Option.bind_eq_some]
  exact ⟨(s1, nb), by simpa using hm, hins⟩

/-! ### A partition without free buddies and without allocated blocks -/

theorem size_of_order_add (k d : Nat) : size_of_order (k + d) = size_of_order k * 2 ^ d := by
  simp only [size_of_order, pow_add]; ring

/-- An aligned block of order `j` that meets an aligned block of order `k ≤ j`
contains it. -/
theorem aligned_contains {x j P k a : Nat} (hx : Aligned x j) (hP : Aligned P k) (hkj : k ≤ j)
    (hxb : heap_base ≤ x) (hPb : heap_base ≤ P) (h1 : x ≤ a) (h2 : a < x + size_of_order j)
    (h3 : P ≤ a) (h4 : a < P + size_of_order k) :
    x ≤ P ∧ P + size_of_order k ≤ x + size_of_order j := by
  obtain ⟨d, rfl⟩ : ∃ d, j = k + d := ⟨j - k, by omega⟩
  have hS := size_of_order_pos k
  have x2 : (x - heap_base) % size_of_order (k + d) = 0 := hx.2
  have p2 : (P - heap_base) % size_of_order k = 0 := hP.2
  rw [size_of_order_add] at x2 h2 ⊢
  have e1 := Nat.div_add_mod (x - heap_base) (size_of_order k * 2 ^ d)
  have e2 := Nat.div_add_mod (P - heap_base) (size_of_order k)
  rw [x2] at e1
  rw [p2] at e2
  generalize (x - heap_base) / (size_of_order k * 2 ^ d) = q1 at e1
  generalize (P - heap_base) / size_of_order k = q2 at e2
  generalize size_of_order k = S at *
  generalize 2 ^ d = m at *
  rw [Nat.mul_assoc] at e1
  have k1 : m * q1 ≤ q2 := by
    have : S * (m * q1) < S * (q2 + 1) := by rw [Nat.mul_add]; omega
    have := Nat.lt_of_mul_lt_mul_left this
    omega
  have k2 : q2 + 1 ≤ m * q1 + m := by
    have : S * q2 < S * (m * q1 + m) := by rw [Nat.mul_add]; omega
    have := Nat.lt_of_mul_lt_mul_left this
    omega
  have k1' := Nat.mul_le_mul_left S k1
  have k2' := Nat.mul_le_mul_left S k2
  rw [Nat.mul_add] at k2'
  rw [Nat.mul_add] at k2'
  simp only [Nat.mul_one] at k2'
  constructor <;> omega

/-- With no allocated block left, the invariant leaves one free block: the whole
arena, on the list of order `ORDER_MAX`. -/
theorem Inv.all_free {s : State} {F : Nat → List Nat} (hI : Inv s F []) :
    F ORDER_MAX = [heap_base] ∧ ∀ k, k ≠ ORDER_MAX → F k = [] := by
  have hblk : ∀ x, IsBlk F [] x → ∃ j, x ∈ F j := by
    rintro x (h | h)
    · simp at h
    · exact h
  have htop : ∀ k b, b ∈ F k → k = ORDER_MAX := by
    by_contra hcon
    push_neg at hcon
    have hex : ∃ k, ∃ b, b ∈ F k ∧ k ≠ ORDER_MAX := by
      obtain ⟨k, b, h1, h2⟩ := hcon
      exact ⟨k, b, h1, h2⟩
    classical
    obtain ⟨b, hb, hk0⟩ := Nat.find_spec hex
    have hmin : ∀ j x, x ∈ F j → Nat.find hex ≤ j := by
      intro j x hx
      by_contra hlt
      have hj := (hI.fhdr j x hx).1
      have hk := (hI.fhdr _ b hb).1
      exact Nat.find_min hex (by omega : j < Nat.find hex) ⟨x, hx, by omega⟩
    generalize Nat.find hex = k at hb hk0 hmin
    obtain ⟨hk, hbb, hbh⟩ := hI.fhdr k b hb
    have hklt : k < ORDER_MAX := by omega
    have hba : Aligned b k := by have := hI.ptr.hdr b hbb; rwa [hbh] at this
    obtain ⟨P, buddy, hPb, hPa, hbudb, _, _, hpair⟩ := parent_buddy hbb hba hklt
    have hS := size_of_order_pos k
    have hbuda : Aligned buddy k := by
      have := halves_aligned hPb hPa (by omega : 1 ≤ k + 1)
      simp only [Nat.add_sub_cancel, shift_size, size_of_order_succ] at this
      have e : 2 * size_of_order k / 2 = size_of_order k := by omega
      rw [e] at this
      rcases hpair with ⟨_, a2⟩ | ⟨_, a2⟩
      · rw [a2]; exact this.2.2
      · rw [a2]; exact this.1
    obtain ⟨x, hx, c1, c2⟩ := hI.cover buddy hbudb
    obtain ⟨j, hxj⟩ := hblk x hx
    obtain ⟨hj, hxb, hxh⟩ := hI.fhdr j x hxj
    rw [hxh] at c2
    have hxa : Aligned x j := by have := hI.ptr.hdr x hxb; rwa [hxh] at this
    have hkj := hmin j x hxj
    rcases Nat.eq_or_lt_of_le hkj with hjk | hjk
    · subst hjk
      have := aligned_contains hxa hbuda (le_refl _) hxb.1 hbudb.1 c1 c2 (le_refl _) (by omega)
      have hxbud : x = buddy := by omega
      rw [hxbud] at hxj
      refine hI.nobud k P hklt hPb hPa ?_
      rcases hpair with ⟨a1, a2⟩ | ⟨a1, a2⟩
      · exact ⟨a1 ▸ hb, a2 ▸ hxj⟩
      · exact ⟨a2 ▸ hxj, a1 ▸ hb⟩
    · have hbudP : P ≤ buddy ∧ buddy < P + size_of_order (k + 1) := by
        rw [size_of_order_succ]
        rcases hpair with ⟨a1, a2⟩ | ⟨a1, a2⟩ <;> omega
      have := aligned_contains hxa hPa (by omega : k + 1 ≤ j) hxb.1 hPb.1 c1 c2 hbudP.1 hbudP.2
      rw [size_of_order_succ] at this
      have hne : x ≠ b := by
        intro e
        rw [e, hbh] at hxh
        omega
      have hd := hI.disj x b hx (Or.inr ⟨k, hb⟩) hne
      rw [hxh, hbh] at hd
      rcases hpair with ⟨a1, a2⟩ | ⟨a1, a2⟩ <;> omega
  have hrest : ∀ k, k ≠ ORDER_MAX → F k = [] := by
    intro k hk
    apply List.eq_nil_iff_forall_not_mem.mpr
    intro b hb
    exact hk (htop k b hb)
  refine ⟨?_, hrest⟩
  have hall : ∀ b, b ∈ F ORDER_MAX → b = heap_base := by
    intro b hb
    obtain ⟨_, hbb, hbh⟩ := hI.fhdr _ b hb
    have hba := hI.ptr.hdr b hbb
    rw [hbh] at hba
    obtain ⟨b1, b2, _⟩ := hbb
    have := hba.2
    simp only [ORDER_MAX, PAGE_SIZE, heap_size_eq, heap_base] at *
    omega
  have hne : heap_base ∈ F ORDER_MAX := by
    obtain ⟨x, hx, _, _⟩ := hI.cover heap_base blockPtr_heap_base
    obtain ⟨j, hxj⟩ := hblk x hx
    have := htop j x hxj
    subst this
    rw [← hall x hxj]
    exact hxj
  have hnd := hI.fnodup ORDER_MAX
  cases hF : F ORDER_MAX with
  | nil => rw [hF] at hne; simp at hne
  | cons a l =>
    rw [hF] at hall hnd
    have ha := hall a (List.mem_cons_self _ _)
    subst ha
    cases l with
    | nil => rfl
    | cons a2 l2 =>
      have h2 := hall a2 (List.mem_cons_of_mem _ (List.mem_cons_self _ _))
      rw [h2] at hnd
      simp at hnd

/-! ### `mem_init` establishes the invariant -/

/-- The state produced by `mem_init` from the zero-initialised program state. -/
theorem mem_init_state {s0 : State} (h : mem_init zero_state = some s0) :
    (∀ x, s0.heap x = if x = heap_base then ORDER_MAX else 0) ∧
    (∀ k, s0.free_area_struct_array k = if k = ORDER_MAX then heap_base else NULL) ∧
    (∀ i, s0.map i = false) := by
  have hb := blockPtr_heap_base
  simp [mem_init, List.range, List.range.loop, mem_init_step, set_head, ORDER_MAX,
      set_prev, set_next, set_order, store_blockptr8 _ hb, store_blockptr16 _ hb,
      store_blockptr _ hb] at h
  subst h
  refine ⟨fun x => ?_, fun k => ?_, fun i => ?_⟩
  · simp only [with_head_heap, write_heap, zero_state]
    by_cases h0 : x = heap_base
    · simp [h0, ORDER_MAX]
    · simp [h0, NULL]
  · simp only [with_head_free, write_free, zero_state, NULL]
    by_cases h0 : k = 10
    · simp [h0, ORDER_MAX]
    · simp [h0, ORDER_MAX]
  · simp [bitsetInit]

/-- The free lists of the freshly initialised allocator: the whole arena on the list of
order `ORDER_MAX`. -/
theorem mem_init_full {s0 : State} (h : mem_init zero_state = some s0) :
    Inv s0 (fun k => if k = ORDER_MAX then [heap_base] else []) [] := by
  obtain ⟨hh, hf, hm⟩ := mem_init_state h
  have hb := blockPtr_heap_base
  have hmem : ∀ k x, x ∈ (fun k => if k = ORDER_MAX then [heap_base] else []) k ↔
      k = ORDER_MAX ∧ x = heap_base := by
    intro k x
    by_cases hk : k = ORDER_MAX <;> simp [hk]
  have hblk : ∀ x, IsBlk (fun k => if k = ORDER_MAX then [heap_base] else []) [] x ↔
      x = heap_base := by
    intro x
    constructor
    · rintro (h | ⟨k, h⟩)
      · simp at h
      · exact ((hmem k x).mp h).2
    · intro h; exact Or.inr ⟨ORDER_MAX, (hmem _ _).mpr ⟨rfl, h⟩⟩
  refine ⟨mem_init_inv h, ?_, ?_, ?_, ?_, ?_, ?_, ?_, ?_, ?_, ?_⟩
  · intro k _
    by_cases hk : k = ORDER_MAX
    · subst hk
      simp only [if_true, Chain, hf, hh]
      refine ⟨trivial, ?_, ?_⟩
      · simp [heap_base, NULL]
      · simp [heap_base, NULL]
    · simp only [hk, if_false, Chain, hf]
  · intro k x hx
    obtain ⟨rfl, rfl⟩ := (hmem k x).mp hx
    exact ⟨le_refl _, hb, by rw [hh, if_pos rfl]⟩
  · intro k
    by_cases hk : k = ORDER_MAX <;> simp [hk]
  · intro x hx; simp at hx
  · exact List.nodup_nil
  · intro x hx; simp at hx
  · intro x y hx hy hxy
    rw [(hblk x).mp hx, (hblk y).mp hy] at hxy
    exact absurd rfl hxy
  · intro a ha
    refine ⟨heap_base, (hblk _).mpr rfl, ha.1, ?_⟩
    rw [hh, if_pos rfl]
    have := ha.2.1
    simp only [size_of_order, ORDER_MAX, PAGE_SIZE, heap_size_eq] at *
    omega
  · intro k c hk _ _
    rw [hm, hmem, hmem]
    constructor
    · intro h; exact absurd h Bool.false_ne_true
    · rintro (⟨h, _⟩ | ⟨h, _⟩) <;> omega
  · intro k c hk _ _
    rw [hmem]
    rintro ⟨⟨h, _⟩, _⟩
    omega

/-! ### The invariant under the steps of `mem_alloc` -/

/-- The invariant does not depend on the order in which the allocated blocks are
listed. -/
theorem Inv.perm {s : State} {F : Nat → List Nat} {A A' : List Nat} (hI : Inv s F A)
    (hp : A.Perm A') : Inv s F A' := by
  have hm : ∀ x, x ∈ A' ↔ x ∈ A := fun x => hp.symm.mem_iff
  have hblk : ∀ x, IsBlk F A' x ↔ IsBlk F A x := by
    intro x; simp only [IsBlk, hm]
  refine ⟨hI.ptr, hI.chain, hI.fhdr, hI.fnodup, fun b hb => hI.ablk b ((hm b).mp hb),
    hp.nodup_iff.mp hI.anodup, fun b hb => hI.afree b ((hm b).mp hb), ?_, ?_, hI.bits, hI.nobud⟩
  · intro x y hx hy hxy
    exact hI.disj x y ((hblk x).mp hx) ((hblk y).mp hy) hxy
  · intro a ha
    obtain ⟨x, hx, h1, h2⟩ := hI.cover a ha
    exact ⟨x, (hblk x).mpr hx, h1, h2⟩

/-- The first step of `mem_alloc`: the only block `b` of the free list of order `k` is
taken off the list, and the bit of its parent `P` is flipped when `k < ORDER_MAX`. -/
theorem Inv.take {s s' : State} {F : Nat → List Nat} {A : List Nat} {b k P buddy : Nat}
    (hI : Inv s F A) (hF : F k = [b])
    (hk : k = ORDER_MAX ∨ (k < ORDER_MAX ∧ BlockPtr P ∧ Aligned P (k + 1) ∧
      ((b = P ∧ buddy = P + size_of_order k) ∨ (b = P + size_of_order k ∧ buddy = P))))
    (hmap : ∀ j, s'.map j = if k < ORDER_MAX ∧ j = bidx (k + 1) P then !(s.map j) else s.map j)
    (hfree : ∀ j, s'.free_area_struct_array j = if j = k then NULL else s.free_area_struct_array j)
    (hheap : s'.heap = s.heap) :
    Inv s' (Function.update F k []) (b :: A) := by
  have hbk : b ∈ F k := by rw [hF]; exact List.mem_cons_self _ _
  obtain ⟨hko, hbb, hbh⟩ := hI.fhdr k b hbk
  have hmem : ∀ j x, x ∈ Function.update F k [] j ↔ x ∈ F j ∧ x ≠ b := by
    intro j x
    by_cases hj : j = k
    · subst hj
      rw [Function.update_same, hF]
      simp
    · rw [Function.update_noteq hj]
      refine ⟨fun h => ⟨h, fun e => hj ?_⟩, fun h => h.1⟩
      have := (hI.fhdr j x h).2.2
      rw [e, hbh] at this
      exact this.symm
  have hbA : b ∉ A := fun h => hI.afree b h k hbk
  have hblk : ∀ x, IsBlk (Function.update F k []) (b :: A) x ↔ IsBlk F A x := by
    intro x
    constructor
    · rintro (h | ⟨j, h⟩)
      · rcases List.mem_cons.mp h with h | h
        · exact Or.inr ⟨k, h ▸ hbk⟩
        · exact Or.inl h
      · exact Or.inr ⟨j, ((hmem j x).mp h).1⟩
    · rintro (h | ⟨j, h⟩)
      · exact Or.inl (List.mem_cons_of_mem _ h)
      · by_cases hx : x = b
        · exact Or.inl (hx ▸ List.mem_cons_self _ _)
        · exact Or.inr ⟨j, (hmem j x).mpr ⟨h, hx⟩⟩
  have hptr : PtrInv s' := by
    refine ⟨fun a ha => hheap ▸ hI.ptr.hdr a ha, fun a ha => hheap ▸ hI.ptr.lprev a ha,
      fun a ha => hheap ▸ hI.ptr.lnext a ha, fun j hj => ?_⟩
    rw [hfree]
    by_cases e : j = k
    · rw [if_pos e]; exact ptrOrNull_null
    · rw [if_neg e]; exact hI.ptr.head j hj
  refine ⟨hptr, ?_, ?_, ?_, ?_, ?_, ?_, ?_, ?_, ?_, ?_⟩
  · intro j hj
    by_cases hjk : j = k
    · subst hjk
      rw [Function.update_same, hfree, if_pos rfl]
      rfl
    · rw [Function.update_noteq hjk, hfree, if_neg hjk]
      exact Chain.frame _ _ _ (hI.chain j hj) (fun x _ => by rw [hheap]; exact ⟨rfl, rfl⟩)
  · intro j x hx
    obtain ⟨h1, h2, h3⟩ := hI.fhdr j x ((hmem j x).mp hx).1
    exact ⟨h1, h2, by rw [hheap]; exact h3⟩
  · intro j
    by_cases hjk : j = k
    · subst hjk; rw [Function.update_same]; exact List.nodup_nil
    · rw [Function.update_noteq hjk]; exact hI.fnodup j
  · intro x hx
    rcases List.mem_cons.mp hx with h | h
    · rw [h]; exact hbb
    · exact hI.ablk x h
  · exact List.nodup_cons.mpr ⟨hbA, hI.anodup⟩
  · intro x hx j hxj
    obtain ⟨h1, h2⟩ := (hmem j x).mp hxj
    rcases List.mem_cons.mp hx with h | h
    · exact h2 h
    · exact hI.afree x h j h1
  · intro x y hx hy hxy
    rw [hheap]
    exact hI.disj x y ((hblk x).mp hx) ((hblk y).mp hy) hxy
  · intro a ha
    obtain ⟨x, hx, h1, h2⟩ := hI.cover a ha
    exact ⟨x, (hblk x).mpr hx, h1, by rw [hheap]; exact h2⟩
  · intro j c hj hcb hca
    rw [hmap, hmem, hmem]
    rcases hk with hk | ⟨hk, hPb, hPa, hpair⟩
    · have hjk : j ≠ k := by omega
      rw [if_neg (by omega)]
      have e1 : c ∈ F j → c ≠ b := by
        intro h e
        have := (hI.fhdr j c h).2.2
        rw [e, hbh] at this
        exact hjk this.symm
      have e2 : c + size_of_order j ∈ F j → c + size_of_order j ≠ b := by
        intro h e
        have := (hI.fhdr j _ h).2.2
        rw [e, hbh] at this
        exact hjk this.symm
      rw [hI.bits j c hj hcb hca]
      exact ⟨fun h => h.elim (fun h => Or.inl ⟨h, e1 h⟩) (fun h => Or.inr ⟨h, e2 h⟩),
        fun h => h.elim (fun h => Or.inl h.1) (fun h => Or.inr h.1)⟩
    · have hbP : b = P ∨ b = P + size_of_order k := by
        rcases hpair with ⟨a1, _⟩ | ⟨a1, _⟩
        · exact Or.inl a1
        · exact Or.inr a1
      by_cases hnode : j = k ∧ c = P
      · obtain ⟨rfl, rfl⟩ := hnode
        have hold := hI.bits j c hj hcb hca
        have ht : s.map (bidx (j + 1) c) = true := by
          apply hold.mpr
          rcases hbP with e | e
          · left; rw [← e]; exact hbk
          · right; rw [← e]; exact hbk
        rw [if_pos ⟨hk, rfl⟩, ht]
        refine ⟨fun h => by simp at h, fun h => ?_⟩
        exfalso
        rw [hF] at h
        rcases h with ⟨h1, h2⟩ | ⟨h1, h2⟩
        · exact h2 (List.mem_singleton.mp h1)
        · exact h2 (List.mem_singleton.mp h1)
      · have hidx : ¬ (k < ORDER_MAX ∧ bidx (j + 1) c = bidx (k + 1) P) := by
          rintro ⟨_, e⟩
          obtain ⟨e1, e2⟩ := bidx_inj hcb hca hPb hPa e
          exact hnode ⟨by omega, e2⟩
        rw [if_neg hidx]
        have e1 : c ∈ F j → c ≠ b := by
          intro h e
          have := (hI.fhdr j c h).2.2
          rw [e, hbh] at this
          subst this
          exact hnode ⟨rfl, node_of_half hca hPa hcb.1 hPb.1 hbP (Or.inl e)⟩
        have e2 : c + size_of_order j ∈ F j → c + size_of_order j ≠ b := by
          intro h e
          have := (hI.fhdr j _ h).2.2
          rw [e, hbh] at this
          subst this
          exact hnode ⟨rfl, node_of_half hca hPa hcb.1 hPb.1 hbP (Or.inr e)⟩
        rw [hI.bits j c hj hcb hca]
        exact ⟨fun h => h.elim (fun h => Or.inl ⟨h, e1 h⟩) (fun h => Or.inr ⟨h, e2 h⟩),
          fun h => h.elim (fun h => Or.inl h.1) (fun h => Or.inr h.1)⟩
  · intro j c hj hcb hca
    rw [hmem, hmem]
    intro h
    exact hI.nobud j c hj hcb hca ⟨h.1.1, h.2.1⟩

/-- One split step of `mem_alloc`: the block `b` of order `k ≥ 1` being split gets its
bit flipped, its left half is put on the free list of order `k - 1`, and its right
half `R` takes its place. -/
theorem Inv.split_step {s s' : State} {F : Nat → List Nat} {A : List Nat} {b R : Nat}
    (hI : Inv s F A) (hb : b ∈ A) (hk1 : 1 ≤ s.heap b)
    (hR : R = b + size_of_order (s.heap b - 1)) (hptr : PtrInv s')
    (hmap : ∀ j, s'.map j = if j = bidx (s.heap b) b then !(s.map j) else s.map j)
    (hfree : ∀ j, s'.free_area_struct_array j =
      if j = s.heap b - 1 then b else s.free_area_struct_array j)
    (hheap : ∀ x, s'.heap x = if x = b + 8 then NULL else
      if x = b + 16 then s.free_area_struct_array (s.heap b - 1) else
      if s.free_area_struct_array (s.heap b - 1) ≠ NULL ∧
          x = s.free_area_struct_array (s.heap b - 1) + 8 then b else
      if x = b ∨ x = R then s.heap b - 1 else s.heap x) :
    Inv s' (Function.update F (s.heap b - 1) (b :: F (s.heap b - 1))) (R :: A.erase b) := by
  have hbb : BlockPtr b := hI.ablk b hb
  have hba : Aligned b (s.heap b) := hI.ptr.hdr b hbb
  have hko : s.heap b ≤ ORDER_MAX := hba.1
  have hbF : ∀ j, b ∉ F j := hI.afree b hb
  obtain ⟨hla, hRb', hRa'⟩ := halves_aligned hbb hba hk1
  have hsz : size_of_order (s.heap b) = 2 * size_of_order (s.heap b - 1) := by
    have := size_of_order_succ (s.heap b - 1)
    have e : s.heap b - 1 + 1 = s.heap b := by omega
    rwa [e] at this
  have hpos := size_of_order_pos (s.heap b - 1)
  have hRe : b + 1 <<< s.heap b * PAGE_SIZE / 2 = R := by
    rw [shift_size, hsz, hR]; omega
  rw [hRe] at hRb' hRa'
  have hRb : BlockPtr R := hRb'
  have hRa : Aligned R (s.heap b - 1) := hRa'
  have hbB : IsBlk F A b := Or.inl hb
  have hRnot : ∀ x, IsBlk F A x → x ≠ R := by
    intro x hx e
    have hne : x ≠ b := by rw [e, hR]; omega
    have := hI.disj x b hx hbB hne
    have hp2 := size_of_order_pos (s.heap x)
    rw [e, hsz] at this
    omega
  have hko1 : s.heap b - 1 ≤ ORDER_MAX := by omega
  have hc : PtrOrNull (s.free_area_struct_array (s.heap b - 1)) := hI.ptr.head _ hko1
  have hfhmem : s.free_area_struct_array (s.heap b - 1) ≠ NULL →
      s.free_area_struct_array (s.heap b - 1) ∈ F (s.heap b - 1) :=
    fun h => Chain.head_mem (hI.chain _ hko1) h
  have hhdr : ∀ x, BlockPtr x → s'.heap x = if x = b ∨ x = R then s.heap b - 1 else s.heap x := by
    intro x hx
    rw [hheap]
    obtain ⟨e1, e2, _, _⟩ := hx.fields_ne hbb
    rw [if_neg e1, if_neg e2]
    have c3 : ¬ (s.free_area_struct_array (s.heap b - 1) ≠ NULL ∧
        x = s.free_area_struct_array (s.heap b - 1) + 8) := by
      rintro ⟨h1, h2⟩
      exact (hx.fields_ne (hc.resolve_left h1)).1 h2
    rw [if_neg c3]
  have hlinks : ∀ x, BlockPtr x → x ≠ b → x ≠ s.free_area_struct_array (s.heap b - 1) →
      s'.heap (x + 8) = s.heap (x + 8) ∧ s'.heap (x + 16) = s.heap (x + 16) := by
    intro x hx hxb hxf
    obtain ⟨_, _, e3, e4⟩ := hx.fields_ne hbb
    obtain ⟨r1, r2, _, _⟩ := hRb.fields_ne hx
    obtain ⟨b1, b2, _, _⟩ := hbb.fields_ne hx
    constructor
    · rw [hheap, if_neg (by omega), if_neg e3, if_neg (fun h => hxf (by omega)),
        if_neg (fun h => h.elim (fun h => b1 h.symm) (fun h => r1 h.symm))]
    · have c3 : ¬ (s.free_area_struct_array (s.heap b - 1) ≠ NULL ∧
          x + 16 = s.free_area_struct_array (s.heap b - 1) + 8) := by
        rintro ⟨h1, h2⟩
        exact (hx.fields_ne (hc.resolve_left h1)).2.2.2 h2
      rw [hheap, if_neg e4, if_neg (by omega), if_neg c3,
        if_neg (fun h => h.elim (fun h => b2 h.symm) (fun h => r2 h.symm))]
  have hmem : ∀ j x, x ∈ Function.update F (s.heap b - 1) (b :: F (s.heap b - 1)) j ↔
      (j = s.heap b - 1 ∧ x = b) ∨ x ∈ F j := by
    intro j x
    by_cases hj : j = s.heap b - 1
    · subst hj; simp
    · simp [Function.update_noteq hj, hj]
  have hblkptr : ∀ x, IsBlk F A x → BlockPtr x := by
    rintro x (h | ⟨j, h⟩)
    · exact hI.ablk x h
    · exact (hI.fhdr j x h).2.1
  have hblk : ∀ x, IsBlk (Function.update F (s.heap b - 1) (b :: F (s.heap b - 1)))
      (R :: A.erase b) x ↔ x = b ∨ x = R ∨ (IsBlk F A x ∧ x ≠ b) := by
    intro x
    constructor
    · rintro (h | ⟨j, h⟩)
      · rcases List.mem_cons.mp h with h | h
        · exact Or.inr (Or.inl h)
        · refine Or.inr (Or.inr ⟨Or.inl (List.mem_of_mem_erase h), fun e => ?_⟩)
          exact (List.Nodup.not_mem_erase hI.anodup) (e ▸ h)
      · rcases (hmem j x).mp h with ⟨_, h⟩ | h
        · exact Or.inl h
        · exact Or.inr (Or.inr ⟨Or.inr ⟨j, h⟩, fun e => hbF j (e ▸ h)⟩)
    · rintro (h | h | ⟨h | ⟨j, h⟩, h2⟩)
      · exact Or.inr ⟨_, (hmem _ x).mpr (Or.inl ⟨rfl, h⟩)⟩
      · exact Or.inl (h ▸ List.mem_cons_self _ _)
      · exact Or.inl (List.mem_cons_of_mem _ ((List.mem_erase_of_ne h2).mpr h))
      · exact Or.inr ⟨j, (hmem j x).mpr (Or.inr h)⟩
  have hbh' : s'.heap b = s.heap b - 1 := by rw [hhdr b hbb, if_pos (Or.inl rfl)]
  have hRh' : s'.heap R = s.heap b - 1 := by rw [hhdr R hRb, if_pos (Or.inr rfl)]
  have hold : ∀ x, IsBlk F A x → x ≠ b → s'.heap x = s.heap x := by
    intro x hx hxb
    rw [hhdr x (hblkptr x hx), if_neg (fun h => h.elim hxb (hRnot x hx))]
  have hbR : b ≠ R := by rw [hR]; omega
  refine ⟨hptr, ?_, ?_, ?_, ?_, ?_, ?_, ?_, ?_, ?_, ?_⟩
  · -- chain
    intro j hj
    by_cases hjk : j = s.heap b - 1
    · subst hjk
      rw [hfree, if_pos rfl, Function.update_same]
      have hd := @Chain.insert s
        (relinked s b (s.free_area_struct_array (s.heap b - 1))) _ _ _
        (hI.chain _ hj) (fun x hx => (hI.fhdr _ x hx).2.1) (hI.fnodup _) hbb (hbF _)
        (fun x => rfl)
      refine Chain.frame _ _ _ hd (fun x hx => ?_)
      have hxb : BlockPtr x := by
        rcases List.mem_cons.mp hx with h | h
        · rw [h]; exact hbb
        · exact (hI.fhdr _ x h).2.1
      obtain ⟨r1, r2, _, _⟩ := hRb.fields_ne hxb
      obtain ⟨b1, b2, _, _⟩ := hbb.fields_ne hxb
      have n1 : ¬ (x + 8 = b ∨ x + 8 = R) :=
        fun h => h.elim (fun h => b1 h.symm) (fun h => r1 h.symm)
      have n2 : ¬ (x + 16 = b ∨ x + 16 = R) :=
        fun h => h.elim (fun h => b2 h.symm) (fun h => r2 h.symm)
      constructor
      · rw [hheap, if_neg n1]
        rfl
      · rw [hheap, if_neg n2]
        rfl
    · rw [hfree, if_neg hjk, Function.update_noteq hjk]
      refine Chain.frame _ _ _ (hI.chain j hj) (fun x hx => ?_)
      obtain ⟨_, hxb, hxh⟩ := hI.fhdr j x hx
      refine hlinks x hxb (fun e => hbF j (e ▸ hx)) (fun e => ?_)
      have hne : s.free_area_struct_array (s.heap b - 1) ≠ NULL := e ▸ hxb.ne_null
      have h2 := (hI.fhdr _ _ (hfhmem hne)).2.2
      rw [← e, hxh] at h2
      exact hjk h2
  · -- fhdr
    intro j x hx
    rcases (hmem j x).mp hx with ⟨rfl, rfl⟩ | h
    · exact ⟨hko1, hbb, hbh'⟩
    · obtain ⟨h1, h2, h3⟩ := hI.fhdr j x h
      exact ⟨h1, h2, by rw [hold x (Or.inr ⟨j, h⟩) (fun e => hbF j (e ▸ h)), h3]⟩
  · -- fnodup
    intro j
    by_cases hjk : j = s.heap b - 1
    · subst hjk
      rw [Function.update_same]
      exact List.nodup_cons.mpr ⟨hbF _, hI.fnodup _⟩
    · rw [Function.update_noteq hjk]; exact hI.fnodup j
  · -- ablk
    intro x hx
    rcases List.mem_cons.mp hx with h | h
    · rw [h]; exact hRb
    · exact hI.ablk x (List.mem_of_mem_erase h)
  · -- anodup
    refine List.nodup_cons.mpr ⟨fun h => ?_, hI.anodup.erase b⟩
    exact hRnot R (Or.inl (List.mem_of_mem_erase h)) rfl
  · -- afree
    intro x hx j hxj
    rcases List.mem_cons.mp hx with h | h
    · rcases (hmem j x).mp hxj with ⟨_, h2⟩ | h2
      · exact hbR (h2.symm.trans h)
      · exact hRnot x (Or.inr ⟨j, h2⟩) h
    · rcases (hmem j x).mp hxj with ⟨_, h2⟩ | h2
      · exact (List.Nodup.not_mem_erase hI.anodup) (h2 ▸ h)
      · exact hI.afree x (List.mem_of_mem_erase h) j h2
  · -- disj
    intro x y hx hy hxy
    have key : ∀ z, IsBlk F A z → z ≠ b →
        (z + size_of_order (s.heap z) ≤ b ∨ b + 2 * size_of_order (s.heap b - 1) ≤ z) := by
      intro z hz hzb
      have := hI.disj z b hz hbB hzb
      rw [hsz] at this
      exact this
    rcases (hblk x).mp hx with rfl | rfl | ⟨hx1, hx2⟩ <;>
      rcases (hblk y).mp hy with rfl | rfl | ⟨hy1, hy2⟩
    · exact absurd rfl hxy
    · rw [hbh', hRh']; omega
    · rw [hbh', hold y hy1 hy2]
      have := key y hy1 hy2
      omega
    · rw [hbh', hRh']; omega
    · exact absurd rfl hxy
    · rw [hRh', hold y hy1 hy2]
      have := key y hy1 hy2
      omega
    · rw [hbh', hold x hx1 hx2]
      have := key x hx1 hx2
      omega
    · rw [hRh', hold x hx1 hx2]
      have := key x hx1 hx2
      omega
    · rw [hold x hx1 hx2, hold y hy1 hy2]
      exact hI.disj x y hx1 hy1 hxy
  · -- cover
    intro a ha
    obtain ⟨x, hx, h1, h2⟩ := hI.cover a ha
    by_cases hxb : x = b
    · rw [hxb, hsz] at h2
      rw [hxb] at h1
      by_cases hlow : a < R
      · exact ⟨b, (hblk b).mpr (Or.inl rfl), h1, by rw [hbh']; omega⟩
      · exact ⟨R, (hblk R).mpr (Or.inr (Or.inl rfl)), by omega, by rw [hRh']; omega⟩
    · exact ⟨x, (hblk x).mpr (Or.inr (Or.inr ⟨hx, hxb⟩)), h1, by rw [hold x hx hxb]; exact h2⟩
  · -- bits
    intro j c hj hcb hca
    rw [hmap, hmem, hmem]
    have hba' : Aligned b (s.heap b - 1 + 1) := by
      have e : s.heap b - 1 + 1 = s.heap b := by omega
      rw [e]; exact hba
    by_cases hnode : j = s.heap b - 1 ∧ c = b
    · obtain ⟨rfl, rfl⟩ := hnode
      have e : s.heap c - 1 + 1 = s.heap c := by omega
      rw [e, if_pos rfl]
      have hold2 := hI.bits _ c hj hcb hca
      rw [e] at hold2
      have hf : s.map (bidx (s.heap c) c) = false := by
        cases hv : s.map (bidx (s.heap c) c) with
        | false => rfl
        | true =>
          exfalso
          rcases hold2.mp hv with h | h
          · exact hbF _ h
          · exact hRnot _ (Or.inr ⟨_, h⟩) hR.symm
      rw [hf]
      exact ⟨fun _ => Or.inl (Or.inl ⟨rfl, rfl⟩), fun _ => rfl⟩
    · have hidx : bidx (j + 1) c ≠ bidx (s.heap b) b := by
        intro e
        obtain ⟨e1, e2⟩ := bidx_inj hcb hca hbb hba e
        exact hnode ⟨by omega, e2⟩
      rw [if_neg hidx]
      have h1 : ¬ (j = s.heap b - 1 ∧ c = b) := hnode
      have h2 : ¬ (j = s.heap b - 1 ∧ c + size_of_order j = b) := by
        rintro ⟨rfl, e⟩
        exact hnode ⟨rfl, node_of_half hca hba' hcb.1 hbb.1 (Or.inl rfl) (Or.inr e)⟩
      simp only [h1, h2, false_or]
      exact hI.bits j c hj hcb hca
  · -- nobud
    intro j c hj hcb hca
    rw [hmem, hmem]
    have hba' : Aligned b (s.heap b - 1 + 1) := by
      have e : s.heap b - 1 + 1 = s.heap b := by omega
      rw [e]; exact hba
    have h2 : ¬ (j = s.heap b - 1 ∧ c + size_of_order j = b) := by
      rintro ⟨rfl, e⟩
      have := node_of_half hca hba' hcb.1 hbb.1 (Or.inl rfl) (Or.inr e)
      omega
    simp only [h2, false_or]
    rintro ⟨h | h, h3⟩
    · obtain ⟨rfl, rfl⟩ := h
      exact hRnot _ (Or.inr ⟨_, h3⟩) hR.symm
    · exact hI.nobud j c hj hcb hca ⟨h, h3⟩

/-- The state after a successful `toggle` under the pointer discipline. -/
theorem toggle_full {s s1 : State} {b : Nat} (hI : PtrInv s) (hb : BlockPtr b)
    (h : toggle s b = some s1) : s1 = with_flip s (bidx (s.heap b) b) := by
  simp only [toggle, get_gitmap_idx_eq hI hb, bind, Option.some_bind, Option.bind_eq_some] at h
  obtain ⟨m, hm, hs⟩ := h
  obtain ⟨_, rfl⟩ := bitsetFlip_eq_some.mp hm
  simp only [Option.some.injEq] at hs
  rw [← hs]
  rfl

/-- `split_block` on an allocated block of order at least `r`, when the free lists of
the orders from `r` up to the order of the block are empty: the invariant is kept, the
returned block has order `r` and replaces the block among the allocated blocks, and
every free list still holds at most one block. -/
theorem split_inv : ∀ (fuel : Nat) (s : State) (F : Nat → List Nat) (A : List Nat) (b r : Nat)
    (s' : State) (nb : Nat), Inv s F A → b ∈ A → r ≤ s.heap b →
    (∀ j, r ≤ j → j < s.heap b → F j = []) → Short F →
    split_block_fuel fuel s b (r : Int) = some (s', nb) →
    ∃ F', Inv s' F' (nb :: A.erase b) ∧ Short F' ∧ s'.heap nb = r := by
  intro fuel
  induction fuel with
  | zero => intro s F A b r s' nb _ _ _ _ _ h; simp [split_block_fuel] at h
  | succ fuel ih =>
    intro s F A b r s' nb hI hb hr hemp hshort h
    have hbb : BlockPtr b := hI.ablk b hb
    have hba := hI.ptr.hdr b hbb
    have hko : s.heap b ≤ ORDER_MAX := hba.1
    have hrs : toSizeT (r : Int) = r :=
      toSizeT_natCast r (by simp only [ORDER_MAX] at hko; omega)
    simp only [split_block_fuel, order_of, load_blockptr hbb, bind, Option.some_bind, hrs] at h
    split at h
    · rename_i heq
      simp only [Option.some.injEq, Prod.mk.injEq] at h
      obtain ⟨rfl, rfl⟩ := h
      exact ⟨F, hI.perm (List.perm_cons_erase hb), hshort, heq⟩
    · rename_i hne
      have hk1 : 1 ≤ s.heap b := by omega
      rw [get_block_size_blockptr hI.ptr hbb] at h
      simp only [Option.some_bind, Option.bind_eq_some] at h
      obtain ⟨s1, ht, h⟩ := h
      have hs1 := toggle_full hI.ptr hbb ht
      subst hs1
      obtain ⟨hl, hrb, hra⟩ := halves_aligned hbb hba hk1
      have hsz : size_of_order (s.heap b) = 2 * size_of_order (s.heap b - 1) := by
        have := size_of_order_succ (s.heap b - 1)
        have e : s.heap b - 1 + 1 = s.heap b := by omega
        rwa [e] at this
      have hRe : b + 1 <<< s.heap b * PAGE_SIZE / 2 = b + size_of_order (s.heap b - 1) := by
        rw [shift_size, hsz]; omega
      rw [hRe] at hrb hra h
      have hI1 : PtrInv (with_flip s (bidx (s.heap b) b)) := hI.ptr.set_map _
      have e : (s.heap b + 2 ^ 64 - 1) % 2 ^ 64 = s.heap b - 1 := by
        simp only [ORDER_MAX] at hko
        omega
      have hwf : (with_flip s (bidx (s.heap b) b)).heap b = s.heap b := rfl
      simp only [load_blockptr hbb, Option.some_bind, set_order, hwf, e, store_blockptr _ hbb,
        Option.some.injEq, exists_eq_left', write_heap, if_true, Option.bind_eq_some,
        store_blockptr _ hrb] at h
      obtain ⟨s3, hs3, h⟩ := h
      have hI2 : PtrInv (write (write (with_flip s (bidx (s.heap b) b)) b (s.heap b - 1))
          (b + size_of_order (s.heap b - 1)) (s.heap b - 1)) :=
        (hI1.store_hdr hbb hl (store_blockptr _ hbb)).store_hdr hrb hra (store_blockptr _ hrb)
      obtain ⟨s3', hins, hptr3, hmap3, hfree3, hheap3⟩ := insert_full hI2 hbb
      rw [hs3] at hins
      simp only [Option.some.injEq] at hins
      subst hins
      have hpos := size_of_order_pos (s.heap b - 1)
      have hbR : b ≠ b + size_of_order (s.heap b - 1) := by omega
      have hb2 : (write (write (with_flip s (bidx (s.heap b) b)) b (s.heap b - 1))
          (b + size_of_order (s.heap b - 1)) (s.heap b - 1)).heap b = s.heap b - 1 := by
        simp only [write_heap, if_neg hbR, if_true]
      rw [hb2] at hfree3 hheap3
      have hI3 := @Inv.split_step _ s3 _ _ _ _ hI hb hk1 rfl hptr3
        (by intro j; rw [hmap3]; rfl)
        (by intro j; rw [hfree3]; rfl)
        (by
          intro x
          rw [hheap3]
          simp only [write_heap, write_free]
          by_cases c1 : x = b + 8
          · rw [if_pos c1, if_pos c1]
          · rw [if_neg c1, if_neg c1]
            by_cases c2 : x = b + 16
            · rw [if_pos c2, if_pos c2]; rfl
            · rw [if_neg c2, if_neg c2]
              have ef : (with_flip s (bidx (s.heap b) b)).free_area_struct_array =
                  s.free_area_struct_array := rfl
              rw [ef]
              by_cases c3 : s.free_area_struct_array (s.heap b - 1) ≠ NULL ∧
                  x = s.free_area_struct_array (s.heap b - 1) + 8
              · rw [if_pos c3, if_pos c3]
              · rw [if_neg c3, if_neg c3]
                by_cases c4 : x = b + size_of_order (s.heap b - 1)
                · rw [if_pos c4, if_pos (Or.inr c4)]
                · rw [if_neg c4]
                  by_cases c5 : x = b
                  · rw [if_pos c5, if_pos (Or.inl c5)]
                  · rw [if_neg c5, if_neg (fun hc => hc.elim c5 c4)]; rfl)
      have hR3 : s3.heap (b + size_of_order (s.heap b - 1)) = s.heap b - 1 := by
        have := (hI3.ablk _ (List.mem_cons_self _ _))
        rw [hheap3]
        obtain ⟨r1, r2, _, _⟩ := hrb.fields_ne hbb
        rw [if_neg r1, if_neg r2]
        have c3 : ¬ ((write (write (with_flip s (bidx (s.heap b) b)) b (s.heap b - 1))
            (b + size_of_order (s.heap b - 1)) (s.heap b - 1)).free_area_struct_array
              (s.heap b - 1) ≠ NULL ∧ b + size_of_order (s.heap b - 1) =
            (write (write (with_flip s (bidx (s.heap b) b)) b (s.heap b - 1))
            (b + size_of_order (s.heap b - 1)) (s.heap b - 1)).free_area_struct_array
              (s.heap b - 1) + 8) := by
          rintro ⟨h1, h2⟩
          have hfb := (hI2.head _ (by omega : s.heap b - 1 ≤ ORDER_MAX)).resolve_left h1
          exact (hrb.fields_ne hfb).1 h2
        rw [if_neg c3]
        simp only [write_heap, if_true]
      have hFe : F (s.heap b - 1) = [] := hemp _ (by omega) (by omega)
      obtain ⟨F', hI', hshort', hnb⟩ := ih s3 _ _ _ r s' nb hI3 (List.mem_cons_self _ _)
        (by rw [hR3]; omega)
        (by
          intro j hj1 hj2
          rw [hR3] at hj2
          rw [Function.update_noteq (by omega)]
          exact hemp j hj1 (by omega))
        (by
          intro j
          by_cases hj : j = s.heap b - 1
          · subst hj
            rw [Function.update_same, hFe]
            simp
          · rw [Function.update_noteq hj]; exact hshort j)
        h
      rw [List.erase_cons_head] at hI'
      exact ⟨F', hI', hshort', hnb⟩

/-! ### `mem_alloc` keeps the invariant while every free list is short -/

/-- A block found by the search loop: the start order is not negative, the block is
the non-`NULL` head of the list of the order found, and the lists of the orders before
it, from the start order on, are empty. -/
theorem find_block_found (s : State) : ∀ (fuel : Nat) (r o : Int) (b : Nat),
    find_block s fuel r = some (some (o, b)) →
    0 ≤ r ∧ r ≤ o ∧ o ≤ ORDER_MAX ∧ b ≠ NULL ∧ s.free_area_struct_array o.toNat = b ∧
      ∀ j : Nat, r ≤ (j : Int) → (j : Int) < o → s.free_area_struct_array j = NULL := by
  intro fuel
  induction fuel with
  | zero => intro r o b h; simp [find_block] at h
  | succ fuel ih =>
    intro r o b h
    simp only [find_block] at h
    split at h
    · simp at h
    · split at h
      · simp at h
      · simp only [bind, Option.bind_eq_some] at h
        obtain ⟨blk, hg, h⟩ := h
        obtain ⟨_, hblk⟩ := get_head_eq_some.mp hg
        split at h
        · simp only [Option.some.injEq, Prod.mk.injEq] at h
          obtain ⟨rfl, rfl⟩ := h
          refine ⟨by omega, le_refl _, by omega, by assumption, hblk, fun j h1 h2 => by omega⟩
        · rename_i hnull
          obtain ⟨h1, h2, h3, h4, h5, h6⟩ := ih _ _ _ h
          refine ⟨by omega, by omega, h3, h4, h5, fun j j1 j2 => ?_⟩
          by_cases hlt : r < (j : Int)
          · exact h6 j (by omega) j2
          · have e : r.toNat = j := by omega
            rw [← e, hblk]
            simpa using hnull

theorem Short.update_nil {F : Nat → List Nat} (h : Short F) (k : Nat) :
    Short (Function.update F k []) := by
  intro j
  by_cases hj : j = k
  · subst hj; rw [Function.update_same]; simp
  · rw [Function.update_noteq hj]; exact h j

/-- A successful `mem_alloc` in a state that satisfies the invariant and whose free
lists hold at most one block each: the returned pointer is the payload pointer of a
block that joins the allocated blocks, and the invariant and the bound on the lists
are kept. -/
theorem mem_alloc_full {s s' : State} {F : Nat → List Nat} {A : List Nat} {size p : Nat}
    (hI : Inv s F A) (hS : Short F) (h : mem_alloc s size = some (p, s')) (hp : p ≠ NULL) :
    ∃ F' b, p = b + SIZE_T ∧ Inv s' F' (b :: A) ∧ Short F' := by
  simp only [mem_alloc, bind, Option.bind_eq_some] at h
  obtain ⟨fb, hfb, h⟩ := h
  cases fb with
  | none =>
    simp only [Option.some.injEq, Prod.mk.injEq] at h
    exact absurd h.1.symm hp
  | some ob =>
    obtain ⟨o, b⟩ := ob
    obtain ⟨hr0, hro, ho, hbn, hfree, hemp⟩ := find_block_found s _ _ _ _ hfb
    obtain ⟨rn, hrn⟩ : ∃ rn : Nat, get_order (adjust_size size) = (rn : Int) :=
      ⟨(get_order (adjust_size size)).toNat, by omega⟩
    obtain ⟨ko, hko⟩ : ∃ ko : Nat, o = (ko : Int) := ⟨o.toNat, by omega⟩
    subst hko
    rw [hrn] at h hro hemp
    simp only [Int.toNat_ofNat] at h hfree
    have hko10 : ko ≤ ORDER_MAX := by exact_mod_cast ho
    have hrk : rn ≤ ko := by exact_mod_cast hro
    have hbF : b ∈ F ko := by
      have := Chain.head_mem (hI.chain ko hko10) (by rw [hfree]; exact hbn)
      rwa [hfree] at this
    have hFk : F ko = [b] := by
      have hl := hS ko
      cases hF : F ko with
      | nil => rw [hF] at hbF; simp at hbF
      | cons x l =>
        rw [hF] at hbF hl
        cases l with
        | nil => simp at hbF; rw [hbF]
        | cons y l' => simp at hl
    obtain ⟨_, hbb, hbh⟩ := hI.fhdr ko b hbF
    have hnext : s.heap (b + 16) = NULL := by
      have := hI.chain ko hko10
      rw [hFk] at this
      exact this.2.2
    have hsh : PtrInv (with_head s ko NULL) :=
      hI.ptr.set_head ptrOrNull_null (set_head_le _ hko10)
    have hshb : (with_head s ko NULL).heap b = ko := hbh
    -- the state after the pop and the toggle of the parent
    have htake : ∀ s1, ko < ORDER_MAX → toggle_parent (with_head s ko NULL) b = some s1 →
        Inv s1 (Function.update F ko []) (b :: A) ∧ s1.heap = s.heap := by
      intro s1 hlt ht
      obtain ⟨P, buddy, hPb, hPa, _, _, _, hpair, _, _, htog⟩ :=
        toggle_parent_full hsh hbb (by rw [hshb]; exact hlt)
      rw [htog] at ht
      simp only [Option.some.injEq] at ht
      subst ht
      rw [hshb] at hPa hpair
      refine ⟨@Inv.take _ _ _ _ _ _ P buddy hI hFk (Or.inr ⟨hlt, hPb, hPa, hpair⟩) ?_ ?_
        rfl, rfl⟩
      · intro j
        simp only [with_flip, hshb, with_head_map]
        by_cases hj : j = bidx (ko + 1) P
        · simp [hj, hlt]
        · simp [hj]
      · intro j
        simp only [with_flip, with_head_free]
    simp only [next_of, load_blockptr16 hbb, Option.some_bind, hnext, set_head_le _ hko10,
      Option.bind_eq_some] at h
    split at h
    · -- a larger block is split
      simp only [Option.bind_eq_some] at h
      obtain ⟨s1, hs1, ⟨s2, nb⟩, hsp, h⟩ := h
      simp only [Option.some.injEq, Prod.mk.injEq] at h
      obtain ⟨rfl, rfl⟩ := h
      have hI1 : Inv s1 (Function.update F ko []) (b :: A) ∧ s1.heap = s.heap := by
        split at hs1
        · rename_i hlt
          exact htake s1 (by exact_mod_cast hlt) hs1
        · rename_i hge
          simp only [Option.some.injEq] at hs1
          subst hs1
          have hk : ko = ORDER_MAX := by
            have : ¬ ((ko : Int) < (ORDER_MAX : Int)) := hge
            omega
          refine ⟨@Inv.take _ _ _ _ _ _ 0 0 hI hFk (Or.inl hk) ?_ ?_ rfl, rfl⟩
          · intro j
            rw [if_neg (by omega)]
            rfl
          · intro j
            simp only [with_head_free]
      obtain ⟨hI1, hheap1⟩ := hI1
      have hs1h : s1.heap b = ko := by rw [hheap1]; exact hbh
      obtain ⟨F', hI', hS', _⟩ := split_inv _ s1 _ _ b rn s2 nb hI1 (List.mem_cons_self _ _)
        (by rw [hs1h]; exact hrk)
        (by
          intro j hj1 hj2
          rw [hs1h] at hj2
          rw [Function.update_noteq (by omega)]
          have hnull := hemp j (by exact_mod_cast hj1) (by exact_mod_cast hj2)
          have hch := hI.chain j (by omega)
          exact (hch.head_null (fun x hx => (hI.fhdr j x hx).2.1)).mp hnull)
        (hS.update_nil ko) hsp
      rw [List.erase_cons_head] at hI'
      exact ⟨F', nb, rfl, hI', hS'⟩
    · -- the block found has the requested order
      simp only [Option.bind_eq_some] at h
      obtain ⟨s1, hs1, h⟩ := h
      simp only [Option.some.injEq, Prod.mk.injEq] at h
      obtain ⟨rfl, rfl⟩ := h
      have hlt : ko < ORDER_MAX := by
        obtain ⟨i, _, hi, _, _⟩ := toggle_parent_eq_some hs1
        simp only [get_gitmap_idx_parent, get_block_size_blockptr hsh hbb,
          get_page_number_blockptr hsh hbb, order_of, load_blockptr hbb, bind, Option.some_bind,
          hshb] at hi
        by_contra hc
        have : ¬ (ko + 1 ≤ ORDER_MAX) := by omega
        simp [this] at hi
      exact ⟨_, b, rfl, (htake s1 hlt hs1).1, hS.update_nil ko⟩

/-! ### Allocating, then freeing everything -/

/-- The pointers returned so far stay in the list of returned pointers. -/
theorem run_from_returned : ∀ (ops : List Op) (r r' : Run), run_from r ops = some r' →
    ∀ p, p ∈ r.returned → p ∈ r'.returned := by
  intro ops
  induction ops with
  | nil =>
    intro r r' h p hp
    simp only [run_from, Option.some.injEq] at h
    subst h
    exact hp
  | cons op ops ih =>
    intro r r' h p hp
    simp only [run_from, bind, Option.bind_eq_some] at h
    obtain ⟨r1, h1, h2⟩ := h
    refine ih r1 r' h2 p ?_
    cases op with
    | alloc size =>
      simp only [step, bind, Option.bind_eq_some] at h1
      obtain ⟨⟨q, s1⟩, _, h1⟩ := h1
      simp only [Option.some.injEq] at h1
      subst h1
      exact List.mem_append_left _ hp
    | free i =>
      simp only [step, bind, Option.bind_eq_some] at h1
      obtain ⟨q, _, h1⟩ := h1
      split at h1
      · simp only [Option.bind_eq_some, Option.some.injEq] at h1
        obtain ⟨s1, _, h1⟩ := h1
        subst h1
        exact hp
      · exact absurd h1 (by simp)

/-- A run of successful allocations keeps the allocator invariant, with the blocks
of the returned pointers as the allocated blocks, and keeps every free list short. -/
theorem run_allocs_full : ∀ (sizes : List Nat) (r r' : Run) (F : Nat → List Nat) (A : List Nat),
    Inv r.st F A → Short F → A.Perm (r.returned.map block_of) →
    (∀ p, p ∈ r.returned → p = block_of p + SIZE_T) →
    run_from r (sizes.map Op.alloc) = some r' → (∀ p, p ∈ r'.returned → p ≠ NULL) →
    ∃ F' A', Inv r'.st F' A' ∧ A'.Perm (r'.returned.map block_of) ∧
      ∀ p, p ∈ r'.returned → p = block_of p + SIZE_T := by
  intro sizes
  induction sizes with
  | nil =>
    intro r r' F A hI _ hP hB h _
    simp only [List.map_nil, run_from, Option.some.injEq] at h
    subst h
    exact ⟨F, A, hI, hP, hB⟩
  | cons size sizes ih =>
    intro r r' F A hI hS hP hB h hN
    simp only [List.map_cons, run_from, bind, Option.bind_eq_some] at h
    obtain ⟨r1, h1, h2⟩ := h
    simp only [step, bind, Option.bind_eq_some] at h1
    obtain ⟨⟨p, s1⟩, ha, h1⟩ := h1
    simp only [Option.some.injEq] at h1
    subst h1
    have hp : p ≠ NULL :=
      hN p (run_from_returned _ _ _ h2 p (List.mem_append_right _ (List.mem_singleton_self p)))
    obtain ⟨F1, b, hpb, hI1, hS1⟩ := mem_alloc_full hI hS ha hp
    have hbo : block_of p = b := by
      rw [hpb]
      simp [block_of]
    refine ih _ r' F1 (b :: A) hI1 hS1 ?_ ?_ h2 hN
    · simp only [List.map_append, List.map_cons, List.map_nil, hbo]
      exact (List.Perm.cons b hP).trans (List.perm_append_singleton b _).symm
    · intro q hq
      rcases List.mem_append.mp hq with hq | hq
      · exact hB q hq
      · rw [List.mem_singleton] at hq
        rw [hq, hbo]
        exact hpb

/-- Freeing the pointers of all allocated blocks succeeds and leaves no block
allocated. -/
theorem free_all_full : ∀ (ptrs : List Nat) (s : State) (F : Nat → List Nat) (A : List Nat),
    Inv s F A → A.Perm (ptrs.map block_of) → (∀ p, p ∈ ptrs → p = block_of p + SIZE_T) →
    ∃ s' F', free_all s ptrs = some s' ∧ Inv s' F' [] := by
  intro ptrs
  induction ptrs with
  | nil =>
    intro s F A hI hP _
    rw [List.map_nil, List.perm_nil] at hP
    subst hP
    exact ⟨s, F, rfl, hI⟩
  | cons p ps ih =>
    intro s F A hI hP hB
    have hb : block_of p ∈ A := hP.symm.subset (by simp)
    obtain ⟨s1, F1, hf, hI1⟩ := mem_free_full hI hb
    rw [← hB p (List.mem_cons_self _ _)] at hf
    have hP1 : (A.erase (block_of p)).Perm (ps.map block_of) := by
      have := hP.erase (block_of p)
      simpa using this
    obtain ⟨s', F', hfa, hI'⟩ := ih s1 F1 _ hI1 hP1 (fun q hq => hB q (List.mem_cons_of_mem _ hq))
    refine ⟨s', F', ?_, hI'⟩
    simp only [free_all, bind, Option.bind_eq_some]
    exact ⟨s1, hf, hfa⟩

/-- Full release after a run of allocations: if `mem_init` followed by `mem_alloc` of
the sizes is defined and every call returns a block, then `mem_free` of all the
returned pointers, in any order `ptrs`, is defined at every call, and afterwards the
free list of order `ORDER_MAX` holds exactly the block at arena offset 0, whose header
records order `ORDER_MAX` and whose two links are `NULL`, while the free list of every
lower order is empty. -/
theorem full_release_of_run (sizes : List Nat) (r : Run) (ptrs : List Nat)
    (hrun : run (sizes.map Op.alloc) = some r) (hok : ∀ p, p ∈ r.returned → p ≠ NULL)
    (hperm : ptrs.Perm r.returned) :
    ∃ s', free_all r.st ptrs = some s' ∧
      s'.free_area_struct_array ORDER_MAX = heap_base ∧
      order_of s' heap_base = some ORDER_MAX ∧
      prev_of s' heap_base = some NULL ∧ next_of s' heap_base = some NULL ∧
      ∀ k, k < ORDER_MAX → s'.free_area_struct_array k = NULL := by
  simp only [run, bind, Option.bind_eq_some] at hrun
  obtain ⟨s0, h0, hrun⟩ := hrun
  have hI0 := mem_init_full h0
  have hS0 : Short (fun k => if k = ORDER_MAX then [heap_base] else []) := by
    intro k
    by_cases hk : k = ORDER_MAX <;> simp [hk]
  obtain ⟨F1, A1, hI1, hP1, hB1⟩ := run_allocs_full sizes
    { st := s0, returned := [], live := [] } r _ [] hI0 hS0 (List.Perm.refl _)
    (fun p hp => absurd hp (List.not_mem_nil p)) hrun hok
  obtain ⟨s', F', hf, hI'⟩ := free_all_full ptrs r.st F1 A1 hI1
    (hP1.trans (hperm.symm.map block_of)) (fun p hp => hB1 p (hperm.subset hp))
  obtain ⟨hF, hFl⟩ := hI'.all_free
  have hc := hI'.chain ORDER_MAX (Nat.le_refl _)
  rw [hF] at hc
  obtain ⟨c1, c2, c3⟩ := hc
  have hb : BlockPtr heap_base := blockPtr_heap_base
  have hh := (hI'.fhdr ORDER_MAX heap_base (by rw [hF]; exact List.mem_singleton_self _)).2.2
  refine ⟨s', hf, c1, ?_, ?_, ?_, ?_⟩
  · rw [order_of, load_blockptr hb, hh]
  · rw [prev_of, load_blockptr8 hb, c2]
  · rw [next_of, load_blockptr16 hb]
    exact congrArg some c3
  · intro k hk
    have hc := hI'.chain k (Nat.le_of_lt hk)
    rw [hFl k (Nat.ne_of_lt hk)] at hc
    exact hc

/-- The driver's four allocations are defined and end in `driver_run`. -/
theorem driver_run_eq : run (driver_sizes.map Op.alloc) = some driver_run := by
  have h : (run (driver_sizes.map Op.alloc)).isSome = true := by decide
  cases hr : run (driver_sizes.map Op.alloc) with
  | none => rw [hr] at h; exact absurd h (by simp)
  | some r => simp [driver_run, hr]

set_option maxRecDepth 100000 in
/-- The pointers `A`, `B`, `C`, `D` returned to the driver. -/
theorem driver_returned : driver_run.returned =
    [heap_base + 65472 + 8, heap_base + 65280 + 8, heap_base + 65408 + 8,
      heap_base + 65152 + 8] := by
  have h : (run (driver_sizes.map Op.alloc)).map Run.returned =
      some [heap_base + 65472 + 8, heap_base + 65280 + 8, heap_base + 65408 + 8,
        heap_base + 65152 + 8] := by decide
  rw [driver_run_eq] at h
  simpa using h

/-- The driver's pointers are not `NULL`. -/
theorem driver_returned_ne_null : ∀ p, p ∈ driver_run.returned → p ≠ NULL := by
  rw [driver_returned]
  decide

/-- The driver frees every pointer it was given, once. -/
theorem driver_frees_perm : driver_frees.Perm driver_run.returned := by
  rw [driver_returned]
  decide

/-! ### `mem_alloc` is defined under the invariant -/

/-- One split of `split_block` on an allocated block whose order is above the requested
one: the call is defined up to its recursive call, which is made on the upper half in
a state that satisfies the invariant with the lower half on the free list of the order
below and the upper half allocated. -/
theorem split_step_full {s : State} {F : Nat → List Nat} {A : List Nat} {b r : Nat}
    (hI : Inv s F A) (hb : b ∈ A) (hr : r < s.heap b) :
    ∃ s3, (∀ fuel, split_block_fuel (fuel + 1) s b (r : Int) =
        split_block_fuel fuel s3 (b + size_of_order (s.heap b - 1)) (r : Int)) ∧
      Inv s3 (Function.update F (s.heap b - 1) (b :: F (s.heap b - 1)))
        ((b + size_of_order (s.heap b - 1)) :: A.erase b) ∧
      s3.heap (b + size_of_order (s.heap b - 1)) = s.heap b - 1 := by
  have hbb : BlockPtr b := hI.ablk b hb
  have hba := hI.ptr.hdr b hbb
  have hko : s.heap b ≤ ORDER_MAX := hba.1
  have hrs : toSizeT (r : Int) = r :=
    toSizeT_natCast r (by simp only [ORDER_MAX] at hko; omega)
  have hne : ¬ (s.heap b = r) := by omega
  have hk1 : 1 ≤ s.heap b := by omega
  obtain ⟨hl, hrb, hra⟩ := halves_aligned hbb hba hk1
  have hsz : size_of_order (s.heap b) = 2 * size_of_order (s.heap b - 1) := by
    have := size_of_order_succ (s.heap b - 1)
    have e : s.heap b - 1 + 1 = s.heap b := by omega
    rwa [e] at this
  have hRe : b + 1 <<< s.heap b * PAGE_SIZE / 2 = b + size_of_order (s.heap b - 1) := by
    rw [shift_size, hsz]; omega
  rw [hRe] at hrb hra
  have hI1 : PtrInv (with_flip s (bidx (s.heap b) b)) := hI.ptr.set_map _
  have e : (s.heap b + 2 ^ 64 - 1) % 2 ^ 64 = s.heap b - 1 := by
    simp only [ORDER_MAX] at hko
    omega
  have hwf : (with_flip s (bidx (s.heap b) b)).heap b = s.heap b := rfl
  have hI2 : PtrInv (write (write (with_flip s (bidx (s.heap b) b)) b (s.heap b - 1))
      (b + size_of_order (s.heap b - 1)) (s.heap b - 1)) :=
    (hI1.store_hdr hbb hl (store_blockptr _ hbb)).store_hdr hrb hra (store_blockptr _ hrb)
  obtain ⟨s3, hins, hptr3, hmap3, hfree3, hheap3⟩ := insert_full hI2 hbb
  have hpos := size_of_order_pos (s.heap b - 1)
  have hbR : b ≠ b + size_of_order (s.heap b - 1) := by omega
  have hb2 : (write (write (with_flip s (bidx (s.heap b) b)) b (s.heap b - 1))
      (b + size_of_order (s.heap b - 1)) (s.heap b - 1)).heap b = s.heap b - 1 := by
    simp only [write_heap, if_neg hbR, if_true]
  rw [hb2] at hfree3 hheap3
  have hI3 := @Inv.split_step _ s3 _ _ _ _ hI hb hk1 rfl hptr3
    (by intro j; rw [hmap3]; rfl)
    (by intro j; rw [hfree3]; rfl)
    (by
      intro x
      rw [hheap3]
      simp only [write_heap, write_free]
      by_cases c1 : x = b + 8
      · rw [if_pos c1, if_pos c1]
      · rw [if_neg c1, if_neg c1]
        by_cases c2 : x = b + 16
        · rw [if_pos c2, if_pos c2]; rfl
        · rw [if_neg c2, if_neg c2]
          have ef : (with_flip s (bidx (s.heap b) b)).free_area_struct_array =
              s.free_area_struct_array := rfl
          rw [ef]
          by_cases c3 : s.free_area_struct_array (s.heap b - 1) ≠ NULL ∧
              x = s.free_area_struct_array (s.heap b - 1) + 8
          · rw [if_pos c3, if_pos c3]
          · rw [if_neg c3, if_neg c3]
            by_cases c4 : x = b + size_of_order (s.heap b - 1)
            · rw [if_pos c4, if_pos (Or.inr c4)]
            · rw [if_neg c4]
              by_cases c5 : x = b
              · rw [if_pos c5, if_pos (Or.inl c5)]
              · rw [if_neg c5, if_neg (fun hc => hc.elim c5 c4)]; rfl)
  have hR3 : s3.heap (b + size_of_order (s.heap b - 1)) = s.heap b - 1 := by
    rw [hheap3]
    obtain ⟨r1, r2, _, _⟩ := hrb.fields_ne hbb
    rw [if_neg r1, if_neg r2]
    have c3 : ¬ ((write (write (with_flip s (bidx (s.heap b) b)) b (s.heap b - 1))
        (b + size_of_order (s.heap b - 1)) (s.heap b - 1)).free_area_struct_array
          (s.heap b - 1) ≠ NULL ∧ b + size_of_order (s.heap b - 1) =
        (write (write (with_flip s (bidx (s.heap b) b)) b (s.heap b - 1))
        (b + size_of_order (s.heap b - 1)) (s.heap b - 1)).free_area_struct_array
          (s.heap b - 1) + 8) := by
      rintro ⟨h1, h2⟩
      have hfb := (hI2.head _ (by omega : s.heap b - 1 ≤ ORDER_MAX)).resolve_left h1
      exact (hrb.fields_ne hfb).1 h2
    rw [if_neg c3]
    simp only [write_heap, if_true]
  refine ⟨s3, fun fuel => ?_, hI3, hR3⟩
  have ht : toggle s b = some (with_flip s (bidx (s.heap b) b)) := by
    simp only [toggle, get_gitmap_idx_eq hI.ptr hbb, bind, Option.some_bind]
    rw [bitsetFlip_eq_some.mpr ⟨bidx_lt hbb hba hk1, rfl⟩]
    rfl
  rw [split_block_fuel]
  simp only [order_of, load_blockptr hbb, bind, Option.some_bind, hrs, if_neg hne,
    get_block_size_blockptr hI.ptr hbb, ht, hRe, hwf, e, set_order, store_blockptr _ hbb,
    write_heap, if_true, store_blockptr _ hrb, hins]

/-- The function `split_block` returns: on an allocated block of order at least `r`,
with fuel for one call more than the number of splits, the result is defined. -/
theorem split_total : ∀ (fuel : Nat) (s : State) (F : Nat → List Nat) (A : List Nat) (b r : Nat),
    Inv s F A → b ∈ A → r ≤ s.heap b → s.heap b - r < fuel →
    ∃ s' nb, split_block_fuel fuel s b (r : Int) = some (s', nb) := by
  intro fuel
  induction fuel with
  | zero => intro s F A b r _ _ _ h; omega
  | succ fuel ih =>
    intro s F A b r hI hb hr hf
    rcases Nat.eq_or_lt_of_le hr with heq | hlt
    · have hbb : BlockPtr b := hI.ablk b hb
      have hko : s.heap b ≤ ORDER_MAX := (hI.ptr.hdr b hbb).1
      have hrs : toSizeT (r : Int) = r :=
        toSizeT_natCast r (by simp only [ORDER_MAX] at hko; omega)
      refine ⟨s, b, ?_⟩
      rw [split_block_fuel]
      simp only [order_of, load_blockptr hbb, bind, Option.some_bind, hrs]
      rw [if_pos heq.symm]
    · obtain ⟨s3, hstep, hI3, hR3⟩ := split_step_full hI hb hlt
      rw [hstep]
      exact ih s3 _ _ _ r hI3 (List.mem_cons_self _ _) (by rw [hR3]; omega) (by rw [hR3]; omega)

/-- Taking the only block of a free list below the top order: the parent toggle of
`mem_alloc` after the pop of the list head is defined, and the invariant holds with
the block allocated. -/
theorem pop_toggle_full {s : State} {F : Nat → List Nat} {A : List Nat} {b ko : Nat}
    (hI : Inv s F A) (hFk : F ko = [b]) (hlt : ko < ORDER_MAX) :
    ∃ s1, toggle_parent (with_head s ko NULL) b = some s1 ∧
      Inv s1 (Function.update F ko []) (b :: A) ∧ s1.heap = s.heap := by
  have hbF : b ∈ F ko := by rw [hFk]; exact List.mem_singleton_self b
  obtain ⟨hko10, hbb, hbh⟩ := hI.fhdr ko b hbF
  have hsh : PtrInv (with_head s ko NULL) :=
    hI.ptr.set_head ptrOrNull_null (set_head_le _ hko10)
  have hshb : (with_head s ko NULL).heap b = ko := hbh
  obtain ⟨P, buddy, hPb, hPa, _, _, _, hpair, _, _, htog⟩ :=
    toggle_parent_full hsh hbb (by rw [hshb]; exact hlt)
  rw [hshb] at hPa hpair
  refine ⟨_, htog, @Inv.take _ _ _ _ _ _ P buddy hI hFk (Or.inr ⟨hlt, hPb, hPa, hpair⟩) ?_ ?_
    rfl, rfl⟩
  · intro j
    simp only [with_flip, hshb, with_head_map]
    by_cases hj : j = bidx (ko + 1) P
    · simp [hj, hlt]
    · simp [hj]
  · intro j
    simp only [with_flip, with_head_free]

/-- The function `mem_alloc` returns: in a state that satisfies the invariant with
every free list short, a request whose order lies in `0 .. ORDER_MAX - 1` is defined
(no access out of range, and the fuel of `find_block` and `split_block` is enough). -/
theorem mem_alloc_total {s : State} {F : Nat → List Nat} {A : List Nat} {size : Nat}
    (hI : Inv s F A) (hS : Short F) (h0 : 0 ≤ get_order (adjust_size size))
    (h1 : get_order (adjust_size size) < ORDER_MAX) :
    ∃ p s', mem_alloc s size = some (p, s') := by
  obtain ⟨rn, hrn⟩ : ∃ rn : Nat, get_order (adjust_size size) = (rn : Int) :=
    ⟨(get_order (adjust_size size)).toNat, by omega⟩
  have hrn10 : rn < ORDER_MAX := by rw [hrn] at h1; exact_mod_cast h1
  obtain ⟨_, _, hne⟩ := find_block_spec s (ORDER_MAX + 2) rn (by omega) (by omega)
  cases hfb : find_block s (ORDER_MAX + 2) (rn : Int) with
  | none => exact absurd hfb hne
  | some fb =>
    cases fb with
    | none => exact ⟨NULL, s, (mem_alloc_null s s size).mpr ⟨by rw [hrn]; exact hfb, rfl⟩⟩
    | some ob =>
      obtain ⟨o, b⟩ := ob
      obtain ⟨hr0, hro, ho, hbn, hfree, hemp⟩ := find_block_found s _ _ _ _ hfb
      obtain ⟨ko, hko⟩ : ∃ ko : Nat, o = (ko : Int) := ⟨o.toNat, by omega⟩
      subst hko
      simp only [Int.toNat_ofNat] at hfree
      have hko10 : ko ≤ ORDER_MAX := by exact_mod_cast ho
      have hrk : rn ≤ ko := by exact_mod_cast hro
      have hbF : b ∈ F ko := by
        have := Chain.head_mem (hI.chain ko hko10) (by rw [hfree]; exact hbn)
        rwa [hfree] at this
      have hFk : F ko = [b] := by
        have hl := hS ko
        cases hF : F ko with
        | nil => rw [hF] at hbF; simp at hbF
        | cons x l =>
          rw [hF] at hbF hl
          cases l with
          | nil => simp at hbF; rw [hbF]
          | cons y l' => simp at hl
      obtain ⟨_, hbb, hbh⟩ := hI.fhdr ko b hbF
      have hnext : s.heap (b + 16) = NULL := by
        have := hI.chain ko hko10
        rw [hFk] at this
        exact this.2.2
      simp only [mem_alloc, hrn, hfb, bind, Option.some_bind, next_of, load_blockptr16 hbb,
        hnext, Int.toNat_ofNat, set_head_le _ hko10]
      by_cases hgt : (ko : Int) > (rn : Int)
      · rw [if_pos hgt]
        have hs1 : ∃ s1, (if (ko : Int) < (ORDER_MAX : Int) then
              toggle_parent (with_head s ko NULL) b else some (with_head s ko NULL)) = some s1 ∧
            Inv s1 (Function.update F ko []) (b :: A) ∧ s1.heap = s.heap := by
          by_cases hlt : ko < ORDER_MAX
          · rw [if_pos (by exact_mod_cast hlt)]
            exact pop_toggle_full hI hFk hlt
          · rw [if_neg (by exact_mod_cast hlt)]
            refine ⟨_, rfl, @Inv.take _ _ _ _ _ _ 0 0 hI hFk (Or.inl (by omega)) ?_ ?_ rfl, rfl⟩
            · intro j
              rw [if_neg (by omega)]
              rfl
            · intro j
              simp only [with_head_free]
        obtain ⟨s1, hs1, hI1, hheap1⟩ := hs1
        have hs1h : s1.heap b = ko := by rw [hheap1]; exact hbh
        obtain ⟨s2, nb, hsp⟩ := split_total (ORDER_MAX + 2) s1 _ _ b rn hI1
          (List.mem_cons_self _ _) (by rw [hs1h]; exact hrk) (by rw [hs1h]; omega)
        refine ⟨nb + SIZE_T, s2, ?_⟩
        rw [hs1]
        simp only [Option.some_bind, split_block, hsp]
      · rw [if_neg hgt]
        have hlt : ko < ORDER_MAX := by omega
        obtain ⟨s1, hs1, _, _⟩ := pop_toggle_full hI hFk hlt
        exact ⟨b + SIZE_T, s1, by rw [hs1]; rfl⟩

/-- One `mem_alloc` call during the allocation phase: the call is defined, and the
invariant holds afterwards with every free list short, whether a block was returned or
the call failed. -/
theorem mem_alloc_step {s : State} {F : Nat → List Nat} {A : List Nat} {size : Nat}
    (hI : Inv s F A) (hS : Short F) (h0 : 0 ≤ get_order (adjust_size size))
    (h1 : get_order (adjust_size size) < ORDER_MAX) :
    ∃ p s' F' A', mem_alloc s size = some (p, s') ∧ Inv s' F' A' ∧ Short F' := by
  obtain ⟨p, s', h⟩ := mem_alloc_total hI hS h0 h1
  by_cases hp : p = NULL
  · subst hp
    have hs := ((mem_alloc_null s s' size).mp h).2
    subst hs
    exact ⟨NULL, s', F, A, h, hI, hS⟩
  · obtain ⟨F', b, _, hI', hS'⟩ := mem_alloc_full hI hS h hp
    exact ⟨p, s', F', b :: A, h, hI', hS'⟩

/-- A run of `mem_alloc` calls with request orders in `0 .. ORDER_MAX - 1` is defined
at every call. -/
theorem run_allocs_total : ∀ (sizes : List Nat) (r : Run) (F : Nat → List Nat) (A : List Nat),
    Inv r.st F A → Short F →
    (∀ sz, sz ∈ sizes →
      0 ≤ get_order (adjust_size sz) ∧ get_order (adjust_size sz) < ORDER_MAX) →
    ∃ r', run_from r (sizes.map Op.alloc) = some r' := by
  intro sizes
  induction sizes with
  | nil => intro r F A _ _ _; exact ⟨r, rfl⟩
  | cons size sizes ih =>
    intro r F A hI hS hord
    obtain ⟨h0, h1⟩ := hord size (List.mem_cons_self _ _)
    obtain ⟨p, s', F', A', ha, hI', hS'⟩ := mem_alloc_step hI hS h0 h1
    obtain ⟨r', hr'⟩ := ih
      { st := s', returned := r.returned ++ [p], live := if p = NULL then r.live else p :: r.live }
      F' A' hI' hS' (fun sz hsz => hord sz (List.mem_cons_of_mem _ hsz))
    refine ⟨r', ?_⟩
    simp only [List.map_cons, run_from, step, bind, Option.bind_eq_some]
    exact ⟨_, ⟨(p, s'), ha, rfl⟩, hr'⟩

/-- C4: full release.  Take any list of request sizes whose orders (the order of the
adjusted size) lie in `0 .. ORDER_MAX - 1`.  Then `mem_init` followed by `mem_alloc` of
the sizes, with no free in between, is defined at every call; and if every call
returned a block (no pointer is `NULL`), then `mem_free` of all the returned pointers,
in any order `ptrs`, is defined at every call, and afterwards the free list of order
`ORDER_MAX` holds exactly one block, the block at arena offset 0, whose header records
order `ORDER_MAX` and whose two links are `NULL`, while the free list of every lower
order is empty. -/
theorem C4_full_release (sizes : List Nat)
    (hord : ∀ sz, sz ∈ sizes →
      0 ≤ get_order (adjust_size sz) ∧ get_order (adjust_size sz) < ORDER_MAX) :
    ∃ r, run (sizes.map Op.alloc) = some r ∧
      ((∀ p, p ∈ r.returned → p ≠ NULL) → ∀ ptrs : List Nat, ptrs.Perm r.returned →
        ∃ s', free_all r.st ptrs = some s' ∧
          s'.free_area_struct_array ORDER_MAX = heap_base ∧
          order_of s' heap_base = some ORDER_MAX ∧
          prev_of s' heap_base = some NULL ∧ next_of s' heap_base = some NULL ∧
          ∀ k, k < ORDER_MAX → s'.free_area_struct_array k = NULL) := by
  have hi : (mem_init zero_state).isSome = true := by decide
  obtain ⟨s0, h0⟩ := Option.isSome_iff_exists.mp hi
  have hS0 : Short (fun k => if k = ORDER_MAX then [heap_base] else []) := by
    intro k
    by_cases hk : k = ORDER_MAX <;> simp [hk]
  obtain ⟨r, hr⟩ := run_allocs_total sizes { st := s0, returned := [], live := [] } _ []
    (mem_init_full h0) hS0 hord
  have hrun : run (sizes.map Op.alloc) = some r := by
    simp only [run, bind, Option.bind_eq_some]
    exact ⟨s0, h0, hr⟩
  exact ⟨r, hrun, fun hok ptrs hperm => full_release_of_run sizes r ptrs hrun hok hperm⟩

/-- Witness of `C4_full_release`: the driver scenario.  The sizes 40, 80, 40 and 80 of
the allocations `A`, `B`, `C`, `D` have orders 0, 1, 0, 1; all four calls return a
block, and freeing `B`, `D`, `A`, `C` in this order leaves the single block of order
`ORDER_MAX`. -/
theorem C4_full_release_witness :
    (∀ sz, sz ∈ driver_sizes →
      0 ≤ get_order (adjust_size sz) ∧ get_order (adjust_size sz) < ORDER_MAX) ∧
    run (driver_sizes.map Op.alloc) = some driver_run ∧
    (∀ p, p ∈ driver_run.returned → p ≠ NULL) ∧
    driver_frees.Perm driver_run.returned ∧
    ∃ s', free_all driver_run.st driver_frees = some s' ∧
      s'.free_area_struct_array ORDER_MAX = heap_base ∧
      order_of s' heap_base = some ORDER_MAX ∧
      prev_of s' heap_base = some NULL ∧ next_of s' heap_base = some NULL ∧
      ∀ k, k < ORDER_MAX → s'.free_area_struct_array k = NULL := by
  have hord : ∀ sz, sz ∈ driver_sizes →
      0 ≤ get_order (adjust_size sz) ∧ get_order (adjust_size sz) < ORDER_MAX := by decide
  obtain ⟨r, hr, h⟩ := C4_full_release driver_sizes hord
  rw [driver_run_eq, Option.some.injEq] at hr
  subst hr
  exact ⟨hord, driver_run_eq, driver_returned_ne_null, driver_frees_perm,
    h driver_returned_ne_null driver_frees driver_frees_perm⟩

/-! ### The primitives on a single well-formed block -/

/-- The size computed by `get_block_size` for a block pointer with a header order of at
most `ORDER_MAX`. -/
theorem get_block_size_at {s : State} {b : Nat} (hb : BlockPtr b) (ho : s.heap b ≤ ORDER_MAX) :
    get_block_size s b = some (size_of_order (s.heap b)) := by
  have : s.heap b < 25 := by simp only [ORDER_MAX] at ho; omega
  simp [get_block_size, order_of, load_blockptr hb, this, shift_size]

/-- The block number computed by `get_page_number`. -/
theorem get_page_number_at {s : State} {b : Nat} (hb : BlockPtr b) (ho : s.heap b ≤ ORDER_MAX) :
    get_page_number s b = some ((b - heap_base) / size_of_order (s.heap b)) := by
  simp [get_page_number, get_block_size_at hb ho]

/-- The bitmap index computed by `get_gitmap_idx` is the index of the node of the
block. -/
theorem get_gitmap_idx_at {s : State} {b : Nat} (hb : BlockPtr b) (ho : s.heap b ≤ ORDER_MAX) :
    get_gitmap_idx s b = some (bidx (s.heap b) b) := by
  simp only [get_gitmap_idx, get_page_number_at hb ho, order_of, load_blockptr hb, bind,
    Option.some_bind, ho, if_true, bidx, Nat.one_shiftLeft]

/-- The bitmap index computed by `get_gitmap_idx_parent` is the index of the node one
order up whose block starts at the block itself (even block number) or one block size
below (odd block number). -/
theorem get_gitmap_idx_parent_at {s : State} {b : Nat} (hb : BlockPtr b)
    (hk : s.heap b < ORDER_MAX) :
    get_gitmap_idx_parent s b = some (bidx (s.heap b + 1)
      (if (b - heap_base) / size_of_order (s.heap b) % 2 ≠ 0 then b - size_of_order (s.heap b)
        else b)) := by
  have hk' : s.heap b + 1 ≤ ORDER_MAX := hk
  simp only [get_gitmap_idx_parent, get_block_size_at hb (Nat.le_of_lt hk),
    get_page_number_at hb (Nat.le_of_lt hk), order_of, load_blockptr hb, bind,
    Option.some_bind, hk', if_true, bidx, Nat.one_shiftLeft, two_pow_mul_page]

/-- The function `toggle` on an aligned block of order at least 1 flips the bit of the
node of the block. -/
theorem toggle_at {s : State} {b : Nat} (hb : BlockPtr b) (ha : Aligned b (s.heap b))
    (h1 : 1 ≤ s.heap b) : toggle s b = some (with_flip s (bidx (s.heap b) b)) := by
  simp only [toggle, get_gitmap_idx_at hb ha.1, bind, Option.some_bind]
  rw [bitsetFlip_eq_some.mpr ⟨bidx_lt hb ha h1, rfl⟩]
  rfl

/-- The function `toggle_parent` on an aligned block of order below `ORDER_MAX` flips
the bit of the parent node `P`; the block and its buddy are the two halves of `P`. -/
theorem toggle_parent_at {s : State} {b : Nat} (hb : BlockPtr b) (ha : Aligned b (s.heap b))
    (hk : s.heap b < ORDER_MAX) :
    ∃ P buddy, BlockPtr P ∧ Aligned P (s.heap b + 1) ∧ BlockPtr buddy ∧
      P = (if (b - heap_base) / size_of_order (s.heap b) % 2 ≠ 0
        then b - size_of_order (s.heap b) else b) ∧
      buddy = (if (b - heap_base) / size_of_order (s.heap b) % 2 ≠ 0
        then b - size_of_order (s.heap b) else b + size_of_order (s.heap b)) ∧
      ((b = P ∧ buddy = P + size_of_order (s.heap b)) ∨
        (b = P + size_of_order (s.heap b) ∧ buddy = P)) ∧
      bidx (s.heap b + 1) P < MAP_BITS ∧
      get_gitmap_idx_parent s b = some (bidx (s.heap b + 1) P) ∧
      toggle_parent s b = some (with_flip s (bidx (s.heap b + 1) P)) := by
  obtain ⟨P, buddy, h1, h2, h3, h4, h5, h6⟩ := parent_buddy hb ha hk
  have hlt := bidx_lt h1 h2 (by omega)
  have hidx : get_gitmap_idx_parent s b = some (bidx (s.heap b + 1) P) := by
    rw [get_gitmap_idx_parent_at hb hk, h4]
  refine ⟨P, buddy, h1, h2, h3, h4, h5, h6, hlt, hidx, ?_⟩
  simp only [toggle_parent, hidx, bind, Option.some_bind, bitsetFlip, hlt, if_true, with_flip]

/-- Complete description of `insert` of a block pointer whose header order is at most
`ORDER_MAX`, when the head of the list of that order is `NULL` or a block pointer. -/
theorem insert_at {s : State} {b : Nat} (hb : BlockPtr b) (ho : s.heap b ≤ ORDER_MAX)
    (hfh : PtrOrNull (s.free_area_struct_array (s.heap b))) :
    ∃ s', insert s b = some s' ∧ s'.map = s.map ∧
      (∀ j, s'.free_area_struct_array j = if j = s.heap b then b else s.free_area_struct_array j) ∧
      (∀ x, s'.heap x = if x = b + 8 then NULL else
        if x = b + 16 then s.free_area_struct_array (s.heap b) else
        if s.free_area_struct_array (s.heap b) ≠ NULL ∧ x = s.free_area_struct_array (s.heap b) + 8
          then b else s.heap x) := by
  obtain ⟨e1, e2, e3, e4⟩ := hb.fields_ne hb
  by_cases hn : s.free_area_struct_array (s.heap b) = NULL
  · refine ⟨with_head (write (write s (b + 16) NULL) (b + 8) NULL) (s.heap b) b, ?_, rfl,
      fun j => by simp, fun x => ?_⟩
    · simp [insert, order_of, load_blockptr hb, get_head, ho, hn, set_next, set_prev,
        store_blockptr16 _ hb, store_blockptr8 _ hb, e1, e2, set_head_le _ ho]
    · simp only [with_head_heap, write_heap, hn, ne_eq, not_true_eq_false, false_and, if_false]
  · have hf : BlockPtr (s.free_area_struct_array (s.heap b)) := hfh.resolve_left hn
    obtain ⟨g1, g2, g3, g4⟩ := hb.fields_ne hf
    refine ⟨with_head (write (write (write s (s.free_area_struct_array (s.heap b) + 8) b)
      (b + 16) (s.free_area_struct_array (s.heap b))) (b + 8) NULL) (s.heap b) b,
      ?_, rfl, fun j => by simp, fun x => ?_⟩
    · simp [insert, order_of, load_blockptr hb, get_head, ho, hn, set_next, set_prev,
        store_blockptr16 _ hb, store_blockptr8 _ hb, store_blockptr8 _ hf, e1, e2, g1,
        set_head_le _ ho]
    · simp only [with_head_heap, write_heap, ne_eq, hn, not_false_eq_true, true_and]

/-- Complete description of `delete` of a block pointer whose header order is at most
`ORDER_MAX` and whose two links are `NULL` or block pointers. -/
theorem delete_at {s : State} {b : Nat} (hb : BlockPtr b) (ho : s.heap b ≤ ORDER_MAX)
    (hp : PtrOrNull (s.heap (b + 8))) (hx : PtrOrNull (s.heap (b + 16))) :
    ∃ s', delete s b = some s' ∧ s'.map = s.map ∧
      (∀ j, s'.free_area_struct_array j =
        if s.heap (b + 8) = NULL ∧ j = s.heap b then s.heap (b + 16)
        else s.free_area_struct_array j) ∧
      (∀ x, s'.heap x =
        if s.heap (b + 8) ≠ NULL ∧ x = s.heap (b + 8) + 16 then s.heap (b + 16) else
        if s.heap (b + 16) ≠ NULL ∧ x = s.heap (b + 16) + 8 then s.heap (b + 8) else s.heap x) := by
  by_cases hpn : s.heap (b + 8) = NULL
  · by_cases hxn : s.heap (b + 16) = NULL
    · refine ⟨with_head s (s.heap b) NULL, ?_, rfl, fun j => ?_, fun x => ?_⟩
      · simp [delete, prev_of, next_of, order_of, load_blockptr hb, load_blockptr8 hb,
          load_blockptr16 hb, hpn, hxn, set_head_le _ ho]
      · simp [hpn, hxn]
      · simp [hpn, hxn]
    · have hxb : BlockPtr (s.heap (b + 16)) := hx.resolve_left hxn
      obtain ⟨g1, g2, g3, g4⟩ := hb.fields_ne hxb
      refine ⟨with_head (write s (s.heap (b + 16) + 8) NULL) (s.heap b) (s.heap (b + 16)),
        ?_, rfl, fun j => ?_, fun x => ?_⟩
      · simp [delete, prev_of, next_of, order_of, load_blockptr hb, load_blockptr8 hb,
          load_blockptr16 hb, hpn, hxn, set_prev, store_blockptr8 _ hxb, g1, set_head_le _ ho]
      · simp [hpn]
      · simp [hpn, hxn]
  · have hpb : BlockPtr (s.heap (b + 8)) := hp.resolve_left hpn
    by_cases hxn : s.heap (b + 16) = NULL
    · refine ⟨write s (s.heap (b + 8) + 16) NULL, ?_, rfl, fun j => ?_, fun x => ?_⟩
      · simp [delete, prev_of, next_of, load_blockptr8 hb, load_blockptr16 hb, hpn, hxn,
          set_next, store_blockptr16 _ hpb]
      · simp [hpn]
      · simp [hpn, hxn]
    · have hxb : BlockPtr (s.heap (b + 16)) := hx.resolve_left hxn
      obtain ⟨g1, g2, g3, g4⟩ := hpb.fields_ne hxb
      refine ⟨write (write s (s.heap (b + 8) + 16) (s.heap (b + 16))) (s.heap (b + 16) + 8)
        (s.heap (b + 8)), ?_, rfl, fun j => ?_, fun x => ?_⟩
      · simp [delete, prev_of, next_of, load_blockptr8 hb, load_blockptr16 hb, hpn, hxn,
          set_next, set_prev, store_blockptr16 _ hpb, store_blockptr8 _ hxb]
      · simp [hpn]
      · simp only [write_heap, ne_eq, hpn, not_false_eq_true, true_and, hxn]
        by_cases c1 : x = s.heap (b + 8) + 16
        · have : x ≠ s.heap (b + 16) + 8 := by rw [c1]; exact g4
          simp [c1, this, g4]
        · simp [c1]

/-! ### One call of `merge` -/

/-- A call of `merge` on a block whose order has reached the requested order returns
the block and changes nothing. -/
theorem merge_fuel_done {s : State} {b : Nat} {r : Int} (hb : BlockPtr b)
    (h : toSizeT r ≤ s.heap b) (n : Nat) : merge_fuel (n + 1) s b r = some (s, b) := by
  rw [merge_fuel]
  simp only [order_of, load_blockptr hb, bind, Option.some_bind]
  rw [if_pos h]

/-- A call of `merge` on an aligned block `b` of order `k` below `ORDER_MAX` and below
the requested order reads the bit of the parent node `P`.  When the bit is 0 the call
flips it and returns `b`, unmerged.  When the bit is 1 (and the buddy has a header order
of at most `ORDER_MAX` and links that are `NULL` or block pointers) the call flips the
bit, unlinks the buddy from the list of its order, writes order `k + 1` to the header
of `P` and goes on merging from `P`. -/
theorem merge_fuel_step {s : State} {b : Nat} {r : Int} (hb : BlockPtr b)
    (ha : Aligned b (s.heap b)) (hk : s.heap b < ORDER_MAX) (hr : s.heap b < toSizeT r) :
    ∃ P buddy, BlockPtr P ∧ Aligned P (s.heap b + 1) ∧ BlockPtr buddy ∧
      P = (if (b - heap_base) / size_of_order (s.heap b) % 2 ≠ 0
        then b - size_of_order (s.heap b) else b) ∧
      buddy = (if (b - heap_base) / size_of_order (s.heap b) % 2 ≠ 0
        then b - size_of_order (s.heap b) else b + size_of_order (s.heap b)) ∧
      ((b = P ∧ buddy = P + size_of_order (s.heap b)) ∨
        (b = P + size_of_order (s.heap b) ∧ buddy = P)) ∧
      get_gitmap_idx_parent s b = some (bidx (s.heap b + 1) P) ∧
      bitsetGet s.map (bidx (s.heap b + 1) P) = some (s.map (bidx (s.heap b + 1) P)) ∧
      (s.map (bidx (s.heap b + 1) P) = false →
        ∀ n, merge_fuel (n + 1) s b r = some (with_flip s (bidx (s.heap b + 1) P), b)) ∧
      (s.map (bidx (s.heap b + 1) P) = true → s.heap buddy ≤ ORDER_MAX →
        PtrOrNull (s.heap (buddy + 8)) → PtrOrNull (s.heap (buddy + 16)) →
        ∃ s1, (∀ n, merge_fuel (n + 1) s b r = merge_fuel n s1 P r) ∧
          (∀ j, s1.map j = if j = bidx (s.heap b + 1) P then !(s.map j) else s.map j) ∧
          (∀ j, s1.free_area_struct_array j =
            if s.heap (buddy + 8) = NULL ∧ j = s.heap buddy then s.heap (buddy + 16)
            else s.free_area_struct_array j) ∧
          (∀ x, s1.heap x = if x = P then s.heap b + 1 else
            if s.heap (buddy + 8) ≠ NULL ∧ x = s.heap (buddy + 8) + 16 then s.heap (buddy + 16)
            else if s.heap (buddy + 16) ≠ NULL ∧ x = s.heap (buddy + 16) + 8
              then s.heap (buddy + 8)
            else s.heap x)) := by
  obtain ⟨P, buddy, hPb, hPa, hbudb, hPe, hbude, hpair, hlt, hidx, htog⟩ :=
    toggle_parent_at hb ha hk
  have hnge : ¬ (s.heap b ≥ toSizeT r) := by omega
  have hget : bitsetGet s.map (bidx (s.heap b + 1) P) = some (s.map (bidx (s.heap b + 1) P)) := by
    simp only [bitsetGet, hlt, if_true]
  refine ⟨P, buddy, hPb, hPa, hbudb, hPe, hbude, hpair, hidx, hget, fun hbit n => ?_,
    fun hbit hbo hp hx => ?_⟩
  · rw [merge_fuel]
    simp only [order_of, load_blockptr hb, bind, Option.some_bind, if_neg hnge,
      get_block_size_at hb ha.1, hidx, get_page_number_at hb ha.1, hget, hbit,
      Bool.false_eq_true, if_false, htog]
  · obtain ⟨sd, hdel, hmapd, hfreed, hheapd⟩ :=
      @delete_at (with_flip s (bidx (s.heap b + 1) P)) buddy hbudb hbo hp hx
    have hsdb : sd.heap b = s.heap b := by
      rw [hheapd]
      have c1 : ¬ ((with_flip s (bidx (s.heap b + 1) P)).heap (buddy + 8) ≠ NULL ∧
          b = (with_flip s (bidx (s.heap b + 1) P)).heap (buddy + 8) + 16) := by
        rintro ⟨h1, h2⟩
        exact (hb.fields_ne (hp.resolve_left h1)).2.1 h2
      have c2 : ¬ ((with_flip s (bidx (s.heap b + 1) P)).heap (buddy + 16) ≠ NULL ∧
          b = (with_flip s (bidx (s.heap b + 1) P)).heap (buddy + 16) + 8) := by
        rintro ⟨h1, h2⟩
        exact (hb.fields_ne (hx.resolve_left h1)).1 h2
      rw [if_neg c1, if_neg c2]
      rfl
    have hmod : (s.heap b + 1) % 2 ^ 64 = s.heap b + 1 := by
      simp only [ORDER_MAX] at hk
      omega
    refine ⟨write sd P (s.heap b + 1), fun n => ?_, fun j => ?_, fun j => ?_, fun x => ?_⟩
    · rw [merge_fuel]
      simp only [order_of, load_blockptr hb, bind, Option.some_bind, if_neg hnge,
        get_block_size_at hb ha.1, hidx, get_page_number_at hb ha.1, hget, hbit, if_true, htog,
        ← hbude, ← hPe, hdel, hsdb, hmod, set_order, store_blockptr _ hPb]
    · rw [write_map, hmapd]; rfl
    · rw [write_free, hfreed]; rfl
    · rw [write_heap, hheapd]; rfl

/-! ### `mem_free` keeps the invariant on the blocks -/

/-- Under the invariant the two links of a free block are `NULL` or block pointers. -/
theorem AllocInv.free_links {s : State} {F : Nat → List Nat} {A : List Nat}
    (hI : AllocInv s F A) {k x : Nat} (hx : x ∈ F k) :
    PtrOrNull (s.heap (x + 8)) ∧ PtrOrNull (s.heap (x + 16)) := by
  obtain ⟨hko, _, _⟩ := hI.fhdr k x hx
  obtain ⟨L1, L2, hsplit⟩ := List.append_of_mem hx
  have hLb : ∀ y ∈ L1 ++ x :: L2, BlockPtr y := by
    intro y hy; rw [← hsplit] at hy; exact (hI.fhdr _ y hy).2.1
  have hch := hI.chain _ hko
  rw [hsplit] at hch
  obtain ⟨_, n2, n3⟩ := Chain.neighbours hch hLb
  constructor
  · by_cases h : s.heap (x + 8) = NULL
    · exact Or.inl h
    · exact Or.inr (hLb _ (List.mem_append_left _ (n2 h)))
  · by_cases h : s.heap (x + 16) = NULL
    · exact Or.inl h
    · exact Or.inr (hLb _ (List.mem_append_right _ (List.mem_cons_of_mem _ (n3 h))))

/-- `merge` up to `ORDER_MAX` followed by `insert` is defined on an allocated block and
keeps the invariant on the blocks, with the block removed from the allocated blocks.
The block `nb` put on the free list contains the block freed; no other block becomes
free, and a block that was free is still free or lies inside `nb`. -/
theorem merge_insert_alloc : ∀ (fuel : Nat) (s : State) (F : Nat → List Nat) (A : List Nat)
    (b : Nat), AllocInv s F A → b ∈ A → ORDER_MAX < fuel + s.heap b →
    ∃ s1 nb s' F', merge_fuel fuel s b (ORDER_MAX : Int) = some (s1, nb) ∧
      insert s1 nb = some s' ∧ AllocInv s' F' (A.erase b) ∧
      nb ∈ F' (s'.heap nb) ∧ s'.free_area_struct_array (s'.heap nb) = nb ∧
      nb ≤ b ∧ b + size_of_order (s.heap b) ≤ nb + size_of_order (s'.heap nb) ∧
      (∀ k x, x ∈ F' k → x = nb ∨ x ∈ F k) ∧
      (∀ k x, x ∈ F k → x ∈ F' k ∨
        (nb ≤ x ∧ x + size_of_order k ≤ nb + size_of_order (s'.heap nb))) := by
  intro fuel
  induction fuel with
  | zero =>
    intro s F A b hI hb hf
    have := (hI.bhdr b (Or.inl hb)).1
    omega
  | succ fuel ih =>
    intro s F A b hI hb hf
    have hbb : BlockPtr b := hI.ablk b hb
    have hba := hI.bhdr b (Or.inl hb)
    have hko : s.heap b ≤ ORDER_MAX := hba.1
    -- the final `insert` of the block `b` itself, in a state `t` with the heap of `s`
    have hrel : ∀ (t : State) (P buddy : Nat), t.heap = s.heap →
        t.free_area_struct_array = s.free_area_struct_array →
        (s.heap b = ORDER_MAX ∨ (s.heap b < ORDER_MAX ∧ BlockPtr P ∧
          Aligned P (s.heap b + 1) ∧ buddy ∉ F (s.heap b) ∧
          ((b = P ∧ buddy = P + size_of_order (s.heap b)) ∨
            (b = P + size_of_order (s.heap b) ∧ buddy = P)))) →
        (∀ j, t.map j =
          if s.heap b < ORDER_MAX ∧ j = bidx (s.heap b + 1) P then !(s.map j) else s.map j) →
        ∃ s' F', insert t b = some s' ∧ AllocInv s' F' (A.erase b) ∧
          b ∈ F' (s'.heap b) ∧ s'.free_area_struct_array (s'.heap b) = b ∧
          b ≤ b ∧ b + size_of_order (s.heap b) ≤ b + size_of_order (s'.heap b) ∧
          (∀ k x, x ∈ F' k → x = b ∨ x ∈ F k) ∧
          (∀ k x, x ∈ F k → x ∈ F' k ∨
            (b ≤ x ∧ x + size_of_order k ≤ b + size_of_order (s'.heap b))) := by
      intro t P buddy hth htf hk hmap
      have htb : t.heap b = s.heap b := by rw [hth]
      obtain ⟨s', hins, hmap', hfree', hheap'⟩ := @insert_at t b hbb (by rw [htb]; exact hko)
        (by rw [htb, htf]; exact hI.head_ptr hko)
      rw [htb, htf] at hfree' hheap'
      rw [hth] at hheap'
      have hI' := hI.release_block hb hk (fun j => by rw [hmap', hmap]) hfree' hheap'
      have hsb : s'.heap b = s.heap b := (hI'.fhdr (s.heap b) b (by simp)).2.2
      refine ⟨s', _, hins, hI', ?_, ?_, le_refl _, ?_, ?_, ?_⟩
      · rw [hsb]; simp
      · rw [hsb, hfree', if_pos rfl]
      · rw [hsb]
      · intro k x hx
        by_cases hj : k = s.heap b
        · subst hj
          rw [Function.update_same] at hx
          rcases List.mem_cons.mp hx with h | h
          · exact Or.inl h
          · exact Or.inr h
        · rw [Function.update_noteq hj] at hx
          exact Or.inr hx
      · intro k x hx
        left
        by_cases hj : k = s.heap b
        · subst hj
          rw [Function.update_same]
          exact List.mem_cons_of_mem _ hx
        · rw [Function.update_noteq hj]
          exact hx
    by_cases hk : s.heap b = ORDER_MAX
    · -- top order: no merge
      obtain ⟨s', F', h⟩ := hrel s 0 0 rfl rfl (Or.inl hk)
        (fun j => by rw [if_neg (by omega)])
      exact ⟨s, b, s', F', merge_fuel_done hbb (by rw [toSizeT_order_max]; omega) fuel, h⟩
    · have hk' : s.heap b < ORDER_MAX := by omega
      obtain ⟨P, buddy, hPb, hPa, hbudb, hPe, hbude, hpair, hidx, hget, hstop, hgo⟩ :=
        @merge_fuel_step s b (ORDER_MAX : Int) hbb hba hk' (by rw [toSizeT_order_max]; exact hk')
      have hbits := hI.bits (s.heap b) P hk' hPb hPa
      cases hbit : s.map (bidx (s.heap b + 1) P) with
      | false =>
        have hbud : buddy ∉ F (s.heap b) := by
          intro hm
          have : s.map (bidx (s.heap b + 1) P) = true := by
            apply hbits.mpr
            rcases hpair with ⟨_, a2⟩ | ⟨_, a2⟩
            · right; rw [← a2]; exact hm
            · left; rw [← a2]; exact hm
          rw [hbit] at this
          exact Bool.false_ne_true this
        obtain ⟨s', F', h⟩ := hrel (with_flip s (bidx (s.heap b + 1) P)) P buddy rfl rfl
          (Or.inr ⟨hk', hPb, hPa, hbud, hpair⟩)
          (fun j => by
            by_cases hj : j = bidx (s.heap b + 1) P
            · simp [hj, hk', with_flip]
            · simp [hj, with_flip])
        exact ⟨_, b, s', F', hstop hbit fuel, h⟩
      | true =>
        have hbud : buddy ∈ F (s.heap b) := by
          rcases hbits.mp hbit with h | h
          · rcases hpair with ⟨a1, _⟩ | ⟨_, a2⟩
            · rw [← a1] at h; exact absurd h (hI.afree b hb _)
            · rw [a2]; exact h
          · rcases hpair with ⟨_, a2⟩ | ⟨a1, _⟩
            · rw [a2]; exact h
            · rw [← a1] at h; exact absurd h (hI.afree b hb _)
        obtain ⟨_, _, hbudh⟩ := hI.fhdr _ _ hbud
        obtain ⟨hp, hx⟩ := hI.free_links hbud
        obtain ⟨s1, hstep, hmap1, hfree1, hheap1⟩ := hgo hbit (by rw [hbudh]; exact hko) hp hx
        have hI1 := hI.merge_blocks hb hPb hPa hpair hbud hmap1 hfree1 hheap1
        have hP1 : s1.heap P = s.heap b + 1 := by rw [hheap1, if_pos rfl]
        obtain ⟨s2, nb, s', F', hm, hins, hI', c1, c2, c3, c4, c5, c6⟩ :=
          ih s1 _ _ P hI1 (List.mem_cons_self _ _) (by rw [hP1]; omega)
        rw [List.erase_cons_head] at hI'
        rw [hP1, size_of_order_succ] at c4
        have hpos := size_of_order_pos (s.heap b)
        have hPle : P ≤ b ∧ b + size_of_order (s.heap b) ≤ P + 2 * size_of_order (s.heap b) ∧
            P ≤ buddy ∧ buddy + size_of_order (s.heap b) ≤ P + 2 * size_of_order (s.heap b) := by
          rcases hpair with ⟨e1, e2⟩ | ⟨e1, e2⟩ <;> omega
        refine ⟨s2, nb, s', F', ?_, hins, hI', c1, c2, by omega, by omega, ?_, ?_⟩
        · rw [hstep]; exact hm
        · intro k x hx'
          rcases c5 k x hx' with h | h
          · exact Or.inl h
          · right
            by_cases hj : k = s.heap b
            · subst hj
              rw [Function.update_same] at h
              exact List.mem_of_mem_erase h
            · rw [Function.update_noteq hj] at h
              exact h
        · intro k x hx'
          by_cases hxb : x = buddy
          · right
            have hkk : k = s.heap b := by
              have := (hI.fhdr k x hx').2.2
              rw [hxb, hbudh] at this
              exact this.symm
            rw [hxb, hkk]
            omega
          · apply c6 k x
            by_cases hj : k = s.heap b
            · subst hj
              rw [Function.update_same]
              exact (List.mem_erase_of_ne hxb).mpr hx'
            · rw [Function.update_noteq hj]
              exact hx'

set_option maxRecDepth 100000 in
/-- After `mem_init` and one allocation of 40 bytes the invariant holds with the last
page of the arena as the only allocated block. -/
theorem single_alloc_inv : ∃ F, Inv single_state F [single_block] := by
  have h : (run single_alloc).map Run.returned = some [single_block + SIZE_T] := by decide
  cases hr : run single_alloc with
  | none => simp [hr] at h
  | some r =>
    simp only [hr, Option.map_some', Option.some.injEq] at h
    have hst : single_state = r.st := by simp [single_state, hr]
    have hrun := hr
    simp only [run, bind, Option.bind_eq_some] at hrun
    obtain ⟨s0, h0, hrun⟩ := hrun
    have hS0 : Short (fun k => if k = ORDER_MAX then [heap_base] else []) := by
      intro k
      by_cases hk : k = ORDER_MAX <;> simp [hk]
    obtain ⟨F, A, hI, hP, _⟩ := run_allocs_full [40]
      { st := s0, returned := [], live := [] } r _ [] (mem_init_full h0) hS0 (List.Perm.refl _)
      (fun p hp => absurd hp (List.not_mem_nil p)) hrun
      (by rw [h]; intro p hp; rw [List.mem_singleton] at hp; rw [hp]; decide)
    rw [h] at hP
    have hA : A = [single_block] := by
      have : A.Perm [single_block] := by simpa [block_of, SIZE_T] using hP
      exact List.perm_singleton.mp this
    rw [hst]
    exact ⟨F, hA ▸ hI⟩

/-- C11: `mem_free` preserves the allocator invariant.  In a state where (a) the free
and the allocated blocks partition the arena, (b) every free list is a well-formed
doubly-linked list holding exactly the free blocks of its order, (c) every bitmap bit
is 1 exactly when one of the two children of its node is a free block, and (d) no two
buddies are both free (`AllocInv`; nothing is asked of payload bytes), `mem_free` of
the pointer of an allocated block `b` is defined, and the four conditions hold again
with `b` no longer allocated.  The block of `b` is free as part of a free block `nb`:
`nb` is on the free list of its order and contains the block of `b`; no other block
became free; every block that was free is still free or was merged into `nb`; and
the buddy of `nb` is not free (the merge went as far as a free buddy was found). -/
theorem C11_free_preserves_invariant (s : State) (F : Nat → List Nat) (A : List Nat) (b : Nat)
    (hI : AllocInv s F A) (hb : b ∈ A) :
    ∃ s' F' nb, mem_free s (b + SIZE_T) = some s' ∧ AllocInv s' F' (A.erase b) ∧
      nb ∈ F' (s'.heap nb) ∧
      nb ≤ b ∧ b + size_of_order (s.heap b) ≤ nb + size_of_order (s'.heap nb) ∧
      (∀ k x, x ∈ F' k → x = nb ∨ x ∈ F k) ∧
      (∀ k x, x ∈ F k → x ∈ F' k ∨
        (nb ≤ x ∧ x + size_of_order k ≤ nb + size_of_order (s'.heap nb))) ∧
      (s'.heap nb < ORDER_MAX →
        (if (nb - heap_base) / size_of_order (s'.heap nb) % 2 ≠ 0
          then nb - size_of_order (s'.heap nb) else nb + size_of_order (s'.heap nb)) ∉
          F' (s'.heap nb)) := by
  have hko := (hI.bhdr b (Or.inl hb)).1
  obtain ⟨s1, nb, s', F', hm, hins, hI', c1, _, c3, c4, c5, c6⟩ :=
    merge_insert_alloc (MAP_BITS + 1) s F A b hI hb
      (by simp only [MAP_BITS, ORDER_MAX]; simp; omega)
  refine ⟨s', F', nb, ?_, hI', c1, c3, c4, c5, c6, fun hlt => ?_⟩
  · simp only [mem_free, merge, bind, Option.bind_eq_some]
    exact ⟨(s1, nb), by simpa using hm, hins⟩
  · obtain ⟨_, hnb, _⟩ := hI'.fhdr _ _ c1
    have hna := hI'.bhdr nb (Or.inr ⟨_, c1⟩)
    obtain ⟨P, buddy, hPb, hPa, _, _, hbude, hpair⟩ := parent_buddy hnb hna hlt
    rw [← hbude]
    intro hbud
    rcases hpair with ⟨e1, e2⟩ | ⟨e1, e2⟩
    · exact hI'.nobud _ P hlt hPb hPa ⟨e1 ▸ c1, e2 ▸ hbud⟩
    · exact hI'.nobud _ P hlt hPb hPa ⟨e2 ▸ hbud, e1 ▸ c1⟩

/-- Witness of `C11_free_preserves_invariant`: the state after `mem_init` and one
allocation of 40 bytes, and the block handed out. -/
theorem C11_free_preserves_invariant_witness :
    ∃ F, AllocInv single_state F [single_block] ∧ single_block ∈ [single_block] ∧
      ∃ s' F' nb, mem_free single_state (single_block + SIZE_T) = some s' ∧
        AllocInv s' F' ([single_block].erase single_block) ∧
        nb ∈ F' (s'.heap nb) ∧ nb ≤ single_block ∧
        single_block + size_of_order (single_state.heap single_block) ≤
          nb + size_of_order (s'.heap nb) ∧
        (∀ k x, x ∈ F' k → x = nb ∨ x ∈ F k) ∧
        (∀ k x, x ∈ F k → x ∈ F' k ∨
          (nb ≤ x ∧ x + size_of_order k ≤ nb + size_of_order (s'.heap nb))) ∧
        (s'.heap nb < ORDER_MAX →
          (if (nb - heap_base) / size_of_order (s'.heap nb) % 2 ≠ 0
            then nb - size_of_order (s'.heap nb) else nb + size_of_order (s'.heap nb)) ∉
            F' (s'.heap nb)) := by
  obtain ⟨F, hF⟩ := single_alloc_inv
  exact ⟨F, hF.toAllocInv, List.mem_singleton_self _,
    C11_free_preserves_invariant single_state F [single_block] single_block hF.toAllocInv
      (List.mem_singleton_self _)⟩

set_option maxRecDepth 100000 in
/-- C12 (bitmap accesses of `mem_alloc` stay in range), evaluated on the code: in the
freshly initialised allocator the request of 65528 bytes has order `ORDER_MAX`; the
search loop finds the whole-arena block on the list of order `ORDER_MAX`, the found
order equals the requested one, and `mem_alloc` calls `toggle_parent` on the block.
The parent index of a block of order `ORDER_MAX` is not defined (`1 << (ORDER_MAX -
(ORDER_MAX + 1))` shifts by a negative amount), so no bitmap index in range is flipped
and the call is undefined. -/
theorem C12_top_order_parent_toggle :
    get_order (adjust_size 65528) = ORDER_MAX ∧
    ∃ s, mem_init zero_state = some s ∧
      find_block s (ORDER_MAX + 2) (get_order (adjust_size 65528)) =
        some (some ((ORDER_MAX : Int), heap_base)) ∧
      order_of s heap_base = some ORDER_MAX ∧
      get_gitmap_idx_parent s heap_base = none ∧ toggle_parent s heap_base = none ∧
      mem_alloc s 65528 = none := by
  refine ⟨by decide, ?_⟩
  have h : (mem_init zero_state).map (fun s =>
      (find_block s (ORDER_MAX + 2) (get_order (adjust_size 65528)), order_of s heap_base,
        get_gitmap_idx_parent s heap_base, (toggle_parent s heap_base).isSome,
        (mem_alloc s 65528).isSome)) =
      some (some (some ((ORDER_MAX : Int), heap_base)), some ORDER_MAX, none, false, false) := by
    decide
  cases hi : mem_init zero_state with
  | none => simp [hi] at h
  | some s =>
    simp only [hi, Option.map_some', Option.some.injEq, Prod.mk.injEq] at h
    obtain ⟨h1, h2, h3, h4, h5⟩ := h
    exact ⟨s, rfl, h1, h2, h3, by simpa using h4, by simpa using h5⟩

/-- C14: order computation is exact in range.  For every size with
`PAGE_SIZE ≤ size ≤ PAGE_SIZE * 2^ORDER_MAX`, `get_order(size)` is the smallest `k ≥ 0`
with `PAGE_SIZE * 2^k ≥ size` (and that `k` is at most `ORDER_MAX`); in particular, when
`size = PAGE_SIZE * 2^k` the order is `k`. -/
theorem C14_order_exact (size : Nat) (hlo : PAGE_SIZE ≤ size)
    (hhi : size ≤ PAGE_SIZE * 2 ^ ORDER_MAX) :
    (∃ k : Nat, get_order size = (k : Int) ∧ k ≤ ORDER_MAX ∧ size ≤ PAGE_SIZE * 2 ^ k ∧
      ∀ j : Nat, size ≤ PAGE_SIZE * 2 ^ j → k ≤ j) ∧
    (∀ k : Nat, size = PAGE_SIZE * 2 ^ k → get_order size = (k : Int)) := by
  have h32 : size ≤ 2 ^ 32 := by
    simp only [PAGE_SIZE, ORDER_MAX] at hhi
    norm_num at hhi ⊢
    omega
  obtain ⟨k, hk, h1, h2⟩ := get_order_nonneg size hlo h32
  have hmin : ∀ j : Nat, size ≤ PAGE_SIZE * 2 ^ j → k ≤ j := by
    intro j hj
    by_contra hc
    have hjk : j + 1 ≤ k := by omega
    have hp : 2 ^ (j + 1) ≤ 2 ^ k := Nat.pow_le_pow_right (by norm_num) hjk
    rw [pow_succ] at hp
    have : PAGE_SIZE * (2 ^ j * 2) ≤ PAGE_SIZE * 2 ^ k := Nat.mul_le_mul_left _ hp
    have e : PAGE_SIZE * (2 ^ j * 2) = 2 * (PAGE_SIZE * 2 ^ j) := by ring
    omega
  refine ⟨⟨k, hk, hmin ORDER_MAX hhi, h1, hmin⟩, fun j hj => ?_⟩
  have hjk : k ≤ j := hmin j (le_of_eq hj)
  have hkj : j ≤ k := by
    by_contra hc
    have hkj : k + 1 ≤ j := by omega
    have hp : 2 ^ (k + 1) ≤ 2 ^ j := Nat.pow_le_pow_right (by norm_num) hkj
    rw [pow_succ] at hp
    have : PAGE_SIZE * (2 ^ k * 2) ≤ PAGE_SIZE * 2 ^ j := Nat.mul_le_mul_left _ hp
    have e : PAGE_SIZE * (2 ^ k * 2) = 2 * (PAGE_SIZE * 2 ^ k) := by ring
    simp only [PAGE_SIZE] at hlo
    omega
  rw [hk]
  exact_mod_cast le_antisymm hjk hkj

/-- Witness of `C14_order_exact`: the size of a block of order 3. -/
theorem C14_order_exact_witness :
    PAGE_SIZE ≤ 512 ∧ 512 ≤ PAGE_SIZE * 2 ^ ORDER_MAX ∧
    (∃ k : Nat, get_order 512 = (k : Int) ∧ k ≤ ORDER_MAX ∧ 512 ≤ PAGE_SIZE * 2 ^ k ∧
      ∀ j : Nat, 512 ≤ PAGE_SIZE * 2 ^ j → k ≤ j) ∧
    (∀ k : Nat, 512 = PAGE_SIZE * 2 ^ k → get_order 512 = (k : Int)) :=
  ⟨by decide, by decide, C14_order_exact 512 (by decide) (by decide)⟩

/-! ### Geometry of the parent index -/

/-- The two halves of a node of order `k + 1` are aligned to order `k`. -/
theorem aligned_halves {P k : Nat} (hP : Aligned P (k + 1)) (hb : heap_base ≤ P) :
    Aligned P k ∧ Aligned (P + size_of_order k) k := by
  obtain ⟨p1, p2⟩ := hP
  change (P - heap_base) % size_of_order (k + 1) = 0 at p2
  rw [size_of_order_succ] at p2
  have hd : size_of_order k ∣ P - heap_base :=
    Dvd.dvd.trans (Dvd.intro_left 2 rfl) (Nat.dvd_of_mod_eq_zero p2)
  refine ⟨⟨by omega, Nat.mod_eq_zero_of_dvd hd⟩, ⟨by omega, ?_⟩⟩
  have e : P + size_of_order k - heap_base = (P - heap_base) + size_of_order k := by omega
  change (P + size_of_order k - heap_base) % size_of_order k = 0
  rw [e]
  exact Nat.mod_eq_zero_of_dvd (Dvd.dvd.add hd (dvd_refl _))

/-- C15: parent index geometry.  For a block `b` of order `k < ORDER_MAX` whose arena
offset is a multiple of its size, with position `pos = offset / size`: the block `P` of
order `k + 1` at position `pos / 2` contains `b`; `get_gitmap_idx_parent(b)` is the
index that `get_gitmap_idx` computes for `P` (in any state where the header of `P`
records order `k + 1`); and the buddy of `b` (at `offset + size` when `pos` is even,
at `offset - size` when odd, with header order `k`) has the same parent index. -/
theorem C15_parent_index (s : State) (b : Nat) (hb : BlockPtr b) (ha : Aligned b (s.heap b))
    (hk : s.heap b < ORDER_MAX) :
    ∃ P buddy idx,
      P = heap_base +
        (b - heap_base) / size_of_order (s.heap b) / 2 * size_of_order (s.heap b + 1) ∧
      buddy = (if (b - heap_base) / size_of_order (s.heap b) % 2 = 0
        then b + size_of_order (s.heap b) else b - size_of_order (s.heap b)) ∧
      P ≤ b ∧ b + size_of_order (s.heap b) ≤ P + size_of_order (s.heap b + 1) ∧
      get_gitmap_idx_parent s b = some idx ∧
      (∀ s' : State, s'.heap P = s.heap b + 1 → get_gitmap_idx s' P = some idx) ∧
      (∀ s' : State, s'.heap buddy = s.heap b → get_gitmap_idx_parent s' buddy = some idx) := by
  obtain ⟨P, buddy, hPb, hPa, hbudb, hPe, hbude, hpair⟩ := parent_buddy hb ha hk
  have hpos := size_of_order_pos (s.heap b)
  have hsz := size_of_order_succ (s.heap b)
  have hoff : (b - heap_base) / size_of_order (s.heap b) * size_of_order (s.heap b) =
      b - heap_base := Nat.div_mul_cancel (Nat.dvd_of_mod_eq_zero ha.2)
  have hP2 : P = heap_base +
      (b - heap_base) / size_of_order (s.heap b) / 2 * size_of_order (s.heap b + 1) := by
    have hb1 := hb.1
    have hm := Nat.div_add_mod ((b - heap_base) / size_of_order (s.heap b)) 2
    rw [hsz]
    generalize (b - heap_base) / size_of_order (s.heap b) = q at *
    generalize size_of_order (s.heap b) = S at *
    have e : q / 2 * (2 * S) = (2 * (q / 2)) * S := by ring
    rw [e]
    rcases Nat.mod_two_eq_zero_or_one q with h0 | h1
    · rw [h0] at hPe hm
      simp only [ne_eq, not_true_eq_false, if_false] at hPe
      have : 2 * (q / 2) = q := by omega
      rw [this, hoff, hPe]
      omega
    · rw [h1] at hPe hm
      simp only [ne_eq, one_ne_zero, not_false_eq_true, if_true] at hPe
      have e2 : q = 2 * (q / 2) + 1 := by omega
      have e3 : q * S = 2 * (q / 2) * S + S := by
        conv_lhs => rw [e2]
        ring
      rw [hPe]
      omega
  have hbud2 : buddy = (if (b - heap_base) / size_of_order (s.heap b) % 2 = 0
      then b + size_of_order (s.heap b) else b - size_of_order (s.heap b)) := by
    rw [hbude]
    by_cases h0 : (b - heap_base) / size_of_order (s.heap b) % 2 = 0
    · simp [h0]
    · simp [h0]
  have hidx := get_gitmap_idx_parent_at hb hk
  rw [← hPe] at hidx
  refine ⟨P, buddy, bidx (s.heap b + 1) P, hP2, hbud2, ?_, ?_, hidx, fun s' hs' => ?_,
    fun s' hs' => ?_⟩
  · rcases hpair with ⟨e1, _⟩ | ⟨e1, _⟩ <;> omega
  · rw [hsz]
    rcases hpair with ⟨e1, _⟩ | ⟨e1, _⟩ <;> omega
  · have := @get_gitmap_idx_at s' P hPb (by rw [hs']; exact hk)
    rw [hs'] at this
    exact this
  · obtain ⟨a1, a2⟩ := aligned_halves hPa hPb.1
    have hbuda : Aligned buddy (s'.heap buddy) := by
      rw [hs']
      rcases hpair with ⟨_, e2⟩ | ⟨_, e2⟩
      · rw [e2]; exact a2
      · rw [e2]; exact a1
    obtain ⟨P2, buddy2, hP2b, hP2a, _, hP2e, _, hpair2⟩ :=
      parent_buddy hbudb hbuda (by rw [hs']; exact hk)
    rw [hs'] at hP2a hpair2 hP2e
    have hPP : P2 = P := by
      refine node_of_half hP2a hPa hP2b.1 hPb.1 (x := buddy) ?_ ?_
      · rcases hpair with ⟨_, e2⟩ | ⟨_, e2⟩
        · exact Or.inr e2
        · exact Or.inl e2
      · rcases hpair2 with ⟨e1, _⟩ | ⟨e1, _⟩
        · exact Or.inl e1.symm
        · exact Or.inr e1.symm
    have := @get_gitmap_idx_parent_at s' buddy hbudb (by rw [hs']; exact hk)
    rw [hs', ← hP2e, hPP] at this
    exact this

/-- Witness of `C15_parent_index`: the second page of the arena in the zero-initialised
state, a block of order 0 at position 1. -/
theorem C15_parent_index_witness :
    BlockPtr (heap_base + 64) ∧
    Aligned (heap_base + 64) (zero_state.heap (heap_base + 64)) ∧
    zero_state.heap (heap_base + 64) < ORDER_MAX ∧
    ∃ P buddy idx,
      P = heap_base + (heap_base + 64 - heap_base) /
        size_of_order (zero_state.heap (heap_base + 64)) / 2 *
          size_of_order (zero_state.heap (heap_base + 64) + 1) ∧
      buddy = (if (heap_base + 64 - heap_base) /
          size_of_order (zero_state.heap (heap_base + 64)) % 2 = 0
        then heap_base + 64 + size_of_order (zero_state.heap (heap_base + 64))
        else heap_base + 64 - size_of_order (zero_state.heap (heap_base + 64))) ∧
      P ≤ heap_base + 64 ∧
      heap_base + 64 + size_of_order (zero_state.heap (heap_base + 64)) ≤
        P + size_of_order (zero_state.heap (heap_base + 64) + 1) ∧
      get_gitmap_idx_parent zero_state (heap_base + 64) = some idx ∧
      (∀ s' : State, s'.heap P = zero_state.heap (heap_base + 64) + 1 →
        get_gitmap_idx s' P = some idx) ∧
      (∀ s' : State, s'.heap buddy = zero_state.heap (heap_base + 64) →
        get_gitmap_idx_parent s' buddy = some idx) :=
  ⟨⟨by decide, by decide, by decide⟩, ⟨by decide, by decide⟩, by decide,
    C15_parent_index zero_state (heap_base + 64) ⟨by decide, by decide, by decide⟩
      ⟨by decide, by decide⟩ (by decide)⟩

/-! ### Removal from a free list -/

/-- The blocks of a chain are determined by its first pointer and the `next` links. -/
theorem Chain.unique {s : State} : ∀ (L L' : List Nat) (p p' c : Nat), Chain s p c L →
    Chain s p' c L' → (∀ x ∈ L, x ≠ NULL) → (∀ x ∈ L', x ≠ NULL) → L = L' := by
  intro L
  induction L with
  | nil =>
    intro L' p p' c h h' _ hn'
    cases L' with
    | nil => rfl
    | cons x xs =>
      have hc : c = NULL := h
      exact absurd (h'.1 ▸ hc) (hn' x (List.mem_cons_self _ _))
  | cons b bs ih =>
    intro L' p p' c h h' hn hn'
    cases L' with
    | nil =>
      have hc : c = NULL := h'
      exact absurd (h.1 ▸ hc) (hn b (List.mem_cons_self _ _))
    | cons x xs =>
      obtain ⟨h1, _, h3⟩ := h
      obtain ⟨g1, _, g3⟩ := h'
      have e : b = x := h1.symm.trans g1
      subst e
      rw [ih xs _ _ _ h3 g3 (fun y hy => hn y (List.mem_cons_of_mem _ hy))
        (fun y hy => hn' y (List.mem_cons_of_mem _ hy))]

/-- The part of a chain after one of its blocks is a chain from that block. -/
theorem Chain.suffix {s : State} : ∀ (L1 L2 : List Nat) (b p c : Nat),
    Chain s p c (L1 ++ b :: L2) → Chain s b (s.heap (b + 16)) L2 := by
  intro L1
  induction L1 with
  | nil => intro L2 b p c h; exact h.2.2
  | cons a L1 ih => intro L2 b p c h; exact ih L2 b a _ h.2.2

/-- A chain of non-`NULL` blocks holds no block twice. -/
theorem Chain.nodup {s : State} : ∀ (L : List Nat) (p c : Nat), Chain s p c L →
    (∀ x ∈ L, x ≠ NULL) → L.Nodup := by
  intro L
  induction L with
  | nil => intro p c _ _; exact List.nodup_nil
  | cons b bs ih =>
    intro p c h hn
    refine List.nodup_cons.mpr ⟨fun hb => ?_, ih _ _ h.2.2
      (fun y hy => hn y (List.mem_cons_of_mem _ hy))⟩
    obtain ⟨M1, M2, hsplit⟩ := List.append_of_mem hb
    have h3 := h.2.2
    have hs := h3
    rw [hsplit] at hs
    have hsuf := Chain.suffix M1 M2 b b _ hs
    have hnb : ∀ x ∈ bs, x ≠ NULL := fun y hy => hn y (List.mem_cons_of_mem _ hy)
    have e := Chain.unique bs M2 b b _ h3 hsuf hnb
      (fun y hy => hnb y (by rw [hsplit]; exact List.mem_append_right _ (List.mem_cons_of_mem _ hy)))
    have hl := congrArg List.length hsplit
    rw [e] at hl
    simp at hl
    omega

/-- C16: free-list removal.  Let the free list of order `k` be a well-formed
doubly-linked list holding the blocks `L1 ++ b :: L2` (block pointers, in list order),
with `b` a block of header order `k`.  Then `delete(b)` is defined; afterwards the list
of order `k` is a well-formed doubly-linked list holding `L1 ++ L2`, the other blocks in
their original order; its head is the successor of `b` when `b` was the head (`NULL`
when `b` was the only block) and is unchanged otherwise; the head of every other order
is unchanged, and so is every list that shares no block with the list of `b`; the
bitmap and the block headers are unchanged. -/
theorem C16_delete_removes (s : State) (k b : Nat) (L1 L2 : List Nat) (hk : k ≤ ORDER_MAX)
    (hch : Chain s NULL (s.free_area_struct_array k) (L1 ++ b :: L2))
    (hL : ∀ x ∈ L1 ++ b :: L2, BlockPtr x) (hbk : s.heap b = k) :
    ∃ s', delete s b = some s' ∧
      Chain s' NULL (s'.free_area_struct_array k) (L1 ++ L2) ∧
      (L1 = [] → s'.free_area_struct_array k = L2.headD NULL) ∧
      (L1 ≠ [] → s'.free_area_struct_array k = s.free_area_struct_array k) ∧
      (∀ j, j ≠ k → s'.free_area_struct_array j = s.free_area_struct_array j) ∧
      (∀ (M : List Nat) (p c : Nat), Chain s p c M →
        (∀ x ∈ M, BlockPtr x ∧ x ∉ L1 ++ b :: L2) → Chain s' p c M) ∧
      s'.map = s.map ∧ (∀ x, BlockPtr x → s'.heap x = s.heap x) := by
  have hbb : BlockPtr b := hL b (List.mem_append_right _ (List.mem_cons_self _ _))
  have hnd : (L1 ++ b :: L2).Nodup := Chain.nodup _ _ _ hch (fun x hx => (hL x hx).ne_null)
  obtain ⟨n1, n2, n3⟩ := Chain.neighbours hch hL
  obtain ⟨l1, l2⟩ := Chain.links L1 L2 b NULL _ hch
  have hp : PtrOrNull (s.heap (b + 8)) := by
    by_cases h : s.heap (b + 8) = NULL
    · exact Or.inl h
    · exact Or.inr (hL _ (List.mem_append_left _ (n2 h)))
  have hx : PtrOrNull (s.heap (b + 16)) := by
    by_cases h : s.heap (b + 16) = NULL
    · exact Or.inl h
    · exact Or.inr (hL _ (List.mem_append_right _ (List.mem_cons_of_mem _ (n3 h))))
  obtain ⟨s', hdel, hmap, hfree, hheap⟩ := delete_at hbb (by rw [hbk]; exact hk) hp hx
  have hd := @Chain.delete s s' b L1 L2 NULL _ hch hL hnd (Or.inl rfl) hheap
  refine ⟨s', hdel, ?_, ?_, ?_, ?_, ?_, hmap, ?_⟩
  · by_cases h1 : L1 = []
    · rw [if_pos h1] at hd
      rw [hfree, if_pos ⟨n1.mpr h1, hbk.symm⟩]
      exact hd
    · rw [if_neg h1] at hd
      rw [hfree, if_neg (fun h => h1 (n1.mp h.1))]
      exact hd
  · intro h1
    rw [hfree, if_pos ⟨n1.mpr h1, hbk.symm⟩, l2]
    cases L2 <;> rfl
  · intro h1
    rw [hfree, if_neg (fun h => h1 (n1.mp h.1))]
  · intro j hj
    rw [hfree, if_neg (fun h => hj (h.2.trans hbk))]
  · intro M p c hM hMd
    refine Chain.frame M p c hM (fun x hxM => ?_)
    obtain ⟨hxb, hxL⟩ := hMd x hxM
    have c1 : ∀ y, s.heap (b + 8) ≠ NULL → y = s.heap (b + 8) → x ≠ y := by
      intro y h e hxy
      exact hxL (hxy ▸ e ▸ List.mem_append_left _ (n2 h))
    have c2 : ∀ y, s.heap (b + 16) ≠ NULL → y = s.heap (b + 16) → x ≠ y := by
      intro y h e hxy
      exact hxL (hxy ▸ e ▸ List.mem_append_right _ (List.mem_cons_of_mem _ (n3 h)))
    constructor
    · rw [hheap]
      have a1 : ¬ (s.heap (b + 8) ≠ NULL ∧ x + 8 = s.heap (b + 8) + 16) := by
        rintro ⟨h1, h2⟩
        exact (hxb.fields_ne (hp.resolve_left h1)).2.2.1 h2
      have a2 : ¬ (s.heap (b + 16) ≠ NULL ∧ x + 8 = s.heap (b + 16) + 8) := by
        rintro ⟨h1, h2⟩
        exact c2 _ h1 rfl (by omega)
      rw [if_neg a1, if_neg a2]
    · rw [hheap]
      have a1 : ¬ (s.heap (b + 8) ≠ NULL ∧ x + 16 = s.heap (b + 8) + 16) := by
        rintro ⟨h1, h2⟩
        exact c1 _ h1 rfl (by omega)
      have a2 : ¬ (s.heap (b + 16) ≠ NULL ∧ x + 16 = s.heap (b + 16) + 8) := by
        rintro ⟨h1, h2⟩
        exact (hxb.fields_ne (hx.resolve_left h1)).2.2.2 h2
      rw [if_neg a1, if_neg a2]
  · intro x hxb
    rw [hheap]
    have a1 : ¬ (s.heap (b + 8) ≠ NULL ∧ x = s.heap (b + 8) + 16) := by
      rintro ⟨h1, h2⟩
      exact (hxb.fields_ne (hp.resolve_left h1)).2.1 h2
    have a2 : ¬ (s.heap (b + 16) ≠ NULL ∧ x = s.heap (b + 16) + 8) := by
      rintro ⟨h1, h2⟩
      exact (hxb.fields_ne (hx.resolve_left h1)).1 h2
    rw [if_neg a1, if_neg a2]

set_option maxRecDepth 100000 in
/-- In `two_free_state` the free list of order 0 is the well-formed doubly-linked list
of the pages at offsets 65344 and 65472, and the page at offset 65472 has header
order 0. -/
theorem two_free_chain :
    Chain two_free_state NULL (two_free_state.free_area_struct_array 0)
      ([heap_base + 65344] ++ (heap_base + 65472) :: []) ∧
    two_free_state.heap (heap_base + 65472) = 0 := by
  have h : (run two_free_trace).map (fun r =>
      (r.st.free_area_struct_array 0, r.st.heap (heap_base + 65344 + 8),
        r.st.heap (heap_base + 65344 + 16), r.st.heap (heap_base + 65472 + 8),
        r.st.heap (heap_base + 65472 + 16))) =
      some (heap_base + 65344, NULL, heap_base + 65472, heap_base + 65344, NULL) := by decide
  have h' : (run two_free_trace).map (fun r => r.st.heap (heap_base + 65472)) = some 0 := by
    decide
  cases hr : run two_free_trace with
  | none => simp [hr] at h
  | some r =>
    simp only [hr, Option.map_some', Option.some.injEq, Prod.mk.injEq] at h h'
    obtain ⟨h0, h1, h2, h3, h4⟩ := h
    have hst : two_free_state = r.st := by simp [two_free_state, hr]
    rw [hst]
    refine ⟨⟨h0, h1, ?_, h3, ?_⟩, h'⟩
    · exact h2
    · exact h4

/-- Witness of `C16_delete_removes`: in `two_free_state`, `delete` of the second block
of the free list of order 0. -/
theorem C16_delete_removes_witness :
    0 ≤ ORDER_MAX ∧
    Chain two_free_state NULL (two_free_state.free_area_struct_array 0)
      ([heap_base + 65344] ++ (heap_base + 65472) :: []) ∧
    (∀ x ∈ [heap_base + 65344] ++ (heap_base + 65472) :: [], BlockPtr x) ∧
    two_free_state.heap (heap_base + 65472) = 0 ∧
    ∃ s', delete two_free_state (heap_base + 65472) = some s' ∧
      Chain s' NULL (s'.free_area_struct_array 0) ([heap_base + 65344] ++ []) ∧
      ([heap_base + 65344] = [] → s'.free_area_struct_array 0 = ([] : List Nat).headD NULL) ∧
      ([heap_base + 65344] ≠ [] →
        s'.free_area_struct_array 0 = two_free_state.free_area_struct_array 0) ∧
      (∀ j, j ≠ 0 → s'.free_area_struct_array j = two_free_state.free_area_struct_array j) ∧
      (∀ (M : List Nat) (p c : Nat), Chain two_free_state p c M →
        (∀ x ∈ M, BlockPtr x ∧ x ∉ [heap_base + 65344] ++ (heap_base + 65472) :: []) →
        Chain s' p c M) ∧
      s'.map = two_free_state.map ∧
      (∀ x, BlockPtr x → s'.heap x = two_free_state.heap x) := by
  have hL : ∀ x ∈ [heap_base + 65344] ++ (heap_base + 65472) :: [], BlockPtr x := by
    intro x hx
    simp only [List.singleton_append, List.mem_cons, List.mem_singleton, List.not_mem_nil,
      or_false] at hx
    rcases hx with rfl | rfl
    · exact ⟨by decide, by decide, by decide⟩
    · exact ⟨by decide, by decide, by decide⟩
  exact ⟨Nat.zero_le _, two_free_chain.1, hL, two_free_chain.2,
    C16_delete_removes two_free_state 0 (heap_base + 65472) [heap_base + 65344] []
      (Nat.zero_le _) two_free_chain.1 hL two_free_chain.2⟩

/-! ### The polarity of the merge test -/

set_option maxRecDepth 100000 in
/-- C17 as stated fails on the code.  After one allocation of 40 bytes the bit read at
the parent index of the allocated page is 1 and its buddy is on the free list of order
0; `merge` does not stop there: it takes the buddy off the list and merges all the way
up to the block of order `ORDER_MAX` at arena offset 0.  After two allocations of 40
bytes the bit read is 0, and `merge` returns the page unmerged, with order 0. -/
theorem C17_counterexample :
    (get_gitmap_idx_parent single_state single_block = some 1022 ∧
      bitsetGet single_state.map 1022 = some true ∧
      single_state.free_area_struct_array 0 = single_block - 64 ∧
      (merge single_state single_block ORDER_MAX).map
        (fun x => (x.2, order_of x.1 x.2, x.1.free_area_struct_array 0)) =
        some (heap_base, some ORDER_MAX, NULL)) ∧
    (get_gitmap_idx_parent two_allocs_state single_block = some 1022 ∧
      bitsetGet two_allocs_state.map 1022 = some false ∧
      (merge two_allocs_state single_block ORDER_MAX).map
        (fun x => (x.2, order_of x.1 x.2)) = some (single_block, some 0)) := by
  refine ⟨⟨?_, ?_, ?_, ?_⟩, ?_, ?_, ?_⟩ <;> decide

/-- C17, amended: the merge test is taken on bit 1.  In a state that satisfies the
allocator invariant, let `b` be an allocated block of order `k` below `ORDER_MAX`
(the block `merge` is called on), `P` its parent node and `idx` the parent index that
`merge` reads.  When the bit at `idx` is 1 the buddy is free and the call takes a
merge step: it goes on merging from `P` in a state where the buddy is removed from
the free list of order `k` and `P` is one block of order `k + 1`.  When the bit is 0
the buddy is not free and merging stops: the call flips the bit and returns `b`. -/
theorem C17_merge_on_bit_set (s : State) (F : Nat → List Nat) (A : List Nat) (b : Nat)
    (hI : AllocInv s F A) (hb : b ∈ A) (hk : s.heap b < ORDER_MAX) :
    ∃ P buddy idx,
      P = (if (b - heap_base) / size_of_order (s.heap b) % 2 ≠ 0
        then b - size_of_order (s.heap b) else b) ∧
      buddy = (if (b - heap_base) / size_of_order (s.heap b) % 2 ≠ 0
        then b - size_of_order (s.heap b) else b + size_of_order (s.heap b)) ∧
      get_gitmap_idx_parent s b = some idx ∧ bitsetGet s.map idx = some (s.map idx) ∧
      (s.map idx = true → buddy ∈ F (s.heap b) ∧
        ∃ s1, (∀ n, merge_fuel (n + 1) s b (ORDER_MAX : Int) =
            merge_fuel n s1 P (ORDER_MAX : Int)) ∧
          s1.heap P = s.heap b + 1 ∧
          AllocInv s1 (Function.update F (s.heap b) ((F (s.heap b)).erase buddy))
            (P :: A.erase b)) ∧
      (s.map idx = false → buddy ∉ F (s.heap b) ∧
        ∀ n, merge_fuel (n + 1) s b (ORDER_MAX : Int) = some (with_flip s idx, b)) := by
  have hbb : BlockPtr b := hI.ablk b hb
  have hba := hI.bhdr b (Or.inl hb)
  obtain ⟨P, buddy, hPb, hPa, hbudb, hPe, hbude, hpair, hidx, hget, hstop, hgo⟩ :=
    @merge_fuel_step s b (ORDER_MAX : Int) hbb hba hk (by rw [toSizeT_order_max]; exact hk)
  have hbits := hI.bits (s.heap b) P hk hPb hPa
  refine ⟨P, buddy, _, hPe, hbude, hidx, hget, fun hbit => ?_, fun hbit => ⟨?_, hstop hbit⟩⟩
  · have hbud : buddy ∈ F (s.heap b) := by
      rcases hbits.mp hbit with h | h
      · rcases hpair with ⟨a1, _⟩ | ⟨_, a2⟩
        · rw [← a1] at h; exact absurd h (hI.afree b hb _)
        · rw [a2]; exact h
      · rcases hpair with ⟨_, a2⟩ | ⟨a1, _⟩
        · rw [a2]; exact h
        · rw [← a1] at h; exact absurd h (hI.afree b hb _)
    obtain ⟨_, _, hbudh⟩ := hI.fhdr _ _ hbud
    obtain ⟨hp, hx⟩ := hI.free_links hbud
    obtain ⟨s1, hstep, hmap1, hfree1, hheap1⟩ := hgo hbit (by rw [hbudh]; exact hba.1) hp hx
    exact ⟨hbud, s1, hstep, by rw [hheap1, if_pos rfl],
      hI.merge_blocks hb hPb hPa hpair hbud hmap1 hfree1 hheap1⟩
  · intro hm
    have : s.map (bidx (s.heap b + 1) P) = true := by
      apply hbits.mpr
      rcases hpair with ⟨_, a2⟩ | ⟨_, a2⟩
      · right; rw [← a2]; exact hm
      · left; rw [← a2]; exact hm
    rw [hbit] at this
    exact Bool.false_ne_true this

set_option maxRecDepth 100000 in
/-- Witness of `C17_merge_on_bit_set`: the state after `mem_init` and one allocation of
40 bytes, and the page handed out. -/
theorem C17_merge_on_bit_set_witness :
    ∃ F, AllocInv single_state F [single_block] ∧ single_block ∈ [single_block] ∧
      single_state.heap single_block < ORDER_MAX ∧
      ∃ P buddy idx,
        P = (if (single_block - heap_base) / size_of_order (single_state.heap single_block) % 2
            ≠ 0
          then single_block - size_of_order (single_state.heap single_block)
          else single_block) ∧
        buddy = (if (single_block - heap_base) /
            size_of_order (single_state.heap single_block) % 2 ≠ 0
          then single_block - size_of_order (single_state.heap single_block)
          else single_block + size_of_order (single_state.heap single_block)) ∧
        get_gitmap_idx_parent single_state single_block = some idx ∧
        bitsetGet single_state.map idx = some (single_state.map idx) ∧
        (single_state.map idx = true → buddy ∈ F (single_state.heap single_block) ∧
          ∃ s1, (∀ n, merge_fuel (n + 1) single_state single_block (ORDER_MAX : Int) =
              merge_fuel n s1 P (ORDER_MAX : Int)) ∧
            s1.heap P = single_state.heap single_block + 1 ∧
            AllocInv s1 (Function.update F (single_state.heap single_block)
              ((F (single_state.heap single_block)).erase buddy))
              (P :: [single_block].erase single_block)) ∧
        (single_state.map idx = false → buddy ∉ F (single_state.heap single_block) ∧
          ∀ n, merge_fuel (n + 1) single_state single_block (ORDER_MAX : Int) =
            some (with_flip single_state idx, single_block)) := by
  obtain ⟨F, hF⟩ := single_alloc_inv
  have hk : single_state.heap single_block < ORDER_MAX := by decide
  exact ⟨F, hF.toAllocInv, List.mem_singleton_self _, hk,
    C17_merge_on_bit_set single_state F [single_block] single_block hF.toAllocInv
      (List.mem_singleton_self _) hk⟩

/-! ### The list head left by `mem_alloc` -/

/-- A trace run in two parts. -/
theorem run_from_append : ∀ (l1 l2 : List Op) (r : Run),
    run_from r (l1 ++ l2) = (run_from r l1).bind (fun r1 => run_from r1 l2) := by
  intro l1
  induction l1 with
  | nil => intro l2 r; rfl
  | cons op l1 ih =>
    intro l2 r
    simp only [List.cons_append, run_from, bind]
    cases step r op with
    | none => rfl
    | some r1 => exact ih l2 r1

set_option maxRecDepth 100000 in
/-- The state `two_free_state` satisfies the allocator invariant. -/
theorem two_free_inv : ∃ F A, Inv two_free_state F A := by
  have hret : (run two_free_trace).map Run.returned =
      some [heap_base + 65472 + SIZE_T, heap_base + 65408 + SIZE_T,
        heap_base + 65344 + SIZE_T, heap_base + 65280 + SIZE_T] := by decide
  cases hr : run two_free_trace with
  | none => simp [hr] at hret
  | some r =>
    simp only [hr, Option.map_some', Option.some.injEq] at hret
    have hst : two_free_state = r.st := by simp [two_free_state, hr]
    rw [hst]
    have hrun := hr
    simp only [run, bind, Option.bind_eq_some] at hrun
    obtain ⟨s0, h0, hrun⟩ := hrun
    have e : two_free_trace = [40, 40, 40, 40].map Op.alloc ++ [Op.free 0, Op.free 2] := rfl
    rw [e, run_from_append] at hrun
    simp only [Option.bind_eq_some] at hrun
    obtain ⟨r1, h1, h2⟩ := hrun
    have hsub := run_from_returned _ _ _ h2
    have hS0 : Short (fun k => if k = ORDER_MAX then [heap_base] else []) := by
      intro k
      by_cases hk : k = ORDER_MAX <;> simp [hk]
    have hnn : ∀ p, p ∈ r1.returned → p ≠ NULL := by
      intro p hp
      have := hsub p hp
      rw [hret] at this
      simp only [List.mem_cons, List.mem_singleton, List.not_mem_nil, or_false] at this
      rcases this with rfl | rfl | rfl | rfl <;> decide
    obtain ⟨F1, A1, hI1, hP1, hB1⟩ := run_allocs_full [40, 40, 40, 40]
      { st := s0, returned := [], live := [] } r1 _ [] (mem_init_full h0) hS0 (List.Perm.refl _)
      (fun p hp => absurd hp (List.not_mem_nil p)) h1 hnn
    -- the two frees
    simp only [run_from, step, bind, Option.bind_eq_some] at h2
    obtain ⟨r2, ⟨p1, hp1, hf1⟩, r3, ⟨p2, hp2, hf2⟩, h3⟩ := h2
    simp only [Option.some.injEq] at h3
    subst h3
    split at hf1
    · simp only [Option.bind_eq_some, Option.some.injEq] at hf1
      obtain ⟨s2, hm1, rfl⟩ := hf1
      have hp1m : p1 ∈ r1.returned := List.get?_mem hp1
      have hb1 : block_of p1 ∈ A1 := hP1.symm.subset (List.mem_map_of_mem _ hp1m)
      obtain ⟨s2', F2, hm1', hI2⟩ := mem_free_full hI1 hb1
      rw [← hB1 p1 hp1m, hm1] at hm1'
      simp only [Option.some.injEq] at hm1'
      subst hm1'
      split at hf2
      · simp only [Option.bind_eq_some, Option.some.injEq] at hf2
        obtain ⟨s3, hm2, rfl⟩ := hf2
        rename_i hl1 hl2
        have hp2m : p2 ∈ r1.returned := List.get?_mem hp2
        have hne : block_of p2 ≠ block_of p1 := by
          intro e
          have e2 : p2 = p1 := by rw [hB1 p2 hp2m, hB1 p1 hp1m, e]
          have hnd : r1.live.Nodup → p2 ∉ r1.live.erase p1 := fun hnd =>
            e2 ▸ List.Nodup.not_mem_erase hnd
          have hlive : (run_from { st := s0, returned := [], live := [] }
              ([40, 40, 40, 40].map Op.alloc)).map Run.live =
              ((mem_init zero_state).bind (fun s => run_from
                { st := s, returned := [], live := [] } ([40, 40, 40, 40].map Op.alloc))).map
                Run.live := by rw [h0]; rfl
          have hl : ((mem_init zero_state).bind (fun s => run_from
              { st := s, returned := [], live := [] } ([40, 40, 40, 40].map Op.alloc))).map
              Run.live = some [heap_base + 65280 + SIZE_T, heap_base + 65344 + SIZE_T,
                heap_base + 65408 + SIZE_T, heap_base + 65472 + SIZE_T] := by decide
          rw [← hlive, h1] at hl
          simp only [Option.map_some', Option.some.injEq] at hl
          exact hnd (by rw [hl]; decide) hl2
        have hb2 : block_of p2 ∈ A1.erase (block_of p1) :=
          (List.mem_erase_of_ne hne).mpr (hP1.symm.subset (List.mem_map_of_mem _ hp2m))
        obtain ⟨s3', F3, hm2', hI3⟩ := mem_free_full hI2 hb2
        rw [← hB1 p2 hp2m, hm2] at hm2'
        simp only [Option.some.injEq] at hm2'
        subst hm2'
        exact ⟨F3, _, hI3⟩
      · exact absurd hf2 (by simp)
    · exact absurd hf1 (by simp)

set_option maxRecDepth 100000 in
/-- C18 (`mem_alloc` keeps the free lists well-formed), evaluated on the code: the
state `two_free_state` satisfies the allocator invariant, and its free list of order 0
is the well-formed list of the pages at offsets 65344 and 65472.  `mem_alloc(40)`
serves the page at offset 65344 from the head of this list; the new head is the page
at offset 65472, and its `prev` link is not `NULL`: it still points to the page just
handed out. -/
theorem C18_new_head_keeps_prev :
    (∃ F A, Inv two_free_state F A) ∧
    Chain two_free_state NULL (two_free_state.free_area_struct_array 0)
      [heap_base + 65344, heap_base + 65472] ∧
    ∃ p s', mem_alloc two_free_state 40 = some (p, s') ∧ p = heap_base + 65344 + SIZE_T ∧
      s'.free_area_struct_array 0 = heap_base + 65472 ∧
      prev_of s' (heap_base + 65472) = some (heap_base + 65344) ∧
      heap_base + 65344 ≠ NULL := by
  refine ⟨two_free_inv, two_free_chain.1, ?_⟩
  have h : (mem_alloc two_free_state 40).map (fun x =>
      (x.1, x.2.free_area_struct_array 0, prev_of x.2 (heap_base + 65472))) =
      some (heap_base + 65344 + SIZE_T, heap_base + 65472, some (heap_base + 65344)) := by
    decide
  cases ha : mem_alloc two_free_state 40 with
  | none => simp [ha] at h
  | some x =>
    obtain ⟨p, s'⟩ := x
    simp only [ha, Option.map_some', Option.some.injEq, Prod.mk.injEq] at h
    obtain ⟨h1, h2, h3⟩ := h
    exact ⟨p, s', rfl, h1, h2, h3, by decide⟩

/-! ### One call of `split_block` -/

/-- A call of `split_block` on a block whose order is the requested order returns the
block and changes nothing. -/
theorem split_fuel_done {s : State} {b r : Nat} (hb : BlockPtr b) (h : s.heap b = r)
    (hr : r ≤ ORDER_MAX) (n : Nat) : split_block_fuel (n + 1) s b (r : Int) = some (s, b) := by
  have hrs : toSizeT (r : Int) = r :=
    toSizeT_natCast r (by simp only [ORDER_MAX] at hr; omega)
  rw [split_block_fuel]
  simp only [order_of, load_blockptr hb, bind, Option.some_bind, hrs]
  rw [if_pos h]

/-- A call of `split_block` on an aligned block `b` of order `o` above the requested
order, when the head of the free list of order `o - 1` is `NULL` or a block pointer:
the call flips the bit of the node of `b`, writes order `o - 1` to the headers of the two
halves, inserts the lower half `b` at the head of the list of order `o - 1`, and calls
itself on the upper half. -/
theorem split_fuel_step {s : State} {b r : Nat} (hb : BlockPtr b) (ha : Aligned b (s.heap b))
    (hr : r < s.heap b) (hh : PtrOrNull (s.free_area_struct_array (s.heap b - 1))) :
    ∃ s3, (∀ n, split_block_fuel (n + 1) s b (r : Int) =
        split_block_fuel n s3 (b + size_of_order (s.heap b - 1)) (r : Int)) ∧
      (∀ j, s3.map j = if j = bidx (s.heap b) b then !(s.map j) else s.map j) ∧
      (∀ j, s3.free_area_struct_array j =
        if j = s.heap b - 1 then b else s.free_area_struct_array j) ∧
      (∀ x, s3.heap x = if x = b + 8 then NULL else
        if x = b + 16 then s.free_area_struct_array (s.heap b - 1) else
        if s.free_area_struct_array (s.heap b - 1) ≠ NULL ∧
            x = s.free_area_struct_array (s.heap b - 1) + 8 then b else
        if x = b ∨ x = b + size_of_order (s.heap b - 1) then s.heap b - 1 else s.heap x) := by
  have hko : s.heap b ≤ ORDER_MAX := ha.1
  have hrs : toSizeT (r : Int) = r :=
    toSizeT_natCast r (by simp only [ORDER_MAX] at hko; omega)
  have hne : ¬ (s.heap b = r) := by omega
  have hk1 : 1 ≤ s.heap b := by omega
  obtain ⟨hl, hrb, hra⟩ := halves_aligned hb ha hk1
  have hsz : size_of_order (s.heap b) = 2 * size_of_order (s.heap b - 1) := by
    have := size_of_order_succ (s.heap b - 1)
    have e : s.heap b - 1 + 1 = s.heap b := by omega
    rwa [e] at this
  have hRe : b + size_of_order (s.heap b) / 2 = b + size_of_order (s.heap b - 1) := by
    rw [hsz]; omega
  rw [shift_size, hRe] at hrb hra
  have e : (s.heap b + 2 ^ 64 - 1) % 2 ^ 64 = s.heap b - 1 := by
    simp only [ORDER_MAX] at hko
    omega
  have hwf : (with_flip s (bidx (s.heap b) b)).heap b = s.heap b := rfl
  have hpos := size_of_order_pos (s.heap b - 1)
  have hbR : b ≠ b + size_of_order (s.heap b - 1) := by omega
  have hb2 : (write (write (with_flip s (bidx (s.heap b) b)) b (s.heap b - 1))
      (b + size_of_order (s.heap b - 1)) (s.heap b - 1)).heap b = s.heap b - 1 := by
    simp only [write_heap, if_neg hbR, if_true]
  obtain ⟨s3, hins, hmap3, hfree3, hheap3⟩ :=
    @insert_at (write (write (with_flip s (bidx (s.heap b) b)) b (s.heap b - 1))
      (b + size_of_order (s.heap b - 1)) (s.heap b - 1)) b hb (by rw [hb2]; omega)
      (by rw [hb2]; exact hh)
  rw [hb2] at hfree3 hheap3
  refine ⟨s3, fun n => ?_, fun j => by rw [hmap3]; rfl, fun j => by rw [hfree3]; rfl,
    fun x => ?_⟩
  · rw [split_block_fuel]
    simp only [order_of, load_blockptr hb, bind, Option.some_bind, hrs, if_neg hne,
      get_block_size_at hb hko, toggle_at hb ha hk1, hRe, hwf, e, set_order,
      store_blockptr _ hb, write_heap, if_true, store_blockptr _ hrb, hins]
  · rw [hheap3]
    simp only [write_heap, write_free]
    by_cases c1 : x = b + 8
    · rw [if_pos c1, if_pos c1]
    · rw [if_neg c1, if_neg c1]
      by_cases c2 : x = b + 16
      · rw [if_pos c2, if_pos c2]; rfl
      · rw [if_neg c2, if_neg c2]
        have ef : (with_flip s (bidx (s.heap b) b)).free_area_struct_array =
            s.free_area_struct_array := rfl
        rw [ef]
        by_cases c3 : s.free_area_struct_array (s.heap b - 1) ≠ NULL ∧
            x = s.free_area_struct_array (s.heap b - 1) + 8
        · rw [if_pos c3, if_pos c3]
        · rw [if_neg c3, if_neg c3]
          by_cases c4 : x = b + size_of_order (s.heap b - 1)
          · rw [if_pos c4, if_pos (Or.inr c4)]
          · rw [if_neg c4]
            by_cases c5 : x = b
            · rw [if_pos c5, if_pos (Or.inl c5)]
            · rw [if_neg c5, if_neg (fun hc => hc.elim c5 c4)]; rfl

/-- The blocks on the right spine of an aligned block `b` of order `o`: for `j ≤ o` the
block of order `j` that ends where `b` ends is an aligned block pointer at or above
`b`. -/
theorem spine_aligned {b o : Nat} (hb : BlockPtr b) (ha : Aligned b o) :
    ∀ d j, j + d = o → BlockPtr (b + size_of_order o - size_of_order j) ∧
      Aligned (b + size_of_order o - size_of_order j) j ∧
      b ≤ b + size_of_order o - size_of_order j ∧
      size_of_order j ≤ size_of_order o := by
  intro d
  induction d generalizing b o with
  | zero =>
    intro j hj
    have e : j = o := by omega
    subst e
    have : b + size_of_order j - size_of_order j = b := by omega
    rw [this]
    exact ⟨hb, ha, le_refl _, le_refl _⟩
  | succ d ih =>
    intro j hj
    have ho1 : 1 ≤ o := by omega
    obtain ⟨_, hrb, hra⟩ := halves_aligned hb ha ho1
    have hsz : size_of_order o = 2 * size_of_order (o - 1) := by
      have := size_of_order_succ (o - 1)
      have e : o - 1 + 1 = o := by omega
      rwa [e] at this
    have hRe : b + 1 <<< o * PAGE_SIZE / 2 = b + size_of_order (o - 1) := by
      rw [shift_size, hsz]; omega
    rw [hRe] at hrb hra
    obtain ⟨i1, i2, i3, i4⟩ := ih hrb hra j (by omega)
    have e : b + size_of_order (o - 1) + size_of_order (o - 1) - size_of_order j =
        b + size_of_order o - size_of_order j := by rw [hsz]; omega
    rw [e] at i1 i2 i3
    exact ⟨i1, i2, by omega, by omega⟩

/-! ### The postcondition of `split_block` -/

/-- Postcondition of `split_block`, by induction on the number `d` of splits.  `E` is
the end address of the block `b` of order `r + d`; `F k` are the blocks of the free
list of order `k` before the call. -/
theorem split_post (r : Nat) (F : Nat → List Nat) : ∀ (d : Nat) (s : State) (b E : Nat),
    BlockPtr b → Aligned b (s.heap b) → s.heap b = r + d → E = b + size_of_order (r + d) →
    (∀ k, r ≤ k → k < r + d → Chain s NULL (s.free_area_struct_array k) (F k) ∧
      ∀ x ∈ F k, BlockPtr x ∧ s.heap x = k ∧ (x < b ∨ E ≤ x)) →
    ∃ s', (∀ n, split_block_fuel (d + 1 + n) s b (r : Int) =
        some (s', E - size_of_order r)) ∧
      split_block_fuel d s b (r : Int) = none ∧
      s'.heap (E - size_of_order r) = r ∧
      (∀ k, r ≤ k → k < r + d → s'.free_area_struct_array k = E - size_of_order (k + 1) ∧
        s'.heap (E - size_of_order (k + 1)) = k ∧
        Chain s' NULL (s'.free_area_struct_array k) ((E - size_of_order (k + 1)) :: F k)) ∧
      (∀ k, ¬ (r ≤ k ∧ k < r + d) →
        s'.free_area_struct_array k = s.free_area_struct_array k) ∧
      (∀ j, r < j → j ≤ r + d →
        s'.map (bidx j (E - size_of_order j)) = !(s.map (bidx j (E - size_of_order j)))) ∧
      (∀ i, (∀ j, r < j → j ≤ r + d → i ≠ bidx j (E - size_of_order j)) →
        s'.map i = s.map i) ∧
      (∀ x, BlockPtr x → (x < b ∨ E ≤ x) → s'.heap x = s.heap x) ∧
      (∀ x, BlockPtr x → (x < b ∨ E ≤ x) → (∀ k, r ≤ k → k < r + d → x ∉ F k) →
        s'.heap (x + 8) = s.heap (x + 8) ∧ s'.heap (x + 16) = s.heap (x + 16)) := by
  intro d
  induction d with
  | zero =>
    intro s b E hb ha ho hE _
    have hr : r ≤ ORDER_MAX := by have := ha.1; omega
    have hEr : E - size_of_order r = b := by rw [hE]; simp
    refine ⟨s, fun n => ?_, rfl, ?_, fun k h1 h2 => by omega, fun _ _ => rfl,
      fun j h1 h2 => by omega, fun _ _ => rfl, fun _ _ _ => rfl, fun _ _ _ _ => ⟨rfl, rfl⟩⟩
    · rw [hEr]
      have e : 0 + 1 + n = n + 1 := by omega
      rw [e]
      exact split_fuel_done hb (by simpa using ho) hr n
    · rw [hEr]; simpa using ho
  | succ d ih =>
    intro s b E hb ha ho hE hF
    have hsz : size_of_order (r + (d + 1)) = 2 * size_of_order (r + d) :=
      size_of_order_succ (r + d)
    have hpos := size_of_order_pos (r + d)
    have e1 : s.heap b - 1 = r + d := by omega
    obtain ⟨hchO, hFO⟩ := hF (r + d) (by omega) (by omega)
    have hcP : PtrOrNull (s.free_area_struct_array (r + d)) := by
      by_cases hn : s.free_area_struct_array (r + d) = NULL
      · exact Or.inl hn
      · exact Or.inr (hFO _ (Chain.head_mem hchO hn)).1
    have hcF : s.free_area_struct_array (r + d) ≠ NULL →
        s.free_area_struct_array (r + d) ∈ F (r + d) := fun hn => Chain.head_mem hchO hn
    obtain ⟨s3, hstep, hmap3, hfree3, hheap3⟩ :=
      @split_fuel_step s b r hb ha (by omega) (by rw [e1]; exact hcP)
    rw [e1] at hstep hfree3 hheap3
    rw [ho] at hmap3
    obtain ⟨_, hRb, hRa⟩ := halves_aligned hb ha (by omega : 1 ≤ s.heap b)
    have hRe : b + 1 <<< s.heap b * PAGE_SIZE / 2 = b + size_of_order (r + d) := by
      rw [shift_size, ho, hsz]; omega
    rw [hRe] at hRb hRa
    rw [e1] at hRa
    -- the heap of `s3`
    have hs3b : s3.heap b = r + d := by
      rw [hheap3]
      obtain ⟨f1, f2, _, _⟩ := hb.fields_ne hb
      have c3 : ¬ (s.free_area_struct_array (r + d) ≠ NULL ∧
          b = s.free_area_struct_array (r + d) + 8) := by
        rintro ⟨h1, h2⟩
        exact (hb.fields_ne (hcP.resolve_left h1)).1 h2
      rw [if_neg f1, if_neg f2, if_neg c3, if_pos (Or.inl rfl)]
    have hs3R : s3.heap (b + size_of_order (r + d)) = r + d := by
      rw [hheap3]
      obtain ⟨f1, f2, _, _⟩ := hRb.fields_ne hb
      have c3 : ¬ (s.free_area_struct_array (r + d) ≠ NULL ∧
          b + size_of_order (r + d) = s.free_area_struct_array (r + d) + 8) := by
        rintro ⟨h1, h2⟩
        exact (hRb.fields_ne (hcP.resolve_left h1)).1 h2
      rw [if_neg f1, if_neg f2, if_neg c3, if_pos (Or.inr rfl)]
    have hs3x : ∀ x, BlockPtr x → x ≠ b → x ≠ b + size_of_order (r + d) →
        s3.heap x = s.heap x := by
      intro x hx h1 h2
      rw [hheap3]
      obtain ⟨f1, f2, _, _⟩ := hx.fields_ne hb
      have c3 : ¬ (s.free_area_struct_array (r + d) ≠ NULL ∧
          x = s.free_area_struct_array (r + d) + 8) := by
        rintro ⟨g1, g2⟩
        exact (hx.fields_ne (hcP.resolve_left g1)).1 g2
      rw [if_neg f1, if_neg f2, if_neg c3, if_neg (fun h => h.elim h1 h2)]
    have hs3l : ∀ x, BlockPtr x → x ≠ b → x ∉ F (r + d) →
        s3.heap (x + 8) = s.heap (x + 8) ∧ s3.heap (x + 16) = s.heap (x + 16) := by
      intro x hx h1 h2
      obtain ⟨_, _, f3, f4⟩ := hx.fields_ne hb
      obtain ⟨g1, g2, _, _⟩ := hb.fields_ne hx
      obtain ⟨k1, k2, _, _⟩ := hRb.fields_ne hx
      constructor
      · rw [hheap3]
        have a1 : x + 8 ≠ b + 8 := by omega
        have c3 : ¬ (s.free_area_struct_array (r + d) ≠ NULL ∧
            x + 8 = s.free_area_struct_array (r + d) + 8) := by
          rintro ⟨q1, q2⟩
          have : x = s.free_area_struct_array (r + d) := by omega
          exact h2 (this ▸ hcF q1)
        rw [if_neg a1, if_neg f3, if_neg c3,
          if_neg (fun h => h.elim (fun e => g1 e.symm) (fun e => k1 e.symm))]
      · rw [hheap3]
        have a2 : x + 16 ≠ b + 16 := by omega
        have c3 : ¬ (s.free_area_struct_array (r + d) ≠ NULL ∧
            x + 16 = s.free_area_struct_array (r + d) + 8) := by
          rintro ⟨q1, q2⟩
          exact (hx.fields_ne (hcP.resolve_left q1)).2.2.2 q2
        rw [if_neg f4, if_neg a2, if_neg c3,
          if_neg (fun h => h.elim (fun e => g2 e.symm) (fun e => k2 e.symm))]
    have hE' : E = b + size_of_order (r + d) + size_of_order (r + d) := by
      rw [hE, hsz]; omega
    have hout : ∀ x, (x < b ∨ E ≤ x) → x ≠ b ∧ x ≠ b + size_of_order (r + d) := by
      intro x hx
      constructor <;> omega
    -- the hypotheses of the induction for the upper half
    have hF3 : ∀ k, r ≤ k → k < r + d →
        Chain s3 NULL (s3.free_area_struct_array k) (F k) ∧
        ∀ x ∈ F k, BlockPtr x ∧ s3.heap x = k ∧ (x < b + size_of_order (r + d) ∨ E ≤ x) := by
      intro k hk1 hk2
      obtain ⟨hch, hFk⟩ := hF k hk1 (by omega)
      have hnO : ∀ x ∈ F k, x ∉ F (r + d) := by
        intro x hx hxO
        have h1 := (hFk x hx).2.1
        have h2 := (hFO x hxO).2.1
        omega
      refine ⟨?_, fun x hx => ?_⟩
      · rw [hfree3, if_neg (by omega)]
        exact Chain.frame _ _ _ hch (fun x hx =>
          hs3l x (hFk x hx).1 (hout x (hFk x hx).2.2).1 (hnO x hx))
      · obtain ⟨h1, h2, h3⟩ := hFk x hx
        refine ⟨h1, ?_, by omega⟩
        rw [hs3x x h1 (hout x h3).1 (hout x h3).2, h2]
    obtain ⟨s', c1, c2, c3, c4, c5, c6, c7, c8, c9⟩ :=
      ih s3 (b + size_of_order (r + d)) E hRb (by rw [hs3R]; exact hRa) hs3R hE' hF3
    have hspine : ∀ j, j ≤ r + (d + 1) → BlockPtr (E - size_of_order j) ∧
        Aligned (E - size_of_order j) j := by
      intro j hj
      have := spine_aligned hb (ho ▸ ha) (r + (d + 1) - j) j (by omega)
      rw [← hE] at this
      exact ⟨this.1, this.2.1⟩
    have hEb : E - size_of_order (r + (d + 1)) = b := by
      rw [hE]
      omega
    have hbo : Aligned b (r + (d + 1)) := ho ▸ ha
    have hbne : ∀ j, j ≤ r + d → bidx j (E - size_of_order j) ≠ bidx (r + (d + 1)) b := by
      intro j hj e
      have := (bidx_inj (hspine j (by omega)).1 (hspine j (by omega)).2 hb hbo e).1
      omega
    refine ⟨s', fun n => ?_, ?_, c3, fun k hk1 hk2 => ?_, fun k hk => ?_,
      fun j hj1 hj2 => ?_, fun i hi => ?_, fun x hx hxo => ?_, fun x hx hxo hxF => ?_⟩
    · have e : d + 1 + 1 + n = (d + 1 + n) + 1 := by omega
      rw [e, hstep]
      exact c1 n
    · rw [hstep]; exact c2
    · by_cases hkd : k < r + d
      · exact c4 k hk1 hkd
      · have hk : k = r + d := by omega
        subst hk
        have hhead : s'.free_area_struct_array (r + d) = b := by
          rw [c5 _ (by omega), hfree3, if_pos rfl]
        have hbout : b < b + size_of_order (r + d) ∨ E ≤ b := Or.inl (by omega)
        have hbF : ∀ k, b ∉ F k ∨ ¬ (r ≤ k ∧ k < r + (d + 1)) := by
          intro k
          by_cases hk : r ≤ k ∧ k < r + (d + 1)
          · left
            intro hm
            have := ((hF k hk.1 hk.2).2 b hm).2.2
            omega
          · exact Or.inr hk
        have hbFO : b ∉ F (r + d) := (hbF (r + d)).resolve_right (by omega)
        have hEb' : E - size_of_order (r + d + 1) = b := hEb
        rw [hEb', hhead]
        refine ⟨rfl, by rw [c8 b hb hbout, hs3b], ?_⟩
        -- the chain of the list of order `r + d`
        have hnd : (F (r + d)).Nodup :=
          Chain.nodup _ _ _ hchO (fun x hx => (hFO x hx).1.ne_null)
        have hch1 : Chain (relinked s b (s.free_area_struct_array (r + d))) NULL b
            (b :: F (r + d)) :=
          Chain.insert hchO (fun x hx => (hFO x hx).1) hnd hb hbFO (fun x => rfl)
        have hch3 : Chain s3 NULL b (b :: F (r + d)) := by
          refine Chain.frame _ _ _ hch1 (fun x hx => ?_)
          have hxb : BlockPtr x := by
            rcases List.mem_cons.mp hx with h | h
            · rw [h]; exact hb
            · exact (hFO x h).1
          obtain ⟨g1, g2, _, _⟩ := hb.fields_ne hxb
          obtain ⟨k1, k2, _, _⟩ := hRb.fields_ne hxb
          constructor
          · rw [hheap3]
            simp only [relinked]
            by_cases a1 : x + 8 = b + 8
            · rw [if_pos a1, if_pos a1]
            · rw [if_neg a1, if_neg a1]
              by_cases a2 : x + 8 = b + 16
              · rw [if_pos a2, if_pos a2]
              · rw [if_neg a2, if_neg a2]
                by_cases a3 : s.free_area_struct_array (r + d) ≠ NULL ∧
                    x + 8 = s.free_area_struct_array (r + d) + 8
                · rw [if_pos a3, if_pos a3]
                · rw [if_neg a3, if_neg a3,
                    if_neg (fun h => h.elim (fun e => g1 e.symm) (fun e => k1 e.symm))]
          · rw [hheap3]
            simp only [relinked]
            by_cases a1 : x + 16 = b + 8
            · rw [if_pos a1, if_pos a1]
            · rw [if_neg a1, if_neg a1]
              by_cases a2 : x + 16 = b + 16
              · rw [if_pos a2, if_pos a2]
              · rw [if_neg a2, if_neg a2]
                by_cases a3 : s.free_area_struct_array (r + d) ≠ NULL ∧
                    x + 16 = s.free_area_struct_array (r + d) + 8
                · rw [if_pos a3, if_pos a3]
                · rw [if_neg a3, if_neg a3,
                    if_neg (fun h => h.elim (fun e => g2 e.symm) (fun e => k2 e.symm))]
        refine Chain.frame _ _ _ hch3 (fun x hx => ?_)
        rcases List.mem_cons.mp hx with h | h
        · rw [h]
          exact c9 b hb hbout (fun k hk1 hk2 => (hbF k).resolve_right (by omega))
        · obtain ⟨h1, h2, h3⟩ := hFO x h
          refine c9 x h1 (by omega) (fun k hk1 hk2 hm => ?_)
          have := ((hF k hk1 (by omega)).2 x hm).2.1
          omega
    · rw [c5 k (by omega), hfree3, if_neg (by omega)]
    · by_cases hjd : j ≤ r + d
      · rw [c6 j hj1 hjd, hmap3, if_neg (hbne j hjd)]
      · have hj : j = r + (d + 1) := by omega
        subst hj
        rw [hEb, c7 _ (fun j' _ h2 e => hbne j' h2 e.symm), hmap3, if_pos rfl]
    · rw [c7 i (fun j h1 h2 => hi j h1 (by omega)), hmap3]
      have := hi (r + (d + 1)) (by omega) (by omega)
      rw [hEb] at this
      rw [if_neg this]
    · rw [c8 x hx (by omega), hs3x x hx (hout x hxo).1 (hout x hxo).2]
    · have h1 := c9 x hx (by omega) (fun k hk1 hk2 => hxF k hk1 (by omega))
      have h2 := hs3l x hx (hout x hxo).1 (hxF (r + d) (by omega) (by omega))
      exact ⟨h1.1.trans h2.1, h1.2.trans h2.2⟩

/-- C13: split postcondition.  Let `b` be a block pointer whose header order `o` is at
most `ORDER_MAX` and whose arena offset is a multiple of its size, let `r ≤ o`, and for
every order `k` with `r ≤ k < o` let the free list of order `k` be a well-formed
doubly-linked list of blocks `F k` of header order `k` that lie outside `b`.  Then
`split_block(b, r)` returns: it makes `o - r` splits (`o - r + 1` calls are enough,
`o - r` calls are not) and returns the block `nb` at offset
`off + PAGE_SIZE * 2^o - PAGE_SIZE * 2^r`, with header order `r`.  Afterwards the free
list of every order `k` with `r ≤ k < o` is the former list with exactly one block put
in front, the block at offset `off + PAGE_SIZE * 2^o - PAGE_SIZE * 2^(k+1)`, with
header order `k`; every other list head is unchanged; the bit of the node split at each
order `j` in `r+1 .. o` is flipped, these `o - r` bits are distinct bits of the bitmap,
and no other bit changes; the headers of the blocks outside `b` and the links of the
blocks outside `b` that are on none of these lists are unchanged. -/
theorem C13_split_postcondition (s : State) (F : Nat → List Nat) (b r : Nat)
    (hb : BlockPtr b) (ha : Aligned b (s.heap b)) (hr : r ≤ s.heap b)
    (hF : ∀ k, r ≤ k → k < s.heap b → Chain s NULL (s.free_area_struct_array k) (F k) ∧
      ∀ x ∈ F k, BlockPtr x ∧ s.heap x = k ∧ (x < b ∨ b + size_of_order (s.heap b) ≤ x)) :
    ∃ s', split_block s b (r : Int) =
        some (s', b + size_of_order (s.heap b) - size_of_order r) ∧
      (∀ n, split_block_fuel (s.heap b - r + 1 + n) s b (r : Int) =
        some (s', b + size_of_order (s.heap b) - size_of_order r)) ∧
      split_block_fuel (s.heap b - r) s b (r : Int) = none ∧
      s'.heap (b + size_of_order (s.heap b) - size_of_order r) = r ∧
      (∀ k, r ≤ k → k < s.heap b →
        s'.free_area_struct_array k = b + size_of_order (s.heap b) - size_of_order (k + 1) ∧
        s'.heap (b + size_of_order (s.heap b) - size_of_order (k + 1)) = k ∧
        Chain s' NULL (s'.free_area_struct_array k)
          ((b + size_of_order (s.heap b) - size_of_order (k + 1)) :: F k)) ∧
      (∀ k, ¬ (r ≤ k ∧ k < s.heap b) →
        s'.free_area_struct_array k = s.free_area_struct_array k) ∧
      (∀ j, r < j → j ≤ s.heap b →
        bidx j (b + size_of_order (s.heap b) - size_of_order j) < MAP_BITS ∧
        s'.map (bidx j (b + size_of_order (s.heap b) - size_of_order j)) =
          !(s.map (bidx j (b + size_of_order (s.heap b) - size_of_order j)))) ∧
      (∀ j j', r < j → j ≤ s.heap b → r < j' → j' ≤ s.heap b →
        bidx j (b + size_of_order (s.heap b) - size_of_order j) =
          bidx j' (b + size_of_order (s.heap b) - size_of_order j') → j = j') ∧
      (∀ i, (∀ j, r < j → j ≤ s.heap b →
          i ≠ bidx j (b + size_of_order (s.heap b) - size_of_order j)) →
        s'.map i = s.map i) ∧
      (∀ x, BlockPtr x → (x < b ∨ b + size_of_order (s.heap b) ≤ x) →
        s'.heap x = s.heap x) ∧
      (∀ x, BlockPtr x → (x < b ∨ b + size_of_order (s.heap b) ≤ x) →
        (∀ k, r ≤ k → k < s.heap b → x ∉ F k) →
        s'.heap (x + 8) = s.heap (x + 8) ∧ s'.heap (x + 16) = s.heap (x + 16)) := by
  have ho : s.heap b = r + (s.heap b - r) := by omega
  have hko : s.heap b ≤ ORDER_MAX := ha.1
  obtain ⟨s', c1, c2, c3, c4, c5, c6, c7, c8, c9⟩ :=
    split_post r F (s.heap b - r) s b (b + size_of_order (s.heap b)) hb ha ho
      (by rw [← ho])
      (fun k h1 h2 => hF k h1 (by omega))
  have hspine : ∀ j, j ≤ s.heap b →
      BlockPtr (b + size_of_order (s.heap b) - size_of_order j) ∧
      Aligned (b + size_of_order (s.heap b) - size_of_order j) j := by
    intro j hj
    have := spine_aligned hb ha (s.heap b - j) j (by omega)
    exact ⟨this.1, this.2.1⟩
  refine ⟨s', ?_, c1, c2, c3, fun k h1 h2 => c4 k h1 (by omega),
    fun k hk => c5 k (fun h => hk ⟨h.1, by omega⟩),
    fun j h1 h2 => ⟨bidx_lt (hspine j h2).1 (hspine j h2).2 (by omega), c6 j h1 (by omega)⟩,
    fun j j' h1 h2 h3 h4 e =>
      (bidx_inj (hspine j h2).1 (hspine j h2).2 (hspine j' h4).1 (hspine j' h4).2 e).1,
    fun i hi => c7 i (fun j h1 h2 => hi j h1 (by omega)), c8,
    fun x hx hxo hxF => c9 x hx hxo (fun k h1 h2 => hxF k h1 (by omega))⟩
  have e : ORDER_MAX + 2 = s.heap b - r + 1 + (ORDER_MAX + 2 - (s.heap b - r + 1)) := by omega
  rw [split_block, e]
  exact c1 _

/-- The freshly initialised allocator: `mem_init` is defined and gives `init_state`. -/
theorem init_state_eq : mem_init zero_state = some init_state := by
  have h : (mem_init zero_state).isSome = true := by decide
  cases hr : mem_init zero_state with
  | none => rw [hr] at h; exact absurd h (by simp)
  | some r => simp [init_state, hr]

/-- Witness of `C13_split_postcondition`: the whole-arena block of the freshly
initialised allocator, split down to order 7; the free lists of the orders 7 to 9 are
empty. -/
theorem C13_split_postcondition_witness :
    BlockPtr heap_base ∧ Aligned heap_base (init_state.heap heap_base) ∧
    7 ≤ init_state.heap heap_base ∧
    (∀ k, 7 ≤ k → k < init_state.heap heap_base →
      Chain init_state NULL (init_state.free_area_struct_array k) [] ∧
      ∀ x ∈ ([] : List Nat), BlockPtr x ∧ init_state.heap x = k ∧
        (x < heap_base ∨ heap_base + size_of_order (init_state.heap heap_base) ≤ x)) ∧
    ∃ s', split_block init_state heap_base ((7 : Nat) : Int) =
        some (s', heap_base + size_of_order (init_state.heap heap_base) - size_of_order 7) ∧
      s'.heap (heap_base + size_of_order (init_state.heap heap_base) - size_of_order 7) = 7 ∧
      (∀ k, 7 ≤ k → k < init_state.heap heap_base →
        s'.free_area_struct_array k =
          heap_base + size_of_order (init_state.heap heap_base) - size_of_order (k + 1) ∧
        s'.heap (heap_base + size_of_order (init_state.heap heap_base) -
          size_of_order (k + 1)) = k ∧
        Chain s' NULL (s'.free_area_struct_array k)
          ((heap_base + size_of_order (init_state.heap heap_base) - size_of_order (k + 1)) ::
            [])) := by
  obtain ⟨hh, hf, _⟩ := mem_init_state init_state_eq
  have h10 : init_state.heap heap_base = ORDER_MAX := by rw [hh, if_pos rfl]
  have hb := blockPtr_heap_base
  have ha : Aligned heap_base (init_state.heap heap_base) := by
    rw [h10]; exact ⟨le_refl _, by decide⟩
  have h7 : 7 ≤ init_state.heap heap_base := by rw [h10]; decide
  have hF : ∀ k, 7 ≤ k → k < init_state.heap heap_base →
      Chain init_state NULL (init_state.free_area_struct_array k) [] ∧
      ∀ x ∈ ([] : List Nat), BlockPtr x ∧ init_state.heap x = k ∧
        (x < heap_base ∨ heap_base + size_of_order (init_state.heap heap_base) ≤ x) := by
    intro k _ hk
    rw [h10] at hk
    refine ⟨?_, fun x hx => absurd hx (List.not_mem_nil x)⟩
    show init_state.free_area_struct_array k = NULL
    rw [hf, if_neg (by omega)]
  obtain ⟨s', c1, _, _, c3, c4, _⟩ :=
    C13_split_postcondition init_state (fun _ => []) heap_base 7 hb ha h7 hF
  exact ⟨hb, ha, h7, hF, s', c1, c3, c4⟩

/-! ### Splitting a block and merging it back -/

/-- Splitting a block and merging the returned block back.  Let `b` be an aligned block
of order `r + d` ending at `E`, in a state `t` where the free lists of the orders
`r .. r + d - 1` are empty and the bits of the nodes on the right spine of `b` are 0.
Then `split_block(b, r)` returns the block ending at `E` of order `r` in a state `t'`,
and `merge` on that block in `t'` makes `d` merge steps and arrives at `b` in a state
`t''` that has the bitmap and the list heads of `t`, order `r + d` in the header of `b`,
and the heap of `t` outside `b`. -/
theorem split_merge_back (r : Nat) : ∀ (d : Nat) (t : State) (b E : Nat),
    BlockPtr b → Aligned b (t.heap b) → t.heap b = r + d → E = b + size_of_order (r + d) →
    (∀ k, r ≤ k → k < r + d → t.free_area_struct_array k = NULL) →
    (∀ j, r < j → j ≤ r + d → t.map (bidx j (E - size_of_order j)) = false) →
    ∃ t' t'', (∀ n, split_block_fuel (d + 1 + n) t b (r : Int) =
        some (t', E - size_of_order r)) ∧
      (∀ n, merge_fuel (d + n) t' (E - size_of_order r) (ORDER_MAX : Int) =
        merge_fuel n t'' b (ORDER_MAX : Int)) ∧
      (∀ i, t''.map i = t.map i) ∧
      (∀ k, t''.free_area_struct_array k = t.free_area_struct_array k) ∧
      t''.heap b = r + d ∧
      (∀ x, (x < b ∨ E ≤ x) → t''.heap x = t.heap x) := by
  intro d
  induction d with
  | zero =>
    intro t b E hb ha ho hE _ _
    have hr : r ≤ ORDER_MAX := by have := ha.1; omega
    have hEr : E - size_of_order r = b := by rw [hE]; simp
    refine ⟨t, t, fun n => ?_, fun n => ?_, fun _ => rfl, fun _ => rfl, ho, fun _ _ => rfl⟩
    · rw [hEr]
      have e : 0 + 1 + n = n + 1 := by omega
      rw [e]
      exact split_fuel_done hb (by simpa using ho) hr n
    · rw [hEr, Nat.zero_add]
  | succ d ih =>
    intro t b E hb ha ho hE hheads hbits
    have hko : r + (d + 1) ≤ ORDER_MAX := by have := ha.1; omega
    have hsz : size_of_order (r + (d + 1)) = 2 * size_of_order (r + d) :=
      size_of_order_succ (r + d)
    have hpos := size_of_order_pos (r + d)
    have hge : 64 ≤ size_of_order (r + d) := by
      have h2 : 1 ≤ 2 ^ (r + d) := Nat.one_le_two_pow
      have : PAGE_SIZE * 1 ≤ PAGE_SIZE * 2 ^ (r + d) := Nat.mul_le_mul_left _ h2
      simpa [size_of_order, PAGE_SIZE] using this
    have e1 : t.heap b - 1 = r + d := by omega
    have hc : t.free_area_struct_array (r + d) = NULL := hheads (r + d) (by omega) (by omega)
    obtain ⟨t3, hstep, hmap3, hfree3, hheap3⟩ :=
      @split_fuel_step t b r hb ha (by omega) (by rw [e1, hc]; exact ptrOrNull_null)
    rw [e1] at hstep hfree3 hheap3
    rw [ho] at hmap3
    simp only [hc, ne_eq, not_true_eq_false, false_and, if_false] at hheap3
    obtain ⟨_, hRb, hRa⟩ := halves_aligned hb ha (by omega : 1 ≤ t.heap b)
    have hRe : b + 1 <<< t.heap b * PAGE_SIZE / 2 = b + size_of_order (r + d) := by
      rw [shift_size, ho, hsz]; omega
    rw [hRe] at hRb hRa
    rw [e1] at hRa
    have hbo : Aligned b (r + (d + 1)) := ho ▸ ha
    have hE' : E = b + size_of_order (r + d) + size_of_order (r + d) := by
      rw [hE, hsz]; omega
    have hspine : ∀ j, j ≤ r + (d + 1) → BlockPtr (E - size_of_order j) ∧
        Aligned (E - size_of_order j) j := by
      intro j hj
      have := spine_aligned hb hbo (r + (d + 1) - j) j (by omega)
      rw [← hE] at this
      exact ⟨this.1, this.2.1⟩
    have hbne : ∀ j, j ≤ r + d → bidx j (E - size_of_order j) ≠ bidx (r + (d + 1)) b := by
      intro j hj e
      have := (bidx_inj (hspine j (by omega)).1 (hspine j (by omega)).2 hb hbo e).1
      omega
    have hEb : E - size_of_order (r + (d + 1)) = b := by
      rw [hE]; omega
    have hs3R : t3.heap (b + size_of_order (r + d)) = r + d := by
      rw [hheap3]
      obtain ⟨f1, f2, _, _⟩ := hRb.fields_ne hb
      rw [if_neg f1, if_neg f2, if_pos (Or.inr rfl)]
    have hs3b : t3.heap b = r + d := by
      rw [hheap3]
      obtain ⟨f1, f2, _, _⟩ := hb.fields_ne hb
      rw [if_neg f1, if_neg f2, if_pos (Or.inl rfl)]
    obtain ⟨t', u, c1, c2, c3, c4, c5, c6⟩ :=
      ih t3 (b + size_of_order (r + d)) E hRb (by rw [hs3R]; exact hRa) hs3R hE'
        (fun k hk1 hk2 => by rw [hfree3, if_neg (by omega)]; exact hheads k hk1 (by omega))
        (fun j hj1 hj2 => by
          rw [hmap3, if_neg (hbne j hj2)]; exact hbits j hj1 (by omega))
    -- the state `u` after merging back to the upper half
    have hub : u.heap b = r + d := by rw [c6 b (Or.inl (by omega)), hs3b]
    have hub8 : u.heap (b + 8) = NULL := by
      rw [c6 (b + 8) (Or.inl (by omega)), hheap3, if_pos rfl]
    have hub16 : u.heap (b + 16) = NULL := by
      rw [c6 (b + 16) (Or.inl (by omega)), hheap3, if_neg (by omega), if_pos rfl]
    obtain ⟨P, buddy, hPb, hPa, _, _, _, hpair, _, _, _, hgo⟩ :=
      @merge_fuel_step u (b + size_of_order (r + d)) (ORDER_MAX : Int) hRb
        (by rw [c5]; exact hRa) (by rw [c5]; omega) (by rw [c5, toSizeT_order_max]; omega)
    rw [c5] at hPa hpair hgo
    have hP : P = b := by
      refine node_of_half hPa hbo hPb.1 hb.1 (x := b + size_of_order (r + d)) (Or.inr rfl) ?_
      rcases hpair with ⟨e, _⟩ | ⟨e, _⟩
      · exact Or.inl e.symm
      · exact Or.inr e.symm
    have hbud : buddy = b := by
      rcases hpair with ⟨e, _⟩ | ⟨_, e⟩
      · rw [hP] at e; omega
      · rw [e, hP]
    rw [hP, hbud] at hgo
    have hbit : u.map (bidx (r + d + 1) b) = true := by
      have e : bidx (r + d + 1) b = bidx (r + (d + 1)) b := rfl
      rw [e, c3, hmap3, if_pos rfl]
      have := hbits (r + (d + 1)) (by omega) (le_refl _)
      rw [hEb] at this
      rw [this]
      rfl
    obtain ⟨t'', hm, hmap'', hfree'', hheap''⟩ := hgo hbit (by rw [hub]; omega)
      (by rw [hub8]; exact ptrOrNull_null) (by rw [hub16]; exact ptrOrNull_null)
    simp only [hub8, hub16, ne_eq, not_true_eq_false, false_and, if_false, true_and, hub]
      at hfree'' hheap''
    refine ⟨t', t'', fun n => ?_, fun n => ?_, fun i => ?_, fun k => ?_, ?_, fun x hx => ?_⟩
    · have e : d + 1 + 1 + n = (d + 1 + n) + 1 := by omega
      rw [e, hstep]
      exact c1 n
    · have e : d + 1 + n = d + (n + 1) := by omega
      rw [e, c2 (n + 1)]
      exact hm n
    · rw [hmap'']
      have e : bidx (r + d + 1) b = bidx (r + (d + 1)) b := rfl
      by_cases hi : i = bidx (r + (d + 1)) b
      · rw [e, if_pos hi, c3, hmap3, if_pos hi]
        simp
      · rw [e, if_neg hi, c3, hmap3, if_neg hi]
    · rw [hfree'']
      by_cases hk : k = r + d
      · rw [if_pos hk, hk, hc]
      · rw [if_neg hk, c4, hfree3, if_neg hk]
    · rw [hheap'', if_pos rfl]
      omega
    · rw [hheap'', if_neg (by omega), c6 x (by omega), hheap3,
        if_neg (by omega), if_neg (by omega), if_neg (by omega)]

/-! ### `mem_free` undoes `mem_alloc` -/

/-- The invariant on the blocks depends only on the bitmap, the list heads, the headers
of the blocks and the links of the free blocks. -/
theorem AllocInv.transfer {s s' : State} {F : Nat → List Nat} {A : List Nat}
    (hI : AllocInv s F A) (hmap : ∀ i, s'.map i = s.map i)
    (hhead : ∀ k, k ≤ ORDER_MAX → s'.free_area_struct_array k = s.free_area_struct_array k)
    (hhdr : ∀ x, IsBlk F A x → s'.heap x = s.heap x)
    (hlink : ∀ k x, x ∈ F k →
      s'.heap (x + 8) = s.heap (x + 8) ∧ s'.heap (x + 16) = s.heap (x + 16)) :
    AllocInv s' F A := by
  refine ⟨fun x hx => ?_, fun k hk => ?_, fun k x hx => ?_, hI.fnodup, hI.ablk, hI.anodup,
    hI.afree, fun x y hx hy hxy => ?_, fun a ha => ?_, fun k x hk hx hxa => ?_, hI.nobud⟩
  · rw [hhdr x hx]; exact hI.bhdr x hx
  · rw [hhead k hk]
    exact Chain.frame _ _ _ (hI.chain k hk) (fun x hx => hlink k x hx)
  · obtain ⟨h1, h2, h3⟩ := hI.fhdr k x hx
    exact ⟨h1, h2, by rw [hhdr x (Or.inr ⟨k, hx⟩), h3]⟩
  · rw [hhdr x hx, hhdr y hy]; exact hI.disj x y hx hy hxy
  · obtain ⟨x, hx, h1, h2⟩ := hI.cover a ha
    exact ⟨x, hx, h1, by rw [hhdr x hx]; exact h2⟩
  · rw [hmap]; exact hI.bits k x hk hx hxa

/-- Every block has at least the size of a page. -/
theorem size_of_order_ge (k : Nat) : 64 ≤ size_of_order k := by
  have h2 : 1 ≤ 2 ^ k := Nat.one_le_two_pow
  have : PAGE_SIZE * 1 ≤ PAGE_SIZE * 2 ^ k := Nat.mul_le_mul_left _ h2
  simpa [size_of_order, PAGE_SIZE] using this

/-- The last step of `mem_free` after a `mem_alloc` that took the block `b` from the
head of the free list of order `ko`: in a state `u` that has the bitmap of `s`, the
list heads of `s` except that the list of order `ko` starts at the successor of `b`,
order `ko` in the header of `b` and the heap of `s` outside `b`, `insert(b)` gives back
the free lists and the bitmap of `s`. -/
theorem insert_back {s u : State} {F : Nat → List Nat} {A : List Nat} {b ko : Nat}
    (hI : AllocInv s F A) (hko : ko ≤ ORDER_MAX) (hhd : s.free_area_struct_array ko = b)
    (hbn : b ≠ NULL)
    (hmap : ∀ i, u.map i = s.map i)
    (hfree : ∀ k, u.free_area_struct_array k =
      if k = ko then s.heap (b + 16) else s.free_area_struct_array k)
    (hub : u.heap b = ko)
    (hframe : ∀ x, (x < b ∨ b + size_of_order ko ≤ x) → u.heap x = s.heap x) :
    ∃ s2, insert u b = some s2 ∧
      (∀ k, k ≤ ORDER_MAX → s2.free_area_struct_array k = s.free_area_struct_array k ∧
        Chain s2 NULL (s2.free_area_struct_array k) (F k)) ∧
      (∀ i, s2.map i = s.map i) ∧ AllocInv s2 F A := by
  have hbF : b ∈ F ko := by
    have := Chain.head_mem (hI.chain ko hko) (by rw [hhd]; exact hbn)
    rwa [hhd] at this
  obtain ⟨_, hbb, hbh⟩ := hI.fhdr ko b hbF
  obtain ⟨T, hT⟩ : ∃ T, F ko = b :: T := by
    have hch := hI.chain ko hko
    cases hF : F ko with
    | nil => rw [hF] at hbF; exact absurd hbF (List.not_mem_nil b)
    | cons x T =>
      rw [hF] at hch
      refine ⟨T, ?_⟩
      rw [← hch.1, hhd]
  have hch := hI.chain ko hko
  rw [hT] at hch
  obtain ⟨_, hb8, hchT⟩ := hch
  have hnd := hI.fnodup ko
  rw [hT] at hnd
  have hbT : b ∉ T := (List.nodup_cons.mp hnd).1
  -- the successor `c` of `b`
  have hcP : PtrOrNull (s.heap (b + 16)) := (hI.free_links hbF).2
  have hc : s.heap (b + 16) ≠ NULL → s.heap (b + 16) ∈ T ∧
      s.heap (s.heap (b + 16) + 8) = b := by
    intro hn
    cases hTT : T with
    | nil => rw [hTT] at hchT; exact absurd hchT hn
    | cons x T' =>
      rw [hTT] at hchT
      obtain ⟨g1, g2, _⟩ := hchT
      rw [g1]
      exact ⟨List.mem_cons_self _ _, g2⟩
  have hdisj : ∀ x, IsBlk F A x → x ≠ b → x + 64 ≤ b ∨ b + size_of_order ko ≤ x := by
    intro x hx hxb
    have := hI.disj x b hx (Or.inr ⟨ko, hbF⟩) hxb
    rw [hbh] at this
    have := size_of_order_ge (s.heap x)
    omega
  obtain ⟨s2, hins, hmap2, hfree2, hheap2⟩ := @insert_at u b hbb (by rw [hub]; exact hko)
    (by rw [hub, hfree, if_pos rfl]; exact hcP)
  rw [hub] at hfree2 hheap2
  rw [hfree, if_pos rfl] at hheap2
  have hhead2 : ∀ k, s2.free_area_struct_array k = s.free_area_struct_array k := by
    intro k
    rw [hfree2]
    by_cases hk : k = ko
    · rw [if_pos hk, hk, hhd]
    · rw [if_neg hk, hfree, if_neg hk]
  have hhdr2 : ∀ x, IsBlk F A x → s2.heap x = s.heap x := by
    intro x hx
    have hxb : BlockPtr x := by
      rcases hx with h | ⟨j, h⟩
      · exact hI.ablk x h
      · exact (hI.fhdr j x h).2.1
    rw [hheap2]
    obtain ⟨f1, f2, _, _⟩ := hxb.fields_ne hbb
    have c3 : ¬ (s.heap (b + 16) ≠ NULL ∧ x = s.heap (b + 16) + 8) := by
      rintro ⟨g1, g2⟩
      exact (hxb.fields_ne (hcP.resolve_left g1)).1 g2
    rw [if_neg f1, if_neg f2, if_neg c3]
    by_cases hxe : x = b
    · rw [hxe, hub, hbh]
    · exact hframe x (by have := hdisj x hx hxe; omega)
  have hlink2 : ∀ k x, x ∈ F k →
      s2.heap (x + 8) = s.heap (x + 8) ∧ s2.heap (x + 16) = s.heap (x + 16) := by
    intro k x hx
    obtain ⟨_, hxb, _⟩ := hI.fhdr k x hx
    by_cases hxe : x = b
    · rw [hxe]
      constructor
      · rw [hheap2, if_pos rfl, hb8]
      · rw [hheap2, if_neg (by omega), if_pos rfl]
    · have hout := hdisj x (Or.inr ⟨k, hx⟩) hxe
      obtain ⟨_, _, f3, f4⟩ := hxb.fields_ne hbb
      constructor
      · rw [hheap2, if_neg (by omega), if_neg f3]
        by_cases c3 : s.heap (b + 16) ≠ NULL ∧ x + 8 = s.heap (b + 16) + 8
        · rw [if_pos c3]
          have e : x = s.heap (b + 16) := by omega
          rw [e, (hc c3.1).2]
        · rw [if_neg c3]
          exact hframe _ (by omega)
      · have c3 : ¬ (s.heap (b + 16) ≠ NULL ∧ x + 16 = s.heap (b + 16) + 8) := by
          rintro ⟨g1, g2⟩
          exact (hxb.fields_ne (hcP.resolve_left g1)).2.2.2 g2
        rw [hheap2, if_neg f4, if_neg (by omega), if_neg c3]
        exact hframe _ (by omega)
  have hmap2' : ∀ i, s2.map i = s.map i := fun i => by rw [hmap2, hmap]
  have hI2 := hI.transfer hmap2' (fun k _ => hhead2 k) hhdr2 hlink2
  exact ⟨s2, hins, fun k hk => ⟨hhead2 k, hI2.chain k hk⟩, hmap2', hI2⟩

/-- The last call of `merge` in a `mem_free` that follows a `mem_alloc`: on a block of
order `ORDER_MAX`, or on a block of lower order whose parent bit is 0, the call returns
the block; in the second case it flips the parent bit. -/
theorem merge_fuel_last {t : State} {b : Nat} (hb : BlockPtr b) (ha : Aligned b (t.heap b))
    (hbit : t.heap b < ORDER_MAX → t.map (bidx (t.heap b + 1)
      (if (b - heap_base) / size_of_order (t.heap b) % 2 ≠ 0
        then b - size_of_order (t.heap b) else b)) = false) :
    ∃ u, (∀ n, merge_fuel (n + 1) t b (ORDER_MAX : Int) = some (u, b)) ∧
      (∀ i, u.map i = if t.heap b < ORDER_MAX ∧ i = bidx (t.heap b + 1)
        (if (b - heap_base) / size_of_order (t.heap b) % 2 ≠ 0
          then b - size_of_order (t.heap b) else b) then !(t.map i) else t.map i) ∧
      u.heap = t.heap ∧ u.free_area_struct_array = t.free_area_struct_array := by
  by_cases hk : t.heap b < ORDER_MAX
  · obtain ⟨P, buddy, _, _, _, hPe, _, _, _, _, hstop, _⟩ :=
      @merge_fuel_step t b (ORDER_MAX : Int) hb ha hk (by rw [toSizeT_order_max]; exact hk)
    rw [← hPe] at hbit ⊢
    refine ⟨with_flip t (bidx (t.heap b + 1) P), hstop (hbit hk), fun i => ?_, rfl, rfl⟩
    by_cases hi : i = bidx (t.heap b + 1) P
    · simp [with_flip, hi, hk]
    · simp [with_flip, hi]
  · refine ⟨t, merge_fuel_done hb (by rw [toSizeT_order_max]; omega), fun i => ?_, rfl, rfl⟩
    rw [if_neg (fun h => hk h.1)]

/-- C19: free undoes alloc.  In a state that satisfies the allocator invariant
(partition of the arena, well-formed free lists holding exactly the free blocks `F k`
of their order, bitmap bit 1 exactly when one child block is free, no two free
buddies), if `mem_alloc(size)` returns a pointer `P` other than `NULL` (the order of
the request is then below `ORDER_MAX`), then `mem_free(P)` right afterwards is defined
and gives a state where every list head, every free list as a sequence of blocks and
every bitmap bit has its value before the `mem_alloc`, and the invariant holds again
with the same free and allocated blocks. -/
theorem C19_free_undoes_alloc (s : State) (F : Nat → List Nat) (A : List Nat) (size P : Nat)
    (s1 : State) (hI : AllocInv s F A) (ha : mem_alloc s size = some (P, s1))
    (hP : P ≠ NULL) :
    ∃ s2, mem_free s1 P = some s2 ∧
      (∀ k, k ≤ ORDER_MAX → s2.free_area_struct_array k = s.free_area_struct_array k ∧
        Chain s2 NULL (s2.free_area_struct_array k) (F k)) ∧
      (∀ i, s2.map i = s.map i) ∧ AllocInv s2 F A := by
  have h := ha
  simp only [mem_alloc, bind, Option.bind_eq_some] at h
  obtain ⟨fb, hfb, h⟩ := h
  cases fb with
  | none =>
    simp only [Option.some.injEq, Prod.mk.injEq] at h
    exact absurd h.1.symm hP
  | some ob =>
    obtain ⟨o, b⟩ := ob
    obtain ⟨hr0, hro, ho, hbn, hfree, hemp⟩ := find_block_found s _ _ _ _ hfb
    obtain ⟨rn, hrn⟩ : ∃ rn : Nat, get_order (adjust_size size) = (rn : Int) :=
      ⟨(get_order (adjust_size size)).toNat, by omega⟩
    obtain ⟨ko, hko⟩ : ∃ ko : Nat, o = (ko : Int) := ⟨o.toNat, by omega⟩
    subst hko
    rw [hrn] at h hro hemp
    simp only [Int.toNat_ofNat] at h hfree
    have hko10 : ko ≤ ORDER_MAX := by exact_mod_cast ho
    have hrk : rn ≤ ko := by exact_mod_cast hro
    have hbF : b ∈ F ko := by
      have := Chain.head_mem (hI.chain ko hko10) (by rw [hfree]; exact hbn)
      rwa [hfree] at this
    obtain ⟨_, hbb, hbh⟩ := hI.fhdr ko b hbF
    have hba : Aligned b ko := hbh ▸ hI.bhdr b (Or.inr ⟨ko, hbF⟩)
    -- the parent bit of `b` is 1 in `s`
    have hpbit : ko < ORDER_MAX → s.map (bidx (ko + 1)
        (if (b - heap_base) / size_of_order ko % 2 ≠ 0 then b - size_of_order ko else b)) =
        true := by
      intro hlt
      obtain ⟨Pp, buddy, hPb, hPa, _, hPe, _, hpair⟩ := parent_buddy hbb hba hlt
      rw [← hPe]
      apply (hI.bits ko Pp hlt hPb hPa).mpr
      rcases hpair with ⟨e, _⟩ | ⟨e, _⟩
      · left; rw [← e]; exact hbF
      · right; rw [← e]; exact hbF
    -- the lists of the orders below `ko`, from the requested order on, are empty
    have hFe : ∀ j, rn ≤ j → j < ko → F j = [] := by
      intro j hj1 hj2
      have hnull := hemp j (by exact_mod_cast hj1) (by exact_mod_cast hj2)
      have hch := hI.chain j (by omega)
      exact (hch.head_null (fun x hx => (hI.fhdr j x hx).2.1)).mp hnull
    -- the state reached by `merge` before the last call, then the last call and `insert`
    have hend : ∀ (t : State) (nb m : Nat),
        (∀ i, t.map i = if ko < ORDER_MAX ∧ i = bidx (ko + 1)
          (if (b - heap_base) / size_of_order ko % 2 ≠ 0 then b - size_of_order ko else b)
          then !(s.map i) else s.map i) →
        (∀ k, t.free_area_struct_array k =
          if k = ko then s.heap (b + 16) else s.free_area_struct_array k) →
        t.heap b = ko →
        (∀ x, (x < b ∨ b + size_of_order ko ≤ x) → t.heap x = s.heap x) →
        (merge_fuel (MAP_BITS + 1) s1 nb (ORDER_MAX : Int) =
          merge_fuel (m + 1) t b (ORDER_MAX : Int)) →
        ∃ s2, (merge s1 nb (ORDER_MAX : Int)).bind (fun x => insert x.1 x.2) = some s2 ∧
          (∀ k, k ≤ ORDER_MAX → s2.free_area_struct_array k = s.free_area_struct_array k ∧
            Chain s2 NULL (s2.free_area_struct_array k) (F k)) ∧
          (∀ i, s2.map i = s.map i) ∧ AllocInv s2 F A := by
      intro t nb m hmap hheads htb hframe hmerge
      obtain ⟨u, hu, humap, huheap, hufree⟩ := @merge_fuel_last t b hbb (by rw [htb]; exact hba)
        (by
          rw [htb]
          intro hlt
          rw [hmap, if_pos ⟨hlt, rfl⟩, hpbit hlt]
          rfl)
      rw [htb] at humap
      obtain ⟨s2, hins, c1, c2, c3⟩ := @insert_back s u F A b ko hI hko10 hfree hbn
        (fun i => by
          rw [humap, hmap]
          by_cases hi : ko < ORDER_MAX ∧ i = bidx (ko + 1)
              (if (b - heap_base) / size_of_order ko % 2 ≠ 0 then b - size_of_order ko else b)
          · rw [if_pos hi, if_pos hi]; simp
          · rw [if_neg hi, if_neg hi])
        (fun k => by rw [hufree, hheads])
        (by rw [huheap, htb])
        (fun x hx => by rw [huheap]; exact hframe x hx)
      refine ⟨s2, ?_, c1, c2, c3⟩
      rw [merge, hmerge, hu m]
      exact hins
    have hfuel : ∀ d, d ≤ ORDER_MAX → ∃ m, MAP_BITS + 1 = d + (m + 1) := by
      intro d hd
      refine ⟨MAP_BITS - d, ?_⟩
      simp only [MAP_BITS, ORDER_MAX] at hd ⊢
      simp
      omega
    have hfree1 : ∀ s2, (merge s1 (P - SIZE_T) (ORDER_MAX : Int)).bind
        (fun x => insert x.1 x.2) = some s2 → mem_free s1 P = some s2 := by
      intro s2 h2
      simp only [mem_free, bind]
      exact h2
    simp only [next_of, load_blockptr16 hbb, Option.some_bind, set_head_le _ hko10,
      Option.bind_eq_some] at h
    split at h
    · -- a larger block was split
      rename_i hgt
      have hrk' : rn < ko := by exact_mod_cast hgt
      simp only [Option.bind_eq_some] at h
      obtain ⟨s1', hs1', ⟨s1x, nb⟩, hsp, h⟩ := h
      simp only [Option.some.injEq, Prod.mk.injEq] at h
      obtain ⟨rfl, rfl⟩ := h
      -- the state in which `split_block` is called
      have hs1 : s1'.heap = s.heap ∧
          s1'.free_area_struct_array = (with_head s ko (s.heap (b + 16))).free_area_struct_array ∧
          ∀ i, s1'.map i = if ko < ORDER_MAX ∧ i = bidx (ko + 1)
            (if (b - heap_base) / size_of_order ko % 2 ≠ 0 then b - size_of_order ko else b)
            then !(s.map i) else s.map i := by
        split at hs1'
        · rename_i hlt
          have hlt' : ko < ORDER_MAX := by exact_mod_cast hlt
          obtain ⟨Pp, _, _, _, _, hPe, _, _, _, _, htog⟩ :=
            @toggle_parent_at (with_head s ko (s.heap (b + 16))) b hbb
              (by show Aligned b (s.heap b); rw [hbh]; exact hba)
              (by show s.heap b < ORDER_MAX; rw [hbh]; exact hlt')
          rw [htog] at hs1'
          simp only [Option.some.injEq] at hs1'
          subst hs1'
          have hPe' : Pp = (if (b - heap_base) / size_of_order ko % 2 ≠ 0
              then b - size_of_order ko else b) := by
            rw [hPe]
            show (if (b - heap_base) / size_of_order (s.heap b) % 2 ≠ 0
              then b - size_of_order (s.heap b) else b) = _
            rw [hbh]
          refine ⟨rfl, rfl, fun i => ?_⟩
          rw [← hPe']
          show (if i = bidx (s.heap b + 1) Pp then !(s.map i) else s.map i) = _
          rw [hbh]
          by_cases hi : i = bidx (ko + 1) Pp
          · rw [if_pos hi, if_pos ⟨hlt', hi⟩]
          · rw [if_neg hi, if_neg (fun h => hi h.2)]
        · rename_i hge
          simp only [Option.some.injEq] at hs1'
          subst hs1'
          have hge' : ¬ (ko < ORDER_MAX) := by
            intro hc
            exact hge (by exact_mod_cast hc)
          refine ⟨rfl, rfl, fun i => ?_⟩
          rw [if_neg (fun h => hge' h.1)]
          rfl
      obtain ⟨hh1, hf1, hm1⟩ := hs1
      have hspine : ∀ j, j ≤ ko → BlockPtr (b + size_of_order ko - size_of_order j) ∧
          Aligned (b + size_of_order ko - size_of_order j) j := by
        intro j hj
        have := spine_aligned hbb hba (ko - j) j (by omega)
        exact ⟨this.1, this.2.1⟩
      have hko' : ko = rn + (ko - rn) := by omega
      obtain ⟨t', t'', c1, c2, c3, c4, c5, c6⟩ := split_merge_back rn (ko - rn) s1' b
        (b + size_of_order ko) hbb (by rw [hh1, hbh]; exact hba) (by rw [hh1, hbh]; exact hko')
        (by rw [← hko'])
        (fun k hk1 hk2 => by
          rw [hf1]
          show (if k = ko then s.heap (b + 16) else s.free_area_struct_array k) = NULL
          rw [if_neg (by omega)]
          exact hemp k (by exact_mod_cast hk1) (by exact_mod_cast (by omega : k < ko)))
        (fun j hj1 hj2 => by
          have hj : j ≤ ko := by omega
          obtain ⟨hsb, hsa⟩ := hspine j hj
          have hne : ¬ (ko < ORDER_MAX ∧ bidx j (b + size_of_order ko - size_of_order j) =
              bidx (ko + 1) (if (b - heap_base) / size_of_order ko % 2 ≠ 0
                then b - size_of_order ko else b)) := by
            rintro ⟨hlt, e⟩
            obtain ⟨Pp, _, hPb, hPa, _, hPe, _, _⟩ := parent_buddy hbb hba hlt
            rw [← hPe] at e
            have := (bidx_inj hsb hsa hPb hPa e).1
            omega
          rw [hm1, if_neg hne]
          have hj1' : j - 1 + 1 = j := by omega
          have hbits := hI.bits (j - 1) (b + size_of_order ko - size_of_order j) (by omega) hsb
            (by rw [hj1']; exact hsa)
          rw [hj1', hFe (j - 1) (by omega) (by omega)] at hbits
          cases hv : s.map (bidx j (b + size_of_order ko - size_of_order j)) with
          | false => rfl
          | true =>
            rcases hbits.mp hv with h | h
            · exact absurd h (List.not_mem_nil _)
            · exact absurd h (List.not_mem_nil _))
      -- the result of `split_block`
      have hnb : (s1x, nb) = (t', b + size_of_order ko - size_of_order rn) := by
        have e : ORDER_MAX + 2 = ko - rn + 1 + (ORDER_MAX + 2 - (ko - rn + 1)) := by omega
        have := c1 (ORDER_MAX + 2 - (ko - rn + 1))
        rw [← e] at this
        rw [split_block, this] at hsp
        simp only [Option.some.injEq] at hsp
        exact hsp.symm
      simp only [Prod.mk.injEq] at hnb
      obtain ⟨rfl, rfl⟩ := hnb
      obtain ⟨m, hm⟩ := hfuel (ko - rn) (by omega)
      obtain ⟨s2, h2, r1, r2, r3⟩ := hend t'' (b + size_of_order ko - size_of_order rn) m
        (fun i => by rw [c3, hm1])
        (fun k => by rw [c4, hf1]; rfl)
        (by rw [c5]; omega)
        (fun x hx => by rw [c6 x hx, hh1])
        (by rw [hm]; exact c2 (m + 1))
      refine ⟨s2, hfree1 s2 ?_, r1, r2, r3⟩
      rw [Nat.add_sub_cancel]
      exact h2
    · -- the block found has the requested order
      rename_i hngt
      have hrk' : rn = ko := by
        have : ¬ ((ko : Int) > (rn : Int)) := hngt
        omega
      simp only [Option.bind_eq_some] at h
      obtain ⟨s1', hs1', h⟩ := h
      simp only [Option.some.injEq, Prod.mk.injEq] at h
      obtain ⟨rfl, rfl⟩ := h
      have hlt : ko < ORDER_MAX := by
        obtain ⟨i, _, hi, _, _⟩ := toggle_parent_eq_some hs1'
        have hb' : (with_head s ko (s.heap (b + 16))).heap b = ko := hbh
        simp only [get_gitmap_idx_parent, get_block_size_at hbb (by rw [hb']; exact hko10),
          get_page_number_at hbb (by rw [hb']; exact hko10), order_of, load_blockptr hbb, bind,
          Option.some_bind, hb'] at hi
        by_contra hc
        have : ¬ (ko + 1 ≤ ORDER_MAX) := by omega
        simp [this] at hi
      obtain ⟨Pp, _, _, _, _, hPe, _, _, _, _, htog⟩ :=
        @toggle_parent_at (with_head s ko (s.heap (b + 16))) b hbb
          (by show Aligned b (s.heap b); rw [hbh]; exact hba)
          (by show s.heap b < ORDER_MAX; rw [hbh]; exact hlt)
      rw [htog] at hs1'
      simp only [Option.some.injEq] at hs1'
      subst hs1'
      have hPe' : Pp = (if (b - heap_base) / size_of_order ko % 2 ≠ 0
          then b - size_of_order ko else b) := by
        rw [hPe]
        show (if (b - heap_base) / size_of_order (s.heap b) % 2 ≠ 0
          then b - size_of_order (s.heap b) else b) = _
        rw [hbh]
      obtain ⟨m, hm⟩ := hfuel 0 (Nat.zero_le _)
      obtain ⟨s2, h2, r1, r2, r3⟩ := hend
        (with_flip (with_head s ko (s.heap (b + 16)))
          (bidx ((with_head s ko (s.heap (b + 16))).heap b + 1) Pp)) b m
        (fun i => by
          rw [← hPe']
          show (if i = bidx (s.heap b + 1) Pp then !(s.map i) else s.map i) = _
          rw [hbh]
          by_cases hi : i = bidx (ko + 1) Pp
          · rw [if_pos hi, if_pos ⟨hlt, hi⟩]
          · rw [if_neg hi, if_neg (fun h => hi h.2)])
        (fun k => rfl)
        hbh
        (fun x _ => rfl)
        (by rw [hm, Nat.zero_add])
      refine ⟨s2, hfree1 s2 ?_, r1, r2, r3⟩
      rw [Nat.add_sub_cancel]
      exact h2

set_option maxRecDepth 100000 in
/-- Witness of `C19_free_undoes_alloc`: the state `two_free_state`, whose free list of
order 0 holds two blocks, and the request of 40 bytes, which is served from the head of
that list. -/
theorem C19_free_undoes_alloc_witness :
    ∃ F A P s1, AllocInv two_free_state F A ∧ mem_alloc two_free_state 40 = some (P, s1) ∧
      P ≠ NULL ∧
      ∃ s2, mem_free s1 P = some s2 ∧
        (∀ k, k ≤ ORDER_MAX →
          s2.free_area_struct_array k = two_free_state.free_area_struct_array k ∧
          Chain s2 NULL (s2.free_area_struct_array k) (F k)) ∧
        (∀ i, s2.map i = two_free_state.map i) ∧ AllocInv s2 F A := by
  obtain ⟨F, A, hI⟩ := two_free_inv
  have h : (mem_alloc two_free_state 40).map (fun x => x.1) =
      some (heap_base + 65344 + SIZE_T) := by decide
  cases ha : mem_alloc two_free_state 40 with
  | none => simp [ha] at h
  | some x =>
    obtain ⟨P, s1⟩ := x
    simp only [ha, Option.map_some', Option.some.injEq] at h
    have hP : P ≠ NULL := by rw [h]; decide
    exact ⟨F, A, P, s1, hI.toAllocInv, rfl, hP,
      C19_free_undoes_alloc two_free_state F A 40 P s1 hI.toAllocInv ha hP⟩

end BuddyAlloc
